import Mathlib

/-!
MD4C block engine: a shallow embedding of `md4c.c`

The definitions below follow `src/md4c/md4c.c` function by function.

Conventions of the embedding.

* The input buffer (`text`, `size`) is a `List Char` and `size` is its length.  The C
  types `OFF` and `SZ` (`unsigned`) are `Nat`, and `CHAR` is `Char`.  No offset computed
  by the code exceeds `size`, so offset arithmetic never wraps for a buffer that fits
  in `MD_SIZE`.
* Every inner `while` loop is a structural recursion on fuel, started with the distance
  its variable can still travel, so that fuel `0` means the loop condition is false.
* `MD_LINE.indent` is `unsigned`: its arithmetic is written with an explicit `% 2^32`.
* A C function returning `-1`/`0` and writing an out-parameter on success returns an
  `Option` of the written value; `ret`/`goto abort` becomes a returned pair
  `(ret, ctx)` that the caller tests for `ret ≠ 0`.
* Callbacks of the renderer act on the user data (explicit state passing).  The context
  carries one field the C structure does not have, `events`: the record, in order, of
  every `enter_block`, `leave_block` and `text` invocation with the value it returned.
* The array `lines` of `md_process_doc` is the list of its first `n_lines` entries and
  is taken to grow without failing (the heap and the `realloc` failure path are not
  part of the embedding); `pivot_line` is either `&dummy_line` or `&lines[0]`, read by
  index.  The addresses that `lines` and `pivot_line` hold are followed apart from it, by
  `md_process_doc_iter_ptrs`.
* The main loop of `md_process_doc` runs on fuel and returns `none` when the fuel runs
  out before the loop condition fails.
-/

namespace MD4C

/-! ## Internal types -/

inductive MD_LINETYPE where
  | MD_LINE_BLANK
  | MD_LINE_HR
  | MD_LINE_ATXHEADER
  | MD_LINE_SETEXTHEADER
  | MD_LINE_SETEXTUNDERLINE
  | MD_LINE_INDENTEDCODE
  | MD_LINE_TEXT
  deriving DecidableEq, Repr

open MD_LINETYPE

/-- One analysed line (`struct MD_LINE_tag`); `end_` is the C field `end`. -/
structure MD_LINE where
  type : MD_LINETYPE
  beg : Nat
  end_ : Nat
  indent : Nat
  deriving DecidableEq, Repr

/-- Modelled from the spec: `md4c.h` is not among the sources; the block types are
Document, Heading, HorizontalRule, Code and Paragraph. -/
inductive MD_BLOCKTYPE where
  | MD_BLOCK_DOC
  | MD_BLOCK_HR
  | MD_BLOCK_H
  | MD_BLOCK_CODE
  | MD_BLOCK_P
  deriving DecidableEq, Repr

open MD_BLOCKTYPE

/-- Modelled from the spec: `md4c.h` is not among the sources; the text kinds are
Normal and CodeBlock. -/
inductive MD_TEXTTYPE where
  | MD_TEXT_NORMAL
  | MD_TEXT_CODEBLOCK
  deriving DecidableEq, Repr

open MD_TEXTTYPE

/-- Modelled from the spec: `md4c.h` is not among the sources; the two feature flags are
independent bits of `flags`, each kept here as the truth value of `flags & MD_FLAG_...`. -/
structure MD_FLAGS where
  MD_FLAG_PERMISSIVEATXHEADERS : Bool
  MD_FLAG_NOINDENTEDCODE : Bool
  deriving DecidableEq, Repr

/-- Modelled from the spec: `md4c.h` is not among the sources.  The renderer is the table
of callbacks; each returns an `int` and may change the user data.  The detail argument of
a block callback is the heading level for `MD_BLOCK_H` and carries nothing otherwise.  The
span callbacks are never called by this file and are left out. -/
structure MD_RENDERER (σ : Type) where
  flags : MD_FLAGS
  enter_block : MD_BLOCKTYPE → Option Nat → σ → Int × σ
  leave_block : MD_BLOCKTYPE → Option Nat → σ → Int × σ
  text : MD_TEXTTYPE → List Char → σ → Int × σ
  debug_log : Option (String → σ → σ)

/-- One invocation of a callback of the renderer, with its arguments. -/
inductive MD_EVENT where
  | enter_block (type : MD_BLOCKTYPE) (detail : Option Nat)
  | leave_block (type : MD_BLOCKTYPE) (detail : Option Nat)
  | text (type : MD_TEXTTYPE) (str : List Char)
  deriving DecidableEq, Repr

/-- The context `struct MD_CTX_tag`, with the record `events` of callback invocations. -/
structure MD_CTX (σ : Type) where
  text : List Char
  r : MD_RENDERER σ
  userdata : σ
  code_indent_offset : Nat
  header_level : Nat
  events : List (MD_EVENT × Int)

variable {σ : Type}

/-- The field `size`: the length of the buffer. -/
def MD_CTX.size (ctx : MD_CTX σ) : Nat := ctx.text.length

/-! ## Debugging -/

/-- The function `md_log`: forwards the message to `debug_log` when there is one. -/
def md_log (ctx : MD_CTX σ) (msg : String) : MD_CTX σ :=
  match ctx.r.debug_log with
  | none => ctx
  | some f => { ctx with userdata := f msg ctx.userdata }

/-! ## Helpers -/

/-- The macro `CH(off)`. -/
def CH (ctx : MD_CTX σ) (off : Nat) : Char := ctx.text.getD off (Char.ofNat 0)

/-- The macro `STR(off)` together with a length: the slice of `size` characters at `off`. -/
def STR (ctx : MD_CTX σ) (off : Nat) (size : Nat) : List Char := (ctx.text.drop off).take size

def ISBLANK_ (ch : Char) : Bool := ch == ' ' || ch == '\t'

def ISNEWLINE_ (ch : Char) : Bool := ch == '\r' || ch == '\n'

def ISBLANK (ctx : MD_CTX σ) (off : Nat) : Bool := ISBLANK_ (CH ctx off)

def ISNEWLINE (ctx : MD_CTX σ) (off : Nat) : Bool := ISNEWLINE_ (CH ctx off)

/-- The function `md_strchr` on a palette given without its terminating NUL: the index of
the first occurrence of `ch`. -/
def md_strchr : List Char → Char → Option Nat
  | [], _ => none
  | c :: str, ch => if ch = c then some 0 else (md_strchr str ch).map (· + 1)

def ISANYOF_ (ch : Char) (palette : List Char) : Bool := (md_strchr palette ch).isSome

def ISANYOF (ctx : MD_CTX σ) (off : Nat) (palette : List Char) : Bool :=
  ISANYOF_ (CH ctx off) palette

/-- The loop `while(off < ctx->size && p(CH(off))) off++`.  The fuel is `size - off`, so
fuel `0` means the loop condition is false. -/
def scan_forward_loop (ctx : MD_CTX σ) (p : Char → Bool) : Nat → Nat → Nat
  | 0, off => off
  | fuel + 1, off =>
    if off < ctx.size ∧ p (CH ctx off) = true then scan_forward_loop ctx p fuel (off + 1)
    else off

def scan_forward (ctx : MD_CTX σ) (p : Char → Bool) (off : Nat) : Nat :=
  scan_forward_loop ctx p (ctx.size - off) off

/-- The loop `while(tmp > beg && CH(tmp-1) == c) tmp--`.  The fuel is `tmp - beg`. -/
def scan_backward_loop (ctx : MD_CTX σ) (c : Char) (beg : Nat) : Nat → Nat → Nat
  | 0, tmp => tmp
  | fuel + 1, tmp =>
    if tmp > beg ∧ CH ctx (tmp - 1) = c then scan_backward_loop ctx c beg fuel (tmp - 1)
    else tmp

def scan_backward (ctx : MD_CTX σ) (c : Char) (beg : Nat) (tmp : Nat) : Nat :=
  scan_backward_loop ctx c beg (tmp - beg) tmp

/-- The macro `MD_ENTER_BLOCK`; a non-zero first component stands for `goto abort`. -/
def MD_ENTER_BLOCK (ctx : MD_CTX σ) (type : MD_BLOCKTYPE) (arg : Option Nat) : Int × MD_CTX σ :=
  let res := ctx.r.enter_block type arg ctx.userdata
  let ctx1 : MD_CTX σ :=
    { ctx with userdata := res.2, events := ctx.events ++ [(MD_EVENT.enter_block type arg, res.1)] }
  if res.1 ≠ 0 then (res.1, md_log ctx1 "Aborted from enter_block() callback.")
  else (res.1, ctx1)

/-- The macro `MD_LEAVE_BLOCK`; a non-zero first component stands for `goto abort`. -/
def MD_LEAVE_BLOCK (ctx : MD_CTX σ) (type : MD_BLOCKTYPE) (arg : Option Nat) : Int × MD_CTX σ :=
  let res := ctx.r.leave_block type arg ctx.userdata
  let ctx1 : MD_CTX σ :=
    { ctx with userdata := res.2, events := ctx.events ++ [(MD_EVENT.leave_block type arg, res.1)] }
  if res.1 ≠ 0 then (res.1, md_log ctx1 "Aborted from leave_block() callback.")
  else (res.1, ctx1)

/-- The macro `MD_TEXT`: the callback is invoked only when `size > 0`.  At each of its
uses `ret` is `0` beforehand, which is the value returned when nothing is invoked. -/
def MD_TEXT (ctx : MD_CTX σ) (type : MD_TEXTTYPE) (str : List Char) (size : Nat) : Int × MD_CTX σ :=
  if size > 0 then
    let res := ctx.r.text type str ctx.userdata
    let ctx1 : MD_CTX σ :=
      { ctx with userdata := res.2, events := ctx.events ++ [(MD_EVENT.text type str, res.1)] }
    if res.1 ≠ 0 then (res.1, md_log ctx1 "Aborted from text() callback.")
    else (res.1, ctx1)
  else (0, ctx)

/-! ## Processing single block contents -/

/-- The function `md_process_normal_block`, on the `n_lines` lines of the block. -/
def md_process_normal_block (ctx : MD_CTX σ) : List MD_LINE → Int × MD_CTX σ
  | [] => (0, ctx)
  | line :: lines =>
    let r1 := MD_TEXT ctx MD_TEXT_NORMAL (STR ctx line.beg (line.end_ - line.beg)) (line.end_ - line.beg)
    if r1.1 ≠ 0 then r1 else
    let r2 := MD_TEXT r1.2 MD_TEXT_NORMAL ['\n'] 1
    if r2.1 ≠ 0 then r2 else
    md_process_normal_block r2.2 lines

/-- The array `indent_str`: sixteen spaces. -/
def indent_str : List Char := List.replicate 16 ' '

/-- The conversion of an `unsigned` value to `int` (two's complement, 32 bits). -/
def to_int (u : Nat) : Int := if u % 2 ^ 32 < 2 ^ 31 then (u % 2 ^ 32 : Nat) else (u % 2 ^ 32 : Nat) - 2 ^ 32

/-- The conversion of an `int` to `size_t` (64 bits), as the comparison with and the
subtraction of `SIZEOF_ARRAY(indent_str)` do. -/
def to_size_t (i : Int) : Nat := (i % 2 ^ 64).toNat

/-- The loop `while(indent > SIZEOF_ARRAY(indent_str))` of `md_process_verbatim_block`,
on the `int` variable `indent`.  Each round takes sixteen off a value above sixteen, so
`fuel` rounds are enough when `fuel` is the 32-bit pattern of `indent`. -/
def md_process_verbatim_block_indent_loop : Nat → MD_CTX σ → Int → Int × MD_CTX σ × Int
  | 0, ctx, indent => (0, ctx, indent)
  | fuel + 1, ctx, indent =>
    if to_size_t indent > 16 then
      let r := MD_TEXT ctx MD_TEXT_CODEBLOCK indent_str 16
      if r.1 ≠ 0 then (r.1, r.2, indent) else
      md_process_verbatim_block_indent_loop fuel r.2 (to_int ((to_size_t indent + 2 ^ 64 - 16) % 2 ^ 64))
    else (0, ctx, indent)

/-- The part "output code indentation" of `md_process_verbatim_block`, for one line. -/
def md_process_verbatim_block_indent (ctx : MD_CTX σ) (line : MD_LINE) : Int × MD_CTX σ :=
  let r0 := md_process_verbatim_block_indent_loop (line.indent % 2 ^ 32) ctx (to_int line.indent)
  if r0.1 ≠ 0 then (r0.1, r0.2.1) else
  let indent := r0.2.2
  if indent > 0 then MD_TEXT r0.2.1 MD_TEXT_CODEBLOCK (indent_str.take indent.toNat) indent.toNat
  else (0, r0.2.1)

/-- The body of the `for` loop of `md_process_verbatim_block` for one line. -/
def md_process_verbatim_block_line (ctx : MD_CTX σ) (line : MD_LINE) : Int × MD_CTX σ :=
  let r1 := md_process_verbatim_block_indent ctx line
  if r1.1 ≠ 0 then r1 else
  let r2 := MD_TEXT r1.2 MD_TEXT_CODEBLOCK (STR ctx line.beg (line.end_ - line.beg)) (line.end_ - line.beg)
  if r2.1 ≠ 0 then r2 else
  MD_TEXT r2.2 MD_TEXT_CODEBLOCK ['\n'] 1

/-- The function `md_process_verbatim_block`, on the `n_lines` lines of the block. -/
def md_process_verbatim_block (ctx : MD_CTX σ) : List MD_LINE → Int × MD_CTX σ
  | [] => (0, ctx)
  | line :: lines =>
    let r := md_process_verbatim_block_line ctx line
    if r.1 ≠ 0 then r else
    md_process_verbatim_block r.2 lines

/-! ## Breaking the document into blocks -/

/-- The loop of `md_is_hr_line`, on `off` and the counter `n`; the fuel is `size - off`. -/
def md_is_hr_line_loop (ctx : MD_CTX σ) (beg : Nat) : Nat → Nat → Nat → Nat × Nat
  | 0, off, n => (off, n)
  | fuel + 1, off, n =>
    if off < ctx.size ∧ (CH ctx off = CH ctx beg ∨ CH ctx off = ' ') then
      md_is_hr_line_loop ctx beg fuel (off + 1) (if CH ctx off = CH ctx beg then n + 1 else n)
    else (off, n)

def md_is_hr_line_scan (ctx : MD_CTX σ) (beg : Nat) (off : Nat) (n : Nat) : Nat × Nat :=
  md_is_hr_line_loop ctx beg (ctx.size - off) off n

/-- The function `md_is_hr_line`: `none` for `-1`, `some end` for `0` with `*p_end = end`. -/
def md_is_hr_line (ctx : MD_CTX σ) (beg : Nat) : Option Nat :=
  let r := md_is_hr_line_scan ctx beg (beg + 1) 1
  if r.2 < 3 then none else some r.1

/-- The first loop of `md_is_atxheader_line`; the fuel is `size - off`. -/
def md_is_atxheader_line_loop (ctx : MD_CTX σ) (beg : Nat) : Nat → Nat → Nat
  | 0, off => off
  | fuel + 1, off =>
    if off < ctx.size ∧ CH ctx off = '#' ∧ off - beg < 7 then
      md_is_atxheader_line_loop ctx beg fuel (off + 1)
    else off

def md_is_atxheader_line_scan (ctx : MD_CTX σ) (beg : Nat) (off : Nat) : Nat :=
  md_is_atxheader_line_loop ctx beg (ctx.size - off) off

/-- The function `md_is_atxheader_line`: the context (whose `header_level` it may set) and
`none` for `-1`, `some b` for `0` with `*p_beg = b`.  It never writes `*p_end`. -/
def md_is_atxheader_line (ctx : MD_CTX σ) (beg : Nat) : MD_CTX σ × Option Nat :=
  let off := md_is_atxheader_line_scan ctx beg (beg + 1)
  let n := off - beg
  if n > 6 then (ctx, none) else
  let ctx1 : MD_CTX σ := { ctx with header_level := n }
  if ctx.r.flags.MD_FLAG_PERMISSIVEATXHEADERS = false ∧ off < ctx.size ∧ CH ctx off ≠ ' '
      ∧ ISNEWLINE ctx off = false then (ctx1, none) else
  (ctx1, some (scan_forward ctx (fun ch => ch == ' ') off))

/-- The function `md_is_setext_underline`: `none` for `-1`, the context with
`header_level` set for `0`.  It never writes `*p_end`. -/
def md_is_setext_underline (ctx : MD_CTX σ) (beg : Nat) : Option (MD_CTX σ) :=
  let off1 := scan_forward ctx (fun ch => ch == CH ctx beg) (beg + 1)
  let off2 := scan_forward ctx (fun ch => ch == ' ') off1
  let off3 := scan_forward ctx (fun ch => ch == ' ') off2
  if off3 < ctx.size ∧ ISNEWLINE ctx off3 = false then none else
  some { ctx with header_level := if CH ctx beg = '=' then 1 else 2 }

/-- The loop "eat indentation" of `md_analyze_line`, on `off` and `line->indent`; the
fuel is `size - off`. -/
def md_analyze_line_indent_loop (ctx : MD_CTX σ) : Nat → Nat → Nat → Nat × Nat
  | 0, off, indent => (off, indent)
  | fuel + 1, off, indent =>
    if off < ctx.size ∧ ISBLANK ctx off = true then
      md_analyze_line_indent_loop ctx fuel (off + 1)
        (if CH ctx off = '\t' then ((indent + 4) % 2 ^ 32) &&& (2 ^ 32 - 4) else (indent + 1) % 2 ^ 32)
    else (off, indent)

def md_analyze_line_indent (ctx : MD_CTX σ) (off : Nat) (indent : Nat) : Nat × Nat :=
  md_analyze_line_indent_loop ctx (ctx.size - off) off indent

/-- The test "check whether we are ATX header" of `md_analyze_line`. -/
def md_analyze_line_atx (ctx : MD_CTX σ) (off : Nat) : MD_CTX σ × Option Nat :=
  if CH ctx off = '#' then md_is_atxheader_line ctx off else (ctx, none)

/-- The test "check whether we are setext underline" of `md_analyze_line`. -/
def md_analyze_line_setext (ctx : MD_CTX σ) (off : Nat) (pivot_line : MD_LINE) : Option (MD_CTX σ) :=
  if pivot_line.type = MD_LINE_TEXT ∧ (CH ctx off = '=' ∨ CH ctx off = '-') then
    md_is_setext_underline ctx off
  else none

/-- The test "check whether we are thematic break line" of `md_analyze_line`. -/
def md_analyze_line_hr (ctx : MD_CTX σ) (off : Nat) : Option Nat :=
  if ISANYOF ctx off ['-', '_', '*'] = true then md_is_hr_line ctx off else none

/-- The function `md_analyze_line` up to the label `done`: the context, the local `off`
and the line (its `end_` not yet set). -/
def md_analyze_line_type (ctx : MD_CTX σ) (beg : Nat) (pivot_line : MD_LINE) :
    MD_CTX σ × Nat × MD_LINE :=
  let ind := md_analyze_line_indent ctx beg 0
  let off := ind.1
  let line : MD_LINE := { type := MD_LINE_BLANK, beg := off, end_ := 0, indent := ind.2 }
  if off ≥ ctx.size ∨ ISNEWLINE ctx off = true then
    (ctx, off, { line with
      indent := 0,
      type := if pivot_line.type = MD_LINE_INDENTEDCODE then MD_LINE_INDENTEDCODE else MD_LINE_BLANK })
  else if (pivot_line.type = MD_LINE_BLANK ∨ pivot_line.type = MD_LINE_INDENTEDCODE)
      ∧ line.indent ≥ ctx.code_indent_offset then
    (ctx, off, { line with type := MD_LINE_INDENTEDCODE, indent := line.indent - ctx.code_indent_offset })
  else if (pivot_line.type = MD_LINE_BLANK ∨ pivot_line.type = MD_LINE_INDENTEDCODE)
      ∧ line.indent ≥ ctx.code_indent_offset then
    (ctx, off, { line with type := MD_LINE_INDENTEDCODE, indent := line.indent - ctx.code_indent_offset })
  else
    match md_analyze_line_atx ctx off with
    | (ctx1, some b) => (ctx1, off, { line with type := MD_LINE_ATXHEADER, beg := b })
    | (ctx1, none) =>
      match md_analyze_line_setext ctx1 off pivot_line with
      | some ctx2 => (ctx2, off, { line with type := MD_LINE_SETEXTUNDERLINE })
      | none =>
        match md_analyze_line_hr ctx1 off with
        | some e => (ctx1, e, { line with type := MD_LINE_HR })
        | none => (ctx1, off, { line with type := MD_LINE_TEXT })

/-- The part of `md_analyze_line` that strips the trailing mark of an ATX header. -/
def md_analyze_line_atx_end (ctx : MD_CTX σ) (line : MD_LINE) : MD_LINE :=
  if line.type = MD_LINE_ATXHEADER then
    let tmp1 := scan_backward ctx ' ' line.beg line.end_
    let tmp := scan_backward ctx '#' line.beg tmp1
    if tmp = line.beg ∨ CH ctx (tmp - 1) = ' ' ∨ ctx.r.flags.MD_FLAG_PERMISSIVEATXHEADERS = true then
      { line with end_ := tmp }
    else line
  else line

/-- The function `md_analyze_line`: the context, `*p_end` and `*line`. -/
def md_analyze_line (ctx : MD_CTX σ) (beg : Nat) (pivot_line : MD_LINE) :
    MD_CTX σ × Nat × MD_LINE :=
  let t := md_analyze_line_type ctx beg pivot_line
  let ctx1 := t.1
  let off := scan_forward ctx1 (fun ch => !ISNEWLINE_ ch) t.2.1
  let line1 := md_analyze_line_atx_end ctx1 { t.2.2 with end_ := off }
  let line2 : MD_LINE := { line1 with end_ := scan_backward ctx1 ' ' line1.beg line1.end_ }
  let off1 := if off < ctx1.size ∧ CH ctx1 off = '\r' then off + 1 else off
  let off2 := if off1 < ctx1.size ∧ CH ctx1 off1 = '\n' then off1 + 1 else off1
  (ctx1, off2, line2)

/-- The part of `md_process_block` from `MD_ENTER_BLOCK` on. -/
def md_process_block_body (ctx : MD_CTX σ) (lines : List MD_LINE) (block_type : MD_BLOCKTYPE)
    (det : Option Nat) : Int × MD_CTX σ :=
  let r1 := MD_ENTER_BLOCK ctx block_type det
  if r1.1 ≠ 0 then r1 else
  let r2 := match block_type with
    | MD_BLOCK_HR => (0, r1.2)
    | MD_BLOCK_CODE => md_process_verbatim_block r1.2 lines
    | _ => md_process_normal_block r1.2 lines
  if r2.1 ≠ 0 then r2 else
  MD_LEAVE_BLOCK r2.2 block_type det

/-- The function `md_process_block`, on the `n_lines` lines given.  The case
`MD_UNREACHABLE()` is the one of the build with `DEBUG`: a log and `ret = -2` (without
`DEBUG` the code goes on with `block_type` not set). -/
def md_process_block (ctx : MD_CTX σ) (lines : List MD_LINE) : Int × MD_CTX σ :=
  match lines with
  | [] => (0, ctx)
  | line0 :: _ =>
    match line0.type with
    | MD_LINE_BLANK => (0, ctx)
    | MD_LINE_HR => md_process_block_body ctx lines MD_BLOCK_HR none
    | MD_LINE_ATXHEADER => md_process_block_body ctx lines MD_BLOCK_H (some ctx.header_level)
    | MD_LINE_SETEXTHEADER => md_process_block_body ctx lines MD_BLOCK_H (some ctx.header_level)
    | MD_LINE_INDENTEDCODE => md_process_block_body ctx lines MD_BLOCK_CODE none
    | MD_LINE_TEXT => md_process_block_body ctx lines MD_BLOCK_P none
    | MD_LINE_SETEXTUNDERLINE => (-2, md_log ctx "Assertion '1 == 0' failed.")

/-- The constant `dummy_line` of `md_process_doc`. -/
def dummy_line : MD_LINE := { type := MD_LINE_BLANK, beg := 0, end_ := 0, indent := 0 }

/-- The local variables of `md_process_doc`: `lines` holds `lines[0 .. n_lines)`, and
`pivot_is_dummy` tells whether `pivot_line` is `&dummy_line` or `&lines[0]`. -/
structure MD_DOC_STATE (σ : Type) where
  ctx : MD_CTX σ
  pivot_is_dummy : Bool
  lines : List MD_LINE
  off : Nat

/-- The line `*pivot_line`. -/
def MD_DOC_STATE.pivot_line (s : MD_DOC_STATE σ) : MD_LINE :=
  if s.pivot_is_dummy = true then dummy_line else s.lines.headD dummy_line

/-- The statement `lines[0].type = MD_LINE_SETEXTHEADER`. -/
def set_setextheader : List MD_LINE → List MD_LINE
  | [] => []
  | line0 :: lines => { line0 with type := MD_LINE_SETEXTHEADER } :: lines

/-- One round of the main loop of `md_process_doc`; a non-zero first component stands
for `goto abort`.  The failure of `MD_ASSERT(n_lines > 0)` is the one of the build with
`DEBUG`. -/
def md_process_doc_iter (s : MD_DOC_STATE σ) : Int × MD_DOC_STATE σ :=
  let a := md_analyze_line s.ctx s.off s.pivot_line
  let ctx1 := a.1
  let off := a.2.1
  let line := a.2.2
  if line.type = MD_LINE_HR ∨ line.type = MD_LINE_ATXHEADER then
    let r1 := md_process_block ctx1 s.lines
    if r1.1 ≠ 0 then (r1.1, { s with ctx := r1.2, off := off }) else
    let r2 := md_process_block r1.2 [line]
    if r2.1 ≠ 0 then (r2.1, { s with ctx := r2.2, off := off }) else
    (0, { ctx := r2.2, pivot_is_dummy := true, lines := [], off := off })
  else
    if line.type = MD_LINE_SETEXTUNDERLINE ∧ s.lines = [] then
      (-2, { s with ctx := md_log ctx1 "Assertion 'n_lines > 0' failed.", off := off })
    else
    let lines1 := if line.type = MD_LINE_SETEXTUNDERLINE then set_setextheader s.lines else s.lines
    let line1 : MD_LINE :=
      if line.type = MD_LINE_SETEXTUNDERLINE then { line with type := MD_LINE_BLANK } else line
    let s1 : MD_DOC_STATE σ := { s with ctx := ctx1, lines := lines1, off := off }
    if line1.type ≠ s1.pivot_line.type then
      let r := md_process_block ctx1 lines1
      if r.1 ≠ 0 then (r.1, { s1 with ctx := r.2 }) else
      (0, { ctx := r.2, pivot_is_dummy := false, lines := [line1], off := off })
    else if line1.type = MD_LINE_BLANK then (0, s1)
    else (0, { s1 with lines := lines1 ++ [line1] })

/-- The main loop `while(off < ctx->size)` of `md_process_doc`, on fuel: `none` when the
fuel runs out while the loop condition still holds. -/
def md_process_doc_loop : Nat → MD_DOC_STATE σ → Option (Int × MD_DOC_STATE σ)
  | 0, s => if s.off < s.ctx.size then none else some (0, s)
  | fuel + 1, s =>
    if s.off < s.ctx.size then
      let r := md_process_doc_iter s
      if r.1 ≠ 0 then some r else md_process_doc_loop fuel r.2
    else some (0, s)

/-- The part of `md_process_doc` after the main loop. -/
def md_process_doc_finish (s : MD_DOC_STATE σ) : Int × MD_CTX σ :=
  let r := if s.pivot_line.type ≠ MD_LINE_BLANK then md_process_block s.ctx s.lines else (0, s.ctx)
  if r.1 ≠ 0 then r else
  MD_LEAVE_BLOCK r.2 MD_BLOCK_DOC none

/-- The function `md_process_doc`, the main loop running on `fuel`. -/
def md_process_doc (fuel : Nat) (ctx : MD_CTX σ) : Option (Int × MD_CTX σ) :=
  let r0 := MD_ENTER_BLOCK ctx MD_BLOCK_DOC none
  if r0.1 ≠ 0 then some r0 else
  match md_process_doc_loop fuel { ctx := r0.2, pivot_is_dummy := true, lines := [], off := 0 } with
  | none => none
  | some r => if r.1 ≠ 0 then some (r.1, r.2.ctx) else some (md_process_doc_finish r.2)

/-- The function `md_parse`: the returned value and the final context, whose `events` is
the record of the callbacks invoked.  The main loop gets `size` rounds of fuel. -/
def md_parse (text : List Char) (renderer : MD_RENDERER σ) (userdata : σ) :
    Option (Int × MD_CTX σ) :=
  let ctx : MD_CTX σ :=
    { text := text, r := renderer, userdata := userdata,
      code_indent_offset := if renderer.flags.MD_FLAG_NOINDENTEDCODE = true then 2 ^ 32 - 1 else 4,
      header_level := 0, events := [] }
  md_process_doc text.length ctx

/-! ## Vocabulary of the statements

The definitions from here on are not code of `md4c.c`: they name the sequences of callback
invocations that the statements below speak about. -/

/-- The offset of the first character of a line after its indentation. -/
def line_start (ctx : MD_CTX σ) (beg : Nat) : Nat := (md_analyze_line_indent ctx beg 0).1

/-- The width of the indentation of a line, as the indentation loop computes it. -/
def line_indent (ctx : MD_CTX σ) (beg : Nat) : Nat := (md_analyze_line_indent ctx beg 0).2

/-- Invokes the callback an event stands for (with the bookkeeping of the macros
`MD_ENTER_BLOCK`, `MD_LEAVE_BLOCK` and `MD_TEXT`). -/
def emit_one (ctx : MD_CTX σ) : MD_EVENT → Int × MD_CTX σ
  | MD_EVENT.enter_block type arg => MD_ENTER_BLOCK ctx type arg
  | MD_EVENT.leave_block type arg => MD_LEAVE_BLOCK ctx type arg
  | MD_EVENT.text type str => MD_TEXT ctx type str 1

/-- Invokes the callbacks for a list of events in order, stopping after the first one that
returns a non-zero value, which is then the value returned. -/
def emit (ctx : MD_CTX σ) : List MD_EVENT → Int × MD_CTX σ
  | [] => (0, ctx)
  | e :: es =>
    let r := emit_one ctx e
    if r.1 ≠ 0 then r else emit r.2 es

/-- The content slice `[beg, end)` of a line. -/
def MD_LINE.content (text : List Char) (line : MD_LINE) : List Char :=
  (text.drop line.beg).take (line.end_ - line.beg)

/-- The text event of the content of a line: none when the content is empty. -/
def content_events (type : MD_TEXTTYPE) (text : List Char) (line : MD_LINE) : List MD_EVENT :=
  if line.end_ - line.beg > 0 then [MD_EVENT.text type (line.content text)] else []

/-- The events of the lines of a heading or a paragraph. -/
def normal_events (text : List Char) : List MD_LINE → List MD_EVENT
  | [] => []
  | line :: lines =>
    content_events MD_TEXT_NORMAL text line ++ [MD_EVENT.text MD_TEXT_NORMAL ['\n']]
      ++ normal_events text lines

/-- The events of the lines of a paragraph whose lines all have a content: for each line
its content, then a newline. -/
def paragraph_lines_events (text : List Char) : List MD_LINE → List MD_EVENT
  | [] => []
  | line :: lines =>
    MD_EVENT.text MD_TEXT_NORMAL (line.content text) :: MD_EVENT.text MD_TEXT_NORMAL ['\n']
      :: paragraph_lines_events text lines

/-- The lengths of the runs of spaces put out for an indentation of `n` columns. -/
def indent_chunks : Nat → Nat → List Nat
  | 0, _ => []
  | fuel + 1, n =>
    if n > 16 then 16 :: indent_chunks fuel (n - 16) else if n > 0 then [n] else []

/-- The events of the indentation of a line of code. -/
def indent_events (indent : Nat) : List MD_EVENT :=
  (indent_chunks indent indent).map
    (fun k => MD_EVENT.text MD_TEXT_CODEBLOCK (List.replicate k ' '))

/-- The events of one line of a code block. -/
def verbatim_line_events (text : List Char) (line : MD_LINE) : List MD_EVENT :=
  indent_events (line.indent % 2 ^ 32) ++ content_events MD_TEXT_CODEBLOCK text line
    ++ [MD_EVENT.text MD_TEXT_CODEBLOCK ['\n']]

/-- The events of the lines of a code block. -/
def verbatim_events (text : List Char) : List MD_LINE → List MD_EVENT
  | [] => []
  | line :: lines => verbatim_line_events text line ++ verbatim_events text lines

/-- The events of a block, from the type of its first line. -/
def block_events (text : List Char) (header_level : Nat) (lines : List MD_LINE) : List MD_EVENT :=
  match lines with
  | [] => []
  | line0 :: _ =>
    match line0.type with
    | MD_LINE_BLANK => []
    | MD_LINE_HR => [MD_EVENT.enter_block MD_BLOCK_HR none, MD_EVENT.leave_block MD_BLOCK_HR none]
    | MD_LINE_ATXHEADER =>
      MD_EVENT.enter_block MD_BLOCK_H (some header_level) :: normal_events text lines
        ++ [MD_EVENT.leave_block MD_BLOCK_H (some header_level)]
    | MD_LINE_SETEXTHEADER =>
      MD_EVENT.enter_block MD_BLOCK_H (some header_level) :: normal_events text lines
        ++ [MD_EVENT.leave_block MD_BLOCK_H (some header_level)]
    | MD_LINE_INDENTEDCODE =>
      MD_EVENT.enter_block MD_BLOCK_CODE none :: verbatim_events text lines
        ++ [MD_EVENT.leave_block MD_BLOCK_CODE none]
    | MD_LINE_TEXT =>
      MD_EVENT.enter_block MD_BLOCK_P none :: normal_events text lines
        ++ [MD_EVENT.leave_block MD_BLOCK_P none]
    | MD_LINE_SETEXTUNDERLINE => []


/-- The record `events` of an emission of the list `plan` that returned `ret`: on success
every event of the list with the value `0`; on failure the events up to one that returned
`ret`, which is not zero, all the ones before it having returned `0`. -/
def run_of (ret : Int) (events : List (MD_EVENT × Int)) (plan : List MD_EVENT) : Prop :=
  (ret = 0 ∧ events = plan.map (fun e => (e, 0)))
    ∨ (ret ≠ 0 ∧ ∃ pre e post, plan = pre ++ e :: post
        ∧ events = pre.map (fun e => (e, 0)) ++ [(e, ret)])

/-- The lines of a block that `md_process_doc` hands to `md_process_block`, with the
header level at that moment: a thematic break or an ATX header alone, a setext header or a
paragraph made of lines with a content that is not empty, or lines of code. -/
def block_ok (text : List Char) (hl : Nat) (lines : List MD_LINE) : Prop :=
  match lines with
  | [] => False
  | line0 :: rest =>
    match line0.type with
    | MD_LINE_HR => rest = []
    | MD_LINE_ATXHEADER => rest = [] ∧ 1 ≤ hl ∧ hl ≤ 6
    | MD_LINE_SETEXTHEADER =>
      1 ≤ hl ∧ hl ≤ 6 ∧ ∀ l ∈ lines, l.beg < l.end_ ∧ l.end_ ≤ text.length
    | MD_LINE_TEXT => ∀ l ∈ lines, l.beg < l.end_ ∧ l.end_ ≤ text.length
    | MD_LINE_INDENTEDCODE => True
    | MD_LINE_BLANK => False
    | MD_LINE_SETEXTUNDERLINE => False

/-- The events of one block of the document. -/
def is_block (text : List Char) (b : List MD_EVENT) : Prop :=
  ∃ hl lines, block_ok text hl lines ∧ b = block_events text hl lines

/-- The events planned by one round of the main loop of `md_process_doc`: the blocks it
flushes, in order. -/
def md_process_doc_iter_events (s : MD_DOC_STATE σ) : List MD_EVENT :=
  let a := md_analyze_line s.ctx s.off s.pivot_line
  let line := a.2.2
  if line.type = MD_LINE_HR ∨ line.type = MD_LINE_ATXHEADER then
    block_events s.ctx.text a.1.header_level s.lines
      ++ block_events s.ctx.text a.1.header_level [line]
  else if line.type = MD_LINE_SETEXTUNDERLINE then
    block_events s.ctx.text a.1.header_level (set_setextheader s.lines)
  else if line.type ≠ s.pivot_line.type then
    block_events s.ctx.text a.1.header_level s.lines
  else []

/-- The invariant of the main loop of `md_process_doc`: the pivot is the dummy line
exactly when no line is pending, every pending line has the type of the pivot, which is
blank, text or indented code, a pending text line has a content that is not empty, and the
scan offset is inside the buffer. -/
def doc_inv (s : MD_DOC_STATE σ) : Prop :=
  (s.pivot_is_dummy = true ↔ s.lines = [])
    ∧ (∀ l ∈ s.lines, l.type = s.pivot_line.type
        ∧ (l.type = MD_LINE_TEXT → l.beg < l.end_ ∧ l.end_ ≤ s.ctx.size))
    ∧ (s.pivot_line.type = MD_LINE_BLANK ∨ s.pivot_line.type = MD_LINE_TEXT
        ∨ s.pivot_line.type = MD_LINE_INDENTEDCODE)
    ∧ s.off ≤ s.ctx.size

/-- The states in which the main loop of `md_process_doc`, entered with the context
`ctx0`, evaluates its condition: the initial one, and the one a round that does not abort
leaves. -/
inductive doc_reachable (ctx0 : MD_CTX σ) : MD_DOC_STATE σ → Prop
  | init : doc_reachable ctx0 { ctx := ctx0, pivot_is_dummy := true, lines := [], off := 0 }
  | round (s : MD_DOC_STATE σ) : doc_reachable ctx0 s → s.off < s.ctx.size →
      (md_process_doc_iter s).1 = 0 → doc_reachable ctx0 (md_process_doc_iter s).2

/-- The context with another buffer. -/
def with_text (ctx : MD_CTX σ) (text : List Char) : MD_CTX σ := { ctx with text := text }

/-- The buffer of `ctx'` is the buffer of `ctx`, which holds no line terminator, followed
by a line terminator and more text; the flags and the code indentation are the same. -/
def line_ext (ctx ctx' : MD_CTX σ) : Prop :=
  (∃ nl rest, ISNEWLINE_ nl = true ∧ ctx'.text = ctx.text ++ nl :: rest)
    ∧ (∀ c ∈ ctx.text, ISNEWLINE_ c = false)
    ∧ ctx'.r.flags = ctx.r.flags
    ∧ ctx'.code_indent_offset = ctx.code_indent_offset

/-- A text event. -/
def MD_EVENT.is_text : MD_EVENT → Prop
  | MD_EVENT.text _ _ => True
  | _ => False

/-- The events of one block as the renderer sees them: `enter_block(b)`, text events,
`leave_block(b)`, for a block type `b` that is not the document. -/
def is_block_group (es : List MD_EVENT) : Prop :=
  ∃ b detail texts,
    (b = MD_BLOCK_H ∨ b = MD_BLOCK_HR ∨ b = MD_BLOCK_CODE ∨ b = MD_BLOCK_P)
      ∧ (∀ e ∈ texts, e.is_text)
      ∧ es = MD_EVENT.enter_block b detail :: texts ++ [MD_EVENT.leave_block b detail]

/-- The events of a whole document: `enter_block(Document)`, block groups,
`leave_block(Document)`. -/
def is_document (es : List MD_EVENT) : Prop :=
  ∃ groups : List (List MD_EVENT),
    (∀ g ∈ groups, is_block_group g)
      ∧ es = MD_EVENT.enter_block MD_BLOCK_DOC none :: groups.flatten
          ++ [MD_EVENT.leave_block MD_BLOCK_DOC none]

/-- The default flags: no feature flag set. -/
def default_flags : MD_FLAGS :=
  { MD_FLAG_PERMISSIVEATXHEADERS := false, MD_FLAG_NOINDENTEDCODE := false }

/-- A renderer whose callbacks all return 0 and that logs nothing. -/
def ok_renderer (flags : MD_FLAGS) : MD_RENDERER Unit :=
  { flags := flags
    enter_block := fun _ _ u => (0, u)
    leave_block := fun _ _ u => (0, u)
    text := fun _ _ u => (0, u)
    debug_log := none }

/-- A renderer whose `enter_block` returns `ret` on its `k`-th invocation and 0 otherwise,
its other callbacks returning 0; the user data counts the invocations of `enter_block`. -/
def failing_renderer (flags : MD_FLAGS) (k : Nat) (ret : Int) : MD_RENDERER Nat :=
  { flags := flags
    enter_block := fun _ _ u => (if u + 1 = k then ret else 0, u + 1)
    leave_block := fun _ _ u => (0, u)
    text := fun _ _ u => (0, u)
    debug_log := none }

/-- Every callback of the renderer returns 0, whatever its arguments and the user data. -/
def renderer_ok (r : MD_RENDERER σ) : Prop :=
  (∀ type detail u, (r.enter_block type detail u).1 = 0)
    ∧ (∀ type detail u, (r.leave_block type detail u).1 = 0)
    ∧ (∀ type str u, (r.text type str u).1 = 0)

/-- The context that `md_parse` sets up for a buffer, with the renderer `ok_renderer`. -/
def ok_ctx (text : List Char) (flags : MD_FLAGS) : MD_CTX Unit :=
  { text := text, r := ok_renderer flags, userdata := (),
    code_indent_offset := if flags.MD_FLAG_NOINDENTEDCODE = true then 2 ^ 32 - 1 else 4,
    header_level := 0, events := [] }

/-- The returned value and the record of the callbacks of a run of `md_parse`. -/
def outcome (res : Option (Int × MD_CTX σ)) : Option (Int × List (MD_EVENT × Int)) :=
  res.map (fun r => (r.1, r.2.events))

/-- The line that the round of the main loop of `md_process_doc` entered in the state `s`
analyses. -/
def MD_DOC_STATE.line (s : MD_DOC_STATE σ) : MD_LINE :=
  (md_analyze_line s.ctx s.off s.pivot_line).2.2

/-- The state after `k` rounds of the main loop of `md_process_doc`. -/
def md_process_doc_rounds : Nat → MD_DOC_STATE σ → MD_DOC_STATE σ
  | 0, s => s
  | k + 1, s => md_process_doc_rounds k (md_process_doc_iter s).2

/-- The lines that the `k` rounds of the main loop from the state `s` on analyse, in
order. -/
def round_lines : Nat → MD_DOC_STATE σ → List MD_LINE
  | 0, _ => []
  | k + 1, s => s.line :: round_lines k (md_process_doc_iter s).2

/-- The main loop enters `k` rounds from the state `s` on (its condition `off < size`
holds), and `P` holds of the state each of them is entered in. -/
def rounds_with (P : MD_DOC_STATE σ → Prop) : Nat → MD_DOC_STATE σ → Prop
  | 0, _ => True
  | k + 1, s => s.off < s.ctx.size ∧ P s ∧ rounds_with P k (md_process_doc_iter s).2

/-- The line at the scan offset of the state is blank: after its indentation the buffer
ends or a line terminator stands. -/
def MD_DOC_STATE.at_blank_line (s : MD_DOC_STATE σ) : Prop :=
  line_start s.ctx s.off ≥ s.ctx.size ∨ ISNEWLINE s.ctx (line_start s.ctx s.off) = true

/-- The line at the scan offset of the state is not blank and indented by `n` columns at
least. -/
def MD_DOC_STATE.at_indented_line (s : MD_DOC_STATE σ) (n : Nat) : Prop :=
  ¬ s.at_blank_line ∧ line_indent s.ctx s.off ≥ n

/-- The context that `md_parse` sets up. -/
def md_parse_ctx (text : List Char) (renderer : MD_RENDERER σ) (userdata : σ) : MD_CTX σ :=
  { text := text, r := renderer, userdata := userdata,
    code_indent_offset := if renderer.flags.MD_FLAG_NOINDENTEDCODE = true then 2 ^ 32 - 1 else 4,
    header_level := 0, events := [] }

/-- The state in which `md_process_doc` enters its main loop: after
`MD_ENTER_BLOCK(MD_BLOCK_DOC, NULL)`, with the dummy pivot, no line and the offset 0. -/
def md_process_doc_start (ctx : MD_CTX σ) : MD_DOC_STATE σ :=
  { ctx := (MD_ENTER_BLOCK ctx MD_BLOCK_DOC none).2, pivot_is_dummy := true, lines := [], off := 0 }

/-- The lines that `md_process_block` renders when it is handed `lines`: none when it
returns at once (no line, or a first line that is blank), all of them otherwise. -/
def rendered_lines (lines : List MD_LINE) : List MD_LINE :=
  match lines with
  | [] => []
  | line0 :: _ => if line0.type = MD_LINE_BLANK then [] else lines

/-- The line lists that one round of the main loop of `md_process_doc` hands to
`md_process_block`, in order. -/
def md_process_doc_iter_flushed (s : MD_DOC_STATE σ) : List (List MD_LINE) :=
  if s.line.type = MD_LINE_HR ∨ s.line.type = MD_LINE_ATXHEADER then [s.lines, [s.line]]
  else if s.line.type = MD_LINE_SETEXTUNDERLINE then [set_setextheader s.lines]
  else if s.line.type ≠ s.pivot_line.type then [s.lines]
  else []

/-- The blocks that one round of the main loop renders, in order: the header level at that
moment and the lines of the block. -/
def iter_blocks (s : MD_DOC_STATE σ) : List (Nat × List MD_LINE) :=
  ((md_process_doc_iter_flushed s).filter (fun ls => !(rendered_lines ls).isEmpty)).map
    (fun ls => ((md_analyze_line s.ctx s.off s.pivot_line).1.header_level, ls))

/-- The blocks that `k` rounds of the main loop from the state `s` on render, in order. -/
def rounds_blocks : Nat → MD_DOC_STATE σ → List (Nat × List MD_LINE)
  | 0, _ => []
  | k + 1, s => iter_blocks s ++ rounds_blocks k (md_process_doc_iter s).2

/-- The block that `md_process_doc` renders after its main loop ("process also the last
block"). -/
def finish_blocks (s : MD_DOC_STATE σ) : List (Nat × List MD_LINE) :=
  if s.pivot_line.type ≠ MD_LINE_BLANK then
    ([s.lines].filter (fun ls => !(rendered_lines ls).isEmpty)).map
      (fun ls => (s.ctx.header_level, ls))
  else []

/-- The events of a block given by its header level and its lines. -/
def block_events_of (text : List Char) (b : Nat × List MD_LINE) : List MD_EVENT :=
  block_events text b.1 b.2

/-- A line as `md_analyze_line` classified it: the first line of a setext header was
classified as text. -/
def MD_LINE.as_analysed (l : MD_LINE) : MD_LINE :=
  if l.type = MD_LINE_SETEXTHEADER then { l with type := MD_LINE_TEXT } else l

/-- The analysed lines that are rendered: all but the blank lines and the setext
underlines. -/
def MD_LINE.is_rendered (l : MD_LINE) : Bool :=
  decide (l.type ≠ MD_LINE_BLANK ∧ l.type ≠ MD_LINE_SETEXTUNDERLINE)

/-- The offset of the terminator of the line that begins at `beg`, or the size of the
buffer when the line has none. -/
def line_end (ctx : MD_CTX σ) (beg : Nat) : Nat :=
  scan_forward ctx (fun ch => !ISNEWLINE_ ch) (line_start ctx beg)

/-- The offset where the trailing run of `#` of the slice `[b, e)` starts, the spaces after
the run left aside: what the two loops on `tmp` of `md_analyze_line` compute. -/
def atx_closing (ctx : MD_CTX σ) (b e : Nat) : Nat :=
  scan_backward ctx '#' b (scan_backward ctx ' ' b e)

/-- The flags with the permissive ATX headers alone. -/
def permissive_flags : MD_FLAGS :=
  { MD_FLAG_PERMISSIVEATXHEADERS := true, MD_FLAG_NOINDENTEDCODE := false }

/-- The flags with the indented code disabled alone. -/
def noindentedcode_flags : MD_FLAGS :=
  { MD_FLAG_PERMISSIVEATXHEADERS := false, MD_FLAG_NOINDENTEDCODE := true }

/-- An event of a code block: `enter_block(Code)`, `leave_block(Code)` or a text event of
the type `CodeBlock`. -/
def MD_EVENT.is_code : MD_EVENT → Prop
  | MD_EVENT.enter_block MD_BLOCK_CODE _ => True
  | MD_EVENT.leave_block MD_BLOCK_CODE _ => True
  | MD_EVENT.text MD_TEXT_CODEBLOCK _ => True
  | _ => False

/-- One step of the indentation loop of `md_analyze_line` on the `unsigned` field
`indent`: `(indent + 4) & ~3` for a tab, `indent++` otherwise. -/
def md_analyze_line_indent_step (indent : Nat) (ch : Char) : Nat :=
  if ch = '\t' then ((indent + 4) % 2 ^ 32) &&& (2 ^ 32 - 4) else (indent + 1) % 2 ^ 32

/-- From the spec's words: a space maps the width `w` to `w + 1` and a tab maps it to the
least multiple of 4 strictly greater than `w`. -/
def indent_step (w : Nat) (ch : Char) : Nat :=
  if ch = '\t' then 4 * (w / 4 + 1) else w + 1

/-- From the spec's words: the indentation width of a run of spaces and tabs, the left
fold of `indent_step` over the run, starting from 0. -/
def indent_width (run : List Char) : Nat := run.foldl indent_step 0

/-- The maximal run of spaces and tabs at the offset `off`. -/
def indent_run (ctx : MD_CTX σ) (off : Nat) : List Char :=
  (ctx.text.drop off).takeWhile ISBLANK_

/-- The string of a text event is a newline, a run of 1 to 16 spaces, or a slice
`[b, e)` of the buffer that is not empty and ends inside the buffer; an event that is not
a text event passes. -/
def MD_EVENT.in_buffer (text : List Char) : MD_EVENT → Prop
  | MD_EVENT.text _ str =>
    str = ['\n'] ∨ (∃ k, 1 ≤ k ∧ k ≤ 16 ∧ str = List.replicate k ' ')
      ∨ (∃ b e, b < e ∧ e ≤ text.length ∧ str = (text.drop b).take (e - b))
  | _ => True

/-! ## The addresses held by `lines` and `pivot_line`

The list of pending lines above is the array `lines` read by index.  The definitions here
follow the same loop body on the pointers themselves. -/

/-- The variables `lines`, `alloc_lines`, `n_lines` and `pivot_line` of `md_process_doc`
with the pointers as addresses: `lines` is the address of the array (0 for `NULL`), and
`pivot_line` is `none` for `&dummy_line` and `some a` for the address `a` of a line; the
address of `lines[0]` is the address of the array. -/
structure MD_DOC_PTRS where
  lines : Nat
  alloc_lines : Nat
  n_lines : Nat
  pivot_line : Option Nat
  deriving DecidableEq, Repr

/-- The values that the declarations of `md_process_doc` give these variables. -/
def md_process_doc_ptrs_start : MD_DOC_PTRS :=
  { lines := 0, alloc_lines := 0, n_lines := 0, pivot_line := none }

/-- The statement `if(n_lines >= alloc_lines) { ... lines = new_lines; }` that opens the
body of the main loop.  Here `realloc a n` is the address that
`realloc(lines, n * sizeof(MD_LINE))` returns when `lines` holds `a`; the failure of
`realloc` is not followed.  The statement does not assign `pivot_line`. -/
def md_process_doc_grow (realloc : Nat → Nat → Nat) (p : MD_DOC_PTRS) : MD_DOC_PTRS :=
  if p.n_lines ≥ p.alloc_lines then
    let alloc_lines := if p.alloc_lines = 0 then 32 else p.alloc_lines * 2
    { p with alloc_lines := alloc_lines, lines := realloc p.lines alloc_lines }
  else p

/-- The ways through the body of the main loop of `md_process_doc` that reach the next
iteration. -/
inductive MD_DOC_BRANCH where
  | own_block
  | new_pivot
  | skip_blank
  | accumulate
  deriving DecidableEq, Repr

/-- The way that the round entered in the state `s` takes, by the tests of
`md_process_doc_iter`: "some line types form block on their own", "new block also starts
if line type changes", "not much to do with multiple blank lines", "otherwise we just
accumulate the line". -/
def md_process_doc_iter_branch (s : MD_DOC_STATE σ) : MD_DOC_BRANCH :=
  let line := s.line
  if line.type = MD_LINE_HR ∨ line.type = MD_LINE_ATXHEADER then MD_DOC_BRANCH.own_block
  else
    let lines1 := if line.type = MD_LINE_SETEXTUNDERLINE then set_setextheader s.lines else s.lines
    let line1 : MD_LINE :=
      if line.type = MD_LINE_SETEXTUNDERLINE then { line with type := MD_LINE_BLANK } else line
    let s1 : MD_DOC_STATE σ := { s with lines := lines1 }
    if line1.type ≠ s1.pivot_line.type then MD_DOC_BRANCH.new_pivot
    else if line1.type = MD_LINE_BLANK then MD_DOC_BRANCH.skip_blank
    else MD_DOC_BRANCH.accumulate

/-- The assignments of one pass through the body of the main loop to the four variables:
the growth of the array, then `pivot_line = &dummy_line; n_lines = 0;`, or
`pivot_line = &lines[0]; n_lines = 1;`, or nothing, or `n_lines++`. -/
def md_process_doc_branch_ptrs (realloc : Nat → Nat → Nat) (p : MD_DOC_PTRS) :
    MD_DOC_BRANCH → MD_DOC_PTRS
  | MD_DOC_BRANCH.own_block => { md_process_doc_grow realloc p with pivot_line := none, n_lines := 0 }
  | MD_DOC_BRANCH.new_pivot =>
    { md_process_doc_grow realloc p with
      pivot_line := some (md_process_doc_grow realloc p).lines, n_lines := 1 }
  | MD_DOC_BRANCH.skip_blank => md_process_doc_grow realloc p
  | MD_DOC_BRANCH.accumulate =>
    { md_process_doc_grow realloc p with n_lines := (md_process_doc_grow realloc p).n_lines + 1 }

/-- The four variables after the round entered in the state `s`. -/
def md_process_doc_iter_ptrs (realloc : Nat → Nat → Nat) (s : MD_DOC_STATE σ)
    (p : MD_DOC_PTRS) : MD_DOC_PTRS :=
  md_process_doc_branch_ptrs realloc p (md_process_doc_iter_branch s)

/-- The four variables after `k` rounds of the main loop from the state `s` on. -/
def md_process_doc_rounds_ptrs (realloc : Nat → Nat → Nat) :
    Nat → MD_DOC_STATE σ → MD_DOC_PTRS → MD_DOC_PTRS
  | 0, _, p => p
  | k + 1, s, p =>
    md_process_doc_rounds_ptrs realloc k (md_process_doc_iter s).2 (md_process_doc_iter_ptrs realloc s p)

/-- The ways that `k` rounds of the main loop from the state `s` on take, in order. -/
def round_branches : Nat → MD_DOC_STATE σ → List MD_DOC_BRANCH
  | 0, _ => []
  | k + 1, s => md_process_doc_iter_branch s :: round_branches k (md_process_doc_iter s).2

/-- A buffer of `n` lines `a`, each ended by a newline. -/
def text_lines (n : Nat) : List Char := (List.replicate n ['a', '\n']).flatten

/-- An allocator that never extends a block in place: the new block of `n` lines lies
behind the old one (a line takes 16 bytes). -/
def moving_realloc (a n : Nat) : Nat := a + 16 * n + 16

/-! ## The scanning loops -/

theorem drop_eq_CH_cons (ctx : MD_CTX σ) (off : Nat) (h : off < ctx.size) :
    ctx.text.drop off = CH ctx off :: ctx.text.drop (off + 1) := by
  unfold MD_CTX.size at h
  rw [CH, List.getD_eq_getElem _ _ h]
  exact List.drop_eq_getElem_cons h

theorem drop_eq_nil_of_size_le (ctx : MD_CTX σ) (off : Nat) (h : ctx.size ≤ off) :
    ctx.text.drop off = [] := by
  unfold MD_CTX.size at h
  exact List.drop_eq_nil_of_le h

theorem scan_forward_loop_eq (ctx : MD_CTX σ) (p : Char → Bool) :
    ∀ fuel off, ctx.size - off ≤ fuel →
      scan_forward_loop ctx p fuel off = off + ((ctx.text.drop off).takeWhile p).length := by
  intro fuel
  induction fuel with
  | zero =>
    intro off h
    have h1 : ctx.size ≤ off := by omega
    simp [scan_forward_loop, drop_eq_nil_of_size_le ctx off h1]
  | succ fuel ih =>
    intro off h
    unfold scan_forward_loop
    by_cases hlt : off < ctx.size
    · rw [drop_eq_CH_cons ctx off hlt]
      by_cases hp : p (CH ctx off) = true
      · rw [if_pos ⟨hlt, hp⟩, ih (off + 1) (by omega), List.takeWhile_cons_of_pos hp]
        simp; omega
      · rw [if_neg (fun hh => hp hh.2), List.takeWhile_cons_of_neg hp]
        simp
    · rw [if_neg (fun hh => hlt hh.1), drop_eq_nil_of_size_le ctx off (by omega)]
      simp

theorem scan_forward_eq (ctx : MD_CTX σ) (p : Char → Bool) (off : Nat) :
    scan_forward ctx p off = off + ((ctx.text.drop off).takeWhile p).length :=
  scan_forward_loop_eq ctx p _ off (le_refl _)

/-- The loop equation of `scan_forward`: the fuel never cuts the loop short. -/
theorem scan_forward_unfold (ctx : MD_CTX σ) (p : Char → Bool) (off : Nat) :
    scan_forward ctx p off =
      if off < ctx.size ∧ p (CH ctx off) = true then scan_forward ctx p (off + 1) else off := by
  rw [scan_forward_eq, scan_forward_eq]
  by_cases hlt : off < ctx.size
  · rw [drop_eq_CH_cons ctx off hlt]
    by_cases hp : p (CH ctx off) = true
    · rw [if_pos ⟨hlt, hp⟩, List.takeWhile_cons_of_pos hp]
      simp; omega
    · rw [if_neg (fun hh => hp hh.2), List.takeWhile_cons_of_neg hp]
      simp
  · rw [if_neg (fun hh => hlt hh.1), drop_eq_nil_of_size_le ctx off (by omega)]
    simp

theorem scan_forward_ge (ctx : MD_CTX σ) (p : Char → Bool) (off : Nat) :
    off ≤ scan_forward ctx p off := by
  rw [scan_forward_eq]; omega

theorem scan_forward_le (ctx : MD_CTX σ) (p : Char → Bool) (off : Nat) (h : off ≤ ctx.size) :
    scan_forward ctx p off ≤ ctx.size := by
  rw [scan_forward_eq]
  have h1 := List.Sublist.length_le (List.takeWhile_sublist (l := ctx.text.drop off) p)
  have h2 : (ctx.text.drop off).length = ctx.size - off := by simp [MD_CTX.size]
  omega


theorem scan_forward_stop (ctx : MD_CTX σ) (p : Char → Bool) (off : Nat) :
    ctx.size ≤ scan_forward ctx p off ∨ p (CH ctx (scan_forward ctx p off)) = false := by
  generalize hn : ctx.size - off = n
  induction n generalizing off with
  | zero =>
    left
    have := scan_forward_ge ctx p off
    omega
  | succ n ih =>
    rw [scan_forward_unfold]
    by_cases hc : off < ctx.size ∧ p (CH ctx off) = true
    · rw [if_pos hc]
      exact ih (off + 1) (by omega)
    · rw [if_neg hc]
      by_cases hlt : off < ctx.size
      · right
        simpa using fun h => hc ⟨hlt, h⟩
      · left; omega

theorem scan_forward_all (ctx : MD_CTX σ) (p : Char → Bool) (off : Nat) :
    ∀ i, off ≤ i → i < scan_forward ctx p off → p (CH ctx i) = true := by
  generalize hn : ctx.size - off = n
  induction n generalizing off with
  | zero =>
    intro i h1 h2
    rw [scan_forward_unfold, if_neg (by omega)] at h2
    omega
  | succ n ih =>
    intro i h1 h2
    rw [scan_forward_unfold] at h2
    by_cases hc : off < ctx.size ∧ p (CH ctx off) = true
    · rw [if_pos hc] at h2
      by_cases hi : i = off
      · rw [hi]; exact hc.2
      · exact ih (off + 1) (by omega) i (by omega) h2
    · rw [if_neg hc] at h2
      omega

/-- The loop equation of `scan_backward`: the fuel never cuts the loop short. -/
theorem scan_backward_unfold (ctx : MD_CTX σ) (c : Char) (beg tmp : Nat) :
    scan_backward ctx c beg tmp =
      if tmp > beg ∧ CH ctx (tmp - 1) = c then scan_backward ctx c beg (tmp - 1) else tmp := by
  unfold scan_backward
  by_cases hc : tmp > beg ∧ CH ctx (tmp - 1) = c
  · rw [if_pos hc]
    obtain ⟨k, hk⟩ : ∃ k, tmp - beg = k + 1 := ⟨tmp - beg - 1, by omega⟩
    rw [hk, scan_backward_loop, if_pos hc]
    congr 1
    omega
  · rw [if_neg hc]
    cases h : tmp - beg with
    | zero => rfl
    | succ k => rw [scan_backward_loop, if_neg hc]

theorem scan_backward_le (ctx : MD_CTX σ) (c : Char) (beg tmp : Nat) :
    scan_backward ctx c beg tmp ≤ tmp := by
  induction tmp with
  | zero => rw [scan_backward_unfold, if_neg (by omega)]
  | succ k ih =>
    rw [scan_backward_unfold]
    split
    · simp only [Nat.add_sub_cancel]
      omega
    · exact le_refl _

theorem scan_backward_ge (ctx : MD_CTX σ) (c : Char) (beg tmp : Nat) (h : beg ≤ tmp) :
    beg ≤ scan_backward ctx c beg tmp := by
  induction tmp with
  | zero => rw [scan_backward_unfold, if_neg (by omega)]; exact h
  | succ k ih =>
    rw [scan_backward_unfold]
    split
    · rename_i hc
      simp only [Nat.add_sub_cancel]
      exact ih (by omega)
    · exact h

theorem scan_backward_stop (ctx : MD_CTX σ) (c : Char) (beg tmp : Nat) :
    scan_backward ctx c beg tmp ≤ beg ∨ CH ctx (scan_backward ctx c beg tmp - 1) ≠ c := by
  induction tmp with
  | zero => left; rw [scan_backward_unfold, if_neg (by omega)]; omega
  | succ k ih =>
    rw [scan_backward_unfold]
    by_cases hc : k + 1 > beg ∧ CH ctx (k + 1 - 1) = c
    · rw [if_pos hc]
      simpa using ih
    · rw [if_neg hc]
      by_cases hlt : k + 1 > beg
      · right
        exact fun h => hc ⟨hlt, h⟩
      · left; omega

/-- Scanning backwards stops at once on a character that is not `c`. -/
theorem scan_backward_of_ne (ctx : MD_CTX σ) (c : Char) (beg tmp : Nat)
    (h : CH ctx (tmp - 1) ≠ c) : scan_backward ctx c beg tmp = tmp := by
  rw [scan_backward_unfold, if_neg (fun hh => h hh.2)]

theorem scan_backward_of_le (ctx : MD_CTX σ) (c : Char) (beg tmp : Nat)
    (h : tmp ≤ beg) : scan_backward ctx c beg tmp = tmp := by
  rw [scan_backward_unfold, if_neg (by omega)]

/-- The loop equation of the indentation loop: the fuel never cuts the loop short. -/
theorem md_analyze_line_indent_unfold (ctx : MD_CTX σ) (off indent : Nat) :
    md_analyze_line_indent ctx off indent =
      if off < ctx.size ∧ ISBLANK ctx off = true then
        md_analyze_line_indent ctx (off + 1)
          (if CH ctx off = '\t' then ((indent + 4) % 2 ^ 32) &&& (2 ^ 32 - 4) else (indent + 1) % 2 ^ 32)
      else (off, indent) := by
  unfold md_analyze_line_indent
  by_cases hc : off < ctx.size ∧ ISBLANK ctx off = true
  · obtain ⟨k, hk⟩ : ∃ k, ctx.size - off = k + 1 := ⟨ctx.size - off - 1, by omega⟩
    have hk2 : ctx.size - (off + 1) = k := by omega
    rw [hk, md_analyze_line_indent_loop, if_pos hc, if_pos hc, hk2]
  · rw [if_neg hc]
    cases h : ctx.size - off with
    | zero => rfl
    | succ k => rw [md_analyze_line_indent_loop, if_neg hc]

theorem md_analyze_line_indent_fst (ctx : MD_CTX σ) (off indent : Nat) :
    (md_analyze_line_indent ctx off indent).1 = scan_forward ctx ISBLANK_ off := by
  generalize hn : ctx.size - off = n
  induction n generalizing off indent with
  | zero =>
    rw [md_analyze_line_indent_unfold, scan_forward_unfold, if_neg (by omega), if_neg (by omega)]
  | succ n ih =>
    rw [md_analyze_line_indent_unfold, scan_forward_unfold]
    by_cases hc : off < ctx.size ∧ ISBLANK ctx off = true
    · have hc2 : off < ctx.size ∧ ISBLANK_ (CH ctx off) = true := hc
      rw [if_pos hc, if_pos hc2]
      exact ih (off + 1) _ (by omega)
    · have hc2 : ¬ (off < ctx.size ∧ ISBLANK_ (CH ctx off) = true) := hc
      rw [if_neg hc, if_neg hc2]

/-- The loop equation of the loop of `md_is_hr_line`. -/
theorem md_is_hr_line_scan_unfold (ctx : MD_CTX σ) (beg off n : Nat) :
    md_is_hr_line_scan ctx beg off n =
      if off < ctx.size ∧ (CH ctx off = CH ctx beg ∨ CH ctx off = ' ') then
        md_is_hr_line_scan ctx beg (off + 1) (if CH ctx off = CH ctx beg then n + 1 else n)
      else (off, n) := by
  unfold md_is_hr_line_scan
  by_cases hc : off < ctx.size ∧ (CH ctx off = CH ctx beg ∨ CH ctx off = ' ')
  · obtain ⟨k, hk⟩ : ∃ k, ctx.size - off = k + 1 := ⟨ctx.size - off - 1, by omega⟩
    have hk2 : ctx.size - (off + 1) = k := by omega
    rw [hk, md_is_hr_line_loop, if_pos hc, if_pos hc, hk2]
  · rw [if_neg hc]
    cases h : ctx.size - off with
    | zero => rfl
    | succ k => rw [md_is_hr_line_loop, if_neg hc]

theorem md_is_hr_line_scan_fst (ctx : MD_CTX σ) (beg off n : Nat) :
    (md_is_hr_line_scan ctx beg off n).1 =
      scan_forward ctx (fun ch => ch == CH ctx beg || ch == ' ') off := by
  generalize hn : ctx.size - off = k
  induction k generalizing off n with
  | zero =>
    rw [md_is_hr_line_scan_unfold, scan_forward_unfold, if_neg (by omega), if_neg (by omega)]
  | succ k ih =>
    rw [md_is_hr_line_scan_unfold, scan_forward_unfold]
    by_cases hc : off < ctx.size ∧ (CH ctx off = CH ctx beg ∨ CH ctx off = ' ')
    · have hc2 : off < ctx.size ∧ (fun ch => ch == CH ctx beg || ch == ' ') (CH ctx off) = true := by
        simpa using hc
      rw [if_pos hc, if_pos hc2]
      exact ih (off + 1) _ (by omega)
    · have hc2 : ¬ (off < ctx.size ∧ (fun ch => ch == CH ctx beg || ch == ' ') (CH ctx off) = true) := by
        simpa using hc
      rw [if_neg hc, if_neg hc2]

/-- The loop equation of the first loop of `md_is_atxheader_line`. -/
theorem md_is_atxheader_line_scan_unfold (ctx : MD_CTX σ) (beg off : Nat) :
    md_is_atxheader_line_scan ctx beg off =
      if off < ctx.size ∧ CH ctx off = '#' ∧ off - beg < 7 then
        md_is_atxheader_line_scan ctx beg (off + 1)
      else off := by
  unfold md_is_atxheader_line_scan
  by_cases hc : off < ctx.size ∧ CH ctx off = '#' ∧ off - beg < 7
  · obtain ⟨k, hk⟩ : ∃ k, ctx.size - off = k + 1 := ⟨ctx.size - off - 1, by omega⟩
    have hk2 : ctx.size - (off + 1) = k := by omega
    rw [hk, md_is_atxheader_line_loop, if_pos hc, if_pos hc, hk2]
  · rw [if_neg hc]
    cases h : ctx.size - off with
    | zero => rfl
    | succ k => rw [md_is_atxheader_line_loop, if_neg hc]

/-- The first loop of `md_is_atxheader_line` counts the `#` characters from `off` on, up
to the bound `off - beg < 7`. -/
theorem md_is_atxheader_line_scan_eq (ctx : MD_CTX σ) (beg off : Nat) :
    md_is_atxheader_line_scan ctx beg off =
      off + min (beg + 7 - off) ((ctx.text.drop off).takeWhile (fun ch => ch == '#')).length := by
  generalize hn : ctx.size - off = k
  induction k generalizing off with
  | zero =>
    rw [md_is_atxheader_line_scan_unfold, if_neg (by omega),
      drop_eq_nil_of_size_le ctx off (by omega)]
    simp
  | succ k ih =>
    rw [md_is_atxheader_line_scan_unfold]
    have hlt : off < ctx.size := by omega
    rw [drop_eq_CH_cons ctx off hlt]
    by_cases hc : CH ctx off = '#'
    · rw [List.takeWhile_cons_of_pos (by simpa using hc)]
      by_cases h7 : off - beg < 7
      · rw [if_pos ⟨hlt, hc, h7⟩, ih (off + 1) (by omega)]
        simp only [List.length_cons]
        omega
      · rw [if_neg (fun hh => h7 hh.2.2)]
        omega
    · rw [if_neg (fun hh => hc hh.2.1), List.takeWhile_cons_of_neg (by simpa using hc)]
      simp

/-! ## The callbacks -/

@[simp] theorem md_log_text (ctx : MD_CTX σ) (msg : String) : (md_log ctx msg).text = ctx.text := by
  unfold md_log; split <;> rfl

@[simp] theorem md_log_r (ctx : MD_CTX σ) (msg : String) : (md_log ctx msg).r = ctx.r := by
  unfold md_log; split <;> rfl

@[simp] theorem md_log_code_indent_offset (ctx : MD_CTX σ) (msg : String) :
    (md_log ctx msg).code_indent_offset = ctx.code_indent_offset := by
  unfold md_log; split <;> rfl

@[simp] theorem md_log_header_level (ctx : MD_CTX σ) (msg : String) :
    (md_log ctx msg).header_level = ctx.header_level := by
  unfold md_log; split <;> rfl

@[simp] theorem md_log_events (ctx : MD_CTX σ) (msg : String) :
    (md_log ctx msg).events = ctx.events := by
  unfold md_log; split <;> rfl

@[simp] theorem md_log_size (ctx : MD_CTX σ) (msg : String) : (md_log ctx msg).size = ctx.size := by
  simp [MD_CTX.size]

/-- What one callback invocation leaves unchanged and what it records. -/
theorem emit_one_spec (ctx : MD_CTX σ) (e : MD_EVENT) :
    (emit_one ctx e).2.text = ctx.text ∧ (emit_one ctx e).2.r = ctx.r
      ∧ (emit_one ctx e).2.code_indent_offset = ctx.code_indent_offset
      ∧ (emit_one ctx e).2.header_level = ctx.header_level
      ∧ (emit_one ctx e).2.events = ctx.events ++ [(e, (emit_one ctx e).1)] := by
  cases e <;>
    simp only [emit_one, MD_ENTER_BLOCK, MD_LEAVE_BLOCK, MD_TEXT] <;>
    split_ifs <;> simp_all

@[simp] theorem emit_nil (ctx : MD_CTX σ) : emit ctx [] = (0, ctx) := rfl

theorem emit_cons (ctx : MD_CTX σ) (e : MD_EVENT) (es : List MD_EVENT) :
    emit ctx (e :: es) = if (emit_one ctx e).1 ≠ 0 then emit_one ctx e else emit (emit_one ctx e).2 es :=
  rfl

theorem emit_singleton (ctx : MD_CTX σ) (e : MD_EVENT) : emit ctx [e] = emit_one ctx e := by
  rw [emit_cons]
  split_ifs with h
  · rfl
  · simp only [emit_nil]
    have h0 : (emit_one ctx e).1 = 0 := by simpa using h
    rw [← h0]

/-- Emitting a concatenation: the second list is emitted only if the first one succeeds. -/
theorem emit_append (ctx : MD_CTX σ) (a b : List MD_EVENT) :
    emit ctx (a ++ b) = if (emit ctx a).1 ≠ 0 then emit ctx a else emit (emit ctx a).2 b := by
  induction a generalizing ctx with
  | nil => simp
  | cons e es ih =>
    rw [List.cons_append, emit_cons, emit_cons]
    by_cases h : (emit_one ctx e).1 ≠ 0
    · simp only [if_pos h]
    · simp only [if_neg h]
      exact ih _

theorem emit_frame (ctx : MD_CTX σ) (es : List MD_EVENT) :
    (emit ctx es).2.text = ctx.text ∧ (emit ctx es).2.r = ctx.r
      ∧ (emit ctx es).2.code_indent_offset = ctx.code_indent_offset
      ∧ (emit ctx es).2.header_level = ctx.header_level := by
  induction es generalizing ctx with
  | nil => simp
  | cons e es ih =>
    rw [emit_cons]
    obtain ⟨h1, h2, h3, h4, _⟩ := emit_one_spec ctx e
    split_ifs
    · exact ⟨h1, h2, h3, h4⟩
    · obtain ⟨i1, i2, i3, i4⟩ := ih (emit_one ctx e).2
      exact ⟨i1.trans h1, i2.trans h2, i3.trans h3, i4.trans h4⟩

@[simp] theorem emit_text (ctx : MD_CTX σ) (es : List MD_EVENT) : (emit ctx es).2.text = ctx.text :=
  (emit_frame ctx es).1

@[simp] theorem emit_r (ctx : MD_CTX σ) (es : List MD_EVENT) : (emit ctx es).2.r = ctx.r :=
  (emit_frame ctx es).2.1

@[simp] theorem emit_code_indent_offset (ctx : MD_CTX σ) (es : List MD_EVENT) :
    (emit ctx es).2.code_indent_offset = ctx.code_indent_offset :=
  (emit_frame ctx es).2.2.1

@[simp] theorem emit_header_level (ctx : MD_CTX σ) (es : List MD_EVENT) :
    (emit ctx es).2.header_level = ctx.header_level :=
  (emit_frame ctx es).2.2.2

@[simp] theorem emit_size (ctx : MD_CTX σ) (es : List MD_EVENT) : (emit ctx es).2.size = ctx.size := by
  simp [MD_CTX.size]

theorem MD_ENTER_BLOCK_eq_emit (ctx : MD_CTX σ) (type : MD_BLOCKTYPE) (arg : Option Nat) :
    MD_ENTER_BLOCK ctx type arg = emit ctx [MD_EVENT.enter_block type arg] := by
  rw [emit_singleton]; rfl

theorem MD_LEAVE_BLOCK_eq_emit (ctx : MD_CTX σ) (type : MD_BLOCKTYPE) (arg : Option Nat) :
    MD_LEAVE_BLOCK ctx type arg = emit ctx [MD_EVENT.leave_block type arg] := by
  rw [emit_singleton]; rfl

theorem MD_TEXT_eq_emit (ctx : MD_CTX σ) (type : MD_TEXTTYPE) (str : List Char) (size : Nat) :
    MD_TEXT ctx type str size = emit ctx (if size > 0 then [MD_EVENT.text type str] else []) := by
  by_cases h : size > 0
  · rw [if_pos h, emit_singleton]
    simp [emit_one, MD_TEXT, h]
  · rw [if_neg h]
    simp [MD_TEXT, h]

/-- The pattern `r = emit ..; if(ret != 0) goto abort; emit ..` is one emission. -/
theorem emit_then (ctx : MD_CTX σ) (a b : List MD_EVENT) :
    (if (emit ctx a).1 ≠ 0 then emit ctx a else emit (emit ctx a).2 b) = emit ctx (a ++ b) :=
  (emit_append ctx a b).symm

/-! ## Processing single block contents -/

theorem md_process_normal_block_eq_emit (ctx : MD_CTX σ) (lines : List MD_LINE) :
    md_process_normal_block ctx lines = emit ctx (normal_events ctx.text lines) := by
  induction lines generalizing ctx with
  | nil => rfl
  | cons line lines ih =>
    simp only [md_process_normal_block, normal_events, MD_TEXT_eq_emit, STR]
    rw [ih]
    simp only [emit_text, emit_then, content_events, MD_LINE.content, Nat.lt_irrefl, if_true,
      Nat.zero_lt_one, gt_iff_lt, List.append_assoc]

theorem to_size_t_to_int_gt (n : Nat) (h : n < 2 ^ 32) : to_size_t (to_int n) > 16 ↔ n > 16 := by
  unfold to_size_t to_int
  split_ifs <;> omega

theorem to_int_sub_sixteen (n : Nat) (h : n < 2 ^ 32) (h16 : n > 16) :
    to_int ((to_size_t (to_int n) + 2 ^ 64 - 16) % 2 ^ 64) = to_int (n - 16) := by
  unfold to_size_t to_int
  split_ifs <;> omega

theorem to_int_of_le (n : Nat) (h : n ≤ 16) : to_int n = n := by
  unfold to_int
  split_ifs <;> omega

theorem md_process_verbatim_block_indent_loop_eq (fuel : Nat) :
    ∀ (ctx : MD_CTX σ) (n : Nat), n < 2 ^ 32 → n ≤ fuel →
      (let r0 := md_process_verbatim_block_indent_loop fuel ctx (to_int n)
       if r0.1 ≠ 0 then (r0.1, r0.2.1) else
       if r0.2.2 > 0 then
         MD_TEXT r0.2.1 MD_TEXT_CODEBLOCK (indent_str.take r0.2.2.toNat) r0.2.2.toNat
       else (0, r0.2.1))
      = emit ctx ((indent_chunks fuel n).map
          (fun k => MD_EVENT.text MD_TEXT_CODEBLOCK (List.replicate k ' '))) := by
  induction fuel with
  | zero =>
    intro ctx n _ h0
    have hn : n = 0 := by omega
    subst hn
    simp [md_process_verbatim_block_indent_loop, indent_chunks, to_int]
  | succ fuel ih =>
    intro ctx n hn hf
    by_cases h16 : n > 16
    · have hc : to_size_t (to_int n) > 16 := (to_size_t_to_int_gt n hn).2 h16
      have hs : indent_str = List.replicate 16 ' ' := rfl
      have h16' : (16 : Nat) > 0 := by omega
      simp only [md_process_verbatim_block_indent_loop, if_pos hc, indent_chunks, if_pos h16,
        List.map_cons, to_int_sub_sixteen n hn h16, MD_TEXT_eq_emit, hs, if_pos h16']
      simp only [emit_singleton, emit_cons]
      by_cases hr : (emit_one ctx (MD_EVENT.text MD_TEXT_CODEBLOCK (List.replicate 16 ' '))).1 ≠ 0
      · simp only [if_pos hr]
      · simp only [if_neg hr]
        have := ih (emit_one ctx (MD_EVENT.text MD_TEXT_CODEBLOCK (List.replicate 16 ' '))).2
          (n - 16) (by omega) (by omega)
        simpa only [MD_TEXT_eq_emit, hs] using this
    · have hc : ¬ to_size_t (to_int n) > 16 := fun h => h16 ((to_size_t_to_int_gt n hn).1 h)
      have hle : n ≤ 16 := by omega
      rw [to_int_of_le n hle] at hc
      simp only [md_process_verbatim_block_indent_loop, if_neg hc, indent_chunks, if_neg h16,
        to_int_of_le n hle, ne_eq, not_true_eq_false, if_false, Int.toNat_ofNat]
      by_cases h0 : n > 0
      · have h0i : (n : Int) > 0 := by omega
        have hs : indent_str.take n = List.replicate n ' ' := by
          rw [indent_str, List.take_replicate, Nat.min_eq_left hle]
        simp only [if_pos h0, if_pos h0i, MD_TEXT_eq_emit, hs, List.map_cons, List.map_nil]
      · have h0i : ¬ (n : Int) > 0 := by omega
        simp only [if_neg h0, if_neg h0i, List.map_nil, emit_nil]

theorem md_process_verbatim_block_indent_eq_emit (ctx : MD_CTX σ) (line : MD_LINE) :
    md_process_verbatim_block_indent ctx line = emit ctx (indent_events (line.indent % 2 ^ 32)) := by
  have hlt : line.indent % 2 ^ 32 < 2 ^ 32 := Nat.mod_lt _ (by norm_num)
  have h := md_process_verbatim_block_indent_loop_eq (line.indent % 2 ^ 32) ctx
    (line.indent % 2 ^ 32) hlt (le_refl _)
  have hi : to_int (line.indent % 2 ^ 32) = to_int line.indent := by
    unfold to_int
    rw [Nat.mod_mod]
  rw [hi] at h
  exact h

theorem md_process_verbatim_block_line_eq_emit (ctx : MD_CTX σ) (line : MD_LINE) :
    md_process_verbatim_block_line ctx line = emit ctx (verbatim_line_events ctx.text line) := by
  simp only [md_process_verbatim_block_line, md_process_verbatim_block_indent_eq_emit,
    MD_TEXT_eq_emit, STR, verbatim_line_events, emit_then, content_events, MD_LINE.content,
    Nat.lt_irrefl, if_true, Nat.zero_lt_one, gt_iff_lt, List.append_assoc]

theorem md_process_verbatim_block_eq_emit (ctx : MD_CTX σ) (lines : List MD_LINE) :
    md_process_verbatim_block ctx lines = emit ctx (verbatim_events ctx.text lines) := by
  induction lines generalizing ctx with
  | nil => rfl
  | cons line lines ih =>
    simp only [md_process_verbatim_block, verbatim_events, md_process_verbatim_block_line_eq_emit]
    rw [ih]
    simp only [emit_text, emit_then]

theorem md_process_block_body_eq_emit (ctx : MD_CTX σ) (lines : List MD_LINE)
    (block_type : MD_BLOCKTYPE) (det : Option Nat) :
    md_process_block_body ctx lines block_type det =
      emit ctx (MD_EVENT.enter_block block_type det ::
        (match block_type with
          | MD_BLOCK_HR => []
          | MD_BLOCK_CODE => verbatim_events ctx.text lines
          | _ => normal_events ctx.text lines) ++ [MD_EVENT.leave_block block_type det]) := by
  have h : ∀ (c : MD_CTX σ), c.text = ctx.text →
      (match block_type with
        | MD_BLOCK_HR => (0, c)
        | MD_BLOCK_CODE => md_process_verbatim_block c lines
        | _ => md_process_normal_block c lines) =
      emit c (match block_type with
        | MD_BLOCK_HR => []
        | MD_BLOCK_CODE => verbatim_events ctx.text lines
        | _ => normal_events ctx.text lines) := by
    intro c hc
    cases block_type <;>
      simp only [md_process_verbatim_block_eq_emit, md_process_normal_block_eq_emit, hc, emit_nil]
  unfold md_process_block_body
  simp only [MD_ENTER_BLOCK_eq_emit, MD_LEAVE_BLOCK_eq_emit]
  rw [h _ (emit_text ctx _)]
  simp only [emit_then]
  rfl

/-- The function `md_process_block` invokes the callbacks for the events of the block, in
order, up to the first failure. -/
theorem md_process_block_eq_emit (ctx : MD_CTX σ) (lines : List MD_LINE)
    (h : ∀ l ∈ lines.head?, l.type ≠ MD_LINE_SETEXTUNDERLINE) :
    md_process_block ctx lines = emit ctx (block_events ctx.text ctx.header_level lines) := by
  cases lines with
  | nil => rfl
  | cons line0 rest =>
    have h0 : line0.type ≠ MD_LINE_SETEXTUNDERLINE := h line0 (by simp)
    unfold md_process_block block_events
    cases ht : line0.type
    all_goals
      first
        | exact absurd ht h0
        | simp only [ht, md_process_block_body_eq_emit, emit_nil, List.cons_append,
            List.nil_append]

/-! ## The line analysis reads the buffer only -/

theorem CH_congr {ctx ctx' : MD_CTX σ} (h : ctx'.text = ctx.text) (off : Nat) :
    CH ctx' off = CH ctx off := by
  simp [CH, h]

theorem size_congr {ctx ctx' : MD_CTX σ} (h : ctx'.text = ctx.text) : ctx'.size = ctx.size := by
  simp [MD_CTX.size, h]

theorem ISNEWLINE_congr {ctx ctx' : MD_CTX σ} (h : ctx'.text = ctx.text) (off : Nat) :
    ISNEWLINE ctx' off = ISNEWLINE ctx off := by
  simp [ISNEWLINE, CH_congr h]

theorem ISANYOF_congr {ctx ctx' : MD_CTX σ} (h : ctx'.text = ctx.text) (off : Nat)
    (palette : List Char) : ISANYOF ctx' off palette = ISANYOF ctx off palette := by
  simp [ISANYOF, CH_congr h]

theorem scan_forward_congr {ctx ctx' : MD_CTX σ} (h : ctx'.text = ctx.text) (p : Char → Bool)
    (off : Nat) : scan_forward ctx' p off = scan_forward ctx p off := by
  rw [scan_forward_eq, scan_forward_eq, h]

theorem scan_backward_congr {ctx ctx' : MD_CTX σ} (h : ctx'.text = ctx.text) (c : Char)
    (beg tmp : Nat) : scan_backward ctx' c beg tmp = scan_backward ctx c beg tmp := by
  induction tmp with
  | zero => rw [scan_backward_of_le _ _ _ _ (Nat.zero_le _), scan_backward_of_le _ _ _ _ (Nat.zero_le _)]
  | succ k ih =>
    rw [scan_backward_unfold, scan_backward_unfold ctx, CH_congr h]
    simp only [Nat.add_sub_cancel, ih]

theorem md_analyze_line_indent_congr {ctx ctx' : MD_CTX σ} (h : ctx'.text = ctx.text)
    (off indent : Nat) :
    md_analyze_line_indent ctx' off indent = md_analyze_line_indent ctx off indent := by
  generalize hn : ctx.size - off = n
  induction n generalizing off indent with
  | zero =>
    rw [md_analyze_line_indent_unfold, md_analyze_line_indent_unfold ctx, size_congr h,
      if_neg (by omega), if_neg (by omega)]
  | succ n ih =>
    rw [md_analyze_line_indent_unfold, md_analyze_line_indent_unfold ctx, size_congr h]
    simp only [ISBLANK, CH_congr h]
    rw [ih (off + 1) _ (by omega)]

theorem md_is_hr_line_scan_congr {ctx ctx' : MD_CTX σ} (h : ctx'.text = ctx.text)
    (beg off n : Nat) :
    md_is_hr_line_scan ctx' beg off n = md_is_hr_line_scan ctx beg off n := by
  generalize hn : ctx.size - off = k
  induction k generalizing off n with
  | zero =>
    rw [md_is_hr_line_scan_unfold, md_is_hr_line_scan_unfold ctx, size_congr h,
      if_neg (by omega), if_neg (by omega)]
  | succ k ih =>
    rw [md_is_hr_line_scan_unfold, md_is_hr_line_scan_unfold ctx, size_congr h]
    simp only [CH_congr h]
    rw [ih (off + 1) _ (by omega)]

theorem md_is_hr_line_congr {ctx ctx' : MD_CTX σ} (h : ctx'.text = ctx.text) (beg : Nat) :
    md_is_hr_line ctx' beg = md_is_hr_line ctx beg := by
  simp only [md_is_hr_line, md_is_hr_line_scan_congr h]

theorem md_is_atxheader_line_scan_congr {ctx ctx' : MD_CTX σ} (h : ctx'.text = ctx.text)
    (beg off : Nat) :
    md_is_atxheader_line_scan ctx' beg off = md_is_atxheader_line_scan ctx beg off := by
  rw [md_is_atxheader_line_scan_eq, md_is_atxheader_line_scan_eq, h]

/-- The function `md_is_atxheader_line` changes nothing of the context but `header_level`. -/
theorem md_is_atxheader_line_frame (ctx : MD_CTX σ) (beg : Nat) :
    ∃ hl, (md_is_atxheader_line ctx beg).1 = { ctx with header_level := hl } := by
  unfold md_is_atxheader_line
  simp only
  split_ifs
  · exact ⟨ctx.header_level, rfl⟩
  · exact ⟨_, rfl⟩
  · exact ⟨_, rfl⟩

theorem md_is_setext_underline_frame (ctx ctx2 : MD_CTX σ) (beg : Nat)
    (h : md_is_setext_underline ctx beg = some ctx2) :
    ctx2 = { ctx with header_level := if CH ctx beg = '=' then 1 else 2 } := by
  unfold md_is_setext_underline at h
  by_cases hc : scan_forward ctx (fun ch => ch == ' ')
      (scan_forward ctx (fun ch => ch == ' ')
        (scan_forward ctx (fun ch => ch == CH ctx beg) (beg + 1))) < ctx.size
      ∧ ISNEWLINE ctx (scan_forward ctx (fun ch => ch == ' ')
        (scan_forward ctx (fun ch => ch == ' ')
          (scan_forward ctx (fun ch => ch == CH ctx beg) (beg + 1)))) = false
  · simp only [if_pos hc] at h
    exact absurd h (by simp)
  · simp only [if_neg hc] at h
    exact (Option.some.inj h).symm

/-- What a successful `md_is_atxheader_line` has found: between one and six `#`, recorded
as the header level, and the content starts after the spaces that follow them. -/
theorem md_is_atxheader_line_some (ctx : MD_CTX σ) (beg b : Nat)
    (h : (md_is_atxheader_line ctx beg).2 = some b) :
    md_is_atxheader_line_scan ctx beg (beg + 1) - beg ≤ 6
      ∧ (md_is_atxheader_line ctx beg).1
          = { ctx with header_level := md_is_atxheader_line_scan ctx beg (beg + 1) - beg }
      ∧ b = scan_forward ctx (fun ch => ch == ' ') (md_is_atxheader_line_scan ctx beg (beg + 1)) := by
  unfold md_is_atxheader_line at h ⊢
  simp only at h ⊢
  generalize md_is_atxheader_line_scan ctx beg (beg + 1) = off at h ⊢
  by_cases h6 : off - beg > 6
  · simp only [if_pos h6] at h
    exact absurd h (by simp)
  · simp only [if_neg h6] at h ⊢
    by_cases hc : ctx.r.flags.MD_FLAG_PERMISSIVEATXHEADERS = false ∧ off < ctx.size
        ∧ CH ctx off ≠ ' ' ∧ ISNEWLINE ctx off = false
    · simp only [if_pos hc] at h
      exact absurd h (by simp)
    · simp only [if_neg hc] at h ⊢
      refine ⟨by omega, ?_, (Option.some.inj h).symm⟩
      first | rfl | trivial

theorem md_is_atxheader_line_scan_ge (ctx : MD_CTX σ) (beg off : Nat) :
    off ≤ md_is_atxheader_line_scan ctx beg off := by
  rw [md_is_atxheader_line_scan_eq]; omega

theorem md_is_atxheader_line_scan_le (ctx : MD_CTX σ) (beg off : Nat) (h : off ≤ ctx.size) :
    md_is_atxheader_line_scan ctx beg off ≤ ctx.size := by
  rw [md_is_atxheader_line_scan_eq]
  have h1 := List.Sublist.length_le
    (List.takeWhile_sublist (l := ctx.text.drop off) (fun ch => ch == '#'))
  have h2 : (ctx.text.drop off).length = ctx.size - off := by simp [MD_CTX.size]
  omega

theorem md_analyze_line_atx_frame (ctx : MD_CTX σ) (off : Nat) :
    ∃ hl, (md_analyze_line_atx ctx off).1 = { ctx with header_level := hl } := by
  unfold md_analyze_line_atx
  split_ifs
  · exact md_is_atxheader_line_frame ctx off
  · exact ⟨ctx.header_level, rfl⟩

theorem md_analyze_line_atx_text (ctx : MD_CTX σ) (off : Nat) :
    (md_analyze_line_atx ctx off).1.text = ctx.text := by
  obtain ⟨hl, h⟩ := md_analyze_line_atx_frame ctx off
  rw [h]

theorem md_analyze_line_setext_some (ctx ctx2 : MD_CTX σ) (off : Nat) (pivot_line : MD_LINE)
    (h : md_analyze_line_setext ctx off pivot_line = some ctx2) :
    pivot_line.type = MD_LINE_TEXT ∧ (CH ctx off = '=' ∨ CH ctx off = '-')
      ∧ ctx2 = { ctx with header_level := if CH ctx off = '=' then 1 else 2 } := by
  unfold md_analyze_line_setext at h
  by_cases hc : pivot_line.type = MD_LINE_TEXT ∧ (CH ctx off = '=' ∨ CH ctx off = '-')
  · rw [if_pos hc] at h
    exact ⟨hc.1, hc.2, md_is_setext_underline_frame ctx ctx2 off h⟩
  · rw [if_neg hc] at h
    exact absurd h (by simp)

/-! ### The branches of the classification -/

theorem md_analyze_line_type_blank (ctx : MD_CTX σ) (beg : Nat) (pivot_line : MD_LINE)
    (h : line_start ctx beg ≥ ctx.size ∨ ISNEWLINE ctx (line_start ctx beg) = true) :
    md_analyze_line_type ctx beg pivot_line = (ctx, line_start ctx beg,
      { type := if pivot_line.type = MD_LINE_INDENTEDCODE then MD_LINE_INDENTEDCODE
                else MD_LINE_BLANK,
        beg := line_start ctx beg, end_ := 0, indent := 0 }) := by
  unfold md_analyze_line_type
  unfold line_start at h ⊢
  simp only [if_pos h]

theorem md_analyze_line_type_code (ctx : MD_CTX σ) (beg : Nat) (pivot_line : MD_LINE)
    (hnb : ¬ (line_start ctx beg ≥ ctx.size ∨ ISNEWLINE ctx (line_start ctx beg) = true))
    (hc : (pivot_line.type = MD_LINE_BLANK ∨ pivot_line.type = MD_LINE_INDENTEDCODE)
      ∧ line_indent ctx beg ≥ ctx.code_indent_offset) :
    md_analyze_line_type ctx beg pivot_line = (ctx, line_start ctx beg,
      { type := MD_LINE_INDENTEDCODE, beg := line_start ctx beg, end_ := 0,
        indent := line_indent ctx beg - ctx.code_indent_offset }) := by
  unfold md_analyze_line_type
  unfold line_start at hnb ⊢
  unfold line_indent at hc ⊢
  simp only [if_neg hnb, if_pos hc]

theorem md_analyze_line_type_rest (ctx : MD_CTX σ) (beg : Nat) (pivot_line : MD_LINE)
    (hnb : ¬ (line_start ctx beg ≥ ctx.size ∨ ISNEWLINE ctx (line_start ctx beg) = true))
    (hc : ¬ ((pivot_line.type = MD_LINE_BLANK ∨ pivot_line.type = MD_LINE_INDENTEDCODE)
      ∧ line_indent ctx beg ≥ ctx.code_indent_offset)) :
    md_analyze_line_type ctx beg pivot_line =
      match md_analyze_line_atx ctx (line_start ctx beg) with
      | (ctx1, some b) => (ctx1, line_start ctx beg,
          { type := MD_LINE_ATXHEADER, beg := b, end_ := 0, indent := line_indent ctx beg })
      | (ctx1, none) =>
        match md_analyze_line_setext ctx1 (line_start ctx beg) pivot_line with
        | some ctx2 => (ctx2, line_start ctx beg,
            { type := MD_LINE_SETEXTUNDERLINE, beg := line_start ctx beg, end_ := 0,
              indent := line_indent ctx beg })
        | none =>
          match md_analyze_line_hr ctx1 (line_start ctx beg) with
          | some e => (ctx1, e,
              { type := MD_LINE_HR, beg := line_start ctx beg, end_ := 0,
                indent := line_indent ctx beg })
          | none => (ctx1, line_start ctx beg,
              { type := MD_LINE_TEXT, beg := line_start ctx beg, end_ := 0,
                indent := line_indent ctx beg }) := by
  unfold md_analyze_line_type
  unfold line_start at hnb ⊢
  unfold line_indent at hc ⊢
  simp only [if_neg hnb, if_neg hc]

theorem md_analyze_line_setext_congr {ctx ctx' : MD_CTX σ} (h : ctx'.text = ctx.text)
    (off : Nat) (pivot_line : MD_LINE) :
    (md_analyze_line_setext ctx' off pivot_line).isSome
      = (md_analyze_line_setext ctx off pivot_line).isSome := by
  unfold md_analyze_line_setext md_is_setext_underline
  simp only [CH_congr h, scan_forward_congr h, size_congr h, ISNEWLINE_congr h]
  split_ifs <;> rfl

theorem md_analyze_line_hr_congr {ctx ctx' : MD_CTX σ} (h : ctx'.text = ctx.text) (off : Nat) :
    md_analyze_line_hr ctx' off = md_analyze_line_hr ctx off := by
  unfold md_analyze_line_hr
  rw [ISANYOF_congr h, md_is_hr_line_congr h]

/-- The outcomes of the classification part of `md_analyze_line`, in the order of its
tests. -/
theorem md_analyze_line_type_cases (ctx : MD_CTX σ) (beg : Nat) (pivot_line : MD_LINE) :
    ((line_start ctx beg ≥ ctx.size ∨ ISNEWLINE ctx (line_start ctx beg) = true)
        ∧ md_analyze_line_type ctx beg pivot_line = (ctx, line_start ctx beg,
          { type := if pivot_line.type = MD_LINE_INDENTEDCODE then MD_LINE_INDENTEDCODE
                    else MD_LINE_BLANK,
            beg := line_start ctx beg, end_ := 0, indent := 0 }))
    ∨ (line_start ctx beg < ctx.size ∧ ISNEWLINE ctx (line_start ctx beg) = false) ∧
      (((pivot_line.type = MD_LINE_BLANK ∨ pivot_line.type = MD_LINE_INDENTEDCODE)
          ∧ line_indent ctx beg ≥ ctx.code_indent_offset
          ∧ md_analyze_line_type ctx beg pivot_line = (ctx, line_start ctx beg,
            { type := MD_LINE_INDENTEDCODE, beg := line_start ctx beg, end_ := 0,
              indent := line_indent ctx beg - ctx.code_indent_offset }))
      ∨ ¬ ((pivot_line.type = MD_LINE_BLANK ∨ pivot_line.type = MD_LINE_INDENTEDCODE)
          ∧ line_indent ctx beg ≥ ctx.code_indent_offset) ∧
        ((∃ b, (md_analyze_line_atx ctx (line_start ctx beg)).2 = some b
            ∧ md_analyze_line_type ctx beg pivot_line
              = ((md_analyze_line_atx ctx (line_start ctx beg)).1, line_start ctx beg,
                { type := MD_LINE_ATXHEADER, beg := b, end_ := 0, indent := line_indent ctx beg }))
        ∨ (md_analyze_line_atx ctx (line_start ctx beg)).2 = none ∧
          ((∃ ctx2, md_analyze_line_setext (md_analyze_line_atx ctx (line_start ctx beg)).1
                (line_start ctx beg) pivot_line = some ctx2
              ∧ md_analyze_line_type ctx beg pivot_line = (ctx2, line_start ctx beg,
                { type := MD_LINE_SETEXTUNDERLINE, beg := line_start ctx beg, end_ := 0,
                  indent := line_indent ctx beg }))
          ∨ md_analyze_line_setext (md_analyze_line_atx ctx (line_start ctx beg)).1
                (line_start ctx beg) pivot_line = none ∧
            ((∃ e, md_analyze_line_hr ctx (line_start ctx beg) = some e
                ∧ md_analyze_line_type ctx beg pivot_line
                  = ((md_analyze_line_atx ctx (line_start ctx beg)).1, e,
                    { type := MD_LINE_HR, beg := line_start ctx beg, end_ := 0,
                      indent := line_indent ctx beg }))
            ∨ md_analyze_line_hr ctx (line_start ctx beg) = none
                ∧ md_analyze_line_type ctx beg pivot_line
                  = ((md_analyze_line_atx ctx (line_start ctx beg)).1, line_start ctx beg,
                    { type := MD_LINE_TEXT, beg := line_start ctx beg, end_ := 0,
                      indent := line_indent ctx beg }))))) := by
  by_cases hb : line_start ctx beg ≥ ctx.size ∨ ISNEWLINE ctx (line_start ctx beg) = true
  · exact Or.inl ⟨hb, md_analyze_line_type_blank ctx beg pivot_line hb⟩
  · have hnb : line_start ctx beg < ctx.size ∧ ISNEWLINE ctx (line_start ctx beg) = false := by
      constructor
      · by_contra hh; exact hb (Or.inl (by omega))
      · cases hh : ISNEWLINE ctx (line_start ctx beg)
        · rfl
        · exact absurd (Or.inr hh) hb
    refine Or.inr ⟨hnb, ?_⟩
    by_cases hcode : (pivot_line.type = MD_LINE_BLANK ∨ pivot_line.type = MD_LINE_INDENTEDCODE)
        ∧ line_indent ctx beg ≥ ctx.code_indent_offset
    · exact Or.inl ⟨hcode.1, hcode.2, md_analyze_line_type_code ctx beg pivot_line hb hcode⟩
    · refine Or.inr ⟨hcode, ?_⟩
      rw [md_analyze_line_type_rest ctx beg pivot_line hb hcode]
      have htext := md_analyze_line_atx_text ctx (line_start ctx beg)
      rcases hatx : md_analyze_line_atx ctx (line_start ctx beg) with ⟨c1, _ | b⟩
      · rw [hatx] at htext
        simp only at htext
        refine Or.inr ⟨rfl, ?_⟩
        simp only
        cases hs : md_analyze_line_setext c1 (line_start ctx beg) pivot_line with
        | some c2 => exact Or.inl ⟨c2, rfl, rfl⟩
        | none =>
          refine Or.inr ⟨rfl, ?_⟩
          simp only
          rw [md_analyze_line_hr_congr htext]
          cases he : md_analyze_line_hr ctx (line_start ctx beg) with
          | some e => exact Or.inl ⟨e, rfl, rfl⟩
          | none => exact Or.inr ⟨rfl, rfl⟩
      · exact Or.inl ⟨b, rfl, rfl⟩

/-! ### Projections of `md_analyze_line` -/

theorem md_analyze_line_atx_end_type (ctx : MD_CTX σ) (line : MD_LINE) :
    (md_analyze_line_atx_end ctx line).type = line.type := by
  unfold md_analyze_line_atx_end
  simp only
  split_ifs <;> rfl

theorem md_analyze_line_atx_end_beg (ctx : MD_CTX σ) (line : MD_LINE) :
    (md_analyze_line_atx_end ctx line).beg = line.beg := by
  unfold md_analyze_line_atx_end
  simp only
  split_ifs <;> rfl

theorem md_analyze_line_atx_end_indent (ctx : MD_CTX σ) (line : MD_LINE) :
    (md_analyze_line_atx_end ctx line).indent = line.indent := by
  unfold md_analyze_line_atx_end
  simp only
  split_ifs <;> rfl

theorem md_analyze_line_atx_end_le (ctx : MD_CTX σ) (line : MD_LINE) :
    (md_analyze_line_atx_end ctx line).end_ ≤ line.end_ := by
  unfold md_analyze_line_atx_end
  simp only
  split_ifs
  · exact le_trans (scan_backward_le _ _ _ _) (scan_backward_le _ _ _ _)
  · exact le_refl _
  · exact le_refl _

theorem md_analyze_line_atx_end_of_ne (ctx : MD_CTX σ) (line : MD_LINE)
    (h : line.type ≠ MD_LINE_ATXHEADER) : md_analyze_line_atx_end ctx line = line := by
  unfold md_analyze_line_atx_end
  rw [if_neg h]

theorem md_analyze_line_ctx (ctx : MD_CTX σ) (beg : Nat) (pivot_line : MD_LINE) :
    (md_analyze_line ctx beg pivot_line).1 = (md_analyze_line_type ctx beg pivot_line).1 := rfl

theorem md_analyze_line_type_eq (ctx : MD_CTX σ) (beg : Nat) (pivot_line : MD_LINE) :
    (md_analyze_line ctx beg pivot_line).2.2.type
      = (md_analyze_line_type ctx beg pivot_line).2.2.type := by
  simp only [md_analyze_line, md_analyze_line_atx_end_type]

theorem md_analyze_line_beg_eq (ctx : MD_CTX σ) (beg : Nat) (pivot_line : MD_LINE) :
    (md_analyze_line ctx beg pivot_line).2.2.beg
      = (md_analyze_line_type ctx beg pivot_line).2.2.beg := by
  simp only [md_analyze_line, md_analyze_line_atx_end_beg]

theorem md_analyze_line_indent_eq (ctx : MD_CTX σ) (beg : Nat) (pivot_line : MD_LINE) :
    (md_analyze_line ctx beg pivot_line).2.2.indent
      = (md_analyze_line_type ctx beg pivot_line).2.2.indent := by
  simp only [md_analyze_line, md_analyze_line_atx_end_indent]

/-- The offset where the scan "eat rest of the line contents" of `md_analyze_line` stops. -/
theorem md_analyze_line_end_le (ctx : MD_CTX σ) (beg : Nat) (pivot_line : MD_LINE) :
    (md_analyze_line ctx beg pivot_line).2.2.end_
      ≤ scan_forward ctx (fun ch => !ISNEWLINE_ ch) (md_analyze_line_type ctx beg pivot_line).2.1 := by
  have htext : (md_analyze_line_type ctx beg pivot_line).1.text = ctx.text := by
    rcases md_analyze_line_type_cases ctx beg pivot_line with h | ⟨_, h | ⟨_, h | ⟨_, h | ⟨_, h | h⟩⟩⟩⟩
    · rw [h.2]
    · rw [h.2.2]
    · obtain ⟨b, _, h⟩ := h
      rw [h]; exact md_analyze_line_atx_text _ _
    · obtain ⟨c2, h2, h⟩ := h
      rw [h]
      obtain ⟨_, _, h3⟩ := md_analyze_line_setext_some _ _ _ _ h2
      rw [h3]; exact md_analyze_line_atx_text _ _
    · obtain ⟨e, _, h⟩ := h
      rw [h]; exact md_analyze_line_atx_text _ _
    · rw [h.2]; exact md_analyze_line_atx_text _ _
  simp only [md_analyze_line]
  refine le_trans (scan_backward_le _ _ _ _) ?_
  refine le_trans (md_analyze_line_atx_end_le _ _) ?_
  simp only [scan_forward_congr htext]
  exact le_refl _

theorem line_start_eq (ctx : MD_CTX σ) (beg : Nat) :
    line_start ctx beg = scan_forward ctx ISBLANK_ beg :=
  md_analyze_line_indent_fst ctx beg 0

theorem line_start_ge (ctx : MD_CTX σ) (beg : Nat) : beg ≤ line_start ctx beg := by
  rw [line_start_eq]; exact scan_forward_ge _ _ _

theorem line_start_le (ctx : MD_CTX σ) (beg : Nat) (h : beg ≤ ctx.size) :
    line_start ctx beg ≤ ctx.size := by
  rw [line_start_eq]; exact scan_forward_le _ _ _ h

theorem line_start_not_blank (ctx : MD_CTX σ) (beg : Nat) (h : line_start ctx beg < ctx.size) :
    ISBLANK_ (CH ctx (line_start ctx beg)) = false := by
  rw [line_start_eq] at h ⊢
  rcases scan_forward_stop ctx ISBLANK_ beg with h1 | h1
  · omega
  · exact h1

theorem scan_backward_gt (ctx : MD_CTX σ) (c : Char) (beg tmp : Nat) (h : beg < tmp)
    (hc : CH ctx beg ≠ c) : beg < scan_backward ctx c beg tmp := by
  induction tmp with
  | zero => omega
  | succ k ih =>
    rw [scan_backward_unfold]
    split
    · rename_i hh
      simp only [Nat.add_sub_cancel] at hh ⊢
      by_cases hk : k = beg
      · rw [hk] at hh
        exact absurd hh.2 hc
      · exact ih (by omega)
    · exact h

theorem md_is_hr_line_scan_le (ctx : MD_CTX σ) (beg off n : Nat) (h : off ≤ ctx.size) :
    (md_is_hr_line_scan ctx beg off n).1 ≤ ctx.size := by
  rw [md_is_hr_line_scan_fst]; exact scan_forward_le _ _ _ h

theorem md_is_hr_line_scan_ge (ctx : MD_CTX σ) (beg off n : Nat) :
    off ≤ (md_is_hr_line_scan ctx beg off n).1 := by
  rw [md_is_hr_line_scan_fst]; exact scan_forward_ge _ _ _

theorem md_analyze_line_hr_some (ctx : MD_CTX σ) (off e : Nat)
    (h : md_analyze_line_hr ctx off = some e) :
    ISANYOF ctx off ['-', '_', '*'] = true
      ∧ e = scan_forward ctx (fun ch => ch == CH ctx off || ch == ' ') (off + 1) := by
  unfold md_analyze_line_hr at h
  by_cases ha : ISANYOF ctx off ['-', '_', '*'] = true
  · rw [if_pos ha] at h
    refine ⟨ha, ?_⟩
    unfold md_is_hr_line at h
    simp only at h
    split_ifs at h
    rw [← md_is_hr_line_scan_fst ctx off (off + 1) 1]
    exact (Option.some.inj h).symm
  · rw [if_neg ha] at h
    exact absurd h (by simp)

/-- Of the context, `md_analyze_line` changes `header_level` only. -/
theorem md_analyze_line_frame (ctx : MD_CTX σ) (beg : Nat) (pivot_line : MD_LINE) :
    ∃ hl, (md_analyze_line ctx beg pivot_line).1 = { ctx with header_level := hl } := by
  rw [md_analyze_line_ctx]
  rcases md_analyze_line_type_cases ctx beg pivot_line with h | ⟨_, h | ⟨_, h | ⟨_, h | ⟨_, h | h⟩⟩⟩⟩
  · rw [h.2]; exact ⟨ctx.header_level, rfl⟩
  · rw [h.2.2]; exact ⟨ctx.header_level, rfl⟩
  · obtain ⟨b, _, h⟩ := h
    rw [h]; exact md_analyze_line_atx_frame _ _
  · obtain ⟨c2, h2, h⟩ := h
    rw [h]
    obtain ⟨_, _, h3⟩ := md_analyze_line_setext_some _ _ _ _ h2
    obtain ⟨hl, h4⟩ := md_analyze_line_atx_frame ctx (line_start ctx beg)
    rw [h3, h4]
    exact ⟨_, rfl⟩
  · obtain ⟨e, _, h⟩ := h
    rw [h]; exact md_analyze_line_atx_frame _ _
  · rw [h.2]; exact md_analyze_line_atx_frame _ _

@[simp] theorem md_analyze_line_text (ctx : MD_CTX σ) (beg : Nat) (pivot_line : MD_LINE) :
    (md_analyze_line ctx beg pivot_line).1.text = ctx.text := by
  obtain ⟨hl, h⟩ := md_analyze_line_frame ctx beg pivot_line
  rw [h]

@[simp] theorem md_analyze_line_size (ctx : MD_CTX σ) (beg : Nat) (pivot_line : MD_LINE) :
    (md_analyze_line ctx beg pivot_line).1.size = ctx.size := by
  simp [MD_CTX.size]

@[simp] theorem md_analyze_line_r (ctx : MD_CTX σ) (beg : Nat) (pivot_line : MD_LINE) :
    (md_analyze_line ctx beg pivot_line).1.r = ctx.r := by
  obtain ⟨hl, h⟩ := md_analyze_line_frame ctx beg pivot_line
  rw [h]

@[simp] theorem md_analyze_line_code_indent_offset (ctx : MD_CTX σ) (beg : Nat)
    (pivot_line : MD_LINE) :
    (md_analyze_line ctx beg pivot_line).1.code_indent_offset = ctx.code_indent_offset := by
  obtain ⟨hl, h⟩ := md_analyze_line_frame ctx beg pivot_line
  rw [h]

@[simp] theorem md_analyze_line_events (ctx : MD_CTX σ) (beg : Nat) (pivot_line : MD_LINE) :
    (md_analyze_line ctx beg pivot_line).1.events = ctx.events := by
  obtain ⟨hl, h⟩ := md_analyze_line_frame ctx beg pivot_line
  rw [h]

@[simp] theorem md_analyze_line_userdata (ctx : MD_CTX σ) (beg : Nat) (pivot_line : MD_LINE) :
    (md_analyze_line ctx beg pivot_line).1.userdata = ctx.userdata := by
  obtain ⟨hl, h⟩ := md_analyze_line_frame ctx beg pivot_line
  rw [h]

/-- The number of `#` characters at the start of the text from `off` on. -/
theorem atx_level_eq (ctx : MD_CTX σ) (off b : Nat) (h : (md_analyze_line_atx ctx off).2 = some b) :
    CH ctx off = '#'
      ∧ (md_analyze_line_atx ctx off).1.header_level
          = ((ctx.text.drop off).takeWhile (fun ch => ch == '#')).length
      ∧ 1 ≤ (md_analyze_line_atx ctx off).1.header_level
      ∧ (md_analyze_line_atx ctx off).1.header_level ≤ 6 := by
  unfold md_analyze_line_atx at h ⊢
  by_cases hs : CH ctx off = '#'
  · rw [if_pos hs] at h ⊢
    obtain ⟨h6, hctx, _⟩ := md_is_atxheader_line_some ctx off b h
    rw [hctx]
    simp only
    have hlt : off < ctx.size := by
      by_contra hge
      have : CH ctx off = Char.ofNat 0 := by
        unfold CH MD_CTX.size at *
        exact List.getD_eq_default _ _ (by omega)
      rw [this] at hs
      exact absurd hs (by decide)
    rw [md_is_atxheader_line_scan_eq] at h6 ⊢
    rw [drop_eq_CH_cons ctx off hlt, List.takeWhile_cons_of_pos (by simpa using hs)]
    simp only [List.length_cons]
    refine ⟨hs, ?_, ?_, ?_⟩ <;> omega
  · rw [if_neg hs] at h
    exact absurd h (by simp)

/-! ### What the type of an analysed line tells -/

theorem md_analyze_line_type_ne_setextheader (ctx : MD_CTX σ) (beg : Nat) (pivot_line : MD_LINE) :
    (md_analyze_line ctx beg pivot_line).2.2.type ≠ MD_LINE_SETEXTHEADER := by
  rw [md_analyze_line_type_eq]
  rcases md_analyze_line_type_cases ctx beg pivot_line with h | ⟨_, h | ⟨_, h | ⟨_, h | ⟨_, h | h⟩⟩⟩⟩
  · rw [h.2]; simp only; split_ifs <;> simp
  · rw [h.2.2]; simp
  · obtain ⟨b, _, h⟩ := h
    rw [h]; simp
  · obtain ⟨c2, _, h⟩ := h
    rw [h]; simp
  · obtain ⟨e, _, h⟩ := h
    rw [h]; simp
  · rw [h.2]; simp

/-- A line is classified as a setext underline only after a text line, and the level then
recorded is 1 for `=` and 2 for `-`. -/
theorem md_analyze_line_of_setextunderline (ctx : MD_CTX σ) (beg : Nat) (pivot_line : MD_LINE)
    (ht : (md_analyze_line ctx beg pivot_line).2.2.type = MD_LINE_SETEXTUNDERLINE) :
    pivot_line.type = MD_LINE_TEXT
      ∧ (CH ctx (line_start ctx beg) = '=' ∨ CH ctx (line_start ctx beg) = '-')
      ∧ (md_analyze_line ctx beg pivot_line).1.header_level
          = (if CH ctx (line_start ctx beg) = '=' then 1 else 2) := by
  rw [md_analyze_line_type_eq] at ht
  rw [md_analyze_line_ctx]
  rcases md_analyze_line_type_cases ctx beg pivot_line with h | ⟨_, h | ⟨_, h | ⟨_, h | ⟨_, h | h⟩⟩⟩⟩
  · rw [h.2] at ht; simp only at ht; split_ifs at ht
  · rw [h.2.2] at ht; simp at ht
  · obtain ⟨b, _, h⟩ := h
    rw [h] at ht; simp at ht
  · obtain ⟨c2, h2, h⟩ := h
    rw [h]
    obtain ⟨h3, h4, h5⟩ := md_analyze_line_setext_some _ _ _ _ h2
    have hch := CH_congr (md_analyze_line_atx_text ctx (line_start ctx beg)) (line_start ctx beg)
    rw [hch] at h4 h5
    rw [h5]
    exact ⟨h3, h4, rfl⟩
  · obtain ⟨e, _, h⟩ := h
    rw [h] at ht; simp at ht
  · rw [h.2] at ht; simp at ht

/-- A line is classified as an ATX header only if it starts with one to six `#`, and their
number is the level then recorded. -/
theorem md_analyze_line_of_atxheader (ctx : MD_CTX σ) (beg : Nat) (pivot_line : MD_LINE)
    (ht : (md_analyze_line ctx beg pivot_line).2.2.type = MD_LINE_ATXHEADER) :
    CH ctx (line_start ctx beg) = '#'
      ∧ (md_analyze_line ctx beg pivot_line).1.header_level
          = ((ctx.text.drop (line_start ctx beg)).takeWhile (fun ch => ch == '#')).length
      ∧ 1 ≤ (md_analyze_line ctx beg pivot_line).1.header_level
      ∧ (md_analyze_line ctx beg pivot_line).1.header_level ≤ 6 := by
  rw [md_analyze_line_type_eq] at ht
  rw [md_analyze_line_ctx]
  rcases md_analyze_line_type_cases ctx beg pivot_line with h | ⟨_, h | ⟨_, h | ⟨_, h | ⟨_, h | h⟩⟩⟩⟩
  · rw [h.2] at ht; simp only at ht; split_ifs at ht
  · rw [h.2.2] at ht; simp at ht
  · obtain ⟨b, hb, h⟩ := h
    rw [h]
    exact atx_level_eq ctx _ b hb
  · obtain ⟨c2, _, h⟩ := h
    rw [h] at ht; simp at ht
  · obtain ⟨e, _, h⟩ := h
    rw [h] at ht; simp at ht
  · rw [h.2] at ht; simp at ht

/-- Indented code cannot interrupt a paragraph. -/
theorem md_analyze_line_of_indentedcode (ctx : MD_CTX σ) (beg : Nat) (pivot_line : MD_LINE)
    (ht : (md_analyze_line ctx beg pivot_line).2.2.type = MD_LINE_INDENTEDCODE) :
    pivot_line.type = MD_LINE_BLANK ∨ pivot_line.type = MD_LINE_INDENTEDCODE := by
  rw [md_analyze_line_type_eq] at ht
  rcases md_analyze_line_type_cases ctx beg pivot_line with h | ⟨_, h | ⟨_, h | ⟨_, h | ⟨_, h | h⟩⟩⟩⟩
  · rw [h.2] at ht; simp only at ht
    split_ifs at ht with hp
    exact Or.inr hp
  · exact h.1
  · obtain ⟨b, _, h⟩ := h
    rw [h] at ht; simp at ht
  · obtain ⟨c2, _, h⟩ := h
    rw [h] at ht; simp at ht
  · obtain ⟨e, _, h⟩ := h
    rw [h] at ht; simp at ht
  · rw [h.2] at ht; simp at ht

theorem md_analyze_line_of_blank (ctx : MD_CTX σ) (beg : Nat) (pivot_line : MD_LINE)
    (ht : (md_analyze_line ctx beg pivot_line).2.2.type = MD_LINE_BLANK) :
    pivot_line.type ≠ MD_LINE_INDENTEDCODE := by
  rw [md_analyze_line_type_eq] at ht
  rcases md_analyze_line_type_cases ctx beg pivot_line with h | ⟨_, h | ⟨_, h | ⟨_, h | ⟨_, h | h⟩⟩⟩⟩
  · rw [h.2] at ht; simp only at ht
    split_ifs at ht with hp
    exact hp
  · rw [h.2.2] at ht; simp at ht
  · obtain ⟨b, _, h⟩ := h
    rw [h] at ht; simp at ht
  · obtain ⟨c2, _, h⟩ := h
    rw [h] at ht; simp at ht
  · obtain ⟨e, _, h⟩ := h
    rw [h] at ht; simp at ht
  · rw [h.2] at ht; simp at ht

/-- A line classified as text has a content that is not empty and lies in the buffer. -/
theorem md_analyze_line_of_text (ctx : MD_CTX σ) (beg : Nat) (pivot_line : MD_LINE)
    (hbeg : beg ≤ ctx.size)
    (ht : (md_analyze_line ctx beg pivot_line).2.2.type = MD_LINE_TEXT) :
    (md_analyze_line ctx beg pivot_line).2.2.beg = line_start ctx beg
      ∧ (md_analyze_line ctx beg pivot_line).2.2.beg < (md_analyze_line ctx beg pivot_line).2.2.end_
      ∧ (md_analyze_line ctx beg pivot_line).2.2.end_ ≤ ctx.size := by
  have hend := md_analyze_line_end_le ctx beg pivot_line
  rw [md_analyze_line_type_eq] at ht
  rcases md_analyze_line_type_cases ctx beg pivot_line with h | ⟨_, h | ⟨_, h | ⟨_, h | ⟨_, h | h⟩⟩⟩⟩
  · rw [h.2] at ht; simp only at ht; split_ifs at ht
  · rw [h.2.2] at ht; simp at ht
  · obtain ⟨b, _, h⟩ := h
    rw [h] at ht; simp at ht
  · obtain ⟨c2, _, h⟩ := h
    rw [h] at ht; simp at ht
  · obtain ⟨e, _, h⟩ := h
    rw [h] at ht; simp at ht
  · rename_i hnb _ _ _
    have hls := line_start_le ctx beg hbeg
    have hnblank := line_start_not_blank ctx beg hnb.1
    have hsp : CH ctx (line_start ctx beg) ≠ ' ' := by
      intro hh
      rw [hh] at hnblank
      exact absurd hnblank (by decide)
    have htext := md_analyze_line_atx_text ctx (line_start ctx beg)
    rw [h.2] at hend
    simp only at hend
    have hfw : line_start ctx beg
        < scan_forward ctx (fun ch => !ISNEWLINE_ ch) (line_start ctx beg) := by
      rw [scan_forward_unfold, if_pos]
      · exact Nat.lt_of_lt_of_le (Nat.lt_succ_self _) (scan_forward_ge _ _ _)
      · refine ⟨hnb.1, ?_⟩
        have := hnb.2
        unfold ISNEWLINE at this
        simp [this]
    have hfl := scan_forward_le ctx (fun ch => !ISNEWLINE_ ch) (line_start ctx beg) hls
    refine ⟨?_, ?_, by omega⟩
    · rw [md_analyze_line_beg_eq, h.2]
    · simp only [md_analyze_line, h.2]
      rw [md_analyze_line_atx_end_of_ne _ _ (by simp)]
      simp only
      rw [scan_backward_congr htext, scan_forward_congr htext]
      exact scan_backward_gt ctx ' ' _ _ hfw hsp


/-! ### The next offset -/

theorem md_analyze_line_type_text (ctx : MD_CTX σ) (beg : Nat) (pivot_line : MD_LINE) :
    (md_analyze_line_type ctx beg pivot_line).1.text = ctx.text := by
  rw [← md_analyze_line_ctx]; exact md_analyze_line_text ctx beg pivot_line

/-- The offset that "eat rest of the line contents" reaches: the end of the line. -/
theorem md_analyze_line_next_eq (ctx : MD_CTX σ) (beg : Nat) (pivot_line : MD_LINE) :
    (md_analyze_line ctx beg pivot_line).2.1 =
      (if (if scan_forward ctx (fun ch => !ISNEWLINE_ ch) (md_analyze_line_type ctx beg pivot_line).2.1
                < ctx.size
              ∧ CH ctx (scan_forward ctx (fun ch => !ISNEWLINE_ ch)
                  (md_analyze_line_type ctx beg pivot_line).2.1) = '\r'
            then scan_forward ctx (fun ch => !ISNEWLINE_ ch)
                  (md_analyze_line_type ctx beg pivot_line).2.1 + 1
            else scan_forward ctx (fun ch => !ISNEWLINE_ ch)
                  (md_analyze_line_type ctx beg pivot_line).2.1) < ctx.size
          ∧ CH ctx (if scan_forward ctx (fun ch => !ISNEWLINE_ ch)
                  (md_analyze_line_type ctx beg pivot_line).2.1 < ctx.size
              ∧ CH ctx (scan_forward ctx (fun ch => !ISNEWLINE_ ch)
                  (md_analyze_line_type ctx beg pivot_line).2.1) = '\r'
            then scan_forward ctx (fun ch => !ISNEWLINE_ ch)
                  (md_analyze_line_type ctx beg pivot_line).2.1 + 1
            else scan_forward ctx (fun ch => !ISNEWLINE_ ch)
                  (md_analyze_line_type ctx beg pivot_line).2.1) = '\n'
        then (if scan_forward ctx (fun ch => !ISNEWLINE_ ch)
                  (md_analyze_line_type ctx beg pivot_line).2.1 < ctx.size
              ∧ CH ctx (scan_forward ctx (fun ch => !ISNEWLINE_ ch)
                  (md_analyze_line_type ctx beg pivot_line).2.1) = '\r'
            then scan_forward ctx (fun ch => !ISNEWLINE_ ch)
                  (md_analyze_line_type ctx beg pivot_line).2.1 + 1
            else scan_forward ctx (fun ch => !ISNEWLINE_ ch)
                  (md_analyze_line_type ctx beg pivot_line).2.1) + 1
        else (if scan_forward ctx (fun ch => !ISNEWLINE_ ch)
                  (md_analyze_line_type ctx beg pivot_line).2.1 < ctx.size
              ∧ CH ctx (scan_forward ctx (fun ch => !ISNEWLINE_ ch)
                  (md_analyze_line_type ctx beg pivot_line).2.1) = '\r'
            then scan_forward ctx (fun ch => !ISNEWLINE_ ch)
                  (md_analyze_line_type ctx beg pivot_line).2.1 + 1
            else scan_forward ctx (fun ch => !ISNEWLINE_ ch)
                  (md_analyze_line_type ctx beg pivot_line).2.1)) := by
  have htext := md_analyze_line_type_text ctx beg pivot_line
  simp only [md_analyze_line, scan_forward_congr htext, CH_congr htext, size_congr htext]

theorem md_analyze_line_type_off (ctx : MD_CTX σ) (beg : Nat) (pivot_line : MD_LINE) :
    line_start ctx beg ≤ (md_analyze_line_type ctx beg pivot_line).2.1
      ∧ (beg ≤ ctx.size → (md_analyze_line_type ctx beg pivot_line).2.1 ≤ ctx.size) := by
  have hls := line_start_le ctx beg
  rcases md_analyze_line_type_cases ctx beg pivot_line with h | ⟨_, h | ⟨_, h | ⟨_, h | ⟨_, h | h⟩⟩⟩⟩
  · rw [h.2]; exact ⟨le_refl _, hls⟩
  · rw [h.2.2]; exact ⟨le_refl _, hls⟩
  · obtain ⟨b, _, h⟩ := h
    rw [h]; exact ⟨le_refl _, hls⟩
  · obtain ⟨c2, _, h⟩ := h
    rw [h]; exact ⟨le_refl _, hls⟩
  · obtain ⟨e, he, h⟩ := h
    rw [h]
    rename_i hnb _ _ _
    obtain ⟨_, he2⟩ := md_analyze_line_hr_some ctx _ e he
    simp only
    rw [he2]
    constructor
    · exact le_trans (Nat.le_succ _) (scan_forward_ge _ _ _)
    · intro _
      exact scan_forward_le _ _ _ hnb.1
  · rw [h.2]; exact ⟨le_refl _, hls⟩

/-- The next offset stays inside the buffer. -/
theorem md_analyze_line_next_le (ctx : MD_CTX σ) (beg : Nat) (pivot_line : MD_LINE)
    (hbeg : beg ≤ ctx.size) : (md_analyze_line ctx beg pivot_line).2.1 ≤ ctx.size := by
  rw [md_analyze_line_next_eq]
  have h1 := (md_analyze_line_type_off ctx beg pivot_line).2 hbeg
  have h2 := scan_forward_le ctx (fun ch => !ISNEWLINE_ ch) _ h1
  split_ifs <;> omega

/-- The analysis of a line consumes at least one character. -/
theorem md_analyze_line_next_gt (ctx : MD_CTX σ) (beg : Nat) (pivot_line : MD_LINE)
    (hbeg : beg < ctx.size) : beg < (md_analyze_line ctx beg pivot_line).2.1 := by
  rw [md_analyze_line_next_eq]
  have hge := line_start_ge ctx beg
  have hoff := (md_analyze_line_type_off ctx beg pivot_line).1
  have hfw := scan_forward_ge ctx (fun ch => !ISNEWLINE_ ch)
    (md_analyze_line_type ctx beg pivot_line).2.1
  by_cases hL : line_start ctx beg < ctx.size
  · by_cases hnl : ISNEWLINE ctx (line_start ctx beg) = true
    · -- a blank line that ends with a line terminator
      have ht := md_analyze_line_type_blank ctx beg pivot_line (Or.inr hnl)
      have hT : (md_analyze_line_type ctx beg pivot_line).2.1 = line_start ctx beg := by rw [ht]
      have hE : scan_forward ctx (fun ch => !ISNEWLINE_ ch) (line_start ctx beg)
          = line_start ctx beg := by
        rw [scan_forward_unfold, if_neg]
        intro hh
        have := hh.2
        unfold ISNEWLINE at hnl
        simp [hnl] at this
      rw [hT, hE]
      have hcr : CH ctx (line_start ctx beg) = '\r' ∨ CH ctx (line_start ctx beg) = '\n' := by
        unfold ISNEWLINE ISNEWLINE_ at hnl
        simpa using hnl
      rcases hcr with hcr | hcr
      · have hc1 : line_start ctx beg < ctx.size ∧ CH ctx (line_start ctx beg) = '\r' := ⟨hL, hcr⟩
        simp only [if_pos hc1]
        split_ifs <;> omega
      · have hne : ¬ (line_start ctx beg < ctx.size ∧ CH ctx (line_start ctx beg) = '\r') := by
          intro hh
          rw [hcr] at hh
          exact absurd hh.2 (by decide)
        have hc2 : line_start ctx beg < ctx.size ∧ CH ctx (line_start ctx beg) = '\n' := ⟨hL, hcr⟩
        simp only [if_neg hne, if_pos hc2]
        omega
    · -- a line with content
      have hstep : line_start ctx beg
          < scan_forward ctx (fun ch => !ISNEWLINE_ ch)
              (md_analyze_line_type ctx beg pivot_line).2.1 := by
        by_cases hT : (md_analyze_line_type ctx beg pivot_line).2.1 = line_start ctx beg
        · rw [hT, scan_forward_unfold, if_pos]
          · exact Nat.lt_of_lt_of_le (Nat.lt_succ_self _) (scan_forward_ge _ _ _)
          · refine ⟨hL, ?_⟩
            unfold ISNEWLINE at hnl
            simpa using hnl
        · omega
      split_ifs <;> omega
  · split_ifs <;> omega


/-! ## Records of emissions -/

theorem run_of_nil : run_of 0 [] [] := Or.inl ⟨rfl, rfl⟩

theorem run_of_append_ok {ret : Int} {n1 n2 : List (MD_EVENT × Int)} {p1 p2 : List MD_EVENT}
    (h1 : run_of 0 n1 p1) (h2 : run_of ret n2 p2) : run_of ret (n1 ++ n2) (p1 ++ p2) := by
  rcases h1 with ⟨_, h1⟩ | ⟨h1, _⟩
  · rcases h2 with ⟨hr, h2⟩ | ⟨hr, pre, e, post, hp, h2⟩
    · exact Or.inl ⟨hr, by rw [h1, h2, List.map_append]⟩
    · refine Or.inr ⟨hr, p1 ++ pre, e, post, ?_, ?_⟩
      · rw [hp, List.append_assoc]
      · rw [h1, h2, List.map_append, List.append_assoc]
  · exact absurd rfl h1

theorem run_of_append_fail {ret : Int} {n1 : List (MD_EVENT × Int)} {p1 : List MD_EVENT}
    (p2 : List MD_EVENT) (hr : ret ≠ 0) (h1 : run_of ret n1 p1) : run_of ret n1 (p1 ++ p2) := by
  rcases h1 with ⟨h0, _⟩ | ⟨_, pre, e, post, hp, h1⟩
  · exact absurd h0 hr
  · exact Or.inr ⟨hr, pre, e, post ++ p2, by rw [hp]; simp, h1⟩

/-- The record of an emission: what `emit` adds to `events`. -/
theorem emit_run_of (ctx : MD_CTX σ) (plan : List MD_EVENT) :
    ∃ new, (emit ctx plan).2.events = ctx.events ++ new ∧ run_of (emit ctx plan).1 new plan := by
  induction plan generalizing ctx with
  | nil => exact ⟨[], by simp, run_of_nil⟩
  | cons e es ih =>
    rw [emit_cons]
    obtain ⟨_, _, _, _, hev⟩ := emit_one_spec ctx e
    by_cases h : (emit_one ctx e).1 ≠ 0
    · rw [if_pos h]
      exact ⟨[(e, (emit_one ctx e).1)], hev, Or.inr ⟨h, [], e, es, rfl, rfl⟩⟩
    · rw [if_neg h]
      have h0 : (emit_one ctx e).1 = 0 := by simpa using h
      obtain ⟨new, hnew, hrun⟩ := ih (emit_one ctx e).2
      refine ⟨(e, 0) :: new, ?_, ?_⟩
      · rw [hnew, hev, h0]; simp
      · have h1 : run_of 0 [(e, (0 : Int))] [e] := Or.inl ⟨rfl, rfl⟩
        exact run_of_append_ok h1 hrun

theorem run_of_zero {events : List (MD_EVENT × Int)} {plan : List MD_EVENT}
    (h : run_of 0 events plan) : events = plan.map (fun e => (e, 0)) := by
  rcases h with ⟨_, h⟩ | ⟨h, _⟩
  · exact h
  · exact absurd rfl h

/-! ## The main loop of `md_process_doc` -/

theorem set_setextheader_head (lines : List MD_LINE) (h : lines ≠ []) :
    ∃ l0 rest, lines = l0 :: rest
      ∧ set_setextheader lines = { l0 with type := MD_LINE_SETEXTHEADER } :: rest := by
  cases lines with
  | nil => exact absurd rfl h
  | cons l0 rest => exact ⟨l0, rest, rfl, rfl⟩

theorem doc_inv_head (s : MD_DOC_STATE σ) (h : doc_inv s) :
    ∀ l ∈ s.lines.head?, l.type = MD_LINE_BLANK ∨ l.type = MD_LINE_TEXT
      ∨ l.type = MD_LINE_INDENTEDCODE := by
  intro l hl
  obtain ⟨_, h2, h3, _⟩ := h
  have hmem : l ∈ s.lines := List.mem_of_mem_head? hl
  rw [(h2 l hmem).1]
  exact h3

theorem doc_inv_pivot (s : MD_DOC_STATE σ) (h : doc_inv s) (hne : s.lines ≠ []) :
    ∃ l0 rest, s.lines = l0 :: rest ∧ s.pivot_line = l0 ∧ s.pivot_is_dummy = false := by
  obtain ⟨h1, _⟩ := h
  cases hl : s.lines with
  | nil => exact absurd hl hne
  | cons l0 rest =>
    have hd : s.pivot_is_dummy = false := by
      cases hh : s.pivot_is_dummy
      · rfl
      · exact absurd (h1.1 hh) hne
    refine ⟨l0, rest, rfl, ?_, hd⟩
    unfold MD_DOC_STATE.pivot_line
    rw [hd, hl]
    rfl

theorem doc_inv_pivot_nil (s : MD_DOC_STATE σ) (h : doc_inv s) (hnil : s.lines = []) :
    s.pivot_line = dummy_line := by
  obtain ⟨h1, _⟩ := h
  unfold MD_DOC_STATE.pivot_line
  rw [h1.2 hnil]
  rfl

/-- One round of the main loop invokes the callbacks for the events of the blocks it
flushes, in order, up to the first failure; when none fails, the pending lines and the
pivot are updated as described. -/
theorem md_process_doc_iter_spec (s : MD_DOC_STATE σ) (hinv : doc_inv s) :
    (md_process_doc_iter s).1
        = (emit (md_analyze_line s.ctx s.off s.pivot_line).1 (md_process_doc_iter_events s)).1
      ∧ (md_process_doc_iter s).2.ctx
        = (emit (md_analyze_line s.ctx s.off s.pivot_line).1 (md_process_doc_iter_events s)).2
      ∧ (md_process_doc_iter s).2.off = (md_analyze_line s.ctx s.off s.pivot_line).2.1
      ∧ ((md_process_doc_iter s).1 = 0 →
          ((md_process_doc_iter s).2.pivot_is_dummy, (md_process_doc_iter s).2.lines) =
            (if (md_analyze_line s.ctx s.off s.pivot_line).2.2.type = MD_LINE_HR
                ∨ (md_analyze_line s.ctx s.off s.pivot_line).2.2.type = MD_LINE_ATXHEADER then
              (true, [])
            else if (md_analyze_line s.ctx s.off s.pivot_line).2.2.type
                = MD_LINE_SETEXTUNDERLINE then
              (false, [{ (md_analyze_line s.ctx s.off s.pivot_line).2.2 with
                          type := MD_LINE_BLANK }])
            else if (md_analyze_line s.ctx s.off s.pivot_line).2.2.type ≠ s.pivot_line.type then
              (false, [(md_analyze_line s.ctx s.off s.pivot_line).2.2])
            else if (md_analyze_line s.ctx s.off s.pivot_line).2.2.type = MD_LINE_BLANK then
              (s.pivot_is_dummy, s.lines)
            else (s.pivot_is_dummy, s.lines ++ [(md_analyze_line s.ctx s.off s.pivot_line).2.2]))) := by
  have hhead := doc_inv_head s hinv
  have hhead' : ∀ l ∈ s.lines.head?, l.type ≠ MD_LINE_SETEXTUNDERLINE := by
    intro l hl
    rcases hhead l hl with h | h | h <;> rw [h] <;> simp
  have htext := md_analyze_line_text s.ctx s.off s.pivot_line
  have hsetfact := md_analyze_line_of_setextunderline s.ctx s.off s.pivot_line
  unfold md_process_doc_iter md_process_doc_iter_events
  simp only
  generalize md_analyze_line s.ctx s.off s.pivot_line = a at htext hsetfact ⊢
  by_cases hself : a.2.2.type = MD_LINE_HR ∨ a.2.2.type = MD_LINE_ATXHEADER
  · simp only [if_pos hself]
    have hline : ∀ l ∈ [a.2.2].head?, l.type ≠ MD_LINE_SETEXTUNDERLINE := by
      intro l hl
      simp only [List.head?_cons, Option.mem_def, Option.some.injEq] at hl
      subst hl
      rcases hself with h | h <;> rw [h] <;> simp
    rw [md_process_block_eq_emit _ _ hhead', md_process_block_eq_emit _ _ hline]
    simp only [emit_text, emit_header_level, htext]
    rw [emit_append]
    by_cases h1 : (emit a.1 (block_events s.ctx.text a.1.header_level s.lines)).1 ≠ 0
    · simp only [if_pos h1, true_and]
      intro h0
      exact absurd h0 h1
    · simp only [if_neg h1]
      by_cases h2 : (emit (emit a.1 (block_events s.ctx.text a.1.header_level s.lines)).2
          (block_events s.ctx.text a.1.header_level [a.2.2])).1 ≠ 0
      · simp only [if_pos h2, true_and]
        intro h0
        exact absurd h0 h2
      · simp only [if_neg h2, and_true, implies_true]
        exact (by simpa using h2 : _ = (0 : Int)).symm
  · simp only [if_neg hself]
    by_cases hset : a.2.2.type = MD_LINE_SETEXTUNDERLINE
    · -- a setext underline: the pivot is a text line
      have hpt := (hsetfact hset).1
      have hne : s.lines ≠ [] := by
        intro hnil
        rw [doc_inv_pivot_nil s hinv hnil] at hpt
        exact absurd hpt (by simp [dummy_line])
      obtain ⟨l0, rest, hl, hp, hd⟩ := doc_inv_pivot s hinv hne
      have hnn : ¬ (a.2.2.type = MD_LINE_SETEXTUNDERLINE ∧ s.lines = []) := fun hh => hne hh.2
      have hflush : ∀ l ∈ (set_setextheader s.lines).head?, l.type ≠ MD_LINE_SETEXTUNDERLINE := by
        intro l hmem
        rw [hl] at hmem
        simp only [set_setextheader, List.head?_cons, Option.mem_def, Option.some.injEq] at hmem
        subst hmem
        simp
      simp only [if_neg hnn, if_pos hset, MD_DOC_STATE.pivot_line, hd]
      rw [md_process_block_eq_emit _ _ hflush]
      have hcond : ¬ (MD_LINE_BLANK = ((set_setextheader s.lines).headD dummy_line).type) := by
        rw [hl]
        simp [set_setextheader]
      simp only [Bool.false_eq_true, if_false, ne_eq, hcond, not_false_eq_true, if_true, htext]
      by_cases h1 : (emit a.1 (block_events s.ctx.text a.1.header_level
          (set_setextheader s.lines))).1 = 0
      · simp only [h1, not_true_eq_false, if_false, and_self, implies_true]
      · simp only [h1, not_false_eq_true, if_true, true_and, false_implies]
    · have hnn : ¬ (a.2.2.type = MD_LINE_SETEXTUNDERLINE ∧ s.lines = []) := fun hh => hset hh.1
      have hp : ({ s with ctx := a.1, off := a.2.1 } : MD_DOC_STATE σ).pivot_line = s.pivot_line :=
        rfl
      simp only [if_neg hnn, if_neg hset, hp]
      by_cases hch : a.2.2.type ≠ s.pivot_line.type
      · simp only [if_pos hch]
        rw [md_process_block_eq_emit _ _ hhead']
        simp only [htext]
        by_cases h1 : (emit a.1 (block_events s.ctx.text a.1.header_level s.lines)).1 = 0
        · simp only [h1, ne_eq, not_true_eq_false, if_false, and_self, implies_true]
        · simp only [h1, ne_eq, not_false_eq_true, if_true, true_and, false_implies]
      · simp only [if_neg hch, emit_nil]
        split_ifs <;> simp

theorem md_process_doc_iter_size (s : MD_DOC_STATE σ) (hinv : doc_inv s) :
    (md_process_doc_iter s).2.ctx.size = s.ctx.size
      ∧ (md_process_doc_iter s).2.ctx.text = s.ctx.text
      ∧ (md_process_doc_iter s).2.ctx.r = s.ctx.r
      ∧ (md_process_doc_iter s).2.ctx.code_indent_offset = s.ctx.code_indent_offset := by
  obtain ⟨_, h2, _, _⟩ := md_process_doc_iter_spec s hinv
  rw [h2]
  simp

theorem analysed_type_cases (ctx : MD_CTX σ) (beg : Nat) (pivot_line : MD_LINE)
    (h1 : ¬ ((md_analyze_line ctx beg pivot_line).2.2.type = MD_LINE_HR
      ∨ (md_analyze_line ctx beg pivot_line).2.2.type = MD_LINE_ATXHEADER))
    (h2 : (md_analyze_line ctx beg pivot_line).2.2.type ≠ MD_LINE_SETEXTUNDERLINE) :
    (md_analyze_line ctx beg pivot_line).2.2.type = MD_LINE_BLANK
      ∨ (md_analyze_line ctx beg pivot_line).2.2.type = MD_LINE_TEXT
      ∨ (md_analyze_line ctx beg pivot_line).2.2.type = MD_LINE_INDENTEDCODE := by
  have h3 := md_analyze_line_type_ne_setextheader ctx beg pivot_line
  cases h : (md_analyze_line ctx beg pivot_line).2.2.type <;> simp_all

/-- The invariant of the main loop is preserved by a round that does not abort. -/
theorem md_process_doc_iter_inv (s : MD_DOC_STATE σ) (hinv : doc_inv s)
    (h0 : (md_process_doc_iter s).1 = 0) : doc_inv (md_process_doc_iter s).2 := by
  obtain ⟨_, _, hoff, hst⟩ := md_process_doc_iter_spec s hinv
  obtain ⟨hsize, _, _, _⟩ := md_process_doc_iter_size s hinv
  have hst := hst h0
  obtain ⟨hd, hl, hp, hle⟩ := hinv
  have hnext := md_analyze_line_next_le s.ctx s.off s.pivot_line hle
  have htextline := md_analyze_line_of_text s.ctx s.off s.pivot_line hle
  have hkind := analysed_type_cases s.ctx s.off s.pivot_line
  unfold doc_inv
  rw [hsize, hoff]
  generalize md_analyze_line s.ctx s.off s.pivot_line = a at *
  generalize md_process_doc_iter s = r at *
  unfold MD_DOC_STATE.pivot_line at hl hp ⊢
  by_cases hself : a.2.2.type = MD_LINE_HR ∨ a.2.2.type = MD_LINE_ATXHEADER
  · rw [if_pos hself] at hst
    obtain ⟨e1, e2⟩ := Prod.mk.inj hst
    rw [e1, e2]
    simp [dummy_line, hnext]
  · rw [if_neg hself] at hst
    by_cases hset : a.2.2.type = MD_LINE_SETEXTUNDERLINE
    · rw [if_pos hset] at hst
      obtain ⟨e1, e2⟩ := Prod.mk.inj hst
      rw [e1, e2]
      simp [hnext]
    · rw [if_neg hset] at hst
      have hk := hkind hself hset
      by_cases hch : a.2.2.type ≠ s.pivot_line.type
      · rw [if_pos hch] at hst
        obtain ⟨e1, e2⟩ := Prod.mk.inj hst
        rw [e1, e2]
        refine ⟨by simp, ?_, ?_, hnext⟩
        · intro l hmem
          simp only [List.mem_singleton] at hmem
          subst hmem
          exact ⟨by simp, fun ht => (htextline ht).2⟩
        · simpa using hk
      · rw [if_neg hch] at hst
        have heq : a.2.2.type = s.pivot_line.type := by simpa using hch
        unfold MD_DOC_STATE.pivot_line at heq
        by_cases hb : a.2.2.type = MD_LINE_BLANK
        · rw [if_pos hb] at hst
          obtain ⟨e1, e2⟩ := Prod.mk.inj hst
          rw [e1, e2]
          exact ⟨hd, hl, hp, hnext⟩
        · rw [if_neg hb] at hst
          obtain ⟨e1, e2⟩ := Prod.mk.inj hst
          rw [e1, e2]
          have hnd : s.pivot_is_dummy = false := by
            cases hh : s.pivot_is_dummy
            · rfl
            · rw [hh] at heq
              simp only [if_true] at heq
              exact absurd heq hb
          have hne : s.lines ≠ [] := fun hnil => by
            have := hd.2 hnil
            rw [hnd] at this
            exact absurd this (by simp)
          obtain ⟨l0, rest, hlines⟩ : ∃ l0 rest, s.lines = l0 :: rest := by
            cases hh : s.lines with
            | nil => exact absurd hh hne
            | cons l0 rest => exact ⟨l0, rest, rfl⟩
          rw [hnd, hlines] at hl hp heq ⊢
          simp only [Bool.false_eq_true, if_false, List.headD_cons, List.cons_append] at hl hp heq ⊢
          refine ⟨by simp, ?_, hp, hnext⟩
          intro l hmem
          rcases List.mem_cons.1 hmem with hm | hm
          · exact hl l (by rw [hm]; simp)
          · rcases List.mem_append.1 hm with hm | hm
            · exact hl l (List.mem_cons_of_mem _ hm)
            · simp only [List.mem_singleton] at hm
              subst hm
              exact ⟨heq, fun ht => (htextline ht).2⟩

/-- The pending lines, when flushed, give no event or the events of one block. -/
theorem pending_blocks (s : MD_DOC_STATE σ) (hinv : doc_inv s) (hl : Nat) :
    ∃ blocks : List (List MD_EVENT), block_events s.ctx.text hl s.lines = blocks.flatten
      ∧ ∀ b ∈ blocks, is_block s.ctx.text b := by
  have h2 := hinv.2.1
  cases hlines : s.lines with
  | nil => exact ⟨[], rfl, by simp⟩
  | cons l0 rest =>
    have hne : s.lines ≠ [] := by rw [hlines]; simp
    obtain ⟨l0', rest', hl', hp, _⟩ := doc_inv_pivot s hinv hne
    rw [hlines] at hl'
    obtain ⟨e1, e2⟩ := List.cons.inj hl'
    subst e1 e2
    rcases doc_inv_head s hinv l0 (by rw [hlines]; simp) with ht | ht | ht
    · exact ⟨[], by simp [block_events, ht], by simp⟩
    · refine ⟨[block_events s.ctx.text hl (l0 :: rest)], by simp, ?_⟩
      intro b hb
      simp only [List.mem_singleton] at hb
      subst hb
      refine ⟨hl, l0 :: rest, ?_, rfl⟩
      simp only [block_ok, ht]
      intro l hmem
      rw [← hlines] at hmem
      have := h2 l hmem
      rw [hp, ht] at this
      exact this.2 this.1
    · refine ⟨[block_events s.ctx.text hl (l0 :: rest)], by simp, ?_⟩
      intro b hb
      simp only [List.mem_singleton] at hb
      subst hb
      refine ⟨hl, l0 :: rest, ?_, rfl⟩
      simp only [block_ok, ht]

/-- The events planned by a round of the main loop are the events of blocks. -/
theorem md_process_doc_iter_blocks (s : MD_DOC_STATE σ) (hinv : doc_inv s) :
    ∃ blocks : List (List MD_EVENT), md_process_doc_iter_events s = blocks.flatten
      ∧ ∀ b ∈ blocks, is_block s.ctx.text b := by
  have hatx := md_analyze_line_of_atxheader s.ctx s.off s.pivot_line
  have hsetu := md_analyze_line_of_setextunderline s.ctx s.off s.pivot_line
  unfold md_process_doc_iter_events
  simp only
  generalize md_analyze_line s.ctx s.off s.pivot_line = a at *
  obtain ⟨pb, hpb, hpbok⟩ := pending_blocks s hinv a.1.header_level
  by_cases hself : a.2.2.type = MD_LINE_HR ∨ a.2.2.type = MD_LINE_ATXHEADER
  · rw [if_pos hself]
    refine ⟨pb ++ [block_events s.ctx.text a.1.header_level [a.2.2]], ?_, ?_⟩
    · rw [hpb]; simp
    · intro b hb
      rcases List.mem_append.1 hb with hb | hb
      · exact hpbok b hb
      · simp only [List.mem_singleton] at hb
        subst hb
        refine ⟨a.1.header_level, [a.2.2], ?_, rfl⟩
        rcases hself with ht | ht
        · simp only [block_ok, ht]
        · simp only [block_ok, ht]
          exact ⟨trivial, (hatx ht).2.2.1, (hatx ht).2.2.2⟩
  · rw [if_neg hself]
    by_cases hset : a.2.2.type = MD_LINE_SETEXTUNDERLINE
    · rw [if_pos hset]
      obtain ⟨hpt, _, hlev⟩ := hsetu hset
      have hne : s.lines ≠ [] := by
        intro hnil
        rw [doc_inv_pivot_nil s hinv hnil] at hpt
        exact absurd hpt (by simp [dummy_line])
      obtain ⟨l0, rest, hl, hp, _⟩ := doc_inv_pivot s hinv hne
      refine ⟨[block_events s.ctx.text a.1.header_level (set_setextheader s.lines)], by simp, ?_⟩
      intro b hb
      simp only [List.mem_singleton] at hb
      subst hb
      refine ⟨a.1.header_level, set_setextheader s.lines, ?_, rfl⟩
      obtain ⟨_, h2, _, _⟩ := hinv
      have hcontent : ∀ l ∈ s.lines, l.beg < l.end_ ∧ l.end_ ≤ s.ctx.text.length := by
        intro l hmem
        have := h2 l hmem
        rw [hpt] at this
        exact this.2 this.1
      rw [hl] at hcontent ⊢
      simp only [set_setextheader, block_ok]
      refine ⟨?_, ?_, ?_⟩
      · rw [hlev]; split_ifs <;> omega
      · rw [hlev]; split_ifs <;> omega
      · intro l hmem
        rcases List.mem_cons.1 hmem with hm | hm
        · rw [hm]
          exact hcontent l0 (by simp)
        · exact hcontent l (List.mem_cons_of_mem _ hm)
    · rw [if_neg hset]
      by_cases hch : a.2.2.type ≠ s.pivot_line.type
      · rw [if_pos hch]
        exact ⟨pb, hpb, hpbok⟩
      · rw [if_neg hch]
        exact ⟨[], rfl, by simp⟩

/-- The main loop of `md_process_doc` terminates within `size - off` rounds, and what it
emits are the events of blocks, in order, up to the first failure. -/
theorem md_process_doc_loop_spec (fuel : Nat) :
    ∀ s : MD_DOC_STATE σ, doc_inv s → s.ctx.size - s.off ≤ fuel →
      ∃ (res : Int × MD_DOC_STATE σ) (blocks : List (List MD_EVENT)) (new : List (MD_EVENT × Int)),
        md_process_doc_loop fuel s = some res
          ∧ res.2.ctx.events = s.ctx.events ++ new
          ∧ run_of res.1 new blocks.flatten
          ∧ (∀ b ∈ blocks, is_block s.ctx.text b)
          ∧ res.2.ctx.text = s.ctx.text
          ∧ (res.1 = 0 → doc_inv res.2) := by
  induction fuel with
  | zero =>
    intro s hinv hf
    refine ⟨(0, s), [], [], ?_, by simp, run_of_nil, by simp, rfl, fun _ => hinv⟩
    unfold md_process_doc_loop
    rw [if_neg (by omega)]
  | succ fuel ih =>
    intro s hinv hf
    unfold md_process_doc_loop
    by_cases hlt : s.off < s.ctx.size
    · rw [if_pos hlt]
      simp only
      obtain ⟨h1, h2, h3, _⟩ := md_process_doc_iter_spec s hinv
      obtain ⟨hsz, htx, _, _⟩ := md_process_doc_iter_size s hinv
      obtain ⟨blocks1, hb1, hok1⟩ := md_process_doc_iter_blocks s hinv
      obtain ⟨new1, hnew1, hrun1⟩ :=
        emit_run_of (md_analyze_line s.ctx s.off s.pivot_line).1 (md_process_doc_iter_events s)
      rw [← h2, md_analyze_line_events] at hnew1
      rw [← h1, hb1] at hrun1
      by_cases hr : (md_process_doc_iter s).1 ≠ 0
      · rw [if_pos hr]
        exact ⟨md_process_doc_iter s, blocks1, new1, rfl, hnew1, hrun1, hok1, htx,
          fun h0 => absurd h0 hr⟩
      · rw [if_neg hr]
        have h0 : (md_process_doc_iter s).1 = 0 := by simpa using hr
        have hinv2 := md_process_doc_iter_inv s hinv h0
        have hgt := md_analyze_line_next_gt s.ctx s.off s.pivot_line hlt
        obtain ⟨res, blocks2, new2, hres, hev, hrun2, hok2, htx2, hinv3⟩ :=
          ih (md_process_doc_iter s).2 hinv2 (by rw [hsz, h3]; omega)
        refine ⟨res, blocks1 ++ blocks2, new1 ++ new2, hres, ?_, ?_, ?_, ?_, hinv3⟩
        · rw [hev, hnew1, List.append_assoc]
        · rw [List.flatten_append]
          rw [h0] at hrun1
          exact run_of_append_ok hrun1 hrun2
        · intro b hb
          rcases List.mem_append.1 hb with hb | hb
          · exact hok1 b hb
          · rw [← htx]; exact hok2 b hb
        · rw [htx2, htx]
    · rw [if_neg hlt]
      exact ⟨(0, s), [], [], rfl, by simp, run_of_nil, by simp, rfl, fun _ => hinv⟩

theorem md_process_doc_finish_spec (s : MD_DOC_STATE σ) (hinv : doc_inv s) :
    ∃ (blocks : List (List MD_EVENT)) (new : List (MD_EVENT × Int)),
      (md_process_doc_finish s).2.events = s.ctx.events ++ new
        ∧ run_of (md_process_doc_finish s).1 new
            (blocks.flatten ++ [MD_EVENT.leave_block MD_BLOCK_DOC none])
        ∧ (∀ b ∈ blocks, is_block s.ctx.text b) := by
  have hhead := doc_inv_head s hinv
  have hhead' : ∀ l ∈ s.lines.head?, l.type ≠ MD_LINE_SETEXTUNDERLINE := by
    intro l hl
    rcases hhead l hl with h | h | h <;> rw [h] <;> simp
  obtain ⟨pb, hpb, hpbok⟩ := pending_blocks s hinv s.ctx.header_level
  have hfin : md_process_doc_finish s
      = emit s.ctx (block_events s.ctx.text s.ctx.header_level s.lines
          ++ [MD_EVENT.leave_block MD_BLOCK_DOC none]) := by
    unfold md_process_doc_finish
    simp only [MD_LEAVE_BLOCK_eq_emit]
    by_cases hb : s.pivot_line.type ≠ MD_LINE_BLANK
    · rw [if_pos hb, md_process_block_eq_emit _ _ hhead', emit_then]
    · rw [if_neg hb]
      have hnil : block_events s.ctx.text s.ctx.header_level s.lines = [] := by
        cases hl : s.lines with
        | nil => rfl
        | cons l0 rest =>
          obtain ⟨l0', rest', hl', hp, _⟩ := doc_inv_pivot s hinv (by rw [hl]; simp)
          rw [hl] at hl'
          obtain ⟨e1, _⟩ := List.cons.inj hl'
          subst e1
          have : l0.type = MD_LINE_BLANK := by
            rw [← hp]; simpa using hb
          simp [block_events, this]
      rw [hnil]
      simp
  obtain ⟨new, hnew, hrun⟩ := emit_run_of s.ctx (block_events s.ctx.text s.ctx.header_level s.lines
    ++ [MD_EVENT.leave_block MD_BLOCK_DOC none])
  rw [← hfin] at hnew hrun
  rw [hpb] at hrun
  exact ⟨pb, new, hnew, hrun, hpbok⟩

/-- The function `md_process_doc` returns, given `size` rounds of fuel at least, and what
it emits is `enter_block(Document)`, the events of blocks, `leave_block(Document)`, in
order, up to the first failure. -/
theorem md_process_doc_spec (fuel : Nat) (ctx : MD_CTX σ) (hf : ctx.size ≤ fuel) :
    ∃ (res : Int × MD_CTX σ) (blocks : List (List MD_EVENT)) (new : List (MD_EVENT × Int)),
      md_process_doc fuel ctx = some res
        ∧ res.2.events = ctx.events ++ new
        ∧ run_of res.1 new (MD_EVENT.enter_block MD_BLOCK_DOC none :: blocks.flatten
            ++ [MD_EVENT.leave_block MD_BLOCK_DOC none])
        ∧ (∀ b ∈ blocks, is_block ctx.text b) := by
  unfold md_process_doc
  simp only [MD_ENTER_BLOCK_eq_emit]
  obtain ⟨new0, hnew0, hrun0⟩ := emit_run_of ctx [MD_EVENT.enter_block MD_BLOCK_DOC none]
  by_cases h0 : (emit ctx [MD_EVENT.enter_block MD_BLOCK_DOC none]).1 ≠ 0
  · rw [if_pos h0]
    refine ⟨_, [], new0, rfl, hnew0, ?_, by simp⟩
    exact run_of_append_fail _ h0 hrun0
  · rw [if_neg h0]
    have h00 : (emit ctx [MD_EVENT.enter_block MD_BLOCK_DOC none]).1 = 0 := by simpa using h0
    rw [h00] at hrun0
    have hinit : doc_inv (MD_DOC_STATE.mk (emit ctx [MD_EVENT.enter_block MD_BLOCK_DOC none]).2
        true [] 0) := by
      simp [doc_inv, MD_DOC_STATE.pivot_line, dummy_line]
    obtain ⟨res, blocks1, new1, hres, hev1, hrun1, hok1, htx1, hinv1⟩ :=
      md_process_doc_loop_spec fuel _ hinit (by simp only [emit_size]; omega)
    rw [hres]
    simp only [emit_text] at hok1 htx1 hev1
    by_cases h1 : res.1 ≠ 0
    · simp only [if_pos h1]
      refine ⟨_, blocks1, new0 ++ new1, rfl, ?_, ?_, hok1⟩
      · simp only [hev1, hnew0, List.append_assoc]
      · have h := run_of_append_ok hrun0
          (run_of_append_fail [MD_EVENT.leave_block MD_BLOCK_DOC none] h1 hrun1)
        simpa only [List.singleton_append, List.cons_append, List.nil_append] using h
    · simp only [if_neg h1]
      have h10 : res.1 = 0 := by simpa using h1
      rw [h10] at hrun1
      obtain ⟨blocks2, new2, hev2, hrun2, hok2⟩ := md_process_doc_finish_spec res.2 (hinv1 h10)
      refine ⟨_, blocks1 ++ blocks2, new0 ++ (new1 ++ new2), rfl, ?_, ?_, ?_⟩
      · rw [hev2, hev1, hnew0]; simp
      · have h := run_of_append_ok hrun0 (run_of_append_ok hrun1 hrun2)
        simpa only [List.singleton_append, List.cons_append, List.nil_append,
          List.flatten_append, List.append_assoc] using h
      · intro b hb
        rcases List.mem_append.1 hb with hb | hb
        · exact hok1 b hb
        · rw [← htx1]; exact hok2 b hb

/-- The function `md_parse` returns for every buffer, and what it emits is
`enter_block(Document)`, the events of blocks, `leave_block(Document)`, in order, up to the
first failure. -/
theorem md_parse_spec (text : List Char) (renderer : MD_RENDERER σ) (userdata : σ) :
    ∃ (res : Int × MD_CTX σ) (blocks : List (List MD_EVENT)),
      md_parse text renderer userdata = some res
        ∧ run_of res.1 res.2.events (MD_EVENT.enter_block MD_BLOCK_DOC none :: blocks.flatten
            ++ [MD_EVENT.leave_block MD_BLOCK_DOC none])
        ∧ (∀ b ∈ blocks, is_block text b) := by
  unfold md_parse
  obtain ⟨res, blocks, new, hres, hev, hrun, hok⟩ := md_process_doc_spec text.length
    (MD_CTX.mk text renderer userdata
      (if renderer.flags.MD_FLAG_NOINDENTEDCODE = true then 2 ^ 32 - 1 else 4) 0 [])
    (le_refl _)
  simp only [List.nil_append] at hev
  rw [← hev] at hrun
  exact ⟨res, blocks, hres, hrun, hok⟩


/-! ## The shape of the record -/

theorem content_events_all_text (type : MD_TEXTTYPE) (text : List Char) (line : MD_LINE) :
    ∀ e ∈ content_events type text line, e.is_text := by
  intro e he
  unfold content_events at he
  split_ifs at he
  · simp only [List.mem_singleton] at he
    subst he
    trivial
  · simp at he

theorem normal_events_all_text (text : List Char) (lines : List MD_LINE) :
    ∀ e ∈ normal_events text lines, e.is_text := by
  induction lines with
  | nil => intro e he; simp [normal_events] at he
  | cons line lines ih =>
    intro e he
    simp only [normal_events, List.mem_append, List.mem_singleton] at he
    rcases he with (he | he) | he
    · exact content_events_all_text _ _ _ e he
    · subst he; trivial
    · exact ih e he

theorem indent_events_all_text (indent : Nat) : ∀ e ∈ indent_events indent, e.is_text := by
  intro e he
  unfold indent_events at he
  obtain ⟨k, _, hk⟩ := List.mem_map.1 he
  subst hk
  trivial

theorem verbatim_events_all_text (text : List Char) (lines : List MD_LINE) :
    ∀ e ∈ verbatim_events text lines, e.is_text := by
  induction lines with
  | nil => intro e he; simp [verbatim_events] at he
  | cons line lines ih =>
    intro e he
    simp only [verbatim_events, verbatim_line_events, List.mem_append, List.mem_singleton] at he
    rcases he with ((he | he) | he) | he
    · exact indent_events_all_text _ e he
    · exact content_events_all_text _ _ _ e he
    · subst he; trivial
    · exact ih e he

/-- The events of a block are `enter_block(b)`, text events, `leave_block(b)`. -/
theorem is_block_group_of_is_block (text : List Char) (b : List MD_EVENT) (h : is_block text b) :
    is_block_group b := by
  obtain ⟨hl, lines, hok, hb⟩ := h
  subst hb
  cases lines with
  | nil => exact absurd hok (by simp [block_ok])
  | cons l0 rest =>
    unfold block_ok at hok
    unfold block_events
    cases ht : l0.type <;> simp only [ht] at hok ⊢
    · exact ⟨MD_BLOCK_HR, none, [], by simp, by simp, rfl⟩
    · exact ⟨MD_BLOCK_H, some hl, normal_events text (l0 :: rest), by simp,
        normal_events_all_text _ _, rfl⟩
    · exact ⟨MD_BLOCK_H, some hl, normal_events text (l0 :: rest), by simp,
        normal_events_all_text _ _, rfl⟩
    · exact ⟨MD_BLOCK_CODE, none, verbatim_events text (l0 :: rest), by simp,
        verbatim_events_all_text _ _, rfl⟩
    · exact ⟨MD_BLOCK_P, none, normal_events text (l0 :: rest), by simp,
        normal_events_all_text _ _, rfl⟩

theorem run_of_all_zero {ret : Int} {events : List (MD_EVENT × Int)} {plan : List MD_EVENT}
    (h : run_of ret events plan) (h0 : ∀ e ∈ events, e.2 = 0) :
    ret = 0 ∧ events.map Prod.fst = plan := by
  rcases h with ⟨hr, he⟩ | ⟨hr, pre, e, post, _, he⟩
  · refine ⟨hr, ?_⟩
    rw [he, List.map_map]
    exact List.map_id _
  · have := h0 (e, ret) (by rw [he]; simp)
    exact absurd this hr

theorem is_block_group_no_doc (g : List MD_EVENT) (h : is_block_group g) (d : Option Nat) :
    MD_EVENT.enter_block MD_BLOCK_DOC d ∉ g ∧ MD_EVENT.leave_block MD_BLOCK_DOC d ∉ g := by
  obtain ⟨b, detail, texts, hb, htexts, hg⟩ := h
  subst hg
  have hne : b ≠ MD_BLOCK_DOC := by
    rcases hb with h | h | h | h <;> rw [h] <;> simp
  constructor
  · intro hmem
    rcases List.mem_append.1 hmem with h | h
    · rcases List.mem_cons.1 h with h | h
      · exact hne (MD_EVENT.enter_block.inj h).1.symm
      · exact htexts _ h
    · simp at h
  · intro hmem
    rcases List.mem_append.1 hmem with h | h
    · rcases List.mem_cons.1 h with h | h
      · simp at h
      · exact htexts _ h
    · rw [List.mem_singleton] at h
      exact hne (MD_EVENT.leave_block.inj h).1.symm

theorem mem_dropLast_of_split {α : Type} (pre post : List α) (x : α) (h : post ≠ []) :
    x ∈ (pre ++ x :: post).dropLast := by
  have : (pre ++ x :: post) = (pre ++ x :: post.dropLast) ++ [post.getLast h] := by
    rw [List.append_assoc, List.cons_append, List.dropLast_append_getLast]
  rw [this, List.dropLast_concat]
  simp

/-- C1: for every buffer and every flag set `md_parse` returns, and if every callback
invoked has returned 0 then it returns 0 and the events are `enter_block(Document)`, then
groups of the form `enter_block(b)`, text events, `leave_block(b)` with `b` one of Heading,
HorizontalRule, Code, Paragraph, then `leave_block(Document)`; an `enter_block(Document)`
occurs only as the first event and a `leave_block(Document)` only as the last one. -/
theorem md_parse_document_shape (text : List Char) (renderer : MD_RENDERER σ) (userdata : σ) :
    ∃ res, md_parse text renderer userdata = some res ∧
      ((∀ e ∈ res.2.events, e.2 = 0) →
        res.1 = 0 ∧ is_document (res.2.events.map Prod.fst)
          ∧ (∀ pre post d, res.2.events.map Prod.fst
                = pre ++ MD_EVENT.enter_block MD_BLOCK_DOC d :: post → pre = [])
          ∧ (∀ pre post d, res.2.events.map Prod.fst
                = pre ++ MD_EVENT.leave_block MD_BLOCK_DOC d :: post → post = [])) := by
  obtain ⟨res, blocks, hres, hrun, hok⟩ := md_parse_spec text renderer userdata
  refine ⟨res, hres, fun h0 => ?_⟩
  obtain ⟨hret, hev⟩ := run_of_all_zero hrun h0
  have hgroups : ∀ g ∈ blocks, is_block_group g :=
    fun g hg => is_block_group_of_is_block text g (hok g hg)
  have hnodoc : ∀ d, MD_EVENT.enter_block MD_BLOCK_DOC d ∉ blocks.flatten
      ∧ MD_EVENT.leave_block MD_BLOCK_DOC d ∉ blocks.flatten := by
    intro d
    constructor
    · intro hmem
      obtain ⟨g, hg, hm⟩ := List.mem_flatten.1 hmem
      exact (is_block_group_no_doc g (hgroups g hg) d).1 hm
    · intro hmem
      obtain ⟨g, hg, hm⟩ := List.mem_flatten.1 hmem
      exact (is_block_group_no_doc g (hgroups g hg) d).2 hm
  refine ⟨hret, ⟨blocks, hgroups, hev⟩, ?_, ?_⟩
  · intro pre post d hsplit
    rw [hev] at hsplit
    cases pre with
    | nil => rfl
    | cons p pre' =>
      exfalso
      simp only [List.cons_append, List.cons.injEq] at hsplit
      have hmem : MD_EVENT.enter_block MD_BLOCK_DOC d
          ∈ blocks.flatten ++ [MD_EVENT.leave_block MD_BLOCK_DOC none] := by
        rw [hsplit.2]; simp
      rcases List.mem_append.1 hmem with hm | hm
      · exact (hnodoc d).1 hm
      · simp at hm
  · intro pre post d hsplit
    rw [hev] at hsplit
    by_contra hpost
    have hmem := mem_dropLast_of_split pre post (MD_EVENT.leave_block MD_BLOCK_DOC d) hpost
    rw [← hsplit, List.dropLast_concat] at hmem
    rcases List.mem_cons.1 hmem with hm | hm
    · simp at hm
    · exact (hnodoc d).2 hm


theorem run_of_failing {ret : Int} {events : List (MD_EVENT × Int)} {plan : List MD_EVENT}
    (h : run_of ret events plan) (pre post : List (MD_EVENT × Int)) (e : MD_EVENT × Int)
    (hsplit : events = pre ++ e :: post) (he : e.2 ≠ 0) : post = [] ∧ ret = e.2 := by
  rcases h with ⟨_, hev⟩ | ⟨_, p, x, q, _, hev⟩
  · exfalso
    have hmem : e ∈ plan.map (fun e => (e, (0 : Int))) := by
      rw [← hev, hsplit]; simp
    obtain ⟨y, _, hy⟩ := List.mem_map.1 hmem
    rw [← hy] at he
    exact he rfl
  · by_cases hpost : post = []
    · subst hpost
      rw [hsplit] at hev
      have := List.append_inj_right' hev rfl
      simp only [List.cons.injEq, and_true] at this
      rw [this]
      exact ⟨rfl, rfl⟩
    · exfalso
      have hmem := mem_dropLast_of_split pre post e hpost
      rw [← hsplit, hev, List.dropLast_concat] at hmem
      obtain ⟨y, _, hy⟩ := List.mem_map.1 hmem
      rw [← hy] at he
      exact he rfl

/-- C2: for every buffer and flag set, if some invocation of `enter_block`, `leave_block`
or `text` returns a non-zero value, then it is the last callback invoked and `md_parse`
returns exactly that value.  On `"# Title\n"` with `enter_block` failing (with 7) on its
second invocation, the only events are `enter(Document)` and the failing `enter(Heading)`,
and the result is 7. -/
theorem md_parse_abort (text : List Char) (renderer : MD_RENDERER σ) (userdata : σ) :
    (∃ res, md_parse text renderer userdata = some res ∧
      ∀ pre e post, res.2.events = pre ++ e :: post → e.2 ≠ 0 → post = [] ∧ res.1 = e.2)
    ∧ outcome (md_parse ['#', ' ', 'T', 'i', 't', 'l', 'e', '\n']
          (failing_renderer default_flags 2 7) 0)
        = some (7, [(MD_EVENT.enter_block MD_BLOCK_DOC none, 0),
                    (MD_EVENT.enter_block MD_BLOCK_H (some 1), 7)]) := by
  refine ⟨?_, by decide⟩
  obtain ⟨res, blocks, hres, hrun, _⟩ := md_parse_spec text renderer userdata
  exact ⟨res, hres, fun pre e post hsplit he => run_of_failing hrun pre post e hsplit he⟩


/-! ## Heading levels -/

theorem doc_reachable_inv (ctx0 : MD_CTX σ) (s : MD_DOC_STATE σ) (h : doc_reachable ctx0 s) :
    doc_inv s := by
  induction h with
  | init => simp [doc_inv, MD_DOC_STATE.pivot_line, dummy_line]
  | round s _ _ h0 ih => exact md_process_doc_iter_inv s ih h0

theorem run_of_mem {ret : Int} {events : List (MD_EVENT × Int)} {plan : List MD_EVENT}
    (h : run_of ret events plan) : ∀ e ∈ events, e.1 ∈ plan := by
  intro e he
  rcases h with ⟨_, hev⟩ | ⟨_, pre, x, post, hp, hev⟩
  · rw [hev] at he
    obtain ⟨y, hy, hye⟩ := List.mem_map.1 he
    rw [← hye]; exact hy
  · rw [hev] at he
    rw [hp]
    rcases List.mem_append.1 he with he | he
    · obtain ⟨y, hy, hye⟩ := List.mem_map.1 he
      rw [← hye]
      exact List.mem_append_left _ hy
    · simp only [List.mem_singleton] at he
      rw [he]
      simp

/-- A heading event of a block carries the header level the block is rendered with, and
its first line is an ATX header or a setext header. -/
theorem block_events_heading (text : List Char) (hl : Nat) (lines : List MD_LINE)
    (e : MD_EVENT) (he : e ∈ block_events text hl lines) (d : Option Nat)
    (hd : e = MD_EVENT.enter_block MD_BLOCK_H d ∨ e = MD_EVENT.leave_block MD_BLOCK_H d) :
    d = some hl ∧ ∃ l0 rest, lines = l0 :: rest
      ∧ (l0.type = MD_LINE_ATXHEADER ∨ l0.type = MD_LINE_SETEXTHEADER) := by
  have hnt : ¬ e.is_text := by
    rcases hd with h | h <;> rw [h] <;> exact fun hh => hh
  cases lines with
  | nil => simp [block_events] at he
  | cons l0 rest =>
    unfold block_events at he
    cases ht : l0.type <;> simp only [ht] at he
    · simp at he
    · rcases hd with h | h <;> rw [h] at he <;> simp at he
    · refine ⟨?_, l0, rest, rfl, Or.inl ht⟩
      rcases List.mem_append.1 he with he | he
      · rcases List.mem_cons.1 he with he | he
        · rcases hd with h | h <;> rw [h] at he <;> simp at he
          exact he
        · exact absurd (normal_events_all_text _ _ e he) hnt
      · rcases hd with h | h <;> rw [h] at he <;> simp at he
        exact he
    · refine ⟨?_, l0, rest, rfl, Or.inr ht⟩
      rcases List.mem_append.1 he with he | he
      · rcases List.mem_cons.1 he with he | he
        · rcases hd with h | h <;> rw [h] at he <;> simp at he
          exact he
        · exact absurd (normal_events_all_text _ _ e he) hnt
      · rcases hd with h | h <;> rw [h] at he <;> simp at he
        exact he
    · simp at he
    · exfalso
      rcases List.mem_append.1 he with he | he
      · rcases List.mem_cons.1 he with he | he
        · rcases hd with h | h <;> rw [h] at he <;> simp at he
        · exact absurd (verbatim_events_all_text _ _ e he) hnt
      · rcases hd with h | h <;> rw [h] at he <;> simp at he
    · exfalso
      rcases List.mem_append.1 he with he | he
      · rcases List.mem_cons.1 he with he | he
        · rcases hd with h | h <;> rw [h] at he <;> simp at he
        · exact absurd (normal_events_all_text _ _ e he) hnt
      · rcases hd with h | h <;> rw [h] at he <;> simp at he

theorem is_block_heading (text : List Char) (b : List MD_EVENT) (h : is_block text b)
    (e : MD_EVENT) (he : e ∈ b) (d : Option Nat)
    (hd : e = MD_EVENT.enter_block MD_BLOCK_H d ∨ e = MD_EVENT.leave_block MD_BLOCK_H d) :
    ∃ n, d = some n ∧ 1 ≤ n ∧ n ≤ 6 := by
  obtain ⟨hl, lines, hok, hb⟩ := h
  subst hb
  obtain ⟨hdl, l0, rest, hlines, ht⟩ := block_events_heading text hl lines e he d hd
  subst hlines
  refine ⟨hl, hdl, ?_⟩
  unfold block_ok at hok
  rcases ht with ht | ht
  · simp only [ht] at hok
    exact ⟨hok.2.1, hok.2.2⟩
  · simp only [ht] at hok
    exact ⟨hok.1, hok.2.1⟩

/-- The events a round of the main loop records belong to the events it plans. -/
theorem md_process_doc_iter_new_events (s : MD_DOC_STATE σ) (hinv : doc_inv s)
    (new : List (MD_EVENT × Int))
    (hnew : (md_process_doc_iter s).2.ctx.events = s.ctx.events ++ new) :
    run_of (md_process_doc_iter s).1 new (md_process_doc_iter_events s) := by
  obtain ⟨h1, h2, _, _⟩ := md_process_doc_iter_spec s hinv
  obtain ⟨new1, hnew1, hrun1⟩ :=
    emit_run_of (md_analyze_line s.ctx s.off s.pivot_line).1 (md_process_doc_iter_events s)
  rw [← h2, md_analyze_line_events, hnew] at hnew1
  rw [← h1, ← List.append_cancel_left hnew1] at hrun1
  exact hrun1

/-- C10: every `enter_block(Heading)` and `leave_block(Heading)` event emitted by
`md_parse` carries a level between 1 and 6; and in every round of the main loop of
`md_process_doc`, a heading event the round emits carries the level recorded by the
analysis of the line of that round: the number of leading `#` characters when the line is
an ATX header, 1 when it is a setext underline of `=` and 2 when it is one of `-` (no
heading event is emitted in a round on a line of another type). -/
theorem heading_levels (text : List Char) (renderer : MD_RENDERER σ) (userdata : σ) :
    (∃ res, md_parse text renderer userdata = some res ∧
      ∀ e ∈ res.2.events, ∀ d,
        (e.1 = MD_EVENT.enter_block MD_BLOCK_H d ∨ e.1 = MD_EVENT.leave_block MD_BLOCK_H d) →
          ∃ n, d = some n ∧ 1 ≤ n ∧ n ≤ 6)
    ∧ (∀ (ctx0 : MD_CTX σ) (s : MD_DOC_STATE σ), doc_reachable ctx0 s →
        ∀ new, (md_process_doc_iter s).2.ctx.events = s.ctx.events ++ new →
        ∀ e ∈ new, ∀ d,
          (e.1 = MD_EVENT.enter_block MD_BLOCK_H d ∨ e.1 = MD_EVENT.leave_block MD_BLOCK_H d) →
            ((md_analyze_line s.ctx s.off s.pivot_line).2.2.type = MD_LINE_ATXHEADER
                ∧ d = some ((s.ctx.text.drop (line_start s.ctx s.off)).takeWhile
                              (fun ch => ch == '#')).length)
            ∨ ((md_analyze_line s.ctx s.off s.pivot_line).2.2.type = MD_LINE_SETEXTUNDERLINE
                ∧ CH s.ctx (line_start s.ctx s.off) = '=' ∧ d = some 1)
            ∨ ((md_analyze_line s.ctx s.off s.pivot_line).2.2.type = MD_LINE_SETEXTUNDERLINE
                ∧ CH s.ctx (line_start s.ctx s.off) = '-' ∧ d = some 2)) := by
  constructor
  · obtain ⟨res, blocks, hres, hrun, hok⟩ := md_parse_spec text renderer userdata
    refine ⟨res, hres, ?_⟩
    intro e he d hd
    have hmem := run_of_mem hrun e he
    rcases List.mem_append.1 hmem with hm | hm
    · rcases List.mem_cons.1 hm with hm | hm
      · rcases hd with h | h <;> rw [h] at hm <;> simp at hm
      · obtain ⟨b, hb, hmb⟩ := List.mem_flatten.1 hm
        exact is_block_heading text b (hok b hb) e.1 hmb d hd
    · rcases hd with h | h <;> rw [h] at hm <;> simp at hm
  · intro ctx0 s hreach new hnew e he d hd
    have hinv := doc_reachable_inv ctx0 s hreach
    have hmem := run_of_mem (md_process_doc_iter_new_events s hinv new hnew) e he
    have hhead := doc_inv_head s hinv
    have hpending : e.1 ∉ block_events s.ctx.text
        (md_analyze_line s.ctx s.off s.pivot_line).1.header_level s.lines := by
      intro hm
      obtain ⟨_, l0, rest, hlines, ht⟩ := block_events_heading _ _ _ e.1 hm d hd
      have := hhead l0 (by rw [hlines]; simp)
      rcases ht with ht | ht <;> rw [ht] at this <;> simp at this
    have hatx := md_analyze_line_of_atxheader s.ctx s.off s.pivot_line
    have hsetu := md_analyze_line_of_setextunderline s.ctx s.off s.pivot_line
    unfold md_process_doc_iter_events at hmem
    simp only at hmem
    by_cases hself : (md_analyze_line s.ctx s.off s.pivot_line).2.2.type = MD_LINE_HR
        ∨ (md_analyze_line s.ctx s.off s.pivot_line).2.2.type = MD_LINE_ATXHEADER
    · rw [if_pos hself] at hmem
      rcases List.mem_append.1 hmem with hm | hm
      · exact absurd hm hpending
      · obtain ⟨hdl, l0, rest, hlines, ht⟩ := block_events_heading _ _ _ e.1 hm d hd
        obtain ⟨e1, _⟩ := List.cons.inj hlines
        rw [← e1] at ht
        have htype : (md_analyze_line s.ctx s.off s.pivot_line).2.2.type = MD_LINE_ATXHEADER := by
          rcases ht with ht | ht
          · exact ht
          · exact absurd ht (md_analyze_line_type_ne_setextheader _ _ _)
        refine Or.inl ⟨htype, ?_⟩
        rw [hdl, (hatx htype).2.1]
    · rw [if_neg hself] at hmem
      by_cases hset : (md_analyze_line s.ctx s.off s.pivot_line).2.2.type
          = MD_LINE_SETEXTUNDERLINE
      · rw [if_pos hset] at hmem
        obtain ⟨hdl, _⟩ := block_events_heading _ _ _ e.1 hmem d hd
        obtain ⟨_, hch, hlev⟩ := hsetu hset
        rw [hlev] at hdl
        rcases hch with hch | hch
        · exact Or.inr (Or.inl ⟨hset, hch, by rw [hdl, if_pos hch]⟩)
        · refine Or.inr (Or.inr ⟨hset, hch, ?_⟩)
          rw [hdl, if_neg]
          rw [hch]; decide
      · rw [if_neg hset] at hmem
        by_cases hch : (md_analyze_line s.ctx s.off s.pivot_line).2.2.type ≠ s.pivot_line.type
        · rw [if_pos hch] at hmem
          exact absurd hmem hpending
        · rw [if_neg hch] at hmem
          simp at hmem


/-! ## Termination -/

/-- C8: for every buffer, flag set, pivot line and start offset `beg ≤ size`, the total
function `md_analyze_line` returns a next offset with `next ≤ size`, and `beg < next`
whenever `beg < size`; so in every round of the main loop of `md_process_doc` the scan
offset strictly increases and stays inside the buffer, the loop leaves every state it
reaches within `size - off` rounds, and `md_process_doc` (given `size` rounds) and
`md_parse` return for every buffer. -/
theorem md_analyze_line_progress (ctx : MD_CTX σ) (beg : Nat) (pivot_line : MD_LINE) :
    (beg ≤ ctx.size →
      (md_analyze_line ctx beg pivot_line).2.1 ≤ ctx.size
        ∧ (beg < ctx.size → beg < (md_analyze_line ctx beg pivot_line).2.1))
    ∧ (∀ s : MD_DOC_STATE σ, doc_reachable ctx s → s.off < s.ctx.size →
        s.off < (md_process_doc_iter s).2.off
          ∧ (md_process_doc_iter s).2.off ≤ (md_process_doc_iter s).2.ctx.size)
    ∧ (∀ s : MD_DOC_STATE σ, doc_reachable ctx s →
        ∃ res, md_process_doc_loop (s.ctx.size - s.off) s = some res)
    ∧ (∃ res, md_process_doc ctx.size ctx = some res)
    ∧ (∀ (text : List Char) (renderer : MD_RENDERER σ) (userdata : σ),
        ∃ res, md_parse text renderer userdata = some res) := by
  refine ⟨?_, ?_, ?_, ?_, ?_⟩
  · intro hbeg
    exact ⟨md_analyze_line_next_le ctx beg pivot_line hbeg,
      md_analyze_line_next_gt ctx beg pivot_line⟩
  · intro s hreach hlt
    have hinv := doc_reachable_inv ctx s hreach
    obtain ⟨_, _, h3, _⟩ := md_process_doc_iter_spec s hinv
    obtain ⟨hsz, _⟩ := md_process_doc_iter_size s hinv
    rw [h3, hsz]
    exact ⟨md_analyze_line_next_gt s.ctx s.off s.pivot_line hlt,
      md_analyze_line_next_le s.ctx s.off s.pivot_line hinv.2.2.2⟩
  · intro s hreach
    obtain ⟨res, _, _, hres, _⟩ := md_process_doc_loop_spec (s.ctx.size - s.off) s
      (doc_reachable_inv ctx s hreach) (le_refl _)
    exact ⟨res, hres⟩
  · obtain ⟨res, _, _, hres, _⟩ := md_process_doc_spec ctx.size ctx (le_refl _)
    exact ⟨res, hres⟩
  · intro text renderer userdata
    obtain ⟨res, _, hres, _⟩ := md_parse_spec text renderer userdata
    exact ⟨res, hres⟩


/-! ## The indentation of a line of code -/

theorem indent_chunks_spec (fuel : Nat) :
    ∀ n, n ≤ fuel →
      (∀ k ∈ indent_chunks fuel n, 1 ≤ k ∧ k ≤ 16) ∧ (indent_chunks fuel n).sum = n := by
  induction fuel with
  | zero =>
    intro n hn
    have : n = 0 := by omega
    subst this
    simp [indent_chunks]
  | succ fuel ih =>
    intro n hn
    unfold indent_chunks
    by_cases h16 : n > 16
    · rw [if_pos h16]
      obtain ⟨h1, h2⟩ := ih (n - 16) (by omega)
      constructor
      · intro k hk
        rcases List.mem_cons.1 hk with hk | hk
        · omega
        · exact h1 k hk
      · rw [List.sum_cons, h2]; omega
    · rw [if_neg h16]
      by_cases h0 : n > 0
      · rw [if_pos h0]
        constructor
        · intro k hk
          simp only [List.mem_singleton] at hk
          omega
        · simp
      · rw [if_neg h0]
        constructor
        · intro k hk; simp at hk
        · simp; omega

/-- C7: for every line of a code block and every value of its `indent` field (an
`unsigned`, so below `2^32`), the loop body of `md_process_verbatim_block` invokes the
`text` callback, up to the first failure, for: runs of spaces of kind CodeBlock, each of 1
to 16 spaces and of total length exactly `indent`; then the content slice (no event when
it is empty); then one `"\n"`.  The record of these invocations is what it adds to
`events`. -/
theorem verbatim_line_indentation (ctx : MD_CTX σ) (line : MD_LINE) (h : line.indent < 2 ^ 32) :
    ∃ chunks : List Nat,
      (∀ k ∈ chunks, 1 ≤ k ∧ k ≤ 16) ∧ chunks.sum = line.indent
        ∧ md_process_verbatim_block_line ctx line
            = emit ctx (chunks.map (fun k => MD_EVENT.text MD_TEXT_CODEBLOCK (List.replicate k ' '))
                ++ content_events MD_TEXT_CODEBLOCK ctx.text line
                ++ [MD_EVENT.text MD_TEXT_CODEBLOCK ['\n']])
        ∧ ∃ new, (md_process_verbatim_block_line ctx line).2.events = ctx.events ++ new
            ∧ run_of (md_process_verbatim_block_line ctx line).1 new
                (chunks.map (fun k => MD_EVENT.text MD_TEXT_CODEBLOCK (List.replicate k ' '))
                  ++ content_events MD_TEXT_CODEBLOCK ctx.text line
                  ++ [MD_EVENT.text MD_TEXT_CODEBLOCK ['\n']]) := by
  have hmod : line.indent % 2 ^ 32 = line.indent := Nat.mod_eq_of_lt h
  obtain ⟨h1, h2⟩ := indent_chunks_spec line.indent line.indent (le_refl _)
  have heq : md_process_verbatim_block_line ctx line
      = emit ctx ((indent_chunks line.indent line.indent).map
            (fun k => MD_EVENT.text MD_TEXT_CODEBLOCK (List.replicate k ' '))
          ++ content_events MD_TEXT_CODEBLOCK ctx.text line
          ++ [MD_EVENT.text MD_TEXT_CODEBLOCK ['\n']]) := by
    rw [md_process_verbatim_block_line_eq_emit]
    unfold verbatim_line_events indent_events
    rw [hmod]
  refine ⟨indent_chunks line.indent line.indent, h1, h2, heq, ?_⟩
  rw [heq]
  exact emit_run_of ctx _

/-- A line of code indented by 40 columns: the runs of spaces are of 16, 16 and 8. -/
theorem verbatim_line_indentation_witness :
    (40 : Nat) < 2 ^ 32
      ∧ (∃ chunks : List Nat,
          (∀ k ∈ chunks, 1 ≤ k ∧ k ≤ 16) ∧ chunks.sum = 40
            ∧ md_process_verbatim_block_line (ok_ctx ['x'] default_flags)
                { type := MD_LINE_INDENTEDCODE, beg := 0, end_ := 1, indent := 40 }
              = emit (ok_ctx ['x'] default_flags)
                  (chunks.map (fun k => MD_EVENT.text MD_TEXT_CODEBLOCK (List.replicate k ' '))
                    ++ content_events MD_TEXT_CODEBLOCK ['x']
                        { type := MD_LINE_INDENTEDCODE, beg := 0, end_ := 1, indent := 40 }
                    ++ [MD_EVENT.text MD_TEXT_CODEBLOCK ['\n']])
            ∧ ∃ new, (md_process_verbatim_block_line (ok_ctx ['x'] default_flags)
                  { type := MD_LINE_INDENTEDCODE, beg := 0, end_ := 1, indent := 40 }).2.events
                = (ok_ctx ['x'] default_flags).events ++ new
              ∧ run_of (md_process_verbatim_block_line (ok_ctx ['x'] default_flags)
                  { type := MD_LINE_INDENTEDCODE, beg := 0, end_ := 1, indent := 40 }).1 new
                  (chunks.map (fun k => MD_EVENT.text MD_TEXT_CODEBLOCK (List.replicate k ' '))
                    ++ content_events MD_TEXT_CODEBLOCK ['x']
                        { type := MD_LINE_INDENTEDCODE, beg := 0, end_ := 1, indent := 40 }
                    ++ [MD_EVENT.text MD_TEXT_CODEBLOCK ['\n']]))
      ∧ (md_process_verbatim_block_line (ok_ctx ['x'] default_flags)
            { type := MD_LINE_INDENTEDCODE, beg := 0, end_ := 1, indent := 40 }).2.events
          = [(MD_EVENT.text MD_TEXT_CODEBLOCK (List.replicate 16 ' '), 0),
             (MD_EVENT.text MD_TEXT_CODEBLOCK (List.replicate 16 ' '), 0),
             (MD_EVENT.text MD_TEXT_CODEBLOCK (List.replicate 8 ' '), 0),
             (MD_EVENT.text MD_TEXT_CODEBLOCK ['x'], 0),
             (MD_EVENT.text MD_TEXT_CODEBLOCK ['\n'], 0)] :=
  ⟨by decide,
    verbatim_line_indentation (ok_ctx ['x'] default_flags)
      { type := MD_LINE_INDENTEDCODE, beg := 0, end_ := 1, indent := 40 } (by decide),
    by decide⟩


/-! ## Thematic breaks and paragraphs -/

theorem content_length (text : List Char) (line : MD_LINE) (h : line.end_ ≤ text.length) :
    (line.content text).length = line.end_ - line.beg := by
  unfold MD_LINE.content
  rw [List.length_take, List.length_drop]
  omega

theorem content_ne_nil (text : List Char) (line : MD_LINE) (h1 : line.beg < line.end_)
    (h2 : line.end_ ≤ text.length) : line.content text ≠ [] := by
  intro h
  have := content_length text line h2
  rw [h] at this
  simp at this
  omega

theorem normal_events_eq_paragraph_lines (text : List Char) (lines : List MD_LINE)
    (h : ∀ l ∈ lines, l.beg < l.end_) :
    normal_events text lines = paragraph_lines_events text lines := by
  induction lines with
  | nil => rfl
  | cons line lines ih =>
    have h1 : line.end_ - line.beg > 0 := by
      have := h line (by simp)
      omega
    simp only [normal_events, paragraph_lines_events, content_events, if_pos h1]
    rw [ih (fun l hl => h l (List.mem_cons_of_mem _ hl))]
    rfl

/-- A block that starts with `enter_block(HorizontalRule)` has no other event than its
`leave_block`, and one that starts with `enter_block(Paragraph)` is made of lines that all
have a content and are rendered as content, newline. -/
theorem is_block_forms (text : List Char) (b : List MD_EVENT) (h : is_block text b) :
    (∀ d es, b = MD_EVENT.enter_block MD_BLOCK_HR d :: es
        → es = [MD_EVENT.leave_block MD_BLOCK_HR d])
      ∧ (∀ d es, b = MD_EVENT.enter_block MD_BLOCK_P d :: es →
          ∃ lines : List MD_LINE, lines ≠ [] ∧ (∀ l ∈ lines, l.content text ≠ [])
            ∧ b = MD_EVENT.enter_block MD_BLOCK_P none :: paragraph_lines_events text lines
                ++ [MD_EVENT.leave_block MD_BLOCK_P none]) := by
  obtain ⟨hl, lines, hok, hb⟩ := h
  subst hb
  cases lines with
  | nil => exact absurd hok (by simp [block_ok])
  | cons l0 rest =>
    unfold block_ok at hok
    unfold block_events
    cases ht : l0.type <;> simp only [ht] at hok ⊢
    · constructor
      · intro d es he
        simp only [List.cons.injEq, MD_EVENT.enter_block.injEq, true_and] at he
        rw [← he.2, ← he.1]
      · intro d es he
        simp at he
    · constructor <;> intro d es he <;> simp at he
    · constructor <;> intro d es he <;> simp at he
    · constructor <;> intro d es he <;> simp at he
    · constructor
      · intro d es he
        simp at he
      · intro d es _
        refine ⟨l0 :: rest, by simp, fun l hmem => ?_, ?_⟩
        · exact content_ne_nil text l (hok l hmem).1 (hok l hmem).2
        · rw [normal_events_eq_paragraph_lines text (l0 :: rest) (fun l hmem => (hok l hmem).1)]

/-- C5: on `"A\n\n---\n\nB\n"` with the default flags `md_parse` returns 0 and emits
exactly `enter(Document)`, `enter(Paragraph)`, `text(Normal,"A")`, `text(Normal,"\n")`,
`leave(Paragraph)`, `enter(HorizontalRule)`, `leave(HorizontalRule)`, `enter(Paragraph)`,
`text(Normal,"B")`, `text(Normal,"\n")`, `leave(Paragraph)`, `leave(Document)`.  For every
buffer, what `md_parse` emits is, up to the first failure, `enter(Document)`, blocks,
`leave(Document)`, where a block that starts with `enter(HorizontalRule)` consists of that
event and its `leave` alone, and a block that starts with `enter(Paragraph)` emits for
each of its lines the content slice, which is not empty, followed by `"\n"`, also after
the last line. -/
theorem thematic_break_and_paragraphs (text : List Char) (renderer : MD_RENDERER σ)
    (userdata : σ) :
    outcome (md_parse ['A', '\n', '\n', '-', '-', '-', '\n', '\n', 'B', '\n']
        (ok_renderer default_flags) ())
      = some (0, [(MD_EVENT.enter_block MD_BLOCK_DOC none, 0),
                  (MD_EVENT.enter_block MD_BLOCK_P none, 0),
                  (MD_EVENT.text MD_TEXT_NORMAL ['A'], 0),
                  (MD_EVENT.text MD_TEXT_NORMAL ['\n'], 0),
                  (MD_EVENT.leave_block MD_BLOCK_P none, 0),
                  (MD_EVENT.enter_block MD_BLOCK_HR none, 0),
                  (MD_EVENT.leave_block MD_BLOCK_HR none, 0),
                  (MD_EVENT.enter_block MD_BLOCK_P none, 0),
                  (MD_EVENT.text MD_TEXT_NORMAL ['B'], 0),
                  (MD_EVENT.text MD_TEXT_NORMAL ['\n'], 0),
                  (MD_EVENT.leave_block MD_BLOCK_P none, 0),
                  (MD_EVENT.leave_block MD_BLOCK_DOC none, 0)])
    ∧ ∃ (res : Int × MD_CTX σ) (blocks : List (List MD_EVENT)),
        md_parse text renderer userdata = some res
        ∧ run_of res.1 res.2.events (MD_EVENT.enter_block MD_BLOCK_DOC none :: blocks.flatten
            ++ [MD_EVENT.leave_block MD_BLOCK_DOC none])
        ∧ ∀ b ∈ blocks, is_block_group b
            ∧ (∀ d es, b = MD_EVENT.enter_block MD_BLOCK_HR d :: es
                → es = [MD_EVENT.leave_block MD_BLOCK_HR d])
            ∧ (∀ d es, b = MD_EVENT.enter_block MD_BLOCK_P d :: es →
                ∃ lines : List MD_LINE, lines ≠ [] ∧ (∀ l ∈ lines, l.content text ≠ [])
                  ∧ b = MD_EVENT.enter_block MD_BLOCK_P none :: paragraph_lines_events text lines
                      ++ [MD_EVENT.leave_block MD_BLOCK_P none]) := by
  refine ⟨by decide, ?_⟩
  obtain ⟨res, blocks, hres, hrun, hok⟩ := md_parse_spec text renderer userdata
  refine ⟨res, blocks, hres, hrun, fun b hb => ?_⟩
  exact ⟨is_block_group_of_is_block text b (hok b hb), is_block_forms text b (hok b hb)⟩


/-! ## Line terminators -/

theorem line_ext_size {ctx ctx' : MD_CTX σ} (h : line_ext ctx ctx') : ctx.size < ctx'.size := by
  obtain ⟨⟨nl, rest, _, ht⟩, _⟩ := h
  unfold MD_CTX.size
  rw [ht]
  simp

theorem line_ext_CH {ctx ctx' : MD_CTX σ} (h : line_ext ctx ctx') (i : Nat) (hi : i < ctx.size) :
    CH ctx' i = CH ctx i := by
  obtain ⟨⟨nl, rest, _, ht⟩, _⟩ := h
  unfold CH
  rw [ht]
  exact List.getD_append _ _ _ _ hi

theorem line_ext_CH_size {ctx ctx' : MD_CTX σ} (h : line_ext ctx ctx') :
    ISNEWLINE_ (CH ctx' ctx.size) = true := by
  obtain ⟨⟨nl, rest, hnl, ht⟩, _⟩ := h
  unfold CH MD_CTX.size
  rw [ht, List.getD_append_right _ _ _ _ (le_refl _)]
  simpa using hnl

theorem line_ext_no_newline {ctx ctx' : MD_CTX σ} (h : line_ext ctx ctx') (i : Nat)
    (hi : i < ctx.size) : ISNEWLINE_ (CH ctx i) = false := by
  obtain ⟨_, hno, _⟩ := h
  unfold CH
  unfold MD_CTX.size at hi
  rw [List.getD_eq_getElem _ _ hi]
  exact hno _ (List.getElem_mem hi)

theorem scan_forward_ext {ctx ctx' : MD_CTX σ} (h : line_ext ctx ctx') (p : Char → Bool)
    (hp : ∀ c, ISNEWLINE_ c = true → p c = false) (off : Nat) (hoff : off ≤ ctx.size) :
    scan_forward ctx' p off = scan_forward ctx p off := by
  have hsz := line_ext_size h
  generalize hn : ctx.size - off = n
  induction n generalizing off with
  | zero =>
    have he : off = ctx.size := by omega
    rw [scan_forward_unfold, scan_forward_unfold ctx, if_neg, if_neg]
    · omega
    · intro hh
      rw [he, hp _ (line_ext_CH_size h)] at hh
      exact absurd hh.2 (by simp)
  | succ n ih =>
    have hlt : off < ctx.size := by omega
    rw [scan_forward_unfold, scan_forward_unfold ctx, line_ext_CH h off hlt,
      ih (off + 1) (by omega) (by omega)]
    by_cases hc : p (CH ctx off) = true
    · rw [if_pos ⟨by omega, hc⟩, if_pos ⟨hlt, hc⟩]
    · rw [if_neg (fun hh => hc hh.2), if_neg (fun hh => hc hh.2)]

theorem scan_backward_ext {ctx ctx' : MD_CTX σ} (h : line_ext ctx ctx') (c : Char)
    (beg tmp : Nat) (htmp : tmp ≤ ctx.size) :
    scan_backward ctx' c beg tmp = scan_backward ctx c beg tmp := by
  induction tmp with
  | zero => rw [scan_backward_of_le _ _ _ _ (Nat.zero_le _), scan_backward_of_le _ _ _ _ (Nat.zero_le _)]
  | succ k ih =>
    rw [scan_backward_unfold, scan_backward_unfold ctx]
    simp only [Nat.add_sub_cancel]
    rw [line_ext_CH h k (by omega), ih (by omega)]

theorem md_analyze_line_indent_ext {ctx ctx' : MD_CTX σ} (h : line_ext ctx ctx')
    (off indent : Nat) (hoff : off ≤ ctx.size) :
    md_analyze_line_indent ctx' off indent = md_analyze_line_indent ctx off indent := by
  have hsz := line_ext_size h
  generalize hn : ctx.size - off = n
  induction n generalizing off indent with
  | zero =>
    have he : off = ctx.size := by omega
    rw [md_analyze_line_indent_unfold, md_analyze_line_indent_unfold ctx, if_neg, if_neg]
    · omega
    · intro hh
      have h1 := line_ext_CH_size h
      have h2 := hh.2
      rw [he] at h2
      unfold ISBLANK ISBLANK_ at h2
      unfold ISNEWLINE_ at h1
      generalize CH ctx' ctx.size = ch at h1 h2
      simp only [Bool.or_eq_true, beq_iff_eq] at h1 h2
      rcases h1 with h1 | h1 <;> rw [h1] at h2 <;> simp at h2
  | succ n ih =>
    have hlt : off < ctx.size := by omega
    rw [md_analyze_line_indent_unfold, md_analyze_line_indent_unfold ctx]
    simp only [ISBLANK, line_ext_CH h off hlt]
    rw [ih (off + 1) _ (by omega) (by omega)]
    by_cases hc : ISBLANK_ (CH ctx off) = true
    · have c1 : off < ctx'.size ∧ ISBLANK_ (CH ctx off) = true := ⟨by omega, hc⟩
      have c2 : off < ctx.size ∧ ISBLANK_ (CH ctx off) = true := ⟨hlt, hc⟩
      rw [if_pos c1, if_pos c2]
    · have c1 : ¬ (off < ctx'.size ∧ ISBLANK_ (CH ctx off) = true) := fun hh => hc hh.2
      have c2 : ¬ (off < ctx.size ∧ ISBLANK_ (CH ctx off) = true) := fun hh => hc hh.2
      rw [if_neg c1, if_neg c2]

theorem md_is_atxheader_line_scan_ext {ctx ctx' : MD_CTX σ} (h : line_ext ctx ctx')
    (beg off : Nat) (hoff : off ≤ ctx.size) :
    md_is_atxheader_line_scan ctx' beg off = md_is_atxheader_line_scan ctx beg off := by
  have hsz := line_ext_size h
  generalize hn : ctx.size - off = n
  induction n generalizing off with
  | zero =>
    have he : off = ctx.size := by omega
    rw [md_is_atxheader_line_scan_unfold, md_is_atxheader_line_scan_unfold ctx, if_neg, if_neg]
    · omega
    · intro hh
      have h1 := line_ext_CH_size h
      have h2 := hh.2.1
      rw [he] at h2
      rw [h2] at h1
      exact absurd h1 (by decide)
  | succ n ih =>
    have hlt : off < ctx.size := by omega
    rw [md_is_atxheader_line_scan_unfold, md_is_atxheader_line_scan_unfold ctx,
      line_ext_CH h off hlt, ih (off + 1) (by omega) (by omega)]
    by_cases hc : CH ctx off = '#' ∧ off - beg < 7
    · rw [if_pos ⟨by omega, hc⟩, if_pos ⟨hlt, hc⟩]
    · rw [if_neg (fun hh => hc hh.2), if_neg (fun hh => hc hh.2)]

theorem md_is_hr_line_scan_ext {ctx ctx' : MD_CTX σ} (h : line_ext ctx ctx')
    (beg off n : Nat) (hbeg : beg < ctx.size) (hoff : off ≤ ctx.size) :
    md_is_hr_line_scan ctx' beg off n = md_is_hr_line_scan ctx beg off n := by
  have hsz := line_ext_size h
  have hb := line_ext_CH h beg hbeg
  have hbn := line_ext_no_newline h beg hbeg
  generalize hn : ctx.size - off = k
  induction k generalizing off n with
  | zero =>
    have he : off = ctx.size := by omega
    rw [md_is_hr_line_scan_unfold, md_is_hr_line_scan_unfold ctx, if_neg, if_neg]
    · omega
    · intro hh
      have h1 := line_ext_CH_size h
      have h2 := hh.2
      rw [he, hb] at h2
      rcases h2 with h2 | h2
      · rw [h2, hbn] at h1
        exact absurd h1 (by simp)
      · rw [h2] at h1
        exact absurd h1 (by decide)
  | succ k ih =>
    have hlt : off < ctx.size := by omega
    rw [md_is_hr_line_scan_unfold, md_is_hr_line_scan_unfold ctx,
      line_ext_CH h off hlt, hb, ih (off + 1) _ (by omega) (by omega)]
    by_cases hc : CH ctx off = CH ctx beg ∨ CH ctx off = ' '
    · have c1 : off < ctx'.size ∧ (CH ctx off = CH ctx beg ∨ CH ctx off = ' ') := ⟨by omega, hc⟩
      have c2 : off < ctx.size ∧ (CH ctx off = CH ctx beg ∨ CH ctx off = ' ') := ⟨hlt, hc⟩
      rw [if_pos c1, if_pos c2]
    · have c1 : ¬ (off < ctx'.size ∧ (CH ctx off = CH ctx beg ∨ CH ctx off = ' ')) :=
        fun hh => hc hh.2
      have c2 : ¬ (off < ctx.size ∧ (CH ctx off = CH ctx beg ∨ CH ctx off = ' ')) :=
        fun hh => hc hh.2
      rw [if_neg c1, if_neg c2]

theorem beq_char_newline (a : Char) (ha : ISNEWLINE_ a = false) :
    ∀ c, ISNEWLINE_ c = true → (fun ch => ch == a) c = false := by
  intro c hc
  cases hcc : (c == a)
  · exact hcc
  · rw [beq_iff_eq] at hcc
    rw [hcc, ha] at hc
    exact absurd hc (by simp)

theorem line_ext_with {ctx ctx' : MD_CTX σ} (h : line_ext ctx ctx') (a b : Nat) :
    line_ext ({ ctx with header_level := a } : MD_CTX σ) ({ ctx' with header_level := b } : MD_CTX σ) :=
  h

theorem line_ext_ISNEWLINE {ctx ctx' : MD_CTX σ} (h : line_ext ctx ctx') (off : Nat)
    (hoff : off ≤ ctx.size) :
    (off < ctx'.size ∧ ISNEWLINE ctx' off = false) ↔ (off < ctx.size ∧ ISNEWLINE ctx off = false) := by
  have hsz := line_ext_size h
  by_cases hlt : off < ctx.size
  · unfold ISNEWLINE
    rw [line_ext_CH h off hlt]
    constructor
    · exact fun hh => ⟨hlt, hh.2⟩
    · exact fun hh => ⟨by omega, hh.2⟩
  · have he : off = ctx.size := by omega
    constructor
    · intro hh
      have := hh.2
      unfold ISNEWLINE at this
      rw [he, line_ext_CH_size h] at this
      exact absurd this (by simp)
    · exact fun hh => absurd hh.1 hlt

theorem md_is_atxheader_line_ext {ctx ctx' : MD_CTX σ} (h : line_ext ctx ctx')
    (hhl : ctx'.header_level = ctx.header_level) (beg : Nat) (hbeg : beg < ctx.size) :
    (md_is_atxheader_line ctx' beg).2 = (md_is_atxheader_line ctx beg).2
      ∧ (md_is_atxheader_line ctx' beg).1.header_level
          = (md_is_atxheader_line ctx beg).1.header_level := by
  have hsz := line_ext_size h
  have hscan := md_is_atxheader_line_scan_ext h beg (beg + 1) (by omega)
  have hle := md_is_atxheader_line_scan_le ctx beg (beg + 1) (by omega)
  unfold md_is_atxheader_line
  simp only
  rw [hscan]
  generalize md_is_atxheader_line_scan ctx beg (beg + 1) = off at hle ⊢
  by_cases h6 : off - beg > 6
  · simp only [if_pos h6]
    exact ⟨trivial, hhl⟩
  · simp only [if_neg h6]
    have hsp := scan_forward_ext h (fun ch => ch == ' ') (beq_char_newline ' ' (by decide)) off hle
    have hcond : (ctx'.r.flags.MD_FLAG_PERMISSIVEATXHEADERS = false ∧ off < ctx'.size
          ∧ CH ctx' off ≠ ' ' ∧ ISNEWLINE ctx' off = false)
        ↔ (ctx.r.flags.MD_FLAG_PERMISSIVEATXHEADERS = false ∧ off < ctx.size
          ∧ CH ctx off ≠ ' ' ∧ ISNEWLINE ctx off = false) := by
      rw [h.2.2.1]
      have hnl := line_ext_ISNEWLINE h off hle
      constructor
      · intro hh
        have h2 := hnl.1 ⟨hh.2.1, hh.2.2.2⟩
        refine ⟨hh.1, h2.1, ?_, h2.2⟩
        rw [← line_ext_CH h off h2.1]
        exact hh.2.2.1
      · intro hh
        have h2 := hnl.2 ⟨hh.2.1, hh.2.2.2⟩
        refine ⟨hh.1, h2.1, ?_, h2.2⟩
        rw [line_ext_CH h off hh.2.1]
        exact hh.2.2.1
    by_cases hc : ctx.r.flags.MD_FLAG_PERMISSIVEATXHEADERS = false ∧ off < ctx.size
          ∧ CH ctx off ≠ ' ' ∧ ISNEWLINE ctx off = false
    · rw [if_pos hc, if_pos (hcond.2 hc)]
      exact ⟨rfl, rfl⟩
    · rw [if_neg hc, if_neg (fun hh => hc (hcond.1 hh))]
      simp only [hsp, and_self]

theorem md_analyze_line_atx_ext {ctx ctx' : MD_CTX σ} (h : line_ext ctx ctx')
    (hhl : ctx'.header_level = ctx.header_level) (off : Nat) (hoff : off < ctx.size) :
    (md_analyze_line_atx ctx' off).2 = (md_analyze_line_atx ctx off).2
      ∧ (md_analyze_line_atx ctx' off).1.header_level
          = (md_analyze_line_atx ctx off).1.header_level
      ∧ line_ext (md_analyze_line_atx ctx off).1 (md_analyze_line_atx ctx' off).1 := by
  have hext : line_ext (md_analyze_line_atx ctx off).1 (md_analyze_line_atx ctx' off).1 := by
    obtain ⟨a, ha⟩ := md_analyze_line_atx_frame ctx off
    obtain ⟨b, hb⟩ := md_analyze_line_atx_frame ctx' off
    rw [ha, hb]
    exact line_ext_with h a b
  refine ⟨?_, ?_, hext⟩
  · unfold md_analyze_line_atx
    rw [line_ext_CH h off hoff]
    split_ifs
    · exact (md_is_atxheader_line_ext h hhl off hoff).1
    · rfl
  · unfold md_analyze_line_atx
    rw [line_ext_CH h off hoff]
    split_ifs
    · exact (md_is_atxheader_line_ext h hhl off hoff).2
    · exact hhl

theorem md_analyze_line_setext_ext {ctx ctx' : MD_CTX σ} (h : line_ext ctx ctx')
    (off : Nat) (hoff : off < ctx.size) (pivot_line : MD_LINE) :
    (md_analyze_line_setext ctx' off pivot_line).map (fun c => c.header_level)
      = (md_analyze_line_setext ctx off pivot_line).map (fun c => c.header_level) := by
  have hsz := line_ext_size h
  have hch := line_ext_CH h off hoff
  have hno := line_ext_no_newline h off hoff
  have hspace : ∀ c, ISNEWLINE_ c = true → (fun ch => ch == ' ') c = false :=
    beq_char_newline ' ' (by decide)
  have h1 := scan_forward_ext h (fun ch => ch == CH ctx off) (beq_char_newline _ hno)
    (off + 1) (by omega)
  have hle1 := scan_forward_le ctx (fun ch => ch == CH ctx off) (off + 1) (by omega)
  have h2 := scan_forward_ext h (fun ch => ch == ' ') hspace _ hle1
  have hle2 := scan_forward_le ctx (fun ch => ch == ' ') _ hle1
  have h3 := scan_forward_ext h (fun ch => ch == ' ') hspace _ hle2
  have hle3 := scan_forward_le ctx (fun ch => ch == ' ') _ hle2
  unfold md_analyze_line_setext md_is_setext_underline
  simp only [hch, h1, h2, h3]
  have hnl := line_ext_ISNEWLINE h _ hle3
  by_cases hp : pivot_line.type = MD_LINE_TEXT ∧ (CH ctx off = '=' ∨ CH ctx off = '-')
  · rw [if_pos hp, if_pos hp]
    by_cases hc : scan_forward ctx (fun ch => ch == ' ')
        (scan_forward ctx (fun ch => ch == ' ')
          (scan_forward ctx (fun ch => ch == CH ctx off) (off + 1))) < ctx.size
        ∧ ISNEWLINE ctx (scan_forward ctx (fun ch => ch == ' ')
          (scan_forward ctx (fun ch => ch == ' ')
            (scan_forward ctx (fun ch => ch == CH ctx off) (off + 1)))) = false
    · rw [if_pos hc, if_pos (hnl.2 hc)]
    · rw [if_neg hc, if_neg (fun hh => hc (hnl.1 hh))]
      rfl
  · rw [if_neg hp, if_neg hp]

theorem md_analyze_line_hr_ext {ctx ctx' : MD_CTX σ} (h : line_ext ctx ctx')
    (off : Nat) (hoff : off < ctx.size) :
    md_analyze_line_hr ctx' off = md_analyze_line_hr ctx off := by
  unfold md_analyze_line_hr md_is_hr_line ISANYOF
  simp only [line_ext_CH h off hoff, md_is_hr_line_scan_ext h off (off + 1) 1 hoff (by omega)]

theorem md_analyze_line_type_ext {ctx ctx' : MD_CTX σ} (h : line_ext ctx ctx')
    (hhl : ctx'.header_level = ctx.header_level) (beg : Nat) (hbeg : beg ≤ ctx.size)
    (pivot_line : MD_LINE) :
    (md_analyze_line_type ctx' beg pivot_line).2 = (md_analyze_line_type ctx beg pivot_line).2
      ∧ (md_analyze_line_type ctx' beg pivot_line).1.header_level
          = (md_analyze_line_type ctx beg pivot_line).1.header_level
      ∧ line_ext (md_analyze_line_type ctx beg pivot_line).1
          (md_analyze_line_type ctx' beg pivot_line).1 := by
  have hsz := line_ext_size h
  have hind := md_analyze_line_indent_ext h beg 0 hbeg
  have hls : line_start ctx' beg = line_start ctx beg := by unfold line_start; rw [hind]
  have hli : line_indent ctx' beg = line_indent ctx beg := by unfold line_indent; rw [hind]
  have hle := line_start_le ctx beg hbeg
  by_cases hb : line_start ctx beg ≥ ctx.size ∨ ISNEWLINE ctx (line_start ctx beg) = true
  · have he : line_start ctx beg = ctx.size := by
      rcases hb with hb | hb
      · omega
      · by_contra hne
        have hlt : line_start ctx beg < ctx.size := by omega
        have := line_ext_no_newline h _ hlt
        unfold ISNEWLINE at hb
        rw [this] at hb
        exact absurd hb (by simp)
    have hb' : line_start ctx' beg ≥ ctx'.size ∨ ISNEWLINE ctx' (line_start ctx' beg) = true := by
      right
      rw [hls, he]
      exact line_ext_CH_size h
    rw [md_analyze_line_type_blank ctx beg pivot_line hb,
      md_analyze_line_type_blank ctx' beg pivot_line hb', hls]
    exact ⟨rfl, hhl, h⟩
  · have hlt : line_start ctx beg < ctx.size := by
      by_contra hh; exact hb (Or.inl (by omega))
    have hb' : ¬ (line_start ctx' beg ≥ ctx'.size
        ∨ ISNEWLINE ctx' (line_start ctx' beg) = true) := by
      rw [hls]
      intro hh
      rcases hh with hh | hh
      · omega
      · unfold ISNEWLINE at hh
        rw [line_ext_CH h _ hlt, line_ext_no_newline h _ hlt] at hh
        exact absurd hh (by simp)
    by_cases hcode : (pivot_line.type = MD_LINE_BLANK ∨ pivot_line.type = MD_LINE_INDENTEDCODE)
        ∧ line_indent ctx beg ≥ ctx.code_indent_offset
    · have hcode' : (pivot_line.type = MD_LINE_BLANK ∨ pivot_line.type = MD_LINE_INDENTEDCODE)
          ∧ line_indent ctx' beg ≥ ctx'.code_indent_offset := by
        rw [hli, h.2.2.2]; exact hcode
      rw [md_analyze_line_type_code ctx beg pivot_line hb hcode,
        md_analyze_line_type_code ctx' beg pivot_line hb' hcode', hls, hli, h.2.2.2]
      exact ⟨rfl, hhl, h⟩
    · have hcode' : ¬ ((pivot_line.type = MD_LINE_BLANK ∨ pivot_line.type = MD_LINE_INDENTEDCODE)
          ∧ line_indent ctx' beg ≥ ctx'.code_indent_offset) := by
        rw [hli, h.2.2.2]; exact hcode
      rw [md_analyze_line_type_rest ctx beg pivot_line hb hcode,
        md_analyze_line_type_rest ctx' beg pivot_line hb' hcode', hls, hli]
      obtain ⟨ha2, hahl, haext⟩ := md_analyze_line_atx_ext h hhl (line_start ctx beg) hlt
      have hasz : (md_analyze_line_atx ctx (line_start ctx beg)).1.size = ctx.size :=
        size_congr (md_analyze_line_atx_text ctx _)
      have hset := md_analyze_line_setext_ext haext (line_start ctx beg) (by rw [hasz]; exact hlt)
        pivot_line
      have hhr := md_analyze_line_hr_ext haext (line_start ctx beg) (by rw [hasz]; exact hlt)
      rcases ha : md_analyze_line_atx ctx (line_start ctx beg) with ⟨c1, o⟩
      rcases ha' : md_analyze_line_atx ctx' (line_start ctx beg) with ⟨c1', o'⟩
      rw [ha, ha'] at ha2 hahl haext hset hhr
      simp only at ha2 hahl haext hset hhr
      subst ha2
      cases o' with
      | some b => exact ⟨rfl, hahl, haext⟩
      | none =>
        simp only
        rw [hhr]
        cases hs : md_analyze_line_setext c1 (line_start ctx beg) pivot_line with
        | some c2 =>
          cases hs' : md_analyze_line_setext c1' (line_start ctx beg) pivot_line with
          | some c2' =>
            rw [hs, hs'] at hset
            simp only [Option.map_some', Option.some.injEq] at hset
            refine ⟨rfl, hset, ?_⟩
            obtain ⟨_, _, e2⟩ := md_analyze_line_setext_some _ _ _ _ hs
            obtain ⟨_, _, e2'⟩ := md_analyze_line_setext_some _ _ _ _ hs'
            rw [e2, e2']
            exact line_ext_with haext _ _
          | none =>
            rw [hs, hs'] at hset
            simp at hset
        | none =>
          cases hs' : md_analyze_line_setext c1' (line_start ctx beg) pivot_line with
          | some c2' =>
            rw [hs, hs'] at hset
            simp at hset
          | none =>
            simp only
            cases md_analyze_line_hr c1 (line_start ctx beg) with
            | some e => exact ⟨rfl, hahl, haext⟩
            | none => exact ⟨rfl, hahl, haext⟩

theorem scan_forward_no_newline {ctx ctx' : MD_CTX σ} (h : line_ext ctx ctx') (off : Nat)
    (hoff : off ≤ ctx.size) : scan_forward ctx (fun ch => !ISNEWLINE_ ch) off = ctx.size := by
  have hle := scan_forward_le ctx (fun ch => !ISNEWLINE_ ch) off hoff
  rcases scan_forward_stop ctx (fun ch => !ISNEWLINE_ ch) off with h1 | h1
  · omega
  · by_contra hne
    have hlt : scan_forward ctx (fun ch => !ISNEWLINE_ ch) off < ctx.size := by omega
    have := line_ext_no_newline h _ hlt
    simp only [this] at h1
    exact absurd h1 (by simp)

theorem md_analyze_line_atx_end_ext {ctx ctx' : MD_CTX σ} (h : line_ext ctx ctx')
    (line : MD_LINE) (hend : line.end_ ≤ ctx.size) :
    md_analyze_line_atx_end ctx' line = md_analyze_line_atx_end ctx line := by
  have hsz := line_ext_size h
  have h1 := scan_backward_ext h ' ' line.beg line.end_ hend
  have hle1 := scan_backward_le ctx ' ' line.beg line.end_
  have h2 := scan_backward_ext h '#' line.beg (scan_backward ctx ' ' line.beg line.end_)
    (by omega)
  have hle2 := scan_backward_le ctx '#' line.beg (scan_backward ctx ' ' line.beg line.end_)
  unfold md_analyze_line_atx_end
  simp only [h1, h2, h.2.2.1]
  generalize scan_backward ctx '#' line.beg (scan_backward ctx ' ' line.beg line.end_) = tmp
    at hle2 ⊢
  have hsp : CH ctx' (tmp - 1) = ' ' ↔ CH ctx (tmp - 1) = ' ' := by
    by_cases hlt : tmp - 1 < ctx.size
    · rw [line_ext_CH h _ hlt]
    · have he : tmp - 1 = ctx.size := by omega
      have hz : ctx.size = 0 := by omega
      constructor
      · intro hh
        have := line_ext_CH_size h
        rw [← he, hh] at this
        exact absurd this (by decide)
      · intro hh
        have hd : CH ctx (tmp - 1) = Char.ofNat 0 := by
          unfold CH
          unfold MD_CTX.size at hz
          exact List.getD_eq_default _ _ (by omega)
        rw [hd] at hh
        exact absurd hh (by decide)
  simp only [hsp]

/-- The analysis of a line that ends at a line terminator gives the same line and the
same header level as that of the same line ending the buffer. -/
theorem md_analyze_line_ext {ctx ctx' : MD_CTX σ} (h : line_ext ctx ctx')
    (hhl : ctx'.header_level = ctx.header_level) (beg : Nat) (hbeg : beg ≤ ctx.size)
    (pivot_line : MD_LINE) :
    (md_analyze_line ctx' beg pivot_line).2.2 = (md_analyze_line ctx beg pivot_line).2.2
      ∧ (md_analyze_line ctx' beg pivot_line).1.header_level
          = (md_analyze_line ctx beg pivot_line).1.header_level
      ∧ (md_analyze_line ctx beg pivot_line).2.1 = ctx.size
      ∧ (md_analyze_line ctx' beg pivot_line).2.1
          = (if ctx.size + (if CH ctx' ctx.size = '\r' then 1 else 0) < ctx'.size
                ∧ CH ctx' (ctx.size + (if CH ctx' ctx.size = '\r' then 1 else 0)) = '\n'
              then ctx.size + (if CH ctx' ctx.size = '\r' then 1 else 0) + 1
              else ctx.size + (if CH ctx' ctx.size = '\r' then 1 else 0)) := by
  have hsz := line_ext_size h
  obtain ⟨ht2, hthl, htext⟩ := md_analyze_line_type_ext h hhl beg hbeg pivot_line
  have hT := (md_analyze_line_type_off ctx beg pivot_line).2 hbeg
  have htx := md_analyze_line_type_text ctx beg pivot_line
  have htx' := md_analyze_line_type_text ctx' beg pivot_line
  have hE := scan_forward_no_newline h _ hT
  have hE' : scan_forward ctx' (fun ch => !ISNEWLINE_ ch) (md_analyze_line_type ctx beg pivot_line).2.1
      = ctx.size := by
    rw [scan_forward_ext h _ (by intro c hc; simp [hc]) _ hT]
    exact hE
  refine ⟨?_, ?_, ?_, ?_⟩
  · have hcsz : (md_analyze_line_type ctx beg pivot_line).1.size = ctx.size := size_congr htx
    simp only [md_analyze_line, ht2]
    rw [scan_forward_congr htx', scan_forward_congr htx, hE, hE']
    have hae := md_analyze_line_atx_end_ext htext
      { (md_analyze_line_type ctx beg pivot_line).2.2 with end_ := ctx.size }
      (by rw [hcsz])
    rw [hae]
    have hle := md_analyze_line_atx_end_le (md_analyze_line_type ctx beg pivot_line).1
      { (md_analyze_line_type ctx beg pivot_line).2.2 with end_ := ctx.size }
    rw [scan_backward_ext htext ' ' _ _ (by rw [hcsz]; exact hle)]
  · exact hthl
  · rw [md_analyze_line_next_eq, hE]
    simp
  · rw [md_analyze_line_next_eq, ht2, hE']
    by_cases hcr : CH ctx' ctx.size = '\r'
    · have c1 : ctx.size < ctx'.size ∧ CH ctx' ctx.size = '\r' := ⟨hsz, hcr⟩
      simp only [if_pos c1, if_pos hcr]
    · have c1 : ¬ (ctx.size < ctx'.size ∧ CH ctx' ctx.size = '\r') := fun hh => hcr hh.2
      simp only [if_neg c1, if_neg hcr, Nat.add_zero]

theorem ISANYOF_hr_not_newline (ch : Char) (h : ISANYOF_ ch ['-', '_', '*'] = true) :
    ISNEWLINE_ ch = false := by
  unfold ISANYOF_ md_strchr md_strchr md_strchr md_strchr at h
  unfold ISNEWLINE_
  by_cases h1 : ch = '-'
  · rw [h1]; decide
  · by_cases h2 : ch = '_'
    · rw [h2]; decide
    · by_cases h3 : ch = '*'
      · rw [h3]; decide
      · simp [h1, h2, h3] at h

/-- The characters from the first one after the indentation to the end of the line are
no line terminators. -/
theorem line_region_no_newline (ctx : MD_CTX σ) (beg : Nat) (pivot_line : MD_LINE) (i : Nat)
    (h1 : line_start ctx beg ≤ i)
    (h2 : i < scan_forward ctx (fun ch => !ISNEWLINE_ ch)
      (md_analyze_line_type ctx beg pivot_line).2.1) :
    ISNEWLINE_ (CH ctx i) = false := by
  have hall := scan_forward_all ctx (fun ch => !ISNEWLINE_ ch)
    (md_analyze_line_type ctx beg pivot_line).2.1 i
  have hfrom : (md_analyze_line_type ctx beg pivot_line).2.1 ≤ i → ISNEWLINE_ (CH ctx i) = false := by
    intro hle
    simpa using hall hle h2
  rcases md_analyze_line_type_cases ctx beg pivot_line with h | ⟨_, h | ⟨_, h | ⟨_, h | ⟨_, h | h⟩⟩⟩⟩
  · rw [h.2] at hfrom; exact hfrom h1
  · rw [h.2.2] at hfrom; exact hfrom h1
  · obtain ⟨b, _, h⟩ := h
    rw [h] at hfrom; exact hfrom h1
  · obtain ⟨c2, _, h⟩ := h
    rw [h] at hfrom; exact hfrom h1
  · rename_i hnb _ _ _
    obtain ⟨e, he, h⟩ := h
    rw [h] at hfrom
    simp only at hfrom
    obtain ⟨hany, he2⟩ := md_analyze_line_hr_some ctx _ e he
    by_cases hie : e ≤ i
    · exact hfrom hie
    · by_cases his : i = line_start ctx beg
      · rw [his]; exact hnb.2
      · have hin := scan_forward_all ctx (fun ch => ch == CH ctx (line_start ctx beg) || ch == ' ')
          (line_start ctx beg + 1) i (by omega) (by rw [← he2]; omega)
        simp only [Bool.or_eq_true, beq_iff_eq] at hin
        rcases hin with hin | hin
        · rw [hin]; exact hnb.2
        · rw [hin]; decide
  · rw [h.2] at hfrom; exact hfrom h1

theorem md_analyze_line_beg_ge (ctx : MD_CTX σ) (beg : Nat) (pivot_line : MD_LINE) :
    line_start ctx beg ≤ (md_analyze_line ctx beg pivot_line).2.2.beg := by
  rw [md_analyze_line_beg_eq]
  rcases md_analyze_line_type_cases ctx beg pivot_line with h | ⟨_, h | ⟨_, h | ⟨_, h | ⟨_, h | h⟩⟩⟩⟩
  · rw [h.2]
  · rw [h.2.2]
  · obtain ⟨b, hb, h⟩ := h
    rw [h]
    simp only
    unfold md_analyze_line_atx at hb
    split_ifs at hb
    obtain ⟨_, _, hb2⟩ := md_is_atxheader_line_some ctx _ b hb
    rw [hb2]
    have := md_is_atxheader_line_scan_ge ctx (line_start ctx beg) (line_start ctx beg + 1)
    have := scan_forward_ge ctx (fun ch => ch == ' ')
      (md_is_atxheader_line_scan ctx (line_start ctx beg) (line_start ctx beg + 1))
    omega
  · obtain ⟨c2, _, h⟩ := h
    rw [h]
  · obtain ⟨e, _, h⟩ := h
    rw [h]
  · rw [h.2]

/-- The content slice of an analysed line holds no line terminator. -/
theorem md_analyze_line_content_no_newline (ctx : MD_CTX σ) (beg : Nat) (pivot_line : MD_LINE)
    (i : Nat) (h1 : (md_analyze_line ctx beg pivot_line).2.2.beg ≤ i)
    (h2 : i < (md_analyze_line ctx beg pivot_line).2.2.end_) :
    ISNEWLINE_ (CH ctx i) = false :=
  line_region_no_newline ctx beg pivot_line i
    (le_trans (md_analyze_line_beg_ge ctx beg pivot_line) h1)
    (Nat.lt_of_lt_of_le h2 (md_analyze_line_end_le ctx beg pivot_line))

theorem line_ext_with_text (ctx : MD_CTX σ) (s rest : List Char) (nl : Char)
    (hnl : ISNEWLINE_ nl = true) (hs : ∀ c ∈ s, c ≠ '\r' ∧ c ≠ '\n') :
    line_ext (with_text ctx s) (with_text ctx (s ++ nl :: rest)) := by
  refine ⟨⟨nl, rest, hnl, rfl⟩, ?_, rfl, rfl⟩
  intro c hc
  have := hs c hc
  unfold ISNEWLINE_
  simp [this.1, this.2]

/-- C9: for every string `s` without CR and LF, every pivot line and every flag set, the
analysis at offset 0 of the buffers `s`, `s ++ "\n" ++ rest` and `s ++ "\r\n" ++ rest`
gives the same line (type, content begin, content end, indent) and records the same
heading level; the next offsets are `|s|`, `|s| + 1` and `|s| + 2`.  Moreover, for every
buffer and every offset, no character of the content slice of the analysed line is a CR
or a LF. -/
theorem newline_normalization (ctx : MD_CTX σ) (s rest : List Char) (pivot_line : MD_LINE)
    (hs : ∀ c ∈ s, c ≠ '\r' ∧ c ≠ '\n') :
    ((md_analyze_line (with_text ctx (s ++ '\n' :: rest)) 0 pivot_line).2.2
        = (md_analyze_line (with_text ctx s) 0 pivot_line).2.2
      ∧ (md_analyze_line (with_text ctx (s ++ '\r' :: '\n' :: rest)) 0 pivot_line).2.2
        = (md_analyze_line (with_text ctx s) 0 pivot_line).2.2
      ∧ (md_analyze_line (with_text ctx (s ++ '\n' :: rest)) 0 pivot_line).1.header_level
        = (md_analyze_line (with_text ctx s) 0 pivot_line).1.header_level
      ∧ (md_analyze_line (with_text ctx (s ++ '\r' :: '\n' :: rest)) 0 pivot_line).1.header_level
        = (md_analyze_line (with_text ctx s) 0 pivot_line).1.header_level
      ∧ (md_analyze_line (with_text ctx s) 0 pivot_line).2.1 = s.length
      ∧ (md_analyze_line (with_text ctx (s ++ '\n' :: rest)) 0 pivot_line).2.1 = s.length + 1
      ∧ (md_analyze_line (with_text ctx (s ++ '\r' :: '\n' :: rest)) 0 pivot_line).2.1
        = s.length + 2)
    ∧ (∀ (beg i : Nat), (md_analyze_line ctx beg pivot_line).2.2.beg ≤ i →
        i < (md_analyze_line ctx beg pivot_line).2.2.end_ →
          CH ctx i ≠ '\r' ∧ CH ctx i ≠ '\n') := by
  have hlf := line_ext_with_text ctx s rest '\n' (by decide) hs
  have hcr := line_ext_with_text ctx s ('\n' :: rest) '\r' (by decide) hs
  have h0 : (0 : Nat) ≤ (with_text ctx s).size := Nat.zero_le _
  obtain ⟨a1, a2, a3, a4⟩ := md_analyze_line_ext hlf rfl 0 h0 pivot_line
  obtain ⟨b1, b2, b3, b4⟩ := md_analyze_line_ext hcr rfl 0 h0 pivot_line
  have hsz : (with_text ctx s).size = s.length := rfl
  have hch1 : CH (with_text ctx (s ++ '\n' :: rest)) s.length = '\n' := by
    unfold CH with_text
    simp only
    rw [List.getD_append_right _ _ _ _ (le_refl _)]
    simp
  have hch2 : CH (with_text ctx (s ++ '\r' :: '\n' :: rest)) s.length = '\r' := by
    unfold CH with_text
    simp only
    rw [List.getD_append_right _ _ _ _ (le_refl _)]
    simp
  have hch3 : CH (with_text ctx (s ++ '\r' :: '\n' :: rest)) (s.length + 1) = '\n' := by
    unfold CH with_text
    simp only
    rw [List.getD_append_right _ _ _ _ (Nat.le_succ _)]
    simp
  have hsz2 : (with_text ctx (s ++ '\n' :: rest)).size = s.length + 1 + rest.length := by
    unfold MD_CTX.size with_text
    simp; omega
  have hsz3 : (with_text ctx (s ++ '\r' :: '\n' :: rest)).size = s.length + 2 + rest.length := by
    unfold MD_CTX.size with_text
    simp; omega
  refine ⟨⟨a1, b1, a2, b2, a3, ?_, ?_⟩, ?_⟩
  · rw [a4, hsz, hch1]
    have hne : ¬ ('\n' = '\r') := by decide
    simp only [hne, if_false, Nat.add_zero, hch1, hsz2]
    rw [if_pos ⟨by omega, trivial⟩]
  · rw [b4, hsz, hch2]
    simp only [if_true, hch3, hsz3]
    rw [if_pos ⟨by omega, trivial⟩]
  · intro beg i h1 h2
    have := md_analyze_line_content_no_newline ctx beg pivot_line i h1 h2
    unfold ISNEWLINE_ at this
    simp only [Bool.or_eq_false_iff, beq_eq_false_iff_ne, ne_eq] at this
    exact this

/-- The line `"## Title #"` before `"\n"` and before `"\r\n"`. -/
theorem newline_normalization_witness :
    (∀ c ∈ ['#', '#', ' ', 'T', 'i', 't', 'l', 'e', ' ', '#'], c ≠ '\r' ∧ c ≠ '\n')
      ∧ (md_analyze_line (ok_ctx ['#', '#', ' ', 'T', 'i', 't', 'l', 'e', ' ', '#', '\n', 'x']
            default_flags) 0 dummy_line).2
          = (11, { type := MD_LINE_ATXHEADER, beg := 3, end_ := 8, indent := 0 })
      ∧ (md_analyze_line (ok_ctx ['#', '#', ' ', 'T', 'i', 't', 'l', 'e', ' ', '#', '\r', '\n', 'x']
            default_flags) 0 dummy_line).2
          = (12, { type := MD_LINE_ATXHEADER, beg := 3, end_ := 8, indent := 0 })
      ∧ (md_analyze_line (with_text (ok_ctx [] default_flags)
            (['#', '#', ' ', 'T', 'i', 't', 'l', 'e', ' ', '#'] ++ '\n' :: ['x'])) 0 dummy_line).2.2
          = (md_analyze_line (with_text (ok_ctx [] default_flags)
              ['#', '#', ' ', 'T', 'i', 't', 'l', 'e', ' ', '#']) 0 dummy_line).2.2 :=
  ⟨by decide, by decide, by decide,
    (newline_normalization (ok_ctx [] default_flags)
      ['#', '#', ' ', 'T', 'i', 't', 'l', 'e', ' ', '#'] ['x'] dummy_line (by decide)).1.1⟩


/-! ## Reading a buffer whose text from an offset on is known -/

theorem CH_of_drop (ctx : MD_CTX σ) (off : Nat) (y : Char) (ys : List Char)
    (h : ctx.text.drop off = y :: ys) : off < ctx.size ∧ CH ctx off = y := by
  have hlt : off < ctx.size := by
    by_contra hge
    rw [drop_eq_nil_of_size_le ctx off (by omega)] at h
    exact absurd h (by simp)
  refine ⟨hlt, ?_⟩
  rw [drop_eq_CH_cons ctx off hlt] at h
  exact (List.cons.inj h).1

theorem drop_add_of_drop (ctx : MD_CTX σ) (off : Nat) (pre suf : List Char)
    (h : ctx.text.drop off = pre ++ suf) : ctx.text.drop (off + pre.length) = suf := by
  rw [← List.drop_drop, h, List.drop_left]

theorem takeWhile_of_prefix (p : Char → Bool) (pre suf : List Char)
    (hpre : ∀ x ∈ pre, p x = true) (hsuf : ∀ y ∈ suf.head?, p y = false) :
    (pre ++ suf).takeWhile p = pre := by
  rw [List.takeWhile_append_of_pos hpre]
  cases suf with
  | nil => simp
  | cons y ys =>
    have := hsuf y (by simp)
    rw [List.takeWhile_cons_of_neg (by simp [this])]
    simp

theorem scan_forward_of_drop (ctx : MD_CTX σ) (p : Char → Bool) (off : Nat) (pre suf : List Char)
    (h : ctx.text.drop off = pre ++ suf) (hpre : ∀ x ∈ pre, p x = true)
    (hsuf : ∀ y ∈ suf.head?, p y = false) : scan_forward ctx p off = off + pre.length := by
  rw [scan_forward_eq, h, takeWhile_of_prefix p pre suf hpre hsuf]

theorem CH_last_of_drop (ctx : MD_CTX σ) (off : Nat) (pre suf : List Char)
    (h : ctx.text.drop off = pre ++ suf) (hne : pre ≠ []) :
    CH ctx (off + pre.length - 1) = pre.getLast hne := by
  have hsplit : pre = pre.dropLast ++ [pre.getLast hne] := (List.dropLast_append_getLast hne).symm
  have h2 : ctx.text.drop off = pre.dropLast ++ (pre.getLast hne :: suf) := by
    rw [h]
    conv_lhs => rw [hsplit]
    simp
  have h3 := drop_add_of_drop ctx off _ _ h2
  have hlen : off + pre.dropLast.length = off + pre.length - 1 := by
    have : pre.length = pre.dropLast.length + 1 := by
      conv_lhs => rw [hsplit]
      simp
    omega
  rw [hlen] at h3
  exact (CH_of_drop ctx _ _ _ h3).2

theorem size_of_drop (ctx : MD_CTX σ) (off : Nat) (l : List Char) (hoff : off ≤ ctx.size)
    (h : ctx.text.drop off = l) : ctx.size = off + l.length := by
  have := congrArg List.length h
  rw [List.length_drop] at this
  unfold MD_CTX.size at *
  omega

theorem content_of_drop (text : List Char) (line : MD_LINE) (pre suf : List Char)
    (h : text.drop line.beg = pre ++ suf) (hlen : line.end_ - line.beg = pre.length) :
    line.content text = pre := by
  unfold MD_LINE.content
  rw [h, hlen, List.take_left]

/-! ## Runs with callbacks that succeed -/

/-- What a run whose callbacks all return 0 emits and records. -/
theorem emit_ok (ctx : MD_CTX σ) (h : renderer_ok ctx.r) (es : List MD_EVENT) :
    (emit ctx es).1 = 0 ∧ (emit ctx es).2.events = ctx.events ++ es.map (fun e => (e, 0)) := by
  induction es generalizing ctx with
  | nil => simp
  | cons e es ih =>
    have h1 : (emit_one ctx e).1 = 0 := by
      cases e with
      | enter_block t d =>
        simp only [emit_one, MD_ENTER_BLOCK]
        have := h.1 t d ctx.userdata
        simp [this]
      | leave_block t d =>
        simp only [emit_one, MD_LEAVE_BLOCK]
        have := h.2.1 t d ctx.userdata
        simp [this]
      | text t s =>
        simp only [emit_one, MD_TEXT]
        have := h.2.2 t s ctx.userdata
        simp [this]
    obtain ⟨_, hr, _, _, hev⟩ := emit_one_spec ctx e
    rw [emit_cons, if_neg (by simp [h1])]
    obtain ⟨i1, i2⟩ := ih (emit_one ctx e).2 (by rw [hr]; exact h)
    refine ⟨i1, ?_⟩
    rw [i2, hev, h1]
    simp

/-! ## ATX header lines -/

theorem line_start_of_not_blank (ctx : MD_CTX σ) (off : Nat) (y : Char) (ys : List Char)
    (h : ctx.text.drop off = y :: ys) (hy : ISBLANK_ y = false) :
    line_start ctx off = off ∧ line_indent ctx off = 0 := by
  obtain ⟨hlt, hch⟩ := CH_of_drop ctx off y ys h
  unfold line_start line_indent
  rw [md_analyze_line_indent_unfold, if_neg]
  · exact ⟨rfl, rfl⟩
  · intro hh
    have := hh.2
    unfold ISBLANK at this
    rw [hch, hy] at this
    exact absurd this (by simp)

/-- The analysis of a line made of `n` (1 to 6) `#`, a space and a content without `#`,
CR and LF that neither begins nor ends with a space, when ATX headers are not permissive
and the code indentation is not zero. -/
theorem analyze_atx_line (ctx : MD_CTX σ) (n : Nat) (c rest : List Char) (pivot_line : MD_LINE)
    (hn1 : 1 ≤ n) (hn6 : n ≤ 6) (hc : c ≠ [])
    (hno : ∀ ch ∈ c, ch ≠ '\r' ∧ ch ≠ '\n' ∧ ch ≠ '#')
    (hfirst : c.head? ≠ some ' ') (hlast : c.getLast? ≠ some ' ')
    (hflag : ctx.r.flags.MD_FLAG_PERMISSIVEATXHEADERS = false)
    (hcio : 0 < ctx.code_indent_offset)
    (htext : ctx.text = List.replicate n '#' ++ ' ' :: c ++ '\n' :: rest) :
    md_analyze_line ctx 0 pivot_line
      = ({ ctx with header_level := n }, n + 1 + c.length + 1,
         { type := MD_LINE_ATXHEADER, beg := n + 1, end_ := n + 1 + c.length, indent := 0 }) := by
  obtain ⟨k, hk⟩ : ∃ k, n = k + 1 := ⟨n - 1, by omega⟩
  -- the text from the offsets 0, 1, n and n + 1 on
  have hd0 : ctx.text.drop 0 = '#' :: (List.replicate k '#' ++ ' ' :: c ++ '\n' :: rest) := by
    rw [List.drop_zero, htext, hk, List.replicate_succ]
    simp
  have hd1 : ctx.text.drop (0 + 1)
      = List.replicate k '#' ++ (' ' :: c ++ '\n' :: rest) := by
    have := drop_add_of_drop ctx 0 ['#'] _ hd0
    simpa using this
  have hdn : ctx.text.drop n = [' '] ++ (c ++ '\n' :: rest) := by
    have := drop_add_of_drop ctx (0 + 1) _ _ hd1
    rw [List.length_replicate] at this
    rw [hk, Nat.add_comm k 1, ← Nat.zero_add (1 + k), ← Nat.add_assoc]
    simpa using this
  have hdn1 : ctx.text.drop (n + 1) = c ++ '\n' :: rest := by
    have := drop_add_of_drop ctx n _ _ hdn
    simpa using this
  have hline : ctx.text.drop 0 = (List.replicate n '#' ++ ' ' :: c) ++ '\n' :: rest := by
    rw [List.drop_zero, htext]
  obtain ⟨hsz0, hch0⟩ := CH_of_drop ctx 0 _ _ hd0
  -- the indentation
  obtain ⟨hls, hli⟩ := line_start_of_not_blank ctx 0 _ _ hd0 (by decide)
  have hnb : ¬ (line_start ctx 0 ≥ ctx.size ∨ ISNEWLINE ctx (line_start ctx 0) = true) := by
    rw [hls]
    intro hh
    rcases hh with hh | hh
    · omega
    · unfold ISNEWLINE at hh
      rw [hch0] at hh
      exact absurd hh (by decide)
  have hcode : ¬ ((pivot_line.type = MD_LINE_BLANK ∨ pivot_line.type = MD_LINE_INDENTEDCODE)
      ∧ line_indent ctx 0 ≥ ctx.code_indent_offset) := by
    rw [hli]
    intro hh
    omega
  -- the ATX test
  have hscan : md_is_atxheader_line_scan ctx 0 (0 + 1) = n := by
    rw [md_is_atxheader_line_scan_eq, hd1,
      takeWhile_of_prefix (fun ch => ch == '#') (List.replicate k '#') _
        (by intro x hx; rw [List.eq_of_mem_replicate hx]; rfl) (by simp)]
    rw [List.length_replicate]
    omega
  obtain ⟨hszn, hchn⟩ := CH_of_drop ctx n ' ' (c ++ '\n' :: rest) hdn
  have hhead : ∀ y ∈ (c ++ '\n' :: rest).head?, (fun ch => ch == ' ') y = false := by
    intro y hy
    cases c with
    | nil => exact absurd rfl hc
    | cons c0 cs =>
      simp only [List.cons_append, List.head?_cons, Option.mem_def, Option.some.injEq] at hy
      simp only [List.head?_cons, ne_eq, Option.some.injEq] at hfirst
      rw [← hy]
      simpa using hfirst
  have hb : scan_forward ctx (fun ch => ch == ' ') n = n + 1 := by
    rw [scan_forward_of_drop ctx _ n [' '] _ hdn (by simp) hhead]
    rfl
  have hatx : md_is_atxheader_line ctx 0 = ({ ctx with header_level := n }, some (n + 1)) := by
    unfold md_is_atxheader_line
    simp only [hscan, Nat.sub_zero]
    rw [if_neg (by omega), if_neg, hb]
    intro hh
    exact hh.2.2.1 hchn
  have hatx2 : md_analyze_line_atx ctx (line_start ctx 0)
      = ({ ctx with header_level := n }, some (n + 1)) := by
    unfold md_analyze_line_atx
    rw [hls, if_pos hch0, hatx]
  have htype : md_analyze_line_type ctx 0 pivot_line
      = ({ ctx with header_level := n }, 0,
         { type := MD_LINE_ATXHEADER, beg := n + 1, end_ := 0, indent := 0 }) := by
    rw [md_analyze_line_type_rest ctx 0 pivot_line hnb hcode, hatx2, hls, hli]
  -- the end of the line
  have hcne : ∀ x ∈ List.replicate n '#' ++ ' ' :: c, (fun ch => !ISNEWLINE_ ch) x = true := by
    intro x hx
    rcases List.mem_append.1 hx with hx | hx
    · rw [List.eq_of_mem_replicate hx]; rfl
    · rcases List.mem_cons.1 hx with hx | hx
      · rw [hx]; rfl
      · have := hno x hx
        unfold ISNEWLINE_
        simp [this.1, this.2.1]
  have hE : scan_forward ctx (fun ch => !ISNEWLINE_ ch) 0 = n + 1 + c.length := by
    rw [scan_forward_of_drop ctx _ 0 _ _ hline hcne (by simp [ISNEWLINE_])]
    simp
    omega
  have hdE : ctx.text.drop (n + 1 + c.length) = '\n' :: rest := by
    have := drop_add_of_drop ctx (n + 1) c _ hdn1
    exact this
  obtain ⟨hszE, hchE⟩ := CH_of_drop ctx _ _ _ hdE
  have hlastc : CH ctx (n + 1 + c.length - 1) = c.getLast hc :=
    CH_last_of_drop ctx (n + 1) c _ hdn1 hc
  have hl1 : c.getLast hc ≠ ' ' := by
    intro hh
    apply hlast
    rw [List.getLast?_eq_getLast _ hc, hh]
  have hl2 : c.getLast hc ≠ '#' := (hno _ (List.getLast_mem hc)).2.2
  have hclen : 0 < c.length := List.length_pos.2 hc
  have hsize : ctx.size = n + 1 + c.length + 1 + rest.length := by
    have := size_of_drop ctx _ _ (by omega) hdE
    simp at this
    omega
  -- putting the parts together
  have hC : ∀ off, CH ({ ctx with header_level := n } : MD_CTX σ) off = CH ctx off := fun _ => rfl
  have hS : ({ ctx with header_level := n } : MD_CTX σ).size = ctx.size := rfl
  have hF : ∀ p off, scan_forward ({ ctx with header_level := n } : MD_CTX σ) p off
      = scan_forward ctx p off := fun p off => @scan_forward_congr σ ctx { ctx with header_level := n } rfl p off
  have hB : ∀ ch b t, scan_backward ({ ctx with header_level := n } : MD_CTX σ) ch b t
      = scan_backward ctx ch b t := fun ch b t => @scan_backward_congr σ ctx { ctx with header_level := n } rfl ch b t
  have hsb1 : scan_backward ctx ' ' (n + 1) (n + 1 + c.length) = n + 1 + c.length :=
    scan_backward_of_ne ctx _ _ _ (by rw [hlastc]; exact hl1)
  have hsb2 : scan_backward ctx '#' (n + 1) (n + 1 + c.length) = n + 1 + c.length :=
    scan_backward_of_ne ctx _ _ _ (by rw [hlastc]; exact hl2)
  have hend : md_analyze_line_atx_end ({ ctx with header_level := n } : MD_CTX σ)
      { type := MD_LINE_ATXHEADER, beg := n + 1, end_ := n + 1 + c.length, indent := 0 }
      = { type := MD_LINE_ATXHEADER, beg := n + 1, end_ := n + 1 + c.length, indent := 0 } := by
    unfold md_analyze_line_atx_end
    simp only [hB, hsb1, hsb2, hC, hlastc, if_true]
    rw [if_neg]
    intro hh
    rcases hh with hh | hh | hh
    · omega
    · exact hl1 hh
    · rw [hflag] at hh
      exact absurd hh (by simp)
  unfold md_analyze_line
  simp only [htype, hF, hE, hend, hB, hsb1, hC, hS, hchE]
  have hnr : ¬ ('\n' = '\r') := by decide
  simp only [hnr, and_false, if_false, and_true, if_pos hszE]
  rw [if_pos ⟨hszE, hchE⟩]

/-! ## Documents of one line -/

theorem md_process_doc_finish_eq_emit (s : MD_DOC_STATE σ) (hinv : doc_inv s) :
    md_process_doc_finish s
      = emit s.ctx (block_events s.ctx.text s.ctx.header_level s.lines
          ++ [MD_EVENT.leave_block MD_BLOCK_DOC none]) := by
  have hhead := doc_inv_head s hinv
  have hhead' : ∀ l ∈ s.lines.head?, l.type ≠ MD_LINE_SETEXTUNDERLINE := by
    intro l hl
    rcases hhead l hl with h | h | h <;> rw [h] <;> simp
  unfold md_process_doc_finish
  simp only [MD_LEAVE_BLOCK_eq_emit]
  by_cases hb : s.pivot_line.type ≠ MD_LINE_BLANK
  · rw [if_pos hb, md_process_block_eq_emit _ _ hhead', emit_then]
  · rw [if_neg hb]
    have hnil : block_events s.ctx.text s.ctx.header_level s.lines = [] := by
      cases hl : s.lines with
      | nil => rfl
      | cons l0 rest =>
        obtain ⟨l0', rest', hl', hp, _⟩ := doc_inv_pivot s hinv (by rw [hl]; simp)
        rw [hl] at hl'
        obtain ⟨e1, _⟩ := List.cons.inj hl'
        subst e1
        have : l0.type = MD_LINE_BLANK := by
          rw [← hp]; simpa using hb
        simp [block_events, this]
    rw [hnil]
    simp

theorem md_process_doc_loop_done (fuel : Nat) (s : MD_DOC_STATE σ) (h : ¬ s.off < s.ctx.size) :
    md_process_doc_loop fuel s = some (0, s) := by
  cases fuel with
  | zero => rw [md_process_doc_loop, if_neg h]
  | succ k => rw [md_process_doc_loop, if_neg h]

/-- A round of the main loop with callbacks that all return 0 does not abort, and records
the events of the round. -/
theorem md_process_doc_iter_ok (s : MD_DOC_STATE σ) (hinv : doc_inv s)
    (hr : renderer_ok s.ctx.r) :
    (md_process_doc_iter s).1 = 0
      ∧ (md_process_doc_iter s).2.ctx.events
          = s.ctx.events ++ (md_process_doc_iter_events s).map (fun e => (e, 0)) := by
  obtain ⟨h1, h2, _, _⟩ := md_process_doc_iter_spec s hinv
  have hr' : renderer_ok (md_analyze_line s.ctx s.off s.pivot_line).1.r := by
    rw [md_analyze_line_r]; exact hr
  obtain ⟨e1, e2⟩ := emit_ok _ hr' (md_process_doc_iter_events s)
  rw [h1, h2, e2, md_analyze_line_events]
  exact ⟨e1, rfl⟩

/-- The parse of a buffer whose first line is the whole buffer, with callbacks that all
return 0: the events of the only round of the main loop, then the block pending. -/
theorem md_process_doc_single_round (fuel : Nat) (ctx : MD_CTX σ) (hr : renderer_ok ctx.r)
    (hf : 1 ≤ fuel) (hne : 0 < ctx.size)
    (hnext : (md_analyze_line (emit ctx [MD_EVENT.enter_block MD_BLOCK_DOC none]).2 0
        dummy_line).2.1 = ctx.size) :
    ∃ res, md_process_doc fuel ctx = some res ∧ res.1 = 0
      ∧ res.2.events = ctx.events
          ++ (MD_EVENT.enter_block MD_BLOCK_DOC none
              :: md_process_doc_iter_events
                  (MD_DOC_STATE.mk (emit ctx [MD_EVENT.enter_block MD_BLOCK_DOC none]).2 true [] 0)
              ++ block_events ctx.text
                  (md_process_doc_iter
                    (MD_DOC_STATE.mk (emit ctx [MD_EVENT.enter_block MD_BLOCK_DOC none]).2
                      true [] 0)).2.ctx.header_level
                  (md_process_doc_iter
                    (MD_DOC_STATE.mk (emit ctx [MD_EVENT.enter_block MD_BLOCK_DOC none]).2
                      true [] 0)).2.lines
              ++ [MD_EVENT.leave_block MD_BLOCK_DOC none]).map (fun e => (e, 0)) := by
  obtain ⟨k, hk⟩ : ∃ k, fuel = k + 1 := ⟨fuel - 1, by omega⟩
  obtain ⟨e01, e02⟩ := emit_ok ctx hr [MD_EVENT.enter_block MD_BLOCK_DOC none]
  generalize hs0 : MD_DOC_STATE.mk (emit ctx [MD_EVENT.enter_block MD_BLOCK_DOC none]).2 true [] 0
    = s0
  have hinit : doc_inv s0 := by
    rw [← hs0]
    simp [doc_inv, MD_DOC_STATE.pivot_line, dummy_line]
  have hs0c : s0.ctx = (emit ctx [MD_EVENT.enter_block MD_BLOCK_DOC none]).2 := by rw [← hs0]
  have hs0o : s0.off = 0 := by rw [← hs0]
  have hs0p : s0.pivot_line = dummy_line := by rw [← hs0]; rfl
  have hs0s : s0.ctx.size = ctx.size := by rw [hs0c, emit_size]
  have hr0 : renderer_ok s0.ctx.r := by rw [hs0c, emit_r]; exact hr
  obtain ⟨i1, i2⟩ := md_process_doc_iter_ok s0 hinit hr0
  obtain ⟨_, _, ioff, _⟩ := md_process_doc_iter_spec s0 hinit
  obtain ⟨isz, itx, ir, _⟩ := md_process_doc_iter_size s0 hinit
  have hinv1 := md_process_doc_iter_inv s0 hinit i1
  rw [hs0o, hs0p, hs0c, hnext] at ioff
  have hdone : ¬ (md_process_doc_iter s0).2.off < (md_process_doc_iter s0).2.ctx.size := by
    rw [ioff, isz, hs0s]; omega
  have hloop : md_process_doc_loop fuel s0 = some (0, (md_process_doc_iter s0).2) := by
    rw [hk, md_process_doc_loop, if_pos (by rw [hs0o, hs0s]; exact hne)]
    simp only [i1, ne_eq, not_true_eq_false, if_false]
    exact md_process_doc_loop_done k _ hdone
  have hfin := md_process_doc_finish_eq_emit _ hinv1
  have hr1 : renderer_ok (md_process_doc_iter s0).2.ctx.r := by rw [ir]; exact hr0
  obtain ⟨f1, f2⟩ := emit_ok _ hr1 (block_events (md_process_doc_iter s0).2.ctx.text
    (md_process_doc_iter s0).2.ctx.header_level (md_process_doc_iter s0).2.lines
      ++ [MD_EVENT.leave_block MD_BLOCK_DOC none])
  refine ⟨md_process_doc_finish (md_process_doc_iter s0).2, ?_, ?_, ?_⟩
  · unfold md_process_doc
    simp only [MD_ENTER_BLOCK_eq_emit, e01, ne_eq, not_true_eq_false, if_false, hs0, hloop]
  · rw [hfin, f1]
  · rw [hfin, f2, i2, hs0c, e02, itx, hs0c, emit_text]
    simp

/-- The test `md_is_atxheader_line` fails on a line that begins with 7 or more `#`. -/
theorem md_is_atxheader_line_hashes (ctx : MD_CTX σ) (n : Nat) (rest : List Char)
    (hn7 : 7 ≤ n) (hrest : ∀ y ∈ rest.head?, y ≠ '#')
    (htext : ctx.text = List.replicate n '#' ++ rest) :
    md_is_atxheader_line ctx 0 = (ctx, none) := by
  obtain ⟨k, hk⟩ : ∃ k, n = k + 1 := ⟨n - 1, by omega⟩
  have hd0 : ctx.text.drop 0 = '#' :: (List.replicate k '#' ++ rest) := by
    rw [List.drop_zero, htext, hk, List.replicate_succ]
    simp
  have hd1 : ctx.text.drop (0 + 1) = List.replicate k '#' ++ rest := by
    have := drop_add_of_drop ctx 0 ['#'] _ hd0
    simpa using this
  have hscan : md_is_atxheader_line_scan ctx 0 (0 + 1) = 7 := by
    rw [md_is_atxheader_line_scan_eq, hd1,
      takeWhile_of_prefix (fun ch => ch == '#') (List.replicate k '#') _
        (by intro x hx; rw [List.eq_of_mem_replicate hx]; rfl)
        (by intro y hy; simpa using hrest y hy)]
    rw [List.length_replicate]
    omega
  unfold md_is_atxheader_line
  simp only [hscan, Nat.sub_zero]
  rw [if_pos (by omega)]

/-- The analysis of a line made of `n ≥ 7` characters `#`, a space and a content without
`#`, CR and LF that does not end with a space: the ATX test fails and the line is text. -/
theorem analyze_hashes_line (ctx : MD_CTX σ) (n : Nat) (c rest : List Char) (pivot_line : MD_LINE)
    (hn7 : 7 ≤ n) (hc : c ≠ [])
    (hno : ∀ ch ∈ c, ch ≠ '\r' ∧ ch ≠ '\n' ∧ ch ≠ '#')
    (hlast : c.getLast? ≠ some ' ')
    (hcio : 0 < ctx.code_indent_offset)
    (htext : ctx.text = List.replicate n '#' ++ ' ' :: c ++ '\n' :: rest) :
    md_analyze_line ctx 0 pivot_line
      = (ctx, n + 1 + c.length + 1,
         { type := MD_LINE_TEXT, beg := 0, end_ := n + 1 + c.length, indent := 0 }) := by
  obtain ⟨k, hk⟩ : ∃ k, n = k + 1 := ⟨n - 1, by omega⟩
  have hd0 : ctx.text.drop 0 = '#' :: (List.replicate k '#' ++ ' ' :: c ++ '\n' :: rest) := by
    rw [List.drop_zero, htext, hk, List.replicate_succ]
    simp
  have hd1 : ctx.text.drop (0 + 1)
      = List.replicate k '#' ++ (' ' :: c ++ '\n' :: rest) := by
    have := drop_add_of_drop ctx 0 ['#'] _ hd0
    simpa using this
  have hline : ctx.text.drop 0 = (List.replicate n '#' ++ ' ' :: c) ++ '\n' :: rest := by
    rw [List.drop_zero, htext]
  have hdn1 : ctx.text.drop (0 + (List.replicate n '#' ++ [' ']).length) = c ++ '\n' :: rest := by
    apply drop_add_of_drop ctx 0 (List.replicate n '#' ++ [' ']) (c ++ '\n' :: rest)
    rw [hline]
    simp
  have hlen1 : 0 + (List.replicate n '#' ++ [' ']).length = n + 1 := by simp
  rw [hlen1] at hdn1
  obtain ⟨hsz0, hch0⟩ := CH_of_drop ctx 0 _ _ hd0
  obtain ⟨hls, hli⟩ := line_start_of_not_blank ctx 0 _ _ hd0 (by decide)
  have hnb : ¬ (line_start ctx 0 ≥ ctx.size ∨ ISNEWLINE ctx (line_start ctx 0) = true) := by
    rw [hls]
    intro hh
    rcases hh with hh | hh
    · omega
    · unfold ISNEWLINE at hh
      rw [hch0] at hh
      exact absurd hh (by decide)
  have hcode : ¬ ((pivot_line.type = MD_LINE_BLANK ∨ pivot_line.type = MD_LINE_INDENTEDCODE)
      ∧ line_indent ctx 0 ≥ ctx.code_indent_offset) := by
    rw [hli]
    intro hh
    omega
  have hatx : md_is_atxheader_line ctx 0 = (ctx, none) :=
    md_is_atxheader_line_hashes ctx n (' ' :: c ++ '\n' :: rest) hn7
      (by intro y hy; simp at hy; rw [← hy]; decide) (by rw [htext]; simp)
  have hatx2 : md_analyze_line_atx ctx (line_start ctx 0) = (ctx, none) := by
    unfold md_analyze_line_atx
    rw [hls, if_pos hch0, hatx]
  have hset : md_analyze_line_setext ctx (line_start ctx 0) pivot_line = none := by
    unfold md_analyze_line_setext
    rw [hls, hch0, if_neg]
    intro hh
    rcases hh.2 with h | h <;> exact absurd h (by decide)
  have hhr : md_analyze_line_hr ctx (line_start ctx 0) = none := by
    unfold md_analyze_line_hr
    rw [hls, if_neg]
    unfold ISANYOF
    rw [hch0]
    decide
  have htype : md_analyze_line_type ctx 0 pivot_line
      = (ctx, 0, { type := MD_LINE_TEXT, beg := 0, end_ := 0, indent := 0 }) := by
    rw [md_analyze_line_type_rest ctx 0 pivot_line hnb hcode, hatx2]
    rw [hls] at hset hhr
    simp only [hls, hli, hset, hhr]
  have hcne : ∀ x ∈ List.replicate n '#' ++ ' ' :: c, (fun ch => !ISNEWLINE_ ch) x = true := by
    intro x hx
    rcases List.mem_append.1 hx with hx | hx
    · rw [List.eq_of_mem_replicate hx]; rfl
    · rcases List.mem_cons.1 hx with hx | hx
      · rw [hx]; rfl
      · have := hno x hx
        unfold ISNEWLINE_
        simp [this.1, this.2.1]
  have hE : scan_forward ctx (fun ch => !ISNEWLINE_ ch) 0 = n + 1 + c.length := by
    rw [scan_forward_of_drop ctx _ 0 _ _ hline hcne (by simp [ISNEWLINE_])]
    simp
    omega
  have hdE : ctx.text.drop (n + 1 + c.length) = '\n' :: rest :=
    drop_add_of_drop ctx (n + 1) c _ hdn1
  obtain ⟨hszE, hchE⟩ := CH_of_drop ctx _ _ _ hdE
  have hlastc : CH ctx (n + 1 + c.length - 1) = c.getLast hc :=
    CH_last_of_drop ctx (n + 1) c _ hdn1 hc
  have hl1 : c.getLast hc ≠ ' ' := by
    intro hh
    apply hlast
    rw [List.getLast?_eq_getLast _ hc, hh]
  have hsb1 : scan_backward ctx ' ' 0 (n + 1 + c.length) = n + 1 + c.length :=
    scan_backward_of_ne ctx _ _ _ (by rw [hlastc]; exact hl1)
  unfold md_analyze_line
  simp only [htype, hE]
  have hend : md_analyze_line_atx_end ctx
      { type := MD_LINE_TEXT, beg := 0, end_ := n + 1 + c.length, indent := 0 }
      = { type := MD_LINE_TEXT, beg := 0, end_ := n + 1 + c.length, indent := 0 } := by
    unfold md_analyze_line_atx_end
    rw [if_neg (by simp)]
  simp only [hend, hsb1, hchE]
  have hnr : ¬ ('\n' = '\r') := by decide
  simp only [hnr, and_false, if_false]
  rw [if_pos ⟨hszE, hchE⟩]

/-- C3: for every renderer with the default flags whose callbacks all return 0, every
`n ≥ 1` and every content `c` that is not empty, holds no CR, LF or `#` and neither begins
nor ends with a space, the parse of the buffer made of `n` characters `#`, a space, `c` and
`"\n"` returns 0; when `n ≤ 6` it invokes exactly `enter_block(Document)`,
`enter_block(Heading, n)`, `text(Normal, c)`, `text(Normal, "\n")`, `leave_block(Heading, n)`,
`leave_block(Document)`; when `n ≥ 7` the test `md_is_atxheader_line` fails and the line is
rendered as a paragraph whose text is the whole line. -/
theorem atx_heading_document (renderer : MD_RENDERER σ) (userdata : σ) (n : Nat) (c : List Char)
    (hflags : renderer.flags = default_flags) (hok : renderer_ok renderer)
    (hn : 1 ≤ n) (hc : c ≠ [])
    (hno : ∀ ch ∈ c, ch ≠ '\r' ∧ ch ≠ '\n' ∧ ch ≠ '#')
    (hfirst : c.head? ≠ some ' ') (hlast : c.getLast? ≠ some ' ') :
    (n ≤ 6 →
      outcome (md_parse (List.replicate n '#' ++ ' ' :: c ++ ['\n']) renderer userdata)
        = some (0, [(MD_EVENT.enter_block MD_BLOCK_DOC none, 0),
                    (MD_EVENT.enter_block MD_BLOCK_H (some n), 0),
                    (MD_EVENT.text MD_TEXT_NORMAL c, 0),
                    (MD_EVENT.text MD_TEXT_NORMAL ['\n'], 0),
                    (MD_EVENT.leave_block MD_BLOCK_H (some n), 0),
                    (MD_EVENT.leave_block MD_BLOCK_DOC none, 0)]))
    ∧ (7 ≤ n →
      (∀ ctx : MD_CTX σ, ctx.text = List.replicate n '#' ++ ' ' :: c ++ ['\n'] →
          (md_is_atxheader_line ctx 0).2 = none)
      ∧ outcome (md_parse (List.replicate n '#' ++ ' ' :: c ++ ['\n']) renderer userdata)
        = some (0, [(MD_EVENT.enter_block MD_BLOCK_DOC none, 0),
                    (MD_EVENT.enter_block MD_BLOCK_P none, 0),
                    (MD_EVENT.text MD_TEXT_NORMAL (List.replicate n '#' ++ ' ' :: c), 0),
                    (MD_EVENT.text MD_TEXT_NORMAL ['\n'], 0),
                    (MD_EVENT.leave_block MD_BLOCK_P none, 0),
                    (MD_EVENT.leave_block MD_BLOCK_DOC none, 0)])) := by
  have hf1 : renderer.flags.MD_FLAG_PERMISSIVEATXHEADERS = false := by rw [hflags]; rfl
  have hf2 : renderer.flags.MD_FLAG_NOINDENTEDCODE = false := by rw [hflags]; rfl
  have hlen : (List.replicate n '#' ++ ' ' :: c ++ ['\n']).length = n + 1 + c.length + 1 := by
    simp
    omega
  generalize htx : List.replicate n '#' ++ ' ' :: c ++ ['\n'] = text at hlen
  -- the context that `md_parse` sets up, and the one after `enter_block(Document)`
  generalize hctx0 : MD_CTX.mk text renderer userdata
    (if renderer.flags.MD_FLAG_NOINDENTEDCODE = true then 2 ^ 32 - 1 else 4) 0 [] = ctx0
  have h0t : ctx0.text = text := by rw [← hctx0]
  have h0r : ctx0.r = renderer := by rw [← hctx0]
  have h0c : ctx0.code_indent_offset = 4 := by rw [← hctx0]; simp [hf2]
  have h0e : ctx0.events = [] := by rw [← hctx0]
  have h0s : ctx0.size = n + 1 + c.length + 1 := by rw [MD_CTX.size, h0t, hlen]
  have hparse : md_parse text renderer userdata = md_process_doc text.length ctx0 := by
    unfold md_parse
    simp only [hctx0]
  generalize hctx1 : (emit ctx0 [MD_EVENT.enter_block MD_BLOCK_DOC none]).2 = ctx1
  have h1t : ctx1.text = List.replicate n '#' ++ ' ' :: c ++ '\n' :: [] := by
    rw [← hctx1, emit_text, h0t, htx]
  have h1f : ctx1.r.flags.MD_FLAG_PERMISSIVEATXHEADERS = false := by
    rw [← hctx1, emit_r, h0r]; exact hf1
  have h1c : 0 < ctx1.code_indent_offset := by
    rw [← hctx1, emit_code_indent_offset, h0c]; omega
  have hinit : doc_inv (MD_DOC_STATE.mk ctx1 true [] 0) := by
    simp [doc_inv, MD_DOC_STATE.pivot_line, dummy_line]
  have hpiv : (MD_DOC_STATE.mk ctx1 true [] 0).pivot_line = dummy_line := rfl
  have hr1 : renderer_ok (MD_DOC_STATE.mk ctx1 true [] 0).ctx.r := by
    show renderer_ok ctx1.r
    rw [← hctx1, emit_r, h0r]; exact hok
  obtain ⟨i1, _⟩ := md_process_doc_iter_ok _ hinit hr1
  obtain ⟨_, _, _, ist⟩ := md_process_doc_iter_spec _ hinit
  have ist := ist i1
  rw [hpiv] at ist
  have hdc : (List.replicate n '#' ++ ' ' :: c ++ ['\n']).drop (n + 1) = c ++ ['\n'] := by
    have : List.replicate n '#' ++ ' ' :: c ++ ['\n']
        = (List.replicate n '#' ++ [' ']) ++ (c ++ ['\n']) := by simp
    rw [this]
    have hl : n + 1 = (List.replicate n '#' ++ [' ']).length := by simp
    rw [hl, List.drop_left]
  constructor
  · intro hn6
    have ha := analyze_atx_line ctx1 n c [] dummy_line hn hn6 hc hno hfirst hlast h1f h1c h1t
    obtain ⟨res, hres, hret, hev⟩ := md_process_doc_single_round text.length ctx0
      (by rw [h0r]; exact hok) (by rw [hlen]; omega) (by rw [h0s]; omega)
      (by rw [hctx1, ha, h0s])
    rw [hctx1] at hev
    simp only [ha] at ist
    have hlines : (md_process_doc_iter (MD_DOC_STATE.mk ctx1 true [] 0)).2.lines = [] := by
      have := congrArg Prod.snd ist
      simpa using this
    have hcont : (MD_LINE.mk MD_LINE_ATXHEADER (n + 1) (n + 1 + c.length) 0).content text = c := by
      apply content_of_drop text _ c ['\n']
      · rw [← htx]; exact hdc
      · show n + 1 + c.length - (n + 1) = c.length
        omega
    have hpos : n + 1 + c.length - (n + 1) > 0 := by
      have := List.length_pos.2 hc
      omega
    have hevs : md_process_doc_iter_events (MD_DOC_STATE.mk ctx1 true [] 0)
        = [MD_EVENT.enter_block MD_BLOCK_H (some n), MD_EVENT.text MD_TEXT_NORMAL c,
           MD_EVENT.text MD_TEXT_NORMAL ['\n'], MD_EVENT.leave_block MD_BLOCK_H (some n)] := by
      unfold md_process_doc_iter_events
      simp only [hpiv, ha]
      have h1tt : ctx1.text = text := by rw [← hctx1, emit_text, h0t]
      simp only [or_true, if_true, block_events, normal_events, content_events, hpos, h1tt, hcont]
      rfl
    rw [hparse, hres, outcome, Option.map_some', hret, hev, hevs, hlines, h0e]
    rfl
  · intro hn7
    have ha := analyze_hashes_line ctx1 n c [] dummy_line hn7 hc hno hlast h1c h1t
    refine ⟨fun ctx hctx => ?_, ?_⟩
    · rw [md_is_atxheader_line_hashes ctx n (' ' :: c ++ ['\n']) hn7
        (by intro y hy; simp at hy; rw [← hy]; decide) (by rw [hctx, ← htx]; simp)]
    · obtain ⟨res, hres, hret, hev⟩ := md_process_doc_single_round text.length ctx0
        (by rw [h0r]; exact hok) (by rw [hlen]; omega) (by rw [h0s]; omega)
        (by rw [hctx1, ha, h0s])
      rw [hctx1] at hev
      simp only [ha] at ist
      have hlines : (md_process_doc_iter (MD_DOC_STATE.mk ctx1 true [] 0)).2.lines
          = [MD_LINE.mk MD_LINE_TEXT 0 (n + 1 + c.length) 0] := by
        have := congrArg Prod.snd ist
        simpa [dummy_line] using this
      have hcont : (MD_LINE.mk MD_LINE_TEXT 0 (n + 1 + c.length) 0).content text
          = List.replicate n '#' ++ ' ' :: c := by
        apply content_of_drop text _ (List.replicate n '#' ++ ' ' :: c) ['\n']
        · rw [← htx]; rfl
        · show n + 1 + c.length - 0 = (List.replicate n '#' ++ ' ' :: c).length
          simp
          omega
      have hpos : n + 1 + c.length - 0 > 0 := by omega
      have hevs : md_process_doc_iter_events (MD_DOC_STATE.mk ctx1 true [] 0) = [] := by
        unfold md_process_doc_iter_events
        simp only [hpiv, ha]
        simp [dummy_line, block_events]
      rw [hparse, hres, outcome, Option.map_some', hret, hev, hevs, hlines, h0e]
      simp only [block_events, normal_events, content_events, hpos, h0t, hcont]
      rfl

/-- The buffers `"# Title\n"` and `"####### Title\n"`. -/
theorem atx_heading_document_witness :
    (∀ ch ∈ ['T', 'i', 't', 'l', 'e'], ch ≠ '\r' ∧ ch ≠ '\n' ∧ ch ≠ '#')
      ∧ outcome (md_parse ['#', ' ', 'T', 'i', 't', 'l', 'e', '\n'] (ok_renderer default_flags) ())
        = some (0, [(MD_EVENT.enter_block MD_BLOCK_DOC none, 0),
                    (MD_EVENT.enter_block MD_BLOCK_H (some 1), 0),
                    (MD_EVENT.text MD_TEXT_NORMAL ['T', 'i', 't', 'l', 'e'], 0),
                    (MD_EVENT.text MD_TEXT_NORMAL ['\n'], 0),
                    (MD_EVENT.leave_block MD_BLOCK_H (some 1), 0),
                    (MD_EVENT.leave_block MD_BLOCK_DOC none, 0)])
      ∧ outcome (md_parse ['#', '#', '#', '#', '#', '#', '#', ' ', 'T', 'i', 't', 'l', 'e', '\n']
            (ok_renderer default_flags) ())
        = some (0, [(MD_EVENT.enter_block MD_BLOCK_DOC none, 0),
                    (MD_EVENT.enter_block MD_BLOCK_P none, 0),
                    (MD_EVENT.text MD_TEXT_NORMAL
                      ['#', '#', '#', '#', '#', '#', '#', ' ', 'T', 'i', 't', 'l', 'e'], 0),
                    (MD_EVENT.text MD_TEXT_NORMAL ['\n'], 0),
                    (MD_EVENT.leave_block MD_BLOCK_P none, 0),
                    (MD_EVENT.leave_block MD_BLOCK_DOC none, 0)]) :=
  ⟨by decide,
    (atx_heading_document (ok_renderer default_flags) () 1 ['T', 'i', 't', 'l', 'e'] rfl
      ⟨fun _ _ _ => rfl, fun _ _ _ => rfl, fun _ _ _ => rfl⟩ (by decide) (by decide) (by decide)
      (by decide) (by decide)).1 (by decide),
    ((atx_heading_document (ok_renderer default_flags) () 7 ['T', 'i', 't', 'l', 'e'] rfl
      ⟨fun _ _ _ => rfl, fun _ _ _ => rfl, fun _ _ _ => rfl⟩ (by decide) (by decide) (by decide)
      (by decide) (by decide)).2 (by decide)).2⟩


/-! ## Runs of text lines and setext headers -/

theorem block_events_of_blank (text : List Char) (hl : Nat) (lines : List MD_LINE)
    (h : ∀ l ∈ lines, l.type = MD_LINE_BLANK) : block_events text hl lines = [] := by
  cases lines with
  | nil => rfl
  | cons l0 rest =>
    have := h l0 (by simp)
    simp [block_events, this]

/-- A round that analyses a text line after a blank or a text pivot emits nothing and keeps
the line pending: alone after a blank pivot, after the pending lines otherwise. -/
theorem md_process_doc_iter_text (s : MD_DOC_STATE σ) (hinv : doc_inv s)
    (ht : s.line.type = MD_LINE_TEXT)
    (hp : s.pivot_line.type = MD_LINE_BLANK ∨ s.pivot_line.type = MD_LINE_TEXT) :
    (md_process_doc_iter s).1 = 0
      ∧ (md_process_doc_iter s).2.ctx.events = s.ctx.events
      ∧ (md_process_doc_iter s).2.lines
          = (if s.pivot_line.type = MD_LINE_TEXT then s.lines else []) ++ [s.line]
      ∧ (md_process_doc_iter s).2.pivot_line.type = MD_LINE_TEXT := by
  obtain ⟨h1, h2, _, hst⟩ := md_process_doc_iter_spec s hinv
  unfold MD_DOC_STATE.line at ht
  have hev : md_process_doc_iter_events s = [] := by
    unfold md_process_doc_iter_events
    simp only [ht]
    rcases hp with hp | hp
    · have hall : ∀ l ∈ s.lines, l.type = MD_LINE_BLANK := by
        intro l hl
        rw [(hinv.2.1 l hl).1, hp]
      simp [hp, block_events_of_blank _ _ _ hall]
    · simp [hp]
  rw [hev] at h1 h2
  have h10 : (md_process_doc_iter s).1 = 0 := by rw [h1]; rfl
  have hst := hst h10
  simp only [ht] at hst
  have hlines : (md_process_doc_iter s).2.lines
      = (if s.pivot_line.type = MD_LINE_TEXT then s.lines else []) ++ [s.line] := by
    have := congrArg Prod.snd hst
    unfold MD_DOC_STATE.line
    rcases hp with hp | hp
    · simpa [hp] using this
    · simpa [hp] using this
  have hinv1 := md_process_doc_iter_inv s hinv h10
  refine ⟨h10, ?_, hlines, ?_⟩
  · rw [h2]
    simp [emit]
  · have hmem : s.line ∈ (md_process_doc_iter s).2.lines := by
      rw [hlines]; simp
    rw [← (hinv1.2.1 _ hmem).1]
    exact ht

theorem md_process_doc_rounds_succ (k : Nat) (s : MD_DOC_STATE σ) :
    md_process_doc_rounds (k + 1) s = md_process_doc_rounds k (md_process_doc_iter s).2 := rfl

/-- A run of `k` rounds that each analyse a text line, after a text pivot: nothing is
emitted and the lines are appended to the pending ones. -/
theorem md_process_doc_rounds_text (k : Nat) :
    ∀ s : MD_DOC_STATE σ, doc_inv s → s.pivot_line.type = MD_LINE_TEXT →
      rounds_with (fun t => t.line.type = MD_LINE_TEXT) k s →
      (md_process_doc_rounds k s).lines = s.lines ++ round_lines k s
        ∧ (md_process_doc_rounds k s).ctx.events = s.ctx.events
        ∧ (md_process_doc_rounds k s).ctx.text = s.ctx.text
        ∧ (md_process_doc_rounds k s).pivot_line.type = MD_LINE_TEXT
        ∧ doc_inv (md_process_doc_rounds k s)
        ∧ (∀ ctx0, doc_reachable ctx0 s → doc_reachable ctx0 (md_process_doc_rounds k s)) := by
  induction k with
  | zero =>
    intro s hinv hp _
    exact ⟨by simp [md_process_doc_rounds, round_lines], rfl, rfl, hp, hinv, fun _ h => h⟩
  | succ k ih =>
    intro s hinv hp hrun
    obtain ⟨hoff, ht, hrest⟩ := hrun
    obtain ⟨i1, i2, i3, i4⟩ := md_process_doc_iter_text s hinv ht (Or.inr hp)
    have hinv1 := md_process_doc_iter_inv s hinv i1
    obtain ⟨_, itx, _, _⟩ := md_process_doc_iter_size s hinv
    obtain ⟨j1, j2, j3, j4, j5, j6⟩ := ih _ hinv1 i4 hrest
    rw [md_process_doc_rounds_succ]
    refine ⟨?_, by rw [j2, i2], by rw [j3, itx], j4, j5, ?_⟩
    · rw [j1, i3, if_pos hp]
      simp [round_lines]
    · intro ctx0 hr
      exact j6 ctx0 (doc_reachable.round s hr hoff i1)

/-- A run of `k ≥ 1` rounds that each analyse a text line, after a blank pivot: nothing is
emitted and the pending lines are then the lines of the run. -/
theorem md_process_doc_rounds_text_run (k : Nat) (s : MD_DOC_STATE σ) (hinv : doc_inv s)
    (hp : s.pivot_line.type = MD_LINE_BLANK) (hk : 1 ≤ k)
    (hrun : rounds_with (fun t => t.line.type = MD_LINE_TEXT) k s) :
    (md_process_doc_rounds k s).lines = round_lines k s
      ∧ (md_process_doc_rounds k s).ctx.events = s.ctx.events
      ∧ (md_process_doc_rounds k s).ctx.text = s.ctx.text
      ∧ (md_process_doc_rounds k s).pivot_line.type = MD_LINE_TEXT
      ∧ doc_inv (md_process_doc_rounds k s)
      ∧ (∀ ctx0, doc_reachable ctx0 s → doc_reachable ctx0 (md_process_doc_rounds k s)) := by
  obtain ⟨k', hk'⟩ : ∃ k', k = k' + 1 := ⟨k - 1, by omega⟩
  subst hk'
  obtain ⟨hoff, ht, hrest⟩ := hrun
  obtain ⟨i1, i2, i3, i4⟩ := md_process_doc_iter_text s hinv ht (Or.inl hp)
  have hinv1 := md_process_doc_iter_inv s hinv i1
  obtain ⟨_, itx, _, _⟩ := md_process_doc_iter_size s hinv
  obtain ⟨j1, j2, j3, j4, j5, j6⟩ := md_process_doc_rounds_text k' _ hinv1 i4 hrest
  rw [md_process_doc_rounds_succ]
  refine ⟨?_, by rw [j2, i2], by rw [j3, itx], j4, j5, ?_⟩
  · rw [j1, i3, if_neg (by rw [hp]; simp)]
    simp [round_lines]
  · intro ctx0 hr
    exact j6 ctx0 (doc_reachable.round s hr hoff i1)

/-- The analysis of a line made of `m ≥ 1` characters `=` (or `-`), spaces and nothing
more, after a text pivot: a setext underline, of level 1 for `=` and 2 for `-`. -/
theorem analyze_setext_underline (ctx : MD_CTX σ) (off m j : Nat) (ch : Char) (rest : List Char)
    (pivot_line : MD_LINE) (hp : pivot_line.type = MD_LINE_TEXT)
    (hch : ch = '=' ∨ ch = '-') (hm : 1 ≤ m) (hrest : ∀ y ∈ rest.head?, ISNEWLINE_ y = true)
    (hline : ctx.text.drop off = List.replicate m ch ++ List.replicate j ' ' ++ rest) :
    (md_analyze_line ctx off pivot_line).2.2.type = MD_LINE_SETEXTUNDERLINE
      ∧ (md_analyze_line ctx off pivot_line).1.header_level = (if ch = '=' then 1 else 2) := by
  obtain ⟨k, hk⟩ : ∃ k, m = k + 1 := ⟨m - 1, by omega⟩
  have hchb : ISBLANK_ ch = false := by rcases hch with h | h <;> rw [h] <;> decide
  have hchn : ISNEWLINE_ ch = false := by rcases hch with h | h <;> rw [h] <;> decide
  have hchh : ch ≠ '#' := by rcases hch with h | h <;> rw [h] <;> decide
  have hchs : ch ≠ ' ' := by rcases hch with h | h <;> rw [h] <;> decide
  have hd0 : ctx.text.drop off = ch :: (List.replicate k ch ++ (List.replicate j ' ' ++ rest)) := by
    rw [hline, hk, List.replicate_succ]
    simp
  have hd1 : ctx.text.drop (off + 1) = List.replicate k ch ++ (List.replicate j ' ' ++ rest) := by
    have := drop_add_of_drop ctx off [ch] _ hd0
    simpa using this
  have hdm : ctx.text.drop (off + 1 + k) = List.replicate j ' ' ++ rest := by
    have := drop_add_of_drop ctx (off + 1) _ _ hd1
    rw [List.length_replicate] at this
    exact this
  have hdj : ctx.text.drop (off + 1 + k + j) = [] ++ rest := by
    have := drop_add_of_drop ctx (off + 1 + k) _ _ hdm
    rw [List.length_replicate] at this
    exact this
  obtain ⟨hsz0, hch0⟩ := CH_of_drop ctx off _ _ hd0
  obtain ⟨hls, hli⟩ := line_start_of_not_blank ctx off _ _ hd0 hchb
  have hnb : ¬ (line_start ctx off ≥ ctx.size ∨ ISNEWLINE ctx (line_start ctx off) = true) := by
    rw [hls]
    intro hh
    rcases hh with hh | hh
    · omega
    · unfold ISNEWLINE at hh
      rw [hch0, hchn] at hh
      exact absurd hh (by simp)
  have hcode : ¬ ((pivot_line.type = MD_LINE_BLANK ∨ pivot_line.type = MD_LINE_INDENTEDCODE)
      ∧ line_indent ctx off ≥ ctx.code_indent_offset) := by
    rw [hp]
    intro hh
    rcases hh.1 with h | h <;> exact absurd h (by simp)
  have hatx : md_analyze_line_atx ctx (line_start ctx off) = (ctx, none) := by
    unfold md_analyze_line_atx
    rw [hls, hch0, if_neg hchh]
  -- the three loops of the test
  have hrs : ∀ y ∈ rest.head?, (fun c => c == ' ') y = false := by
    intro y hy
    have := hrest y hy
    unfold ISNEWLINE_ at this
    by_contra hne
    have hy' : y = ' ' := by simpa using hne
    rw [hy'] at this
    exact absurd this (by decide)
  have hrc : ∀ y ∈ rest.head?, (fun c => c == ch) y = false := by
    intro y hy
    have := hrest y hy
    by_contra hne
    have hy' : y = ch := by simpa using hne
    rw [hy', hchn] at this
    exact absurd this (by simp)
  have hs1 : scan_forward ctx (fun c => c == ch) (off + 1) = off + 1 + k := by
    rw [scan_forward_of_drop ctx _ (off + 1) (List.replicate k ch) _ hd1
      (by intro x hx; rw [List.eq_of_mem_replicate hx]; simp), List.length_replicate]
    intro y hy
    cases j with
    | zero =>
      simp only [List.replicate_zero, List.nil_append] at hy
      exact hrc y hy
    | succ j' =>
      simp only [List.replicate_succ, List.cons_append, List.head?_cons, Option.mem_def,
        Option.some.injEq] at hy
      rw [← hy]
      simpa using fun h => hchs h.symm
  have hs2 : scan_forward ctx (fun c => c == ' ') (off + 1 + k) = off + 1 + k + j := by
    rw [scan_forward_of_drop ctx _ (off + 1 + k) (List.replicate j ' ') _ hdm
      (by intro x hx; rw [List.eq_of_mem_replicate hx]; rfl) hrs, List.length_replicate]
  have hs3 : scan_forward ctx (fun c => c == ' ') (off + 1 + k + j) = off + 1 + k + j := by
    rw [scan_forward_of_drop ctx _ (off + 1 + k + j) [] _ hdj (by simp) hrs]
    rfl
  have hfin : ¬ (off + 1 + k + j < ctx.size ∧ ISNEWLINE ctx (off + 1 + k + j) = false) := by
    intro hh
    cases rest with
    | nil =>
      have := drop_eq_CH_cons ctx _ hh.1
      rw [hdj] at this
      exact absurd this (by simp)
    | cons y ys =>
      obtain ⟨_, hy⟩ := CH_of_drop ctx _ y ys hdj
      have := hrest y (by simp)
      unfold ISNEWLINE at hh
      rw [hy, this] at hh
      exact absurd hh.2 (by simp)
  have hset : md_analyze_line_setext ctx (line_start ctx off) pivot_line
      = some { ctx with header_level := if ch = '=' then 1 else 2 } := by
    unfold md_analyze_line_setext
    rw [hls, hch0, if_pos ⟨hp, hch⟩]
    unfold md_is_setext_underline
    simp only [hch0, hs1, hs2, hs3]
    rw [if_neg hfin]
  have htype : md_analyze_line_type ctx off pivot_line
      = ({ ctx with header_level := if ch = '=' then 1 else 2 }, off,
         MD_LINE.mk MD_LINE_SETEXTUNDERLINE off 0 0) := by
    rw [md_analyze_line_type_rest ctx off pivot_line hnb hcode, hatx]
    rw [hls] at hset
    simp only [hls, hli, hset]
  rw [md_analyze_line_type_eq, md_analyze_line_ctx, htype]
  exact ⟨rfl, rfl⟩

theorem normal_events_set_setextheader (text : List Char) (lines : List MD_LINE) :
    normal_events text (set_setextheader lines) = normal_events text lines := by
  cases lines with
  | nil => rfl
  | cons l0 rest => rfl

/-- A round that analyses a setext underline after a text pivot emits the pending lines as
one heading, and leaves a blank line pending. -/
theorem md_process_doc_iter_underline (s : MD_DOC_STATE σ) (hinv : doc_inv s)
    (hp : s.pivot_line.type = MD_LINE_TEXT) (ht : s.line.type = MD_LINE_SETEXTUNDERLINE) :
    md_process_doc_iter_events s
        = MD_EVENT.enter_block MD_BLOCK_H
              (some (md_analyze_line s.ctx s.off s.pivot_line).1.header_level)
            :: paragraph_lines_events s.ctx.text s.lines
            ++ [MD_EVENT.leave_block MD_BLOCK_H
              (some (md_analyze_line s.ctx s.off s.pivot_line).1.header_level)]
      ∧ ((md_process_doc_iter s).1 = 0 →
          (md_process_doc_iter s).2.lines = [MD_LINE.mk MD_LINE_BLANK s.line.beg s.line.end_
            s.line.indent]
            ∧ (md_process_doc_iter s).2.pivot_line.type = MD_LINE_BLANK) := by
  obtain ⟨_, _, _, hst⟩ := md_process_doc_iter_spec s hinv
  unfold MD_DOC_STATE.line at ht ⊢
  have hne : s.lines ≠ [] := by
    intro hnil
    have := doc_inv_pivot_nil s hinv hnil
    rw [this] at hp
    exact absurd hp (by simp [dummy_line])
  obtain ⟨l0, rest, hl, hpl, _⟩ := doc_inv_pivot s hinv hne
  have hl0 : l0.type = MD_LINE_TEXT := by rw [← hpl]; exact hp
  have hcont : ∀ l ∈ s.lines, l.beg < l.end_ := by
    intro l hmem
    have h := hinv.2.1 l hmem
    exact (h.2 (by rw [h.1]; exact hp)).1
  constructor
  · unfold md_process_doc_iter_events
    simp only [ht]
    rw [← normal_events_eq_paragraph_lines _ _ hcont, ← normal_events_set_setextheader, hl]
    simp [set_setextheader, block_events]
  · intro h0
    have hst := hst h0
    simp only [ht] at hst
    have h1 : (md_process_doc_iter s).2.pivot_is_dummy = false := by
      have := congrArg Prod.fst hst
      simpa using this
    have h2 : (md_process_doc_iter s).2.lines
        = [MD_LINE.mk MD_LINE_BLANK (md_analyze_line s.ctx s.off s.pivot_line).2.2.beg
            (md_analyze_line s.ctx s.off s.pivot_line).2.2.end_
            (md_analyze_line s.ctx s.off s.pivot_line).2.2.indent] := by
      have := congrArg Prod.snd hst
      simpa using this
    refine ⟨h2, ?_⟩
    unfold MD_DOC_STATE.pivot_line
    rw [h1, h2]
    rfl

/-- C4: in every state that the main loop of `md_process_doc` reaches with a blank pivot,
when the next `k ≥ 1` rounds each analyse a line classified as text and the line after them
is made of `m ≥ 1` characters `=` (or `-`), spaces and nothing more, the `k` rounds emit
nothing, that line is classified as a setext underline (also when three or more `-` would
make a thematic break), and its round emits one heading of level 1 for `=` and 2 for `-`
whose text events are, for each of the `k` lines in order, the content of the line then
`"\n"`, up to the first callback that fails; the underline is left pending as a blank line,
of which no block and no text is made.  The buffers `"Title\n===\n"` and `"A\n---\n"` give
one heading of level 1 and of level 2. -/
theorem setext_heading (ctx0 : MD_CTX σ) (s : MD_DOC_STATE σ) (k m j : Nat) (ch : Char)
    (rest : List Char) (hs : doc_reachable ctx0 s) (hpiv : s.pivot_line.type = MD_LINE_BLANK)
    (hk : 1 ≤ k) (hrun : rounds_with (fun t => t.line.type = MD_LINE_TEXT) k s)
    (hch : ch = '=' ∨ ch = '-') (hm : 1 ≤ m) (hrest : ∀ y ∈ rest.head?, ISNEWLINE_ y = true)
    (hline : s.ctx.text.drop (md_process_doc_rounds k s).off
      = List.replicate m ch ++ List.replicate j ' ' ++ rest) :
    (doc_reachable ctx0 (md_process_doc_rounds k s)
      ∧ (md_process_doc_rounds k s).off < (md_process_doc_rounds k s).ctx.size
      ∧ (md_process_doc_rounds k s).ctx.events = s.ctx.events
      ∧ (md_process_doc_rounds k s).line.type = MD_LINE_SETEXTUNDERLINE
      ∧ (∃ new, (md_process_doc_iter (md_process_doc_rounds k s)).2.ctx.events
            = s.ctx.events ++ new
          ∧ run_of (md_process_doc_iter (md_process_doc_rounds k s)).1 new
              (MD_EVENT.enter_block MD_BLOCK_H (some (if ch = '=' then 1 else 2))
                :: paragraph_lines_events s.ctx.text (round_lines k s)
                ++ [MD_EVENT.leave_block MD_BLOCK_H (some (if ch = '=' then 1 else 2))]))
      ∧ ((md_process_doc_iter (md_process_doc_rounds k s)).1 = 0 →
          (md_process_doc_iter (md_process_doc_rounds k s)).2.pivot_line.type = MD_LINE_BLANK
            ∧ ∀ hl, block_events s.ctx.text hl
                (md_process_doc_iter (md_process_doc_rounds k s)).2.lines = []))
    ∧ outcome (md_parse ['T', 'i', 't', 'l', 'e', '\n', '=', '=', '=', '\n']
          (ok_renderer default_flags) ())
        = some (0, [(MD_EVENT.enter_block MD_BLOCK_DOC none, 0),
                    (MD_EVENT.enter_block MD_BLOCK_H (some 1), 0),
                    (MD_EVENT.text MD_TEXT_NORMAL ['T', 'i', 't', 'l', 'e'], 0),
                    (MD_EVENT.text MD_TEXT_NORMAL ['\n'], 0),
                    (MD_EVENT.leave_block MD_BLOCK_H (some 1), 0),
                    (MD_EVENT.leave_block MD_BLOCK_DOC none, 0)])
    ∧ outcome (md_parse ['A', '\n', '-', '-', '-', '\n'] (ok_renderer default_flags) ())
        = some (0, [(MD_EVENT.enter_block MD_BLOCK_DOC none, 0),
                    (MD_EVENT.enter_block MD_BLOCK_H (some 2), 0),
                    (MD_EVENT.text MD_TEXT_NORMAL ['A'], 0),
                    (MD_EVENT.text MD_TEXT_NORMAL ['\n'], 0),
                    (MD_EVENT.leave_block MD_BLOCK_H (some 2), 0),
                    (MD_EVENT.leave_block MD_BLOCK_DOC none, 0)]) := by
  refine ⟨?_, by decide, by decide⟩
  have hinv := doc_reachable_inv ctx0 s hs
  obtain ⟨r1, r2, r3, r4, r5, r6⟩ := md_process_doc_rounds_text_run k s hinv hpiv hk hrun
  rw [← r3] at hline
  obtain ⟨a1, a2⟩ := analyze_setext_underline (md_process_doc_rounds k s).ctx
    (md_process_doc_rounds k s).off m j ch rest (md_process_doc_rounds k s).pivot_line r4
    hch hm hrest hline
  have hoff : (md_process_doc_rounds k s).off < (md_process_doc_rounds k s).ctx.size := by
    obtain ⟨m', hm'⟩ : ∃ m', m = m' + 1 := ⟨m - 1, by omega⟩
    rw [hm', List.replicate_succ] at hline
    exact (CH_of_drop _ _ ch _ (by rw [hline]; simp; rfl)).1
  obtain ⟨u1, u2⟩ := md_process_doc_iter_underline (md_process_doc_rounds k s) r5 r4 a1
  obtain ⟨new, hnew, hrunof⟩ := emit_run_of
    (md_analyze_line (md_process_doc_rounds k s).ctx (md_process_doc_rounds k s).off
      (md_process_doc_rounds k s).pivot_line).1
    (md_process_doc_iter_events (md_process_doc_rounds k s))
  obtain ⟨i1, i2, _, _⟩ := md_process_doc_iter_spec (md_process_doc_rounds k s) r5
  rw [← i1] at hrunof
  rw [← i2, md_analyze_line_events, r2] at hnew
  rw [u1, a2, r1, r3] at hrunof
  refine ⟨r6 ctx0 hs, hoff, r2, a1, ⟨new, hnew, hrunof⟩, ?_⟩
  intro h0
  obtain ⟨v1, v2⟩ := u2 h0
  refine ⟨v2, fun hl => ?_⟩
  rw [v1]
  rfl

/-- The buffer `"Title\n===\n"`, from the state in which the main loop is entered. -/
theorem setext_heading_witness :
    rounds_with (fun t => t.line.type = MD_LINE_TEXT) 1
        (MD_DOC_STATE.mk (ok_ctx ['T', 'i', 't', 'l', 'e', '\n', '=', '=', '=', '\n']
          default_flags) true [] 0)
      ∧ (md_process_doc_rounds 1
          (MD_DOC_STATE.mk (ok_ctx ['T', 'i', 't', 'l', 'e', '\n', '=', '=', '=', '\n']
            default_flags) true [] 0)).off = 6
      ∧ (md_process_doc_rounds 1
          (MD_DOC_STATE.mk (ok_ctx ['T', 'i', 't', 'l', 'e', '\n', '=', '=', '=', '\n']
            default_flags) true [] 0)).line.type = MD_LINE_SETEXTUNDERLINE
      ∧ (∃ new, (md_process_doc_iter (md_process_doc_rounds 1
            (MD_DOC_STATE.mk (ok_ctx ['T', 'i', 't', 'l', 'e', '\n', '=', '=', '=', '\n']
              default_flags) true [] 0))).2.ctx.events = [] ++ new
          ∧ run_of (md_process_doc_iter (md_process_doc_rounds 1
              (MD_DOC_STATE.mk (ok_ctx ['T', 'i', 't', 'l', 'e', '\n', '=', '=', '=', '\n']
                default_flags) true [] 0))).1 new
              (MD_EVENT.enter_block MD_BLOCK_H (some 1)
                :: paragraph_lines_events ['T', 'i', 't', 'l', 'e', '\n', '=', '=', '=', '\n']
                    [MD_LINE.mk MD_LINE_TEXT 0 5 0]
                ++ [MD_EVENT.leave_block MD_BLOCK_H (some 1)])) :=
  ⟨⟨by decide, by decide, trivial⟩, by decide,
    (setext_heading (ok_ctx ['T', 'i', 't', 'l', 'e', '\n', '=', '=', '=', '\n'] default_flags)
      (MD_DOC_STATE.mk (ok_ctx ['T', 'i', 't', 'l', 'e', '\n', '=', '=', '=', '\n']
        default_flags) true [] 0) 1 3 0 '=' ['\n'] doc_reachable.init (by decide) (by decide)
      ⟨by decide, by decide, trivial⟩ (by decide) (by decide) (by decide) (by decide)).1.2.2.2.1,
    (setext_heading (ok_ctx ['T', 'i', 't', 'l', 'e', '\n', '=', '=', '=', '\n'] default_flags)
      (MD_DOC_STATE.mk (ok_ctx ['T', 'i', 't', 'l', 'e', '\n', '=', '=', '=', '\n']
        default_flags) true [] 0) 1 3 0 '=' ['\n'] doc_reachable.init (by decide) (by decide)
      ⟨by decide, by decide, trivial⟩ (by decide) (by decide) (by decide) (by decide)).1.2.2.2.2.1⟩


/-! ## Indented code and the blank lines inside it -/

/-- The analysis of a blank line: a line of code after a pivot that is code, a blank line
otherwise, with no indentation and an empty content. -/
theorem analyze_blank_line (ctx : MD_CTX σ) (off : Nat) (pivot_line : MD_LINE)
    (hb : line_start ctx off ≥ ctx.size ∨ ISNEWLINE ctx (line_start ctx off) = true) :
    (md_analyze_line ctx off pivot_line).2.2
      = MD_LINE.mk (if pivot_line.type = MD_LINE_INDENTEDCODE then MD_LINE_INDENTEDCODE
                    else MD_LINE_BLANK) (line_start ctx off) (line_start ctx off) 0 := by
  have hscan : scan_forward ctx (fun ch => !ISNEWLINE_ ch) (line_start ctx off)
      = line_start ctx off := by
    rw [scan_forward_unfold, if_neg]
    intro hh
    rcases hb with hb | hb
    · omega
    · unfold ISNEWLINE at hb
      have := hh.2
      rw [hb] at this
      exact absurd this (by simp)
  unfold md_analyze_line
  simp only [md_analyze_line_type_blank ctx off pivot_line hb, hscan]
  unfold md_analyze_line_atx_end
  by_cases hp : pivot_line.type = MD_LINE_INDENTEDCODE
  · simp [hp, scan_backward_of_le]
  · simp [hp, scan_backward_of_le]

/-- The analysis of a line that is not blank and indented by the code indentation at least,
after a pivot that is blank or code: a line of code. -/
theorem analyze_indented_line (ctx : MD_CTX σ) (off : Nat) (pivot_line : MD_LINE)
    (hnb : ¬ (line_start ctx off ≥ ctx.size ∨ ISNEWLINE ctx (line_start ctx off) = true))
    (hc : (pivot_line.type = MD_LINE_BLANK ∨ pivot_line.type = MD_LINE_INDENTEDCODE)
      ∧ line_indent ctx off ≥ ctx.code_indent_offset) :
    (md_analyze_line ctx off pivot_line).2.2.type = MD_LINE_INDENTEDCODE
      ∧ (md_analyze_line ctx off pivot_line).2.2.indent
          = line_indent ctx off - ctx.code_indent_offset := by
  rw [md_analyze_line_type_eq, md_analyze_line_indent_eq,
    md_analyze_line_type_code ctx off pivot_line hnb hc]
  exact ⟨rfl, rfl⟩

theorem block_events_of_code (text : List Char) (hl : Nat) (lines : List MD_LINE)
    (hne : lines ≠ []) (h : ∀ l ∈ lines, l.type = MD_LINE_INDENTEDCODE) :
    block_events text hl lines
      = MD_EVENT.enter_block MD_BLOCK_CODE none :: verbatim_events text lines
          ++ [MD_EVENT.leave_block MD_BLOCK_CODE none] := by
  cases lines with
  | nil => exact absurd rfl hne
  | cons l0 rest =>
    have := h l0 (by simp)
    simp [block_events, this]

/-- A round that analyses a line of code after a blank or a code pivot emits nothing and
keeps the line pending: alone after a blank pivot, after the pending lines otherwise. -/
theorem md_process_doc_iter_code (s : MD_DOC_STATE σ) (hinv : doc_inv s)
    (ht : s.line.type = MD_LINE_INDENTEDCODE)
    (hp : s.pivot_line.type = MD_LINE_BLANK ∨ s.pivot_line.type = MD_LINE_INDENTEDCODE) :
    (md_process_doc_iter s).1 = 0
      ∧ (md_process_doc_iter s).2.ctx.events = s.ctx.events
      ∧ (md_process_doc_iter s).2.lines
          = (if s.pivot_line.type = MD_LINE_INDENTEDCODE then s.lines else []) ++ [s.line]
      ∧ (md_process_doc_iter s).2.pivot_line.type = MD_LINE_INDENTEDCODE := by
  obtain ⟨h1, h2, _, hst⟩ := md_process_doc_iter_spec s hinv
  unfold MD_DOC_STATE.line at ht
  have hev : md_process_doc_iter_events s = [] := by
    unfold md_process_doc_iter_events
    simp only [ht]
    rcases hp with hp | hp
    · have hall : ∀ l ∈ s.lines, l.type = MD_LINE_BLANK := by
        intro l hl
        rw [(hinv.2.1 l hl).1, hp]
      simp [hp, block_events_of_blank _ _ _ hall]
    · simp [hp]
  rw [hev] at h1 h2
  have h10 : (md_process_doc_iter s).1 = 0 := by rw [h1]; rfl
  have hst := hst h10
  simp only [ht] at hst
  have hlines : (md_process_doc_iter s).2.lines
      = (if s.pivot_line.type = MD_LINE_INDENTEDCODE then s.lines else []) ++ [s.line] := by
    have := congrArg Prod.snd hst
    unfold MD_DOC_STATE.line
    rcases hp with hp | hp
    · simpa [hp] using this
    · simpa [hp] using this
  have hinv1 := md_process_doc_iter_inv s hinv h10
  refine ⟨h10, ?_, hlines, ?_⟩
  · rw [h2]
    simp [emit]
  · have hmem : s.line ∈ (md_process_doc_iter s).2.lines := by
      rw [hlines]; simp
    rw [← (hinv1.2.1 _ hmem).1]
    exact ht

/-- The line of a round entered at an indented or a blank line, after a code pivot (or, for
an indented line, a blank pivot), is a line of code; a blank one has no indentation and an
empty content, so that it is rendered as one newline. -/
theorem code_or_blank_line (s : MD_DOC_STATE σ)
    (hp : s.pivot_line.type = MD_LINE_INDENTEDCODE
      ∨ (s.pivot_line.type = MD_LINE_BLANK ∧ ¬ s.at_blank_line))
    (h : s.at_indented_line s.ctx.code_indent_offset ∨ s.at_blank_line) :
    s.line.type = MD_LINE_INDENTEDCODE
      ∧ (s.at_blank_line → verbatim_line_events s.ctx.text s.line
          = [MD_EVENT.text MD_TEXT_CODEBLOCK ['\n']]) := by
  have hblank : s.at_blank_line → s.pivot_line.type = MD_LINE_INDENTEDCODE := by
    intro hb
    rcases hp with hp | hp
    · exact hp
    · exact absurd hb hp.2
  constructor
  · rcases h with h | h
    · have hpp : s.pivot_line.type = MD_LINE_BLANK ∨ s.pivot_line.type = MD_LINE_INDENTEDCODE := by
        rcases hp with hp | hp
        · exact Or.inr hp
        · exact Or.inl hp.1
      exact (analyze_indented_line s.ctx s.off s.pivot_line h.1 ⟨hpp, h.2⟩).1
    · unfold MD_DOC_STATE.line
      rw [analyze_blank_line s.ctx s.off s.pivot_line h, if_pos (hblank h)]
  · intro hb
    unfold MD_DOC_STATE.line
    rw [analyze_blank_line s.ctx s.off s.pivot_line hb]
    simp [verbatim_line_events, indent_events, indent_chunks, content_events]

theorem round_lines_getElem (k : Nat) :
    ∀ (s : MD_DOC_STATE σ) (i : Nat), i < k →
      (round_lines k s)[i]? = some (md_process_doc_rounds i s).line := by
  induction k with
  | zero => intro s i hi; omega
  | succ k ih =>
    intro s i hi
    cases i with
    | zero => simp [round_lines, md_process_doc_rounds]
    | succ i =>
      rw [md_process_doc_rounds_succ, ← ih (md_process_doc_iter s).2 i (by omega)]
      simp [round_lines]

/-- A run of `k` rounds entered at indented or blank lines, after a code pivot: nothing is
emitted, every line is a line of code appended to the pending ones, and a blank one is
rendered as one newline. -/
theorem md_process_doc_rounds_code (k : Nat) :
    ∀ s : MD_DOC_STATE σ, doc_inv s → s.pivot_line.type = MD_LINE_INDENTEDCODE →
      s.ctx.code_indent_offset = 4 →
      rounds_with (fun t => t.at_indented_line 4 ∨ t.at_blank_line) k s →
      (md_process_doc_rounds k s).lines = s.lines ++ round_lines k s
        ∧ (md_process_doc_rounds k s).ctx.events = s.ctx.events
        ∧ (md_process_doc_rounds k s).ctx.text = s.ctx.text
        ∧ (md_process_doc_rounds k s).pivot_line.type = MD_LINE_INDENTEDCODE
        ∧ doc_inv (md_process_doc_rounds k s)
        ∧ (∀ ctx0, doc_reachable ctx0 s → doc_reachable ctx0 (md_process_doc_rounds k s))
        ∧ (∀ i, i < k → (md_process_doc_rounds i s).line.type = MD_LINE_INDENTEDCODE
            ∧ ((md_process_doc_rounds i s).at_blank_line →
                verbatim_line_events s.ctx.text (md_process_doc_rounds i s).line
                  = [MD_EVENT.text MD_TEXT_CODEBLOCK ['\n']])) := by
  induction k with
  | zero =>
    intro s hinv hp _ _
    exact ⟨by simp [md_process_doc_rounds, round_lines], rfl, rfl, hp, hinv, fun _ h => h,
      fun i hi => by omega⟩
  | succ k ih =>
    intro s hinv hp hcio hrun
    obtain ⟨hoff, hP, hrest⟩ := hrun
    rw [← hcio] at hP
    obtain ⟨c1, c2⟩ := code_or_blank_line s (Or.inl hp) hP
    obtain ⟨i1, i2, i3, i4⟩ := md_process_doc_iter_code s hinv c1 (Or.inr hp)
    have hinv1 := md_process_doc_iter_inv s hinv i1
    obtain ⟨_, itx, _, icio⟩ := md_process_doc_iter_size s hinv
    obtain ⟨j1, j2, j3, j4, j5, j6, j7⟩ := ih _ hinv1 i4 (by rw [icio, hcio]) hrest
    rw [md_process_doc_rounds_succ]
    refine ⟨?_, by rw [j2, i2], by rw [j3, itx], j4, j5, ?_, ?_⟩
    · rw [j1, i3, if_pos hp]
      simp [round_lines]
    · intro ctx0 hr
      exact j6 ctx0 (doc_reachable.round s hr hoff i1)
    · intro i hi
      cases i with
      | zero => exact ⟨c1, c2⟩
      | succ i =>
        rw [md_process_doc_rounds_succ, ← itx]
        exact j7 i (by omega)

/-- C6: in every state that the main loop of `md_process_doc` reaches with a blank pivot
and the code indentation 4, when the next `k ≥ 1` rounds are each entered at a line that is
either not blank and indented by 4 columns at least, or blank, the first one being
indented, the rounds emit nothing and end no block: every one of the `k` lines is
classified as indented code and they are the pending lines, the pivot being code; the
pending lines are rendered as one single code block, in which a blank line contributes
exactly the event `text(CodeBlock, "\n")`; this is the block that the end of the buffer
flushes.  The buffer `"    a\n\n    b\n"` gives one code block with the lines `a`, blank
and `b`. -/
theorem indented_code_block (ctx0 : MD_CTX σ) (s : MD_DOC_STATE σ) (k : Nat)
    (hs : doc_reachable ctx0 s) (hcio : s.ctx.code_indent_offset = 4)
    (hpiv : s.pivot_line.type = MD_LINE_BLANK) (hk : 1 ≤ k) (hfirst : s.at_indented_line 4)
    (hrun : rounds_with (fun t => t.at_indented_line 4 ∨ t.at_blank_line) k s) :
    (doc_reachable ctx0 (md_process_doc_rounds k s)
      ∧ (md_process_doc_rounds k s).ctx.events = s.ctx.events
      ∧ (md_process_doc_rounds k s).lines = round_lines k s
      ∧ (md_process_doc_rounds k s).pivot_line.type = MD_LINE_INDENTEDCODE
      ∧ (∀ i, i < k →
          (round_lines k s)[i]? = some (md_process_doc_rounds i s).line
            ∧ (md_process_doc_rounds i s).line.type = MD_LINE_INDENTEDCODE
            ∧ ((md_process_doc_rounds i s).at_blank_line →
                verbatim_line_events s.ctx.text (md_process_doc_rounds i s).line
                  = [MD_EVENT.text MD_TEXT_CODEBLOCK ['\n']]))
      ∧ (∀ hl, block_events s.ctx.text hl (round_lines k s)
          = MD_EVENT.enter_block MD_BLOCK_CODE none :: verbatim_events s.ctx.text (round_lines k s)
              ++ [MD_EVENT.leave_block MD_BLOCK_CODE none])
      ∧ md_process_doc_finish (md_process_doc_rounds k s)
          = emit (md_process_doc_rounds k s).ctx
              (MD_EVENT.enter_block MD_BLOCK_CODE none
                :: verbatim_events s.ctx.text (round_lines k s)
                ++ [MD_EVENT.leave_block MD_BLOCK_CODE none,
                    MD_EVENT.leave_block MD_BLOCK_DOC none]))
    ∧ outcome (md_parse [' ', ' ', ' ', ' ', 'a', '\n', '\n', ' ', ' ', ' ', ' ', 'b', '\n']
          (ok_renderer default_flags) ())
        = some (0, [(MD_EVENT.enter_block MD_BLOCK_DOC none, 0),
                    (MD_EVENT.enter_block MD_BLOCK_CODE none, 0),
                    (MD_EVENT.text MD_TEXT_CODEBLOCK ['a'], 0),
                    (MD_EVENT.text MD_TEXT_CODEBLOCK ['\n'], 0),
                    (MD_EVENT.text MD_TEXT_CODEBLOCK ['\n'], 0),
                    (MD_EVENT.text MD_TEXT_CODEBLOCK ['b'], 0),
                    (MD_EVENT.text MD_TEXT_CODEBLOCK ['\n'], 0),
                    (MD_EVENT.leave_block MD_BLOCK_CODE none, 0),
                    (MD_EVENT.leave_block MD_BLOCK_DOC none, 0)]) := by
  refine ⟨?_, by decide⟩
  have hinv := doc_reachable_inv ctx0 s hs
  obtain ⟨k', hk'⟩ : ∃ k', k = k' + 1 := ⟨k - 1, by omega⟩
  subst hk'
  obtain ⟨hoff, _, hrest⟩ := hrun
  have hfirst' : s.at_indented_line s.ctx.code_indent_offset := by rw [hcio]; exact hfirst
  obtain ⟨c1, c2⟩ := code_or_blank_line s (Or.inr ⟨hpiv, hfirst.1⟩) (Or.inl hfirst')
  obtain ⟨i1, i2, i3, i4⟩ := md_process_doc_iter_code s hinv c1 (Or.inl hpiv)
  have hinv1 := md_process_doc_iter_inv s hinv i1
  obtain ⟨_, itx, _, icio⟩ := md_process_doc_iter_size s hinv
  obtain ⟨j1, j2, j3, j4, j5, j6, j7⟩ :=
    md_process_doc_rounds_code k' _ hinv1 i4 (by rw [icio, hcio]) hrest
  have hlines : (md_process_doc_rounds (k' + 1) s).lines = round_lines (k' + 1) s := by
    rw [md_process_doc_rounds_succ, j1, i3, if_neg (by rw [hpiv]; simp)]
    simp [round_lines]
  have hall : ∀ l ∈ round_lines (k' + 1) s, l.type = MD_LINE_INDENTEDCODE := by
    intro l hl
    rw [← hlines, md_process_doc_rounds_succ] at hl
    rw [(j5.2.1 l hl).1, j4]
  have hne : round_lines (k' + 1) s ≠ [] := by simp [round_lines]
  have hblock := fun hl => block_events_of_code s.ctx.text hl _ hne hall
  refine ⟨?_, ?_, hlines, ?_, ?_, hblock, ?_⟩
  · rw [md_process_doc_rounds_succ]
    exact j6 ctx0 (doc_reachable.round s hs hoff i1)
  · rw [md_process_doc_rounds_succ, j2, i2]
  · rw [md_process_doc_rounds_succ]; exact j4
  · intro i hi
    refine ⟨round_lines_getElem (k' + 1) s i hi, ?_⟩
    cases i with
    | zero => exact ⟨c1, c2⟩
    | succ i =>
      rw [md_process_doc_rounds_succ, ← itx]
      exact j7 i (by omega)
  · have hfin := md_process_doc_finish_eq_emit (md_process_doc_rounds (k' + 1) s)
      (by rw [md_process_doc_rounds_succ]; exact j5)
    rw [hfin, hlines]
    have htx : (md_process_doc_rounds (k' + 1) s).ctx.text = s.ctx.text := by
      rw [md_process_doc_rounds_succ, j3, itx]
    rw [htx, hblock]
    simp

/-- The buffer `"    a\n\n    b\n"`, from the state in which the main loop is entered: the
three lines stay pending as code and the blank one is rendered as one newline. -/
theorem indented_code_block_witness :
    (MD_DOC_STATE.mk (ok_ctx [' ', ' ', ' ', ' ', 'a', '\n', '\n', ' ', ' ', ' ', ' ', 'b', '\n']
        default_flags) true [] 0).at_indented_line 4
      ∧ (md_process_doc_rounds 1
          (MD_DOC_STATE.mk
            (ok_ctx [' ', ' ', ' ', ' ', 'a', '\n', '\n', ' ', ' ', ' ', ' ', 'b', '\n']
              default_flags) true [] 0)).at_blank_line
      ∧ (md_process_doc_rounds 3
          (MD_DOC_STATE.mk
            (ok_ctx [' ', ' ', ' ', ' ', 'a', '\n', '\n', ' ', ' ', ' ', ' ', 'b', '\n']
              default_flags) true [] 0)).pivot_line.type = MD_LINE_INDENTEDCODE
      ∧ verbatim_line_events
          [' ', ' ', ' ', ' ', 'a', '\n', '\n', ' ', ' ', ' ', ' ', 'b', '\n']
          (md_process_doc_rounds 1
            (MD_DOC_STATE.mk
              (ok_ctx [' ', ' ', ' ', ' ', 'a', '\n', '\n', ' ', ' ', ' ', ' ', 'b', '\n']
                default_flags) true [] 0)).line
        = [MD_EVENT.text MD_TEXT_CODEBLOCK ['\n']] :=
  ⟨by unfold MD_DOC_STATE.at_indented_line MD_DOC_STATE.at_blank_line; decide,
    by unfold MD_DOC_STATE.at_blank_line; decide,
    (indented_code_block
      (ok_ctx [' ', ' ', ' ', ' ', 'a', '\n', '\n', ' ', ' ', ' ', ' ', 'b', '\n'] default_flags)
      (MD_DOC_STATE.mk
        (ok_ctx [' ', ' ', ' ', ' ', 'a', '\n', '\n', ' ', ' ', ' ', ' ', 'b', '\n']
          default_flags) true [] 0) 3 doc_reachable.init (by decide) (by decide) (by decide)
      (by unfold MD_DOC_STATE.at_indented_line MD_DOC_STATE.at_blank_line; decide)
      ⟨by decide,
        Or.inl (by unfold MD_DOC_STATE.at_indented_line MD_DOC_STATE.at_blank_line; decide),
        by decide,
        Or.inr (by unfold MD_DOC_STATE.at_blank_line; decide),
        by decide,
        Or.inl (by unfold MD_DOC_STATE.at_indented_line MD_DOC_STATE.at_blank_line; decide),
        trivial⟩).1.2.2.2.1,
    ((indented_code_block
      (ok_ctx [' ', ' ', ' ', ' ', 'a', '\n', '\n', ' ', ' ', ' ', ' ', 'b', '\n'] default_flags)
      (MD_DOC_STATE.mk
        (ok_ctx [' ', ' ', ' ', ' ', 'a', '\n', '\n', ' ', ' ', ' ', ' ', 'b', '\n']
          default_flags) true [] 0) 3 doc_reachable.init (by decide) (by decide) (by decide)
      (by unfold MD_DOC_STATE.at_indented_line MD_DOC_STATE.at_blank_line; decide)
      ⟨by decide,
        Or.inl (by unfold MD_DOC_STATE.at_indented_line MD_DOC_STATE.at_blank_line; decide),
        by decide,
        Or.inr (by unfold MD_DOC_STATE.at_blank_line; decide),
        by decide,
        Or.inl (by unfold MD_DOC_STATE.at_indented_line MD_DOC_STATE.at_blank_line; decide),
        trivial⟩).1.2.2.2.2.1 1 (by decide)).2.2
      (by unfold MD_DOC_STATE.at_blank_line; decide)⟩


/-! ## The lines of the blocks -/

theorem block_events_of_not_rendered (text : List Char) (hl : Nat) (lines : List MD_LINE)
    (h : rendered_lines lines = []) : block_events text hl lines = [] := by
  cases lines with
  | nil => rfl
  | cons l0 rest =>
    unfold rendered_lines at h
    by_cases hb : l0.type = MD_LINE_BLANK
    · simp [block_events, hb]
    · simp [hb] at h

theorem rendered_lines_of_ne (lines : List MD_LINE) (h : rendered_lines lines ≠ []) :
    rendered_lines lines = lines := by
  cases lines with
  | nil => rfl
  | cons l0 rest =>
    unfold rendered_lines at h ⊢
    by_cases hb : l0.type = MD_LINE_BLANK
    · simp [hb] at h
    · simp [hb]

/-- The lines of the blocks kept among the line lists handed to `md_process_block`. -/
theorem flushed_lines (hl : Nat) (ls : List (List MD_LINE)) :
    (((ls.filter (fun l => !(rendered_lines l).isEmpty)).map
      (fun l => (hl, l))).flatMap (fun b => b.2)) = ls.flatMap rendered_lines := by
  induction ls with
  | nil => rfl
  | cons l rest ih =>
    by_cases h : rendered_lines l = []
    · simp [List.filter_cons, h, ih]
    · have h2 : (!(rendered_lines l).isEmpty) = true := by
        simpa [List.isEmpty_iff] using h
      rw [List.filter_cons, if_pos h2, List.map_cons, List.flatMap_cons, List.flatMap_cons, ih,
        rendered_lines_of_ne l h]

/-- The events of the blocks kept among the line lists handed to `md_process_block`. -/
theorem flushed_events (text : List Char) (hl : Nat) (ls : List (List MD_LINE)) :
    (((ls.filter (fun l => !(rendered_lines l).isEmpty)).map
      (fun l => (hl, l))).flatMap (block_events_of text)) = ls.flatMap (block_events text hl) := by
  induction ls with
  | nil => rfl
  | cons l rest ih =>
    by_cases h : rendered_lines l = []
    · simp [List.filter_cons, h, ih, block_events_of_not_rendered text hl l h]
    · have h2 : (!(rendered_lines l).isEmpty) = true := by
        simpa [List.isEmpty_iff] using h
      rw [List.filter_cons, if_pos h2, List.map_cons, List.flatMap_cons, List.flatMap_cons, ih]
      rfl

theorem md_process_doc_iter_events_eq (s : MD_DOC_STATE σ) :
    md_process_doc_iter_events s
      = (iter_blocks s).flatMap (block_events_of s.ctx.text) := by
  unfold iter_blocks
  rw [flushed_events]
  unfold md_process_doc_iter_events md_process_doc_iter_flushed MD_DOC_STATE.line
  simp only
  split_ifs <;> simp

theorem rendered_lines_of_inv (s : MD_DOC_STATE σ) (hinv : doc_inv s) :
    rendered_lines s.lines = if s.pivot_line.type = MD_LINE_BLANK then [] else s.lines := by
  cases hl : s.lines with
  | nil => simp [rendered_lines]
  | cons l0 rest =>
    obtain ⟨l0', rest', hl', hp, _⟩ := doc_inv_pivot s hinv (by rw [hl]; simp)
    rw [hl] at hl'
    obtain ⟨e1, _⟩ := List.cons.inj hl'
    subst e1
    rw [hp]
    rfl

theorem finish_blocks_events (s : MD_DOC_STATE σ) (hinv : doc_inv s) :
    (finish_blocks s).flatMap (block_events_of s.ctx.text)
      = block_events s.ctx.text s.ctx.header_level s.lines := by
  unfold finish_blocks
  by_cases hb : s.pivot_line.type ≠ MD_LINE_BLANK
  · rw [if_pos hb, flushed_events]
    simp
  · rw [if_neg hb]
    have h := rendered_lines_of_inv s hinv
    rw [if_pos (by simpa using hb)] at h
    rw [block_events_of_not_rendered _ _ _ h]
    rfl

theorem finish_blocks_lines (s : MD_DOC_STATE σ) (hinv : doc_inv s) :
    (finish_blocks s).flatMap (fun b => b.2) = rendered_lines s.lines := by
  unfold finish_blocks
  by_cases hb : s.pivot_line.type ≠ MD_LINE_BLANK
  · rw [if_pos hb, flushed_lines]
    simp
  · rw [if_neg hb]
    have h := rendered_lines_of_inv s hinv
    rw [if_pos (by simpa using hb)] at h
    rw [h]
    rfl

theorem as_analysed_of_ne (l : MD_LINE) (h : l.type ≠ MD_LINE_SETEXTHEADER) :
    l.as_analysed = l := by
  unfold MD_LINE.as_analysed
  rw [if_neg h]

theorem map_as_analysed_pending (s : MD_DOC_STATE σ) (hinv : doc_inv s) :
    s.lines.map MD_LINE.as_analysed = s.lines := by
  have h : ∀ l ∈ s.lines, l.as_analysed = l := by
    intro l hl
    apply as_analysed_of_ne
    rw [(hinv.2.1 l hl).1]
    rcases hinv.2.2.1 with h | h | h <;> rw [h] <;> simp
  calc s.lines.map MD_LINE.as_analysed = s.lines.map id := List.map_congr_left h
    _ = s.lines := List.map_id _

theorem map_as_analysed_set_setextheader (s : MD_DOC_STATE σ) (hinv : doc_inv s)
    (hp : s.pivot_line.type = MD_LINE_TEXT) :
    (set_setextheader s.lines).map MD_LINE.as_analysed = s.lines := by
  have hne : s.lines ≠ [] := by
    intro hnil
    have := doc_inv_pivot_nil s hinv hnil
    rw [this] at hp
    exact absurd hp (by simp [dummy_line])
  obtain ⟨l0, rest, hl, hpl, _⟩ := doc_inv_pivot s hinv hne
  have hl0 : l0.type = MD_LINE_TEXT := by rw [← hpl]; exact hp
  have hall := map_as_analysed_pending s hinv
  rw [hl] at hall ⊢
  simp only [List.map_cons, List.cons.injEq] at hall
  simp only [set_setextheader, List.map_cons, hall.2, List.cons.injEq, and_true]
  unfold MD_LINE.as_analysed
  simp only [if_true]
  cases l0
  simp only at hl0
  simp [hl0]

theorem rendered_lines_nil : rendered_lines [] = [] := rfl

theorem rendered_lines_singleton (l : MD_LINE) :
    rendered_lines [l] = if l.type = MD_LINE_BLANK then [] else [l] := rfl

/-- One round of the main loop that does not abort: the lines that it renders, followed by
the pending lines that it leaves to be rendered, are the pending lines to be rendered that
it found, followed by the line that it analysed when this one is neither blank nor a
setext underline. -/
theorem md_process_doc_iter_partition (s : MD_DOC_STATE σ) (hinv : doc_inv s)
    (h0 : (md_process_doc_iter s).1 = 0) :
    ((iter_blocks s).flatMap (fun b => b.2)
        ++ rendered_lines (md_process_doc_iter s).2.lines).map MD_LINE.as_analysed
      = rendered_lines s.lines ++ [s.line].filter MD_LINE.is_rendered := by
  obtain ⟨_, _, _, hst⟩ := md_process_doc_iter_spec s hinv
  have hst := hst h0
  have hinv1 := md_process_doc_iter_inv s hinv h0
  have hpend := map_as_analysed_pending s hinv
  have hrl := rendered_lines_of_inv s hinv
  have hline : s.line.as_analysed = s.line :=
    as_analysed_of_ne _ (md_analyze_line_type_ne_setextheader _ _ _)
  have hrend : (rendered_lines s.lines).map MD_LINE.as_analysed = rendered_lines s.lines := by
    rw [hrl]
    split_ifs
    · rfl
    · exact hpend
  unfold iter_blocks
  rw [flushed_lines]
  unfold md_process_doc_iter_flushed
  have hline_def : (md_analyze_line s.ctx s.off s.pivot_line).2.2 = s.line := rfl
  rw [hline_def] at hst
  by_cases c1 : s.line.type = MD_LINE_HR ∨ s.line.type = MD_LINE_ATXHEADER
  · rw [if_pos c1] at hst ⊢
    have hl : (md_process_doc_iter s).2.lines = [] := by
      have := congrArg Prod.snd hst
      simpa using this
    have hne : s.line.type ≠ MD_LINE_BLANK := by
      rcases c1 with h | h <;> rw [h] <;> simp
    have hk : MD_LINE.is_rendered s.line = true := by
      unfold MD_LINE.is_rendered
      rcases c1 with h | h <;> simp [h]
    rw [hl]
    simp [rendered_lines_nil, rendered_lines_singleton, hne, hk, hrend, hline]
  · rw [if_neg c1] at hst ⊢
    by_cases c2 : s.line.type = MD_LINE_SETEXTUNDERLINE
    · rw [if_pos c2] at hst ⊢
      have hp := (md_analyze_line_of_setextunderline s.ctx s.off s.pivot_line c2).1
      have hl : (md_process_doc_iter s).2.lines
          = [MD_LINE.mk MD_LINE_BLANK s.line.beg s.line.end_ s.line.indent] := by
        have := congrArg Prod.snd hst
        simpa using this
      have hset := map_as_analysed_set_setextheader s hinv hp
      have hk : MD_LINE.is_rendered s.line = false := by
        unfold MD_LINE.is_rendered
        simp [c2]
      have hne : s.lines ≠ [] := by
        intro hnil
        have := doc_inv_pivot_nil s hinv hnil
        rw [this] at hp
        exact absurd hp (by simp [dummy_line])
      obtain ⟨l0, rest, hl0, hset0⟩ := set_setextheader_head s.lines hne
      have hrs : rendered_lines (set_setextheader s.lines) = set_setextheader s.lines := by
        rw [hset0]
        simp [rendered_lines]
      rw [hl, hrl, if_neg (by rw [hp]; simp)]
      simp [rendered_lines_nil, rendered_lines_singleton, hk, hrs, hset]
    · rw [if_neg c2] at hst ⊢
      have htc := analysed_type_cases s.ctx s.off s.pivot_line c1 c2
      by_cases c3 : s.line.type ≠ s.pivot_line.type
      · rw [if_pos c3] at hst ⊢
        have hl : (md_process_doc_iter s).2.lines = [s.line] := by
          have := congrArg Prod.snd hst
          simpa using this
        rw [hl]
        by_cases hb : s.line.type = MD_LINE_BLANK
        · have hk : MD_LINE.is_rendered s.line = false := by
            unfold MD_LINE.is_rendered
            simp [hb]
          simp [rendered_lines_nil, rendered_lines_singleton, hb, hk, hrend]
        · have hk : MD_LINE.is_rendered s.line = true := by
            unfold MD_LINE.is_rendered
            simp [hb, c2]
          simp [rendered_lines_nil, rendered_lines_singleton, hb, hk, hrend, hline]
      · rw [if_neg c3] at hst ⊢
        have c3' : s.line.type = s.pivot_line.type := by simpa using c3
        by_cases hb : s.line.type = MD_LINE_BLANK
        · rw [if_pos hb] at hst
          have hl : (md_process_doc_iter s).2.lines = s.lines := by
            have := congrArg Prod.snd hst
            simpa using this
          have hk : MD_LINE.is_rendered s.line = false := by
            unfold MD_LINE.is_rendered
            simp [hb]
          rw [hl]
          simp [hk, hrend]
        · rw [if_neg hb] at hst
          have hl : (md_process_doc_iter s).2.lines = s.lines ++ [s.line] := by
            have := congrArg Prod.snd hst
            simpa using this
          have hk : MD_LINE.is_rendered s.line = true := by
            unfold MD_LINE.is_rendered
            simp [hb, c2]
          have hpb : ¬ s.pivot_line.type = MD_LINE_BLANK := by rw [← c3']; exact hb
          have hrl1 := rendered_lines_of_inv _ hinv1
          have hp1 : ¬ (md_process_doc_iter s).2.pivot_line.type = MD_LINE_BLANK := by
            have hmem : s.line ∈ (md_process_doc_iter s).2.lines := by rw [hl]; simp
            rw [← (hinv1.2.1 _ hmem).1]
            exact hb
          rw [hrl1, if_neg hp1, hl, hrl, if_neg hpb]
          simp [hk, hpend, hline]

theorem map_as_analysed_rendered (s : MD_DOC_STATE σ) (hinv : doc_inv s) :
    (rendered_lines s.lines).map MD_LINE.as_analysed = rendered_lines s.lines := by
  rw [rendered_lines_of_inv s hinv]
  split_ifs
  · rfl
  · exact map_as_analysed_pending s hinv

/-- The rounds of the main loop with callbacks that all return 0: the lines that they
render, followed by the pending lines that they leave to be rendered, are the pending
lines found, followed by the lines analysed that are neither blank nor setext underlines;
and what they record is the events of the blocks rendered. -/
theorem md_process_doc_rounds_partition (k : Nat) :
    ∀ s : MD_DOC_STATE σ, doc_inv s → renderer_ok s.ctx.r →
      rounds_with (fun _ => True) k s →
      ((rounds_blocks k s).flatMap (fun b => b.2)
          ++ rendered_lines (md_process_doc_rounds k s).lines).map MD_LINE.as_analysed
        = rendered_lines s.lines ++ (round_lines k s).filter MD_LINE.is_rendered
      ∧ doc_inv (md_process_doc_rounds k s)
      ∧ (md_process_doc_rounds k s).ctx.events
          = s.ctx.events
            ++ ((rounds_blocks k s).flatMap (block_events_of s.ctx.text)).map (fun e => (e, 0))
      ∧ (md_process_doc_rounds k s).ctx.text = s.ctx.text
      ∧ (md_process_doc_rounds k s).ctx.r = s.ctx.r
      ∧ (∀ ctx0, doc_reachable ctx0 s → doc_reachable ctx0 (md_process_doc_rounds k s)) := by
  induction k with
  | zero =>
    intro s hinv _ _
    refine ⟨?_, hinv, ?_, rfl, rfl, fun _ h => h⟩
    · simp [rounds_blocks, md_process_doc_rounds, round_lines, map_as_analysed_rendered s hinv]
    · simp [rounds_blocks, md_process_doc_rounds]
  | succ k ih =>
    intro s hinv hr hrun
    obtain ⟨hoff, _, hrest⟩ := hrun
    obtain ⟨i1, i2⟩ := md_process_doc_iter_ok s hinv hr
    have hinv1 := md_process_doc_iter_inv s hinv i1
    obtain ⟨_, itx, ir, _⟩ := md_process_doc_iter_size s hinv
    obtain ⟨j1, j2, j3, j4, j5, j6⟩ := ih _ hinv1 (by rw [ir]; exact hr) hrest
    have hstep := md_process_doc_iter_partition s hinv i1
    rw [md_process_doc_rounds_succ]
    refine ⟨?_, j2, ?_, by rw [j4, itx], by rw [j5, ir], ?_⟩
    · have e1 : ((rounds_blocks (k + 1) s).flatMap (fun b => b.2)
            ++ rendered_lines (md_process_doc_rounds k (md_process_doc_iter s).2).lines)
          = (iter_blocks s).flatMap (fun b => b.2)
            ++ ((rounds_blocks k (md_process_doc_iter s).2).flatMap (fun b => b.2)
              ++ rendered_lines (md_process_doc_rounds k (md_process_doc_iter s).2).lines) := by
        simp [rounds_blocks, List.flatMap_append]
      rw [e1, List.map_append, j1]
      rw [List.map_append, map_as_analysed_rendered _ hinv1] at hstep
      have e2 : round_lines (k + 1) s = [s.line] ++ round_lines k (md_process_doc_iter s).2 :=
        rfl
      rw [← List.append_assoc, hstep, e2, List.filter_append, List.append_assoc]
    · rw [j3, i2, md_process_doc_iter_events_eq, itx]
      simp [rounds_blocks, List.flatMap_append]
    · intro ctx0 hreach
      exact j6 ctx0 (doc_reachable.round s hreach hoff i1)

/-- With callbacks that all return 0 the main loop runs some number of rounds, none of
which aborts, until the scan offset reaches the end of the buffer. -/
theorem md_process_doc_loop_rounds (fuel : Nat) :
    ∀ s : MD_DOC_STATE σ, doc_inv s → renderer_ok s.ctx.r → s.ctx.size - s.off ≤ fuel →
      ∃ k, rounds_with (fun _ => True) k s
        ∧ ¬ (md_process_doc_rounds k s).off < (md_process_doc_rounds k s).ctx.size
        ∧ md_process_doc_loop fuel s = some (0, md_process_doc_rounds k s) := by
  induction fuel with
  | zero =>
    intro s _ _ hf
    refine ⟨0, trivial, ?_, ?_⟩
    · show ¬ s.off < s.ctx.size
      omega
    · exact md_process_doc_loop_done 0 s (by omega)
  | succ fuel ih =>
    intro s hinv hr hf
    by_cases hoff : s.off < s.ctx.size
    · obtain ⟨i1, _⟩ := md_process_doc_iter_ok s hinv hr
      have hinv1 := md_process_doc_iter_inv s hinv i1
      obtain ⟨isz, _, ir, _⟩ := md_process_doc_iter_size s hinv
      obtain ⟨_, _, ioff, _⟩ := md_process_doc_iter_spec s hinv
      have hgt := md_analyze_line_next_gt s.ctx s.off s.pivot_line hoff
      obtain ⟨k, k1, k2, k3⟩ := ih _ hinv1 (by rw [ir]; exact hr) (by rw [isz, ioff]; omega)
      refine ⟨k + 1, ⟨hoff, trivial, k1⟩, k2, ?_⟩
      rw [md_process_doc_loop, if_pos hoff]
      simp only [i1, ne_eq, not_true_eq_false, if_false]
      exact k3
    · exact ⟨0, trivial, hoff, md_process_doc_loop_done _ s hoff⟩

/-- Every block that a round of the main loop renders has a first line that is neither
blank nor a setext underline: its events are those of one block. -/
theorem iter_blocks_head (s : MD_DOC_STATE σ) (hinv : doc_inv s) :
    ∀ b ∈ iter_blocks s, ∃ l0 rest, b.2 = l0 :: rest
      ∧ l0.type ≠ MD_LINE_BLANK ∧ l0.type ≠ MD_LINE_SETEXTUNDERLINE := by
  intro b hb
  unfold iter_blocks at hb
  obtain ⟨ls, hls, rfl⟩ := List.mem_map.1 hb
  obtain ⟨hmem, hr⟩ := List.mem_filter.1 hls
  have hne : rendered_lines ls ≠ [] := by
    intro h
    rw [h] at hr
    simp at hr
  have hpending : ls = s.lines → ∃ l0 rest, ls = l0 :: rest
      ∧ l0.type ≠ MD_LINE_BLANK ∧ l0.type ≠ MD_LINE_SETEXTUNDERLINE := by
    intro hls
    subst hls
    cases hl : s.lines with
    | nil => rw [hl] at hne; exact absurd rfl hne
    | cons l0 rest =>
      refine ⟨l0, rest, rfl, ?_, ?_⟩
      · intro hb0
        rw [hl] at hne
        simp [rendered_lines, hb0] at hne
      · have h := doc_inv_head s hinv l0 (by rw [hl]; simp)
        rcases h with h | h | h <;> rw [h] <;> simp
  unfold md_process_doc_iter_flushed at hmem
  by_cases c1 : s.line.type = MD_LINE_HR ∨ s.line.type = MD_LINE_ATXHEADER
  · rw [if_pos c1] at hmem
    simp only [List.mem_cons, List.mem_singleton, List.not_mem_nil, or_false] at hmem
    rcases hmem with h | h
    · exact hpending h
    · refine ⟨s.line, [], h, ?_, ?_⟩ <;> rcases c1 with c | c <;> rw [c] <;> simp
  · rw [if_neg c1] at hmem
    by_cases c2 : s.line.type = MD_LINE_SETEXTUNDERLINE
    · rw [if_pos c2] at hmem
      simp only [List.mem_singleton] at hmem
      have hne2 : s.lines ≠ [] := by
        intro hnil
        rw [hmem, hnil] at hne
        exact hne rfl
      obtain ⟨l0, rest, _, hset⟩ := set_setextheader_head s.lines hne2
      rw [hset] at hmem
      exact ⟨_, rest, hmem, by simp, by simp⟩
    · rw [if_neg c2] at hmem
      by_cases c3 : s.line.type ≠ s.pivot_line.type
      · rw [if_pos c3] at hmem
        simp only [List.mem_singleton] at hmem
        exact hpending hmem
      · rw [if_neg c3] at hmem
        simp at hmem

theorem rounds_blocks_head (k : Nat) :
    ∀ s : MD_DOC_STATE σ, doc_inv s → renderer_ok s.ctx.r →
      ∀ b ∈ rounds_blocks k s, ∃ l0 rest, b.2 = l0 :: rest
        ∧ l0.type ≠ MD_LINE_BLANK ∧ l0.type ≠ MD_LINE_SETEXTUNDERLINE := by
  induction k with
  | zero =>
    intro s _ _ b hb
    simp [rounds_blocks] at hb
  | succ k ih =>
    intro s hinv hr b hb
    obtain ⟨i1, _⟩ := md_process_doc_iter_ok s hinv hr
    have hinv1 := md_process_doc_iter_inv s hinv i1
    obtain ⟨_, _, ir, _⟩ := md_process_doc_iter_size s hinv
    rcases List.mem_append.1 hb with h | h
    · exact iter_blocks_head s hinv b h
    · exact ih _ hinv1 (by rw [ir]; exact hr) b h

theorem finish_blocks_head (s : MD_DOC_STATE σ) (hinv : doc_inv s) :
    ∀ b ∈ finish_blocks s, ∃ l0 rest, b.2 = l0 :: rest
      ∧ l0.type ≠ MD_LINE_BLANK ∧ l0.type ≠ MD_LINE_SETEXTUNDERLINE := by
  intro b hb
  unfold finish_blocks at hb
  by_cases hp : s.pivot_line.type ≠ MD_LINE_BLANK
  · rw [if_pos hp] at hb
    obtain ⟨ls, hls, rfl⟩ := List.mem_map.1 hb
    obtain ⟨hmem, hr⟩ := List.mem_filter.1 hls
    simp only [List.mem_singleton] at hmem
    subst hmem
    cases hl : s.lines with
    | nil => rw [hl] at hr; simp [rendered_lines] at hr
    | cons l0 rest =>
      refine ⟨l0, rest, rfl, ?_, ?_⟩
      · intro hb0
        rw [hl] at hr
        simp [rendered_lines, hb0] at hr
      · have h := doc_inv_head s hinv l0 (by rw [hl]; simp)
        rcases h with h | h | h <;> rw [h] <;> simp
  · rw [if_neg hp] at hb
    simp at hb

theorem md_process_doc_start_inv (ctx : MD_CTX σ) : doc_inv (md_process_doc_start ctx) := by
  simp [md_process_doc_start, doc_inv, MD_DOC_STATE.pivot_line, dummy_line]

/-- C11: for every buffer and flag set, with callbacks that all return 0, `md_parse`
returns 0 after some number `k` of rounds of the main loop, whose analysed lines are the
physical lines of the buffer in order (the rounds scan it from the offset 0 to its end);
what it records is `enter_block(Document)`, the events of the blocks rendered by the rounds
and by the final flush, `leave_block(Document)`; every such block has a first line that is
neither blank nor a setext underline; and the lines of these blocks, taken in order, are
exactly the analysed lines that are neither blank nor setext underlines, each once (the
first line of a setext header being a line analysed as text). -/
theorem rendered_lines_partition (text : List Char) (renderer : MD_RENDERER σ) (userdata : σ)
    (hok : renderer_ok renderer) :
    ∃ (res : Int × MD_CTX σ) (k : Nat),
      md_parse text renderer userdata = some res ∧ res.1 = 0
        ∧ rounds_with (fun _ => True) k
            (md_process_doc_start (md_parse_ctx text renderer userdata))
        ∧ (md_process_doc_rounds k
            (md_process_doc_start (md_parse_ctx text renderer userdata))).off = text.length
        ∧ res.2.events
            = (MD_EVENT.enter_block MD_BLOCK_DOC none
                :: (rounds_blocks k (md_process_doc_start (md_parse_ctx text renderer userdata))
                    ++ finish_blocks (md_process_doc_rounds k
                        (md_process_doc_start (md_parse_ctx text renderer userdata)))).flatMap
                    (block_events_of text)
                ++ [MD_EVENT.leave_block MD_BLOCK_DOC none]).map (fun e => (e, 0))
        ∧ (∀ b ∈ rounds_blocks k (md_process_doc_start (md_parse_ctx text renderer userdata))
                ++ finish_blocks (md_process_doc_rounds k
                    (md_process_doc_start (md_parse_ctx text renderer userdata))),
            ∃ l0 rest, b.2 = l0 :: rest
              ∧ l0.type ≠ MD_LINE_BLANK ∧ l0.type ≠ MD_LINE_SETEXTUNDERLINE)
        ∧ ((rounds_blocks k (md_process_doc_start (md_parse_ctx text renderer userdata))
              ++ finish_blocks (md_process_doc_rounds k
                  (md_process_doc_start (md_parse_ctx text renderer userdata)))).flatMap
              (fun b => b.2)).map MD_LINE.as_analysed
            = (round_lines k (md_process_doc_start (md_parse_ctx text renderer userdata))).filter
                MD_LINE.is_rendered := by
  generalize hctx0 : md_parse_ctx text renderer userdata = ctx0
  have h0t : ctx0.text = text := by rw [← hctx0]; rfl
  have h0r : ctx0.r = renderer := by rw [← hctx0]; rfl
  have h0e : ctx0.events = [] := by rw [← hctx0]; rfl
  have hparse : md_parse text renderer userdata = md_process_doc text.length ctx0 := by
    rw [← hctx0]; rfl
  obtain ⟨e01, e02⟩ := emit_ok ctx0 (by rw [h0r]; exact hok)
    [MD_EVENT.enter_block MD_BLOCK_DOC none]
  generalize hs0 : md_process_doc_start ctx0 = s0
  have hs0' : MD_DOC_STATE.mk (emit ctx0 [MD_EVENT.enter_block MD_BLOCK_DOC none]).2 true [] 0
      = s0 := by
    rw [← hs0, md_process_doc_start, MD_ENTER_BLOCK_eq_emit]
  have hinv0 : doc_inv s0 := by rw [← hs0]; exact md_process_doc_start_inv ctx0
  have hs0c : s0.ctx = (emit ctx0 [MD_EVENT.enter_block MD_BLOCK_DOC none]).2 := by rw [← hs0']
  have hs0l : s0.lines = [] := by rw [← hs0']
  have hs0o : s0.off = 0 := by rw [← hs0']
  have hs0t : s0.ctx.text = text := by rw [hs0c, emit_text, h0t]
  have hs0r : renderer_ok s0.ctx.r := by rw [hs0c, emit_r, h0r]; exact hok
  have hs0s : s0.ctx.size = text.length := by rw [MD_CTX.size, hs0t]
  obtain ⟨k, k1, k2, k3⟩ := md_process_doc_loop_rounds text.length s0 hinv0 hs0r
    (by rw [hs0s]; omega)
  obtain ⟨p1, p2, p3, p4, p5, _⟩ := md_process_doc_rounds_partition k s0 hinv0 hs0r k1
  have hfin := md_process_doc_finish_eq_emit _ p2
  obtain ⟨f1, f2⟩ := emit_ok (md_process_doc_rounds k s0).ctx (by rw [p5]; exact hs0r)
    (block_events (md_process_doc_rounds k s0).ctx.text
      (md_process_doc_rounds k s0).ctx.header_level (md_process_doc_rounds k s0).lines
        ++ [MD_EVENT.leave_block MD_BLOCK_DOC none])
  have hfe := finish_blocks_events _ p2
  have hfl := finish_blocks_lines _ p2
  rw [p4, hs0t] at hfe
  refine ⟨md_process_doc_finish (md_process_doc_rounds k s0), k, ?_, ?_, k1, ?_, ?_, ?_, ?_⟩
  · rw [hparse]
    unfold md_process_doc
    simp only [MD_ENTER_BLOCK_eq_emit, e01, ne_eq, not_true_eq_false, if_false, hs0', k3]
  · rw [hfin, f1]
  · have h1 := p2.2.2.2
    have hsz : (md_process_doc_rounds k s0).ctx.size = text.length := by
      rw [MD_CTX.size, p4, hs0t]
    omega
  · rw [hfin, f2, p3, hs0c, e02, h0e, p4, hs0t, emit_text, h0t, ← hfe]
    simp [List.flatMap_append]
  · intro b hb
    rcases List.mem_append.1 hb with h | h
    · exact rounds_blocks_head k s0 hinv0 hs0r b h
    · exact finish_blocks_head _ p2 b h
  · rw [List.flatMap_append, hfl, p1, hs0l]
    rfl

/-- The buffer `"T\n=\n\n    c\n---\n"`: five lines, of which the setext underline and the
blank line are not rendered. -/
theorem rendered_lines_partition_witness :
    renderer_ok (ok_renderer default_flags)
      ∧ (round_lines 5 (md_process_doc_start (md_parse_ctx
            ['T', '\n', '=', '\n', '\n', ' ', ' ', ' ', ' ', 'c', '\n', '-', '-', '-', '\n']
            (ok_renderer default_flags) ()))).filter MD_LINE.is_rendered
          = [MD_LINE.mk MD_LINE_TEXT 0 1 0, MD_LINE.mk MD_LINE_INDENTEDCODE 9 10 0,
             MD_LINE.mk MD_LINE_HR 11 14 0]
      ∧ ∃ (res : Int × MD_CTX Unit) (k : Nat),
          md_parse ['T', '\n', '=', '\n', '\n', ' ', ' ', ' ', ' ', 'c', '\n', '-', '-', '-', '\n']
              (ok_renderer default_flags) () = some res
            ∧ res.1 = 0
            ∧ ((rounds_blocks k (md_process_doc_start (md_parse_ctx
                  ['T', '\n', '=', '\n', '\n', ' ', ' ', ' ', ' ', 'c', '\n', '-', '-', '-', '\n']
                  (ok_renderer default_flags) ()))
                ++ finish_blocks (md_process_doc_rounds k (md_process_doc_start (md_parse_ctx
                  ['T', '\n', '=', '\n', '\n', ' ', ' ', ' ', ' ', 'c', '\n', '-', '-', '-', '\n']
                  (ok_renderer default_flags) ())))).flatMap
                (fun b => b.2)).map MD_LINE.as_analysed
              = (round_lines k (md_process_doc_start (md_parse_ctx
                  ['T', '\n', '=', '\n', '\n', ' ', ' ', ' ', ' ', 'c', '\n', '-', '-', '-', '\n']
                  (ok_renderer default_flags) ()))).filter MD_LINE.is_rendered :=
  ⟨⟨fun _ _ _ => rfl, fun _ _ _ => rfl, fun _ _ _ => rfl⟩, by decide,
    match rendered_lines_partition
      ['T', '\n', '=', '\n', '\n', ' ', ' ', ' ', ' ', 'c', '\n', '-', '-', '-', '\n']
      (ok_renderer default_flags) () ⟨fun _ _ _ => rfl, fun _ _ _ => rfl, fun _ _ _ => rfl⟩ with
    | ⟨res, k, h1, h2, _, _, _, _, h7⟩ => ⟨res, k, h1, h2, h7⟩⟩


/-! ## The content of ATX headers -/

theorem scan_backward_all (ctx : MD_CTX σ) (c : Char) (beg tmp : Nat) :
    ∀ i, scan_backward ctx c beg tmp ≤ i → i < tmp → CH ctx i = c := by
  induction tmp with
  | zero => intro i _ hi; omega
  | succ t ih =>
    intro i h1 h2
    rw [scan_backward_unfold] at h1
    by_cases hc : t + 1 > beg ∧ CH ctx (t + 1 - 1) = c
    · rw [if_pos hc] at h1
      simp only [Nat.add_sub_cancel] at h1 hc
      by_cases hi : i = t
      · rw [hi]; exact hc.2
      · exact ih i h1 (by omega)
    · rw [if_neg hc] at h1
      omega

/-- The offset after the test of the type of a line that is an ATX header: the test does
not move it. -/
theorem md_analyze_line_type_atx_off (ctx : MD_CTX σ) (beg : Nat) (pivot_line : MD_LINE)
    (ht : (md_analyze_line ctx beg pivot_line).2.2.type = MD_LINE_ATXHEADER) :
    (md_analyze_line_type ctx beg pivot_line).2.1 = line_start ctx beg
      ∧ (md_analyze_line_type ctx beg pivot_line).2.2.type = MD_LINE_ATXHEADER
      ∧ (md_analyze_line_type ctx beg pivot_line).2.2.indent = line_indent ctx beg
      ∧ ¬ ((pivot_line.type = MD_LINE_BLANK ∨ pivot_line.type = MD_LINE_INDENTEDCODE)
            ∧ line_indent ctx beg ≥ ctx.code_indent_offset) := by
  rw [md_analyze_line_type_eq] at ht
  rcases md_analyze_line_type_cases ctx beg pivot_line with h | ⟨_, h | ⟨hnc, h | ⟨_, h | ⟨_, h | h⟩⟩⟩⟩
  · rw [h.2] at ht; simp only at ht; split_ifs at ht
  · rw [h.2.2] at ht; simp at ht
  · obtain ⟨b, _, h⟩ := h
    rw [h]
    exact ⟨rfl, rfl, rfl, hnc⟩
  · obtain ⟨c2, _, h⟩ := h
    rw [h] at ht; simp at ht
  · obtain ⟨e, _, h⟩ := h
    rw [h] at ht; simp at ht
  · rw [h.2] at ht; simp at ht

/-- The end of the content of an ATX header: the end of the line less the trailing spaces,
and less the closing run of `#` with the spaces before it when the run reaches the
beginning of the content, or follows a space, or the permissive flag is set. -/
theorem md_analyze_line_atx_end_eq (ctx : MD_CTX σ) (beg : Nat) (pivot_line : MD_LINE)
    (ht : (md_analyze_line ctx beg pivot_line).2.2.type = MD_LINE_ATXHEADER) :
    (md_analyze_line ctx beg pivot_line).2.2.end_
      = scan_backward ctx ' ' (md_analyze_line ctx beg pivot_line).2.2.beg
          (if atx_closing ctx (md_analyze_line ctx beg pivot_line).2.2.beg (line_end ctx beg)
                = (md_analyze_line ctx beg pivot_line).2.2.beg
              ∨ CH ctx (atx_closing ctx (md_analyze_line ctx beg pivot_line).2.2.beg
                  (line_end ctx beg) - 1) = ' '
              ∨ ctx.r.flags.MD_FLAG_PERMISSIVEATXHEADERS = true
            then atx_closing ctx (md_analyze_line ctx beg pivot_line).2.2.beg (line_end ctx beg)
            else line_end ctx beg) := by
  obtain ⟨hoff, htt, _, _⟩ := md_analyze_line_type_atx_off ctx beg pivot_line ht
  rw [md_analyze_line_beg_eq]
  have hfr := md_analyze_line_frame ctx beg pivot_line
  have htx : (md_analyze_line_type ctx beg pivot_line).1.text = ctx.text :=
    md_analyze_line_type_text ctx beg pivot_line
  have hr : (md_analyze_line_type ctx beg pivot_line).1.r = ctx.r := by
    rw [← md_analyze_line_ctx]; exact md_analyze_line_r ctx beg pivot_line
  unfold md_analyze_line md_analyze_line_atx_end atx_closing line_end
  simp only [htt, if_true, hoff, hr]
  simp only [scan_backward_congr htx, scan_forward_congr htx, CH_congr htx]
  split_ifs <;> rfl

/-- The test `md_is_atxheader_line` on a run of `n` (1 to 6) characters `#` with the
permissive flag set: it succeeds whatever follows the run. -/
theorem md_is_atxheader_line_permissive (ctx : MD_CTX σ) (ls n : Nat) (rest : List Char)
    (hflag : ctx.r.flags.MD_FLAG_PERMISSIVEATXHEADERS = true) (hn1 : 1 ≤ n) (hn6 : n ≤ 6)
    (hd : ctx.text.drop ls = List.replicate n '#' ++ rest)
    (hrest : ∀ y ∈ rest.head?, y ≠ '#') :
    md_is_atxheader_line ctx ls
      = ({ ctx with header_level := n }, some (scan_forward ctx (fun ch => ch == ' ') (ls + n))) := by
  obtain ⟨k, hk⟩ : ∃ k, n = k + 1 := ⟨n - 1, by omega⟩
  have hd0 : ctx.text.drop ls = ['#'] ++ (List.replicate k '#' ++ rest) := by
    rw [hd, hk, List.replicate_succ]
    simp
  have hd1 : ctx.text.drop (ls + 1) = List.replicate k '#' ++ rest := by
    have := drop_add_of_drop ctx ls ['#'] _ hd0
    simpa using this
  have hscan : md_is_atxheader_line_scan ctx ls (ls + 1) = ls + n := by
    rw [md_is_atxheader_line_scan_eq, hd1,
      takeWhile_of_prefix (fun ch => ch == '#') (List.replicate k '#') _
        (by intro x hx; rw [List.eq_of_mem_replicate hx]; rfl)
        (by intro y hy; simpa using hrest y hy)]
    rw [List.length_replicate]
    omega
  unfold md_is_atxheader_line
  simp only [hscan]
  have e : ls + n - ls = n := by omega
  rw [e, if_neg (by omega), if_neg]
  rw [hflag]
  simp

/-- With the permissive flag set, a line whose first characters after the indentation are
1 to 6 `#` and that the test of the indented code does not take is an ATX header whose
level is the number of `#`, whatever follows them. -/
theorem analyze_permissive_atx (ctx : MD_CTX σ) (off n : Nat) (rest : List Char)
    (pivot_line : MD_LINE)
    (hflag : ctx.r.flags.MD_FLAG_PERMISSIVEATXHEADERS = true) (hn1 : 1 ≤ n) (hn6 : n ≤ 6)
    (hd : ctx.text.drop (line_start ctx off) = List.replicate n '#' ++ rest)
    (hrest : ∀ y ∈ rest.head?, y ≠ '#')
    (hnc : ¬ ((pivot_line.type = MD_LINE_BLANK ∨ pivot_line.type = MD_LINE_INDENTEDCODE)
      ∧ line_indent ctx off ≥ ctx.code_indent_offset)) :
    (md_analyze_line ctx off pivot_line).2.2.type = MD_LINE_ATXHEADER
      ∧ (md_analyze_line ctx off pivot_line).1.header_level = n := by
  obtain ⟨k, hk⟩ : ∃ k, n = k + 1 := ⟨n - 1, by omega⟩
  have hd0 : ctx.text.drop (line_start ctx off) = '#' :: (List.replicate k '#' ++ rest) := by
    rw [hd, hk, List.replicate_succ]
    simp
  obtain ⟨hsz0, hch0⟩ := CH_of_drop ctx _ _ _ hd0
  have hnb : ¬ (line_start ctx off ≥ ctx.size ∨ ISNEWLINE ctx (line_start ctx off) = true) := by
    intro hh
    rcases hh with hh | hh
    · omega
    · unfold ISNEWLINE at hh
      rw [hch0] at hh
      exact absurd hh (by decide)
  have hatx := md_is_atxheader_line_permissive ctx (line_start ctx off) n rest hflag hn1 hn6 hd
    hrest
  have hatx2 : md_analyze_line_atx ctx (line_start ctx off)
      = ({ ctx with header_level := n },
          some (scan_forward ctx (fun ch => ch == ' ') (line_start ctx off + n))) := by
    unfold md_analyze_line_atx
    rw [if_pos hch0, hatx]
  rw [md_analyze_line_type_eq, md_analyze_line_ctx,
    md_analyze_line_type_rest ctx off pivot_line hnb hnc, hatx2]
  exact ⟨rfl, rfl⟩

/-- With the permissive flag set the closing run of `#` of `"# Title ###\n"` is removed:
the content is `"Title"`, not `"Title ###"`, and its end is not the end of the line less
the trailing spaces. -/
theorem permissive_atx_header_counterexample :
    (ok_ctx ['#', ' ', 'T', 'i', 't', 'l', 'e', ' ', '#', '#', '#', '\n']
        permissive_flags).r.flags.MD_FLAG_PERMISSIVEATXHEADERS = true
      ∧ (md_analyze_line (ok_ctx ['#', ' ', 'T', 'i', 't', 'l', 'e', ' ', '#', '#', '#', '\n']
          permissive_flags) 0 dummy_line).2.2
        = { type := MD_LINE_ATXHEADER, beg := 2, end_ := 7, indent := 0 }
      ∧ (md_analyze_line (ok_ctx ['#', ' ', 'T', 'i', 't', 'l', 'e', ' ', '#', '#', '#', '\n']
          permissive_flags) 0 dummy_line).2.2.content
            ['#', ' ', 'T', 'i', 't', 'l', 'e', ' ', '#', '#', '#', '\n']
        = ['T', 'i', 't', 'l', 'e']
      ∧ (md_analyze_line (ok_ctx ['#', ' ', 'T', 'i', 't', 'l', 'e', ' ', '#', '#', '#', '\n']
          permissive_flags) 0 dummy_line).2.2.content
            ['#', ' ', 'T', 'i', 't', 'l', 'e', ' ', '#', '#', '#', '\n']
        ≠ ['T', 'i', 't', 'l', 'e', ' ', '#', '#', '#']
      ∧ (md_analyze_line (ok_ctx ['#', ' ', 'T', 'i', 't', 'l', 'e', ' ', '#', '#', '#', '\n']
          permissive_flags) 0 dummy_line).2.2.end_
        ≠ scan_backward (ok_ctx ['#', ' ', 'T', 'i', 't', 'l', 'e', ' ', '#', '#', '#', '\n']
            permissive_flags) ' ' 2
            (line_end (ok_ctx ['#', ' ', 'T', 'i', 't', 'l', 'e', ' ', '#', '#', '#', '\n']
              permissive_flags) 0)
      ∧ outcome (md_parse ['#', ' ', 'T', 'i', 't', 'l', 'e', ' ', '#', '#', '#', '\n']
          (ok_renderer permissive_flags) ())
        = some (0, [(MD_EVENT.enter_block MD_BLOCK_DOC none, 0),
                    (MD_EVENT.enter_block MD_BLOCK_H (some 1), 0),
                    (MD_EVENT.text MD_TEXT_NORMAL ['T', 'i', 't', 'l', 'e'], 0),
                    (MD_EVENT.text MD_TEXT_NORMAL ['\n'], 0),
                    (MD_EVENT.leave_block MD_BLOCK_H (some 1), 0),
                    (MD_EVENT.leave_block MD_BLOCK_DOC none, 0)]) := by
  decide

/-- C12 (amended): with the permissive flag set, for every buffer, offset and pivot, (i) a
line whose first characters after the indentation are 1 to 6 `#`, and that the test of the
indented code does not take, is classified as an ATX header of that level whatever
character follows the `#` (no space is required); (ii) the closing run of `#` of an ATX
header is always removed, whether a space stands before it or not: the end of the content
is the end of the line less its trailing spaces, less the maximal run of `#` before them,
less the spaces before that run.  So `"#Title###\n"` is a header of level 1 with the text
`"Title"`. -/
theorem permissive_atx_header (ctx : MD_CTX σ) (off : Nat) (pivot_line : MD_LINE)
    (hflag : ctx.r.flags.MD_FLAG_PERMISSIVEATXHEADERS = true) :
    (∀ (n : Nat) (rest : List Char), 1 ≤ n → n ≤ 6 →
        ctx.text.drop (line_start ctx off) = List.replicate n '#' ++ rest →
        (∀ y ∈ rest.head?, y ≠ '#') →
        ¬ ((pivot_line.type = MD_LINE_BLANK ∨ pivot_line.type = MD_LINE_INDENTEDCODE)
            ∧ line_indent ctx off ≥ ctx.code_indent_offset) →
        (md_analyze_line ctx off pivot_line).2.2.type = MD_LINE_ATXHEADER
          ∧ (md_analyze_line ctx off pivot_line).1.header_level = n)
    ∧ ((md_analyze_line ctx off pivot_line).2.2.type = MD_LINE_ATXHEADER →
        (md_analyze_line ctx off pivot_line).2.2.end_
          = scan_backward ctx ' ' (md_analyze_line ctx off pivot_line).2.2.beg
              (atx_closing ctx (md_analyze_line ctx off pivot_line).2.2.beg (line_end ctx off))
        ∧ (∀ i, scan_backward ctx ' ' (md_analyze_line ctx off pivot_line).2.2.beg
                (line_end ctx off) ≤ i → i < line_end ctx off → CH ctx i = ' ')
        ∧ (∀ i, atx_closing ctx (md_analyze_line ctx off pivot_line).2.2.beg (line_end ctx off) ≤ i
            → i < scan_backward ctx ' ' (md_analyze_line ctx off pivot_line).2.2.beg
                (line_end ctx off) → CH ctx i = '#')
        ∧ (atx_closing ctx (md_analyze_line ctx off pivot_line).2.2.beg (line_end ctx off)
              ≤ (md_analyze_line ctx off pivot_line).2.2.beg
            ∨ CH ctx (atx_closing ctx (md_analyze_line ctx off pivot_line).2.2.beg
                (line_end ctx off) - 1) ≠ '#')
        ∧ (∀ i, (md_analyze_line ctx off pivot_line).2.2.end_ ≤ i
            → i < atx_closing ctx (md_analyze_line ctx off pivot_line).2.2.beg (line_end ctx off)
            → CH ctx i = ' ')
        ∧ ((md_analyze_line ctx off pivot_line).2.2.end_
              ≤ (md_analyze_line ctx off pivot_line).2.2.beg
            ∨ CH ctx ((md_analyze_line ctx off pivot_line).2.2.end_ - 1) ≠ ' ')) := by
  refine ⟨fun n rest hn1 hn6 hd hrest hnc =>
    analyze_permissive_atx ctx off n rest pivot_line hflag hn1 hn6 hd hrest hnc, fun ht => ?_⟩
  have hend := md_analyze_line_atx_end_eq ctx off pivot_line ht
  rw [if_pos (Or.inr (Or.inr hflag))] at hend
  refine ⟨hend, scan_backward_all ctx ' ' _ _, scan_backward_all ctx '#' _ _,
    scan_backward_stop ctx '#' _ _, ?_, ?_⟩
  · rw [hend]
    exact scan_backward_all ctx ' ' _ _
  · rw [hend]
    exact scan_backward_stop ctx ' ' _ _

/-- The line `"#Title###\n"` with the permissive flag set. -/
theorem permissive_atx_header_witness :
    (md_analyze_line (ok_ctx ['#', 'T', 'i', 't', 'l', 'e', '#', '#', '#', '\n']
        permissive_flags) 0 dummy_line).2.2
      = { type := MD_LINE_ATXHEADER, beg := 1, end_ := 6, indent := 0 }
    ∧ (md_analyze_line (ok_ctx ['#', 'T', 'i', 't', 'l', 'e', '#', '#', '#', '\n']
        permissive_flags) 0 dummy_line).2.2.type = MD_LINE_ATXHEADER
    ∧ (md_analyze_line (ok_ctx ['#', 'T', 'i', 't', 'l', 'e', '#', '#', '#', '\n']
        permissive_flags) 0 dummy_line).1.header_level = 1 :=
  ⟨by decide,
    (permissive_atx_header (ok_ctx ['#', 'T', 'i', 't', 'l', 'e', '#', '#', '#', '\n']
      permissive_flags) 0 dummy_line rfl).1 1 ['T', 'i', 't', 'l', 'e', '#', '#', '#', '\n']
      (by decide) (by decide) (by decide) (by decide) (by decide)⟩


/-- C15: without the permissive flag, for every line classified as an ATX header, with `E`
the end of the line, `t1` the offset `E` less the trailing spaces and `t2` the offset `t1`
less the maximal run of `#` before it (`atx_closing`): when `t2` is the beginning of the
content or a space stands before it, the end of the content is `t2` less the spaces
before it, so the run of `#` is removed with the spaces around it; otherwise the end of
the content is `t1`, the end of the line less the trailing spaces only. -/
theorem atx_closing_sequence (ctx : MD_CTX σ) (off : Nat) (pivot_line : MD_LINE)
    (hflag : ctx.r.flags.MD_FLAG_PERMISSIVEATXHEADERS = false)
    (ht : (md_analyze_line ctx off pivot_line).2.2.type = MD_LINE_ATXHEADER) :
    ((atx_closing ctx (md_analyze_line ctx off pivot_line).2.2.beg (line_end ctx off)
          = (md_analyze_line ctx off pivot_line).2.2.beg
        ∨ CH ctx (atx_closing ctx (md_analyze_line ctx off pivot_line).2.2.beg
            (line_end ctx off) - 1) = ' ') →
      (md_analyze_line ctx off pivot_line).2.2.end_
          = scan_backward ctx ' ' (md_analyze_line ctx off pivot_line).2.2.beg
              (atx_closing ctx (md_analyze_line ctx off pivot_line).2.2.beg (line_end ctx off))
        ∧ (∀ i, (md_analyze_line ctx off pivot_line).2.2.end_ ≤ i
            → i < atx_closing ctx (md_analyze_line ctx off pivot_line).2.2.beg (line_end ctx off)
            → CH ctx i = ' '))
    ∧ (¬ (atx_closing ctx (md_analyze_line ctx off pivot_line).2.2.beg (line_end ctx off)
            = (md_analyze_line ctx off pivot_line).2.2.beg
          ∨ CH ctx (atx_closing ctx (md_analyze_line ctx off pivot_line).2.2.beg
              (line_end ctx off) - 1) = ' ') →
      (md_analyze_line ctx off pivot_line).2.2.end_
        = scan_backward ctx ' ' (md_analyze_line ctx off pivot_line).2.2.beg (line_end ctx off))
    ∧ (∀ i, scan_backward ctx ' ' (md_analyze_line ctx off pivot_line).2.2.beg
            (line_end ctx off) ≤ i → i < line_end ctx off → CH ctx i = ' ')
    ∧ (scan_backward ctx ' ' (md_analyze_line ctx off pivot_line).2.2.beg (line_end ctx off)
          ≤ (md_analyze_line ctx off pivot_line).2.2.beg
        ∨ CH ctx (scan_backward ctx ' ' (md_analyze_line ctx off pivot_line).2.2.beg
            (line_end ctx off) - 1) ≠ ' ')
    ∧ (∀ i, atx_closing ctx (md_analyze_line ctx off pivot_line).2.2.beg (line_end ctx off) ≤ i
        → i < scan_backward ctx ' ' (md_analyze_line ctx off pivot_line).2.2.beg
            (line_end ctx off) → CH ctx i = '#')
    ∧ (atx_closing ctx (md_analyze_line ctx off pivot_line).2.2.beg (line_end ctx off)
          ≤ (md_analyze_line ctx off pivot_line).2.2.beg
        ∨ CH ctx (atx_closing ctx (md_analyze_line ctx off pivot_line).2.2.beg
            (line_end ctx off) - 1) ≠ '#')
    ∧ ((md_analyze_line ctx off pivot_line).2.2.end_
          ≤ (md_analyze_line ctx off pivot_line).2.2.beg
        ∨ CH ctx ((md_analyze_line ctx off pivot_line).2.2.end_ - 1) ≠ ' ') := by
  have hend := md_analyze_line_atx_end_eq ctx off pivot_line ht
  have hf : ¬ ctx.r.flags.MD_FLAG_PERMISSIVEATXHEADERS = true := by rw [hflag]; simp
  refine ⟨fun hc => ?_, fun hc => ?_, scan_backward_all ctx ' ' _ _,
    scan_backward_stop ctx ' ' _ _, scan_backward_all ctx '#' _ _,
    scan_backward_stop ctx '#' _ _, ?_⟩
  · have hc' : atx_closing ctx (md_analyze_line ctx off pivot_line).2.2.beg (line_end ctx off)
          = (md_analyze_line ctx off pivot_line).2.2.beg
        ∨ CH ctx (atx_closing ctx (md_analyze_line ctx off pivot_line).2.2.beg
            (line_end ctx off) - 1) = ' '
        ∨ ctx.r.flags.MD_FLAG_PERMISSIVEATXHEADERS = true := by
      rcases hc with h | h
      · exact Or.inl h
      · exact Or.inr (Or.inl h)
    rw [if_pos hc'] at hend
    refine ⟨hend, ?_⟩
    rw [hend]
    exact scan_backward_all ctx ' ' _ _
  · have hc' : ¬ (atx_closing ctx (md_analyze_line ctx off pivot_line).2.2.beg (line_end ctx off)
          = (md_analyze_line ctx off pivot_line).2.2.beg
        ∨ CH ctx (atx_closing ctx (md_analyze_line ctx off pivot_line).2.2.beg
            (line_end ctx off) - 1) = ' '
        ∨ ctx.r.flags.MD_FLAG_PERMISSIVEATXHEADERS = true) := by
      intro h
      rcases h with h | h | h
      · exact hc (Or.inl h)
      · exact hc (Or.inr h)
      · exact hf h
    rw [if_neg hc'] at hend
    exact hend
  · rw [hend]
    exact scan_backward_stop ctx ' ' _ _

/-- The lines `"# Title###\n"`, whose content is `"Title###"`, and `"# Title ###\n"`, whose
content is `"Title"`. -/
theorem atx_closing_sequence_witness :
    (md_analyze_line (ok_ctx ['#', ' ', 'T', 'i', 't', 'l', 'e', '#', '#', '#', '\n']
        default_flags) 0 dummy_line).2.2.content
          ['#', ' ', 'T', 'i', 't', 'l', 'e', '#', '#', '#', '\n']
      = ['T', 'i', 't', 'l', 'e', '#', '#', '#']
    ∧ (md_analyze_line (ok_ctx ['#', ' ', 'T', 'i', 't', 'l', 'e', ' ', '#', '#', '#', '\n']
        default_flags) 0 dummy_line).2.2.content
          ['#', ' ', 'T', 'i', 't', 'l', 'e', ' ', '#', '#', '#', '\n']
      = ['T', 'i', 't', 'l', 'e']
    ∧ (md_analyze_line (ok_ctx ['#', ' ', 'T', 'i', 't', 'l', 'e', '#', '#', '#', '\n']
        default_flags) 0 dummy_line).2.2.end_
      = scan_backward (ok_ctx ['#', ' ', 'T', 'i', 't', 'l', 'e', '#', '#', '#', '\n']
          default_flags) ' '
          (md_analyze_line (ok_ctx ['#', ' ', 'T', 'i', 't', 'l', 'e', '#', '#', '#', '\n']
            default_flags) 0 dummy_line).2.2.beg
          (line_end (ok_ctx ['#', ' ', 'T', 'i', 't', 'l', 'e', '#', '#', '#', '\n']
            default_flags) 0) :=
  ⟨by decide, by decide,
    (atx_closing_sequence (ok_ctx ['#', ' ', 'T', 'i', 't', 'l', 'e', '#', '#', '#', '\n']
      default_flags) 0 dummy_line rfl (by decide)).2.1 (by decide)⟩


/-! ## Properties of every event of a parse -/

/-- A property that holds of the events of every round of the main loop entered in a
reachable state holds of every event recorded by the loop. -/
theorem md_process_doc_loop_events (ctx0 : MD_CTX σ) (Q : MD_EVENT → Prop)
    (hround : ∀ s, doc_reachable ctx0 s → s.off < s.ctx.size →
      ∀ e ∈ md_process_doc_iter_events s, Q e) (fuel : Nat) :
    ∀ s : MD_DOC_STATE σ, doc_reachable ctx0 s → (∀ e ∈ s.ctx.events, Q e.1) →
      s.ctx.size - s.off ≤ fuel →
      ∃ res, md_process_doc_loop fuel s = some res
        ∧ (∀ e ∈ res.2.ctx.events, Q e.1)
        ∧ (res.1 = 0 → doc_reachable ctx0 res.2) := by
  induction fuel with
  | zero =>
    intro s hs hq hf
    exact ⟨(0, s), md_process_doc_loop_done 0 s (by omega), hq, fun _ => hs⟩
  | succ fuel ih =>
    intro s hs hq hf
    have hinv := doc_reachable_inv ctx0 s hs
    by_cases hlt : s.off < s.ctx.size
    · obtain ⟨h1, h2, h3, _⟩ := md_process_doc_iter_spec s hinv
      obtain ⟨hsz, _, _, _⟩ := md_process_doc_iter_size s hinv
      obtain ⟨new1, hnew1, hrun1⟩ :=
        emit_run_of (md_analyze_line s.ctx s.off s.pivot_line).1 (md_process_doc_iter_events s)
      rw [← h2, md_analyze_line_events] at hnew1
      have hq1 : ∀ e ∈ (md_process_doc_iter s).2.ctx.events, Q e.1 := by
        intro e he
        rw [hnew1] at he
        rcases List.mem_append.1 he with he | he
        · exact hq e he
        · exact hround s hs hlt _ (run_of_mem hrun1 e he)
      rw [md_process_doc_loop, if_pos hlt]
      simp only
      by_cases hr : (md_process_doc_iter s).1 ≠ 0
      · rw [if_pos hr]
        exact ⟨md_process_doc_iter s, rfl, hq1, fun h0 => absurd h0 hr⟩
      · rw [if_neg hr]
        have h0 : (md_process_doc_iter s).1 = 0 := by simpa using hr
        have hgt := md_analyze_line_next_gt s.ctx s.off s.pivot_line hlt
        exact ih _ (doc_reachable.round s hs hlt h0) hq1 (by rw [hsz, h3]; omega)
    · exact ⟨(0, s), md_process_doc_loop_done _ s hlt, hq, fun _ => hs⟩

/-- A property that holds of `enter_block(Document)` and `leave_block(Document)`, of the
events of every round of the main loop entered in a reachable state, and of the events of
the lines pending in every reachable state, holds of every event that `md_parse`
records, whatever the callbacks return. -/
theorem md_parse_events (text : List Char) (renderer : MD_RENDERER σ) (userdata : σ)
    (Q : MD_EVENT → Prop)
    (hdoc : Q (MD_EVENT.enter_block MD_BLOCK_DOC none)
      ∧ Q (MD_EVENT.leave_block MD_BLOCK_DOC none))
    (hround : ∀ s, doc_reachable (md_process_doc_start (md_parse_ctx text renderer userdata)).ctx s
      → s.off < s.ctx.size → ∀ e ∈ md_process_doc_iter_events s, Q e)
    (hfin : ∀ s, doc_reachable (md_process_doc_start (md_parse_ctx text renderer userdata)).ctx s
      → ∀ e ∈ block_events s.ctx.text s.ctx.header_level s.lines, Q e) :
    ∃ res, md_parse text renderer userdata = some res ∧ ∀ e ∈ res.2.events, Q e.1 := by
  generalize hctx0 : md_parse_ctx text renderer userdata = ctx0 at hround hfin
  have h0e : ctx0.events = [] := by rw [← hctx0]; rfl
  have h0s : ctx0.size = text.length := by rw [← hctx0]; rfl
  have hparse : md_parse text renderer userdata = md_process_doc text.length ctx0 := by
    rw [← hctx0]; rfl
  obtain ⟨new0, hnew0, hrun0⟩ := emit_run_of ctx0 [MD_EVENT.enter_block MD_BLOCK_DOC none]
  have hq0 : ∀ e ∈ (emit ctx0 [MD_EVENT.enter_block MD_BLOCK_DOC none]).2.events, Q e.1 := by
    intro e he
    rw [hnew0, h0e] at he
    have := run_of_mem hrun0 e (by simpa using he)
    simp only [List.mem_singleton] at this
    rw [this]
    exact hdoc.1
  rw [hparse]
  unfold md_process_doc
  simp only [MD_ENTER_BLOCK_eq_emit]
  by_cases h0 : (emit ctx0 [MD_EVENT.enter_block MD_BLOCK_DOC none]).1 ≠ 0
  · rw [if_pos h0]
    exact ⟨_, rfl, hq0⟩
  · rw [if_neg h0]
    have hstart : md_process_doc_start ctx0
        = MD_DOC_STATE.mk (emit ctx0 [MD_EVENT.enter_block MD_BLOCK_DOC none]).2 true [] 0 := by
      rw [md_process_doc_start, MD_ENTER_BLOCK_eq_emit]
    rw [hstart] at hround hfin
    obtain ⟨res, hres, hq1, hreach⟩ := md_process_doc_loop_events _ Q hround text.length
      (MD_DOC_STATE.mk (emit ctx0 [MD_EVENT.enter_block MD_BLOCK_DOC none]).2 true [] 0)
      doc_reachable.init hq0 (by simp only [emit_size]; omega)
    rw [hres]
    simp only
    by_cases h1 : res.1 ≠ 0
    · rw [if_pos h1]
      exact ⟨_, rfl, hq1⟩
    · rw [if_neg h1]
      have h10 : res.1 = 0 := by simpa using h1
      have hr2 := hreach h10
      have hinv2 := doc_reachable_inv _ _ hr2
      refine ⟨_, rfl, ?_⟩
      rw [md_process_doc_finish_eq_emit _ hinv2]
      obtain ⟨new2, hnew2, hrun2⟩ := emit_run_of res.2.ctx
        (block_events res.2.ctx.text res.2.ctx.header_level res.2.lines
          ++ [MD_EVENT.leave_block MD_BLOCK_DOC none])
      intro e he
      rw [hnew2] at he
      rcases List.mem_append.1 he with he | he
      · exact hq1 e he
      · have hm := run_of_mem hrun2 e he
        rcases List.mem_append.1 hm with hm | hm
        · exact hfin _ hr2 _ hm
        · simp only [List.mem_singleton] at hm
          rw [hm]
          exact hdoc.2

/-! ## Disabled indented code -/

/-- The indentation loop adds 4 columns at most for each character that it eats. -/
theorem md_analyze_line_indent_le (ctx : MD_CTX σ) (off indent : Nat) :
    (md_analyze_line_indent ctx off indent).2
      ≤ indent + 4 * ((md_analyze_line_indent ctx off indent).1 - off) := by
  generalize hn : ctx.size - off = k
  induction k generalizing off indent with
  | zero =>
    rw [md_analyze_line_indent_unfold, if_neg (by omega)]
    simp
  | succ k ih =>
    rw [md_analyze_line_indent_unfold]
    by_cases hc : off < ctx.size ∧ ISBLANK ctx off = true
    · rw [if_pos hc]
      have h1 := ih (off + 1)
        (if CH ctx off = '\t' then ((indent + 4) % 2 ^ 32) &&& (2 ^ 32 - 4)
          else (indent + 1) % 2 ^ 32) (by omega)
      have hge : off + 1 ≤ (md_analyze_line_indent ctx (off + 1)
          (if CH ctx off = '\t' then ((indent + 4) % 2 ^ 32) &&& (2 ^ 32 - 4)
            else (indent + 1) % 2 ^ 32)).1 := by
        rw [md_analyze_line_indent_fst]
        exact scan_forward_ge _ _ _
      have hstep : (if CH ctx off = '\t' then ((indent + 4) % 2 ^ 32) &&& (2 ^ 32 - 4)
          else (indent + 1) % 2 ^ 32) ≤ indent + 4 := by
        split_ifs
        · calc ((indent + 4) % 2 ^ 32) &&& (2 ^ 32 - 4) ≤ (indent + 4) % 2 ^ 32 := Nat.and_le_left
            _ ≤ indent + 4 := Nat.mod_le _ _
        · calc (indent + 1) % 2 ^ 32 ≤ indent + 1 := Nat.mod_le _ _
            _ ≤ indent + 4 := by omega
      omega
    · rw [if_neg hc]
      simp

theorem line_indent_le (ctx : MD_CTX σ) (off : Nat) (h : off ≤ ctx.size) :
    line_indent ctx off ≤ 4 * (ctx.size - off) := by
  have h1 := md_analyze_line_indent_le ctx off 0
  have h2 := line_start_le ctx off h
  unfold line_indent
  unfold line_start at h2
  omega

/-- With the code indentation `2 ^ 32 - 1`, a buffer of fewer than `2 ^ 30` characters and
a pivot that is not code, no line is classified as indented code. -/
theorem md_analyze_line_no_code (ctx : MD_CTX σ) (off : Nat) (pivot_line : MD_LINE)
    (hcio : ctx.code_indent_offset = 2 ^ 32 - 1) (hsize : ctx.size < 2 ^ 30)
    (hoff : off ≤ ctx.size) (hp : pivot_line.type ≠ MD_LINE_INDENTEDCODE) :
    (md_analyze_line ctx off pivot_line).2.2.type ≠ MD_LINE_INDENTEDCODE := by
  intro ht
  rw [md_analyze_line_type_eq] at ht
  have hle := line_indent_le ctx off hoff
  rcases md_analyze_line_type_cases ctx off pivot_line with h | ⟨_, h | ⟨_, h | ⟨_, h | ⟨_, h | h⟩⟩⟩⟩
  · rw [h.2] at ht; simp only at ht
    rw [if_neg hp] at ht
    exact absurd ht (by simp)
  · have := h.2.1
    rw [hcio] at this
    omega
  · obtain ⟨b, _, h⟩ := h
    rw [h] at ht; simp at ht
  · obtain ⟨c2, _, h⟩ := h
    rw [h] at ht; simp at ht
  · obtain ⟨e, _, h⟩ := h
    rw [h] at ht; simp at ht
  · rw [h.2] at ht; simp at ht

/-- The pivot after a round that does not abort: the pivot before, the line analysed, or
a blank line. -/
theorem md_process_doc_iter_pivot (s : MD_DOC_STATE σ) (hinv : doc_inv s)
    (h0 : (md_process_doc_iter s).1 = 0) :
    (md_process_doc_iter s).2.pivot_line.type = s.pivot_line.type
      ∨ (md_process_doc_iter s).2.pivot_line.type = s.line.type
      ∨ (md_process_doc_iter s).2.pivot_line.type = MD_LINE_BLANK := by
  obtain ⟨_, _, _, hst⟩ := md_process_doc_iter_spec s hinv
  have hst := hst h0
  have hline_def : (md_analyze_line s.ctx s.off s.pivot_line).2.2 = s.line := rfl
  rw [hline_def] at hst
  have hd := congrArg Prod.fst hst
  have hl := congrArg Prod.snd hst
  simp only at hd hl
  by_cases c1 : s.line.type = MD_LINE_HR ∨ s.line.type = MD_LINE_ATXHEADER
  · rw [if_pos c1] at hd hl
    right; right
    unfold MD_DOC_STATE.pivot_line
    rw [hd]
    rfl
  · rw [if_neg c1] at hd hl
    by_cases c2 : s.line.type = MD_LINE_SETEXTUNDERLINE
    · rw [if_pos c2] at hd hl
      right; right
      unfold MD_DOC_STATE.pivot_line
      rw [hd, hl]
      rfl
    · rw [if_neg c2] at hd hl
      by_cases c3 : s.line.type ≠ s.pivot_line.type
      · rw [if_pos c3] at hd hl
        right; left
        unfold MD_DOC_STATE.pivot_line
        rw [hd, hl]
        rfl
      · rw [if_neg c3] at hd hl
        left
        have e : ((md_process_doc_iter s).2.pivot_is_dummy, (md_process_doc_iter s).2.lines)
            = (s.pivot_is_dummy, if s.line.type = MD_LINE_BLANK then s.lines
                else s.lines ++ [s.line]) := by
          rw [hst, if_neg c1, if_neg c2, if_neg c3]
          split_ifs <;> rfl
        have hd2 := congrArg Prod.fst e
        have hl2 := congrArg Prod.snd e
        simp only at hd2 hl2
        unfold MD_DOC_STATE.pivot_line
        rw [hd2, hl2]
        by_cases hdum : s.pivot_is_dummy = true
        · simp [hdum]
        · simp only [hdum, if_false]
          have hne : s.lines ≠ [] := fun hnil => hdum (hinv.1.2 hnil)
          cases hls : s.lines with
          | nil => exact absurd hls hne
          | cons l0 rest => split_ifs <;> rfl

theorem doc_reachable_no_code (ctx0 : MD_CTX σ) (hcio : ctx0.code_indent_offset = 2 ^ 32 - 1)
    (hsize : ctx0.size < 2 ^ 30) (s : MD_DOC_STATE σ) (h : doc_reachable ctx0 s) :
    s.ctx.code_indent_offset = 2 ^ 32 - 1 ∧ s.ctx.size < 2 ^ 30
      ∧ s.pivot_line.type ≠ MD_LINE_INDENTEDCODE := by
  induction h with
  | init => exact ⟨hcio, hsize, by simp [MD_DOC_STATE.pivot_line, dummy_line]⟩
  | round s hs hoff h0 ih =>
    have hinv := doc_reachable_inv ctx0 s hs
    obtain ⟨isz, _, _, icio⟩ := md_process_doc_iter_size s hinv
    obtain ⟨c1, c2, c3⟩ := ih
    have hline : s.line.type ≠ MD_LINE_INDENTEDCODE :=
      md_analyze_line_no_code s.ctx s.off s.pivot_line c1 c2 (by omega) c3
    refine ⟨by rw [icio, c1], by rw [isz]; exact c2, ?_⟩
    rcases md_process_doc_iter_pivot s hinv h0 with h | h | h
    · rw [h]; exact c3
    · rw [h]; exact hline
    · rw [h]; simp

/-- The events of a block whose first line is not a line of code: none is an event of a
code block. -/
theorem block_events_no_code (text : List Char) (hl : Nat) (lines : List MD_LINE)
    (h : ∀ l ∈ lines.head?, l.type ≠ MD_LINE_INDENTEDCODE) :
    ∀ e ∈ block_events text hl lines, ¬ e.is_code := by
  have hnorm : ∀ ls, ∀ e ∈ normal_events text ls, ¬ e.is_code := by
    intro ls
    induction ls with
    | nil => intro e he; simp [normal_events] at he
    | cons l rest ih =>
      intro e he
      simp only [normal_events, content_events, List.mem_append, List.mem_singleton] at he
      rcases he with (he | he) | he
      · split_ifs at he
        · simp only [List.mem_singleton] at he
          rw [he]; exact fun hh => hh
        · simp at he
      · rw [he]; exact fun hh => hh
      · exact ih e he
  cases lines with
  | nil => intro e he; simp [block_events] at he
  | cons l0 rest =>
    have h0 := h l0 (by simp)
    intro e he
    unfold block_events at he
    cases ht : l0.type <;> simp only [ht] at he
    · simp at he
    · simp only [List.mem_cons, List.mem_singleton, List.not_mem_nil, or_false] at he
      rcases he with he | he <;> rw [he] <;> exact fun hh => hh
    · simp only [List.cons_append, List.mem_cons, List.mem_append, List.mem_singleton,
        List.not_mem_nil, or_false] at he
      rcases he with he | he | he
      · rw [he]; exact fun hh => hh
      · exact hnorm _ e he
      · rw [he]; exact fun hh => hh
    · simp only [List.cons_append, List.mem_cons, List.mem_append, List.mem_singleton,
        List.not_mem_nil, or_false] at he
      rcases he with he | he | he
      · rw [he]; exact fun hh => hh
      · exact hnorm _ e he
      · rw [he]; exact fun hh => hh
    · simp at he
    · exact absurd ht h0
    · simp only [List.cons_append, List.mem_cons, List.mem_append, List.mem_singleton,
        List.not_mem_nil, or_false] at he
      rcases he with he | he | he
      · rw [he]; exact fun hh => hh
      · exact hnorm _ e he
      · rw [he]; exact fun hh => hh

/-- The events of a round whose pivot and whose line are not code: none is an event of a
code block. -/
theorem md_process_doc_iter_events_no_code (s : MD_DOC_STATE σ) (hinv : doc_inv s)
    (hp : s.pivot_line.type ≠ MD_LINE_INDENTEDCODE)
    (hline : s.line.type ≠ MD_LINE_INDENTEDCODE) :
    ∀ e ∈ md_process_doc_iter_events s, ¬ e.is_code := by
  have hpend : ∀ l ∈ s.lines.head?, l.type ≠ MD_LINE_INDENTEDCODE := by
    intro l hl
    rw [(hinv.2.1 l (List.mem_of_mem_head? hl)).1]
    exact hp
  have hset : ∀ l ∈ (set_setextheader s.lines).head?, l.type ≠ MD_LINE_INDENTEDCODE := by
    intro l hl
    cases hls : s.lines with
    | nil => rw [hls] at hl; simp [set_setextheader] at hl
    | cons l0 rest =>
      rw [hls] at hl
      simp only [set_setextheader, List.head?_cons, Option.mem_def, Option.some.injEq] at hl
      rw [← hl]
      simp
  have hone : ∀ l ∈ [s.line].head?, l.type ≠ MD_LINE_INDENTEDCODE := by
    intro l hl
    simp only [List.head?_cons, Option.mem_def, Option.some.injEq] at hl
    rw [← hl]; exact hline
  intro e he
  unfold md_process_doc_iter_events at he
  have hline_def : (md_analyze_line s.ctx s.off s.pivot_line).2.2 = s.line := rfl
  simp only [hline_def] at he
  split_ifs at he
  · rcases List.mem_append.1 he with he | he
    · exact block_events_no_code _ _ _ hpend e he
    · exact block_events_no_code _ _ _ hone e he
  · exact block_events_no_code _ _ _ hset e he
  · exact block_events_no_code _ _ _ hpend e he
  · simp at he

/-- C13: with the flag that disables the indented code set, for every buffer of fewer than
`2 ^ 30` characters and whatever the callbacks return, no line that a round of the main
loop of `md_parse` analyses is classified as indented code, and no event that `md_parse`
records is `enter_block(Code)`, `leave_block(Code)` or a text event of the type
`CodeBlock`. -/
theorem no_indented_code (text : List Char) (renderer : MD_RENDERER σ) (userdata : σ)
    (hflag : renderer.flags.MD_FLAG_NOINDENTEDCODE = true) (hsize : text.length < 2 ^ 30) :
    (∀ s, doc_reachable (md_process_doc_start (md_parse_ctx text renderer userdata)).ctx s →
        s.off < s.ctx.size → s.line.type ≠ MD_LINE_INDENTEDCODE)
    ∧ ∃ res, md_parse text renderer userdata = some res ∧ ∀ e ∈ res.2.events, ¬ e.1.is_code := by
  have hcio : (md_process_doc_start (md_parse_ctx text renderer userdata)).ctx.code_indent_offset
      = 2 ^ 32 - 1 := by
    rw [md_process_doc_start, MD_ENTER_BLOCK_eq_emit]
    simp [md_parse_ctx, hflag]
  have hsz : (md_process_doc_start (md_parse_ctx text renderer userdata)).ctx.size < 2 ^ 30 := by
    rw [md_process_doc_start, MD_ENTER_BLOCK_eq_emit]
    simp only [emit_size]
    exact hsize
  have hline : ∀ s,
      doc_reachable (md_process_doc_start (md_parse_ctx text renderer userdata)).ctx s →
      s.line.type ≠ MD_LINE_INDENTEDCODE := by
    intro s hs
    obtain ⟨c1, c2, c3⟩ := doc_reachable_no_code _ hcio hsz s hs
    have hinv := doc_reachable_inv _ s hs
    exact md_analyze_line_no_code s.ctx s.off s.pivot_line c1 c2 hinv.2.2.2 c3
  refine ⟨fun s hs _ => hline s hs, ?_⟩
  apply md_parse_events text renderer userdata (fun e => ¬ e.is_code)
  · exact ⟨fun hh => hh, fun hh => hh⟩
  · intro s hs _
    obtain ⟨_, _, c3⟩ := doc_reachable_no_code _ hcio hsz s hs
    exact md_process_doc_iter_events_no_code s (doc_reachable_inv _ s hs) c3 (hline s hs)
  · intro s hs
    obtain ⟨_, _, c3⟩ := doc_reachable_no_code _ hcio hsz s hs
    have hinv := doc_reachable_inv _ s hs
    apply block_events_no_code
    intro l hl
    rw [(hinv.2.1 l (List.mem_of_mem_head? hl)).1]
    exact c3

/-- The buffer `"    a\n\n    b\n"` with the indented code disabled: two paragraphs. -/
theorem no_indented_code_witness :
    outcome (md_parse [' ', ' ', ' ', ' ', 'a', '\n', '\n', ' ', ' ', ' ', ' ', 'b', '\n']
        (ok_renderer noindentedcode_flags) ())
      = some (0, [(MD_EVENT.enter_block MD_BLOCK_DOC none, 0),
                  (MD_EVENT.enter_block MD_BLOCK_P none, 0),
                  (MD_EVENT.text MD_TEXT_NORMAL ['a'], 0),
                  (MD_EVENT.text MD_TEXT_NORMAL ['\n'], 0),
                  (MD_EVENT.leave_block MD_BLOCK_P none, 0),
                  (MD_EVENT.enter_block MD_BLOCK_P none, 0),
                  (MD_EVENT.text MD_TEXT_NORMAL ['b'], 0),
                  (MD_EVENT.text MD_TEXT_NORMAL ['\n'], 0),
                  (MD_EVENT.leave_block MD_BLOCK_P none, 0),
                  (MD_EVENT.leave_block MD_BLOCK_DOC none, 0)])
    ∧ ∃ res, md_parse [' ', ' ', ' ', ' ', 'a', '\n', '\n', ' ', ' ', ' ', ' ', 'b', '\n']
          (ok_renderer noindentedcode_flags) () = some res
        ∧ ∀ e ∈ res.2.events, ¬ e.1.is_code :=
  ⟨by decide,
    (no_indented_code [' ', ' ', ' ', ' ', 'a', '\n', '\n', ' ', ' ', ' ', ' ', 'b', '\n']
      (ok_renderer noindentedcode_flags) () rfl (by decide)).2⟩


/-- With the indented code disabled the line `"    # T"` after a blank pivot, which is a
line of code with the default flags, is classified as an ATX header, not as text. -/
theorem noindentedcode_text_counterexample :
    (ok_ctx [' ', ' ', ' ', ' ', '#', ' ', 'T', '\n']
        noindentedcode_flags).r.flags.MD_FLAG_NOINDENTEDCODE = true
      ∧ dummy_line.type = MD_LINE_BLANK
      ∧ line_indent (ok_ctx [' ', ' ', ' ', ' ', '#', ' ', 'T', '\n'] default_flags) 0 = 4
      ∧ (md_analyze_line (ok_ctx [' ', ' ', ' ', ' ', '#', ' ', 'T', '\n'] default_flags) 0
          dummy_line).2.2.type = MD_LINE_INDENTEDCODE
      ∧ (md_analyze_line (ok_ctx [' ', ' ', ' ', ' ', '#', ' ', 'T', '\n'] noindentedcode_flags) 0
          dummy_line).2.2.type = MD_LINE_ATXHEADER
      ∧ (md_analyze_line (ok_ctx [' ', ' ', ' ', ' ', '#', ' ', 'T', '\n'] noindentedcode_flags) 0
          dummy_line).2.2.type ≠ MD_LINE_TEXT
      ∧ (md_analyze_line (ok_ctx [' ', ' ', ' ', ' ', '-', '-', '-', '\n'] noindentedcode_flags) 0
          dummy_line).2.2.type = MD_LINE_HR := by
  decide

/-- C14 (amended): with the indented code disabled (the code indentation, set as `md_parse`
sets it, is then `2 ^ 32 - 1`), every line that is not blank, stands after a pivot that is blank or code and
is indented by 4 columns at least and by fewer than `2 ^ 32 - 1`, so that it is a line of
code with the default code indentation 4, is not classified as indented code: it goes
through the remaining tests, and is an ATX header when the ATX test accepts it, a thematic
break when the thematic break test accepts it, and text otherwise; it is text whenever its
first character after the indentation is none of `#`, `-`, `_` and `*`. -/
theorem noindentedcode_fallthrough (ctx : MD_CTX σ) (off : Nat) (pivot_line : MD_LINE)
    (hflag : ctx.r.flags.MD_FLAG_NOINDENTEDCODE = true)
    (hset : ctx.code_indent_offset
      = if ctx.r.flags.MD_FLAG_NOINDENTEDCODE = true then 2 ^ 32 - 1 else 4)
    (hnb : ¬ (line_start ctx off ≥ ctx.size ∨ ISNEWLINE ctx (line_start ctx off) = true))
    (hp : pivot_line.type = MD_LINE_BLANK ∨ pivot_line.type = MD_LINE_INDENTEDCODE)
    (h4 : line_indent ctx off ≥ 4) (hlt : line_indent ctx off < 2 ^ 32 - 1) :
    (md_analyze_line (MD_CTX.mk ctx.text ctx.r ctx.userdata 4 ctx.header_level ctx.events) off
        pivot_line).2.2.type = MD_LINE_INDENTEDCODE
    ∧ (md_analyze_line ctx off pivot_line).2.2.type
        = (if (md_analyze_line_atx ctx (line_start ctx off)).2.isSome = true then MD_LINE_ATXHEADER
           else if (md_analyze_line_hr ctx (line_start ctx off)).isSome = true then MD_LINE_HR
           else MD_LINE_TEXT)
    ∧ (CH ctx (line_start ctx off) ≠ '#' → CH ctx (line_start ctx off) ≠ '-' →
        CH ctx (line_start ctx off) ≠ '_' → CH ctx (line_start ctx off) ≠ '*' →
        (md_analyze_line ctx off pivot_line).2.2.type = MD_LINE_TEXT) := by
  have hcio : ctx.code_indent_offset = 2 ^ 32 - 1 := by rw [hset, if_pos hflag]
  have hnc : ¬ ((pivot_line.type = MD_LINE_BLANK ∨ pivot_line.type = MD_LINE_INDENTEDCODE)
      ∧ line_indent ctx off ≥ ctx.code_indent_offset) := by
    rw [hcio]
    intro hh
    omega
  have hsetext : ∀ c : MD_CTX σ, md_analyze_line_setext c (line_start ctx off) pivot_line = none := by
    intro c
    unfold md_analyze_line_setext
    rw [if_neg]
    intro hh
    rcases hp with h | h <;> rw [h] at hh <;> exact absurd hh.1 (by simp)
  have htype : (md_analyze_line ctx off pivot_line).2.2.type
      = (if (md_analyze_line_atx ctx (line_start ctx off)).2.isSome = true then MD_LINE_ATXHEADER
         else if (md_analyze_line_hr ctx (line_start ctx off)).isSome = true then MD_LINE_HR
         else MD_LINE_TEXT) := by
    rw [md_analyze_line_type_eq, md_analyze_line_type_rest ctx off pivot_line hnb hnc]
    obtain ⟨hl, hfr⟩ := md_analyze_line_atx_frame ctx (line_start ctx off)
    have hhr : md_analyze_line_hr (md_analyze_line_atx ctx (line_start ctx off)).1
        (line_start ctx off) = md_analyze_line_hr ctx (line_start ctx off) := by
      rw [hfr]
      exact @md_analyze_line_hr_congr σ ctx { ctx with header_level := hl } rfl _
    cases ha : md_analyze_line_atx ctx (line_start ctx off) with
    | mk c1 ob =>
      rw [ha] at hhr
      simp only at hhr
      cases ob with
      | some b => simp
      | none =>
        simp only [hsetext, hhr]
        cases hh : md_analyze_line_hr ctx (line_start ctx off) with
        | some e => simp
        | none => simp
  refine ⟨?_, htype, ?_⟩
  · generalize hc4 : MD_CTX.mk ctx.text ctx.r ctx.userdata 4 ctx.header_level ctx.events = ctx4
    have htx : ctx4.text = ctx.text := by rw [← hc4]
    have hci : ctx4.code_indent_offset = 4 := by rw [← hc4]
    have hind : md_analyze_line_indent ctx4 off 0 = md_analyze_line_indent ctx off 0 :=
      md_analyze_line_indent_congr htx off 0
    have hls : line_start ctx4 off = line_start ctx off := by
      unfold line_start; rw [hind]
    have hli : line_indent ctx4 off = line_indent ctx off := by
      unfold line_indent; rw [hind]
    have hnb' : ¬ (line_start ctx4 off ≥ ctx4.size
        ∨ ISNEWLINE ctx4 (line_start ctx4 off) = true) := by
      rw [hls, size_congr htx, ISNEWLINE_congr htx]
      exact hnb
    have hc' : (pivot_line.type = MD_LINE_BLANK ∨ pivot_line.type = MD_LINE_INDENTEDCODE)
        ∧ line_indent ctx4 off ≥ ctx4.code_indent_offset := by
      rw [hli, hci]
      exact ⟨hp, h4⟩
    rw [md_analyze_line_type_eq, md_analyze_line_type_code _ off pivot_line hnb' hc']
  · intro n1 n2 n3 n4
    have ha : (md_analyze_line_atx ctx (line_start ctx off)).2 = none := by
      unfold md_analyze_line_atx
      rw [if_neg n1]
    have hh : md_analyze_line_hr ctx (line_start ctx off) = none := by
      unfold md_analyze_line_hr
      rw [if_neg]
      unfold ISANYOF ISANYOF_ md_strchr
      simp [md_strchr, n2, n3, n4]
    rw [htype, ha, hh]
    simp

/-- The line `"    x"` after a blank pivot: code with the default flags, text with the
indented code disabled. -/
theorem noindentedcode_fallthrough_witness :
    (md_analyze_line (ok_ctx [' ', ' ', ' ', ' ', 'x', '\n'] default_flags) 0
        dummy_line).2.2.type = MD_LINE_INDENTEDCODE
    ∧ (md_analyze_line (ok_ctx [' ', ' ', ' ', ' ', 'x', '\n'] noindentedcode_flags) 0
        dummy_line).2.2.type = MD_LINE_TEXT :=
  ⟨by decide,
    (noindentedcode_fallthrough (ok_ctx [' ', ' ', ' ', ' ', 'x', '\n'] noindentedcode_flags) 0
      dummy_line rfl rfl (by decide) (Or.inl rfl) (by decide) (by decide)).2.2
      (by decide) (by decide) (by decide) (by decide)⟩


/-! ## Trailing blank lines of a code block, and text after a thematic break -/

/-- C16: `md_parse` does not trim the trailing blank lines of an indented code block.  On
`"    a\n\n"` the blank line after the code line is classified as indented code, stays
pending with it and is flushed at the end of the buffer: the code block is rendered as
`"a"`, `"\n"` and one more `"\n"`.  On `"    a\n\nb\n"` the blank line before the paragraph
is rendered in the code block as well. -/
theorem code_block_trailing_blank_rendered :
    (md_analyze_line (ok_ctx [' ', ' ', ' ', ' ', 'a', '\n', '\n'] default_flags) 6
        (MD_LINE.mk MD_LINE_INDENTEDCODE 4 5 0)).2.2
      = { type := MD_LINE_INDENTEDCODE, beg := 6, end_ := 6, indent := 0 }
    ∧ outcome (md_parse [' ', ' ', ' ', ' ', 'a', '\n', '\n'] (ok_renderer default_flags) ())
      = some (0, [(MD_EVENT.enter_block MD_BLOCK_DOC none, 0),
                  (MD_EVENT.enter_block MD_BLOCK_CODE none, 0),
                  (MD_EVENT.text MD_TEXT_CODEBLOCK ['a'], 0),
                  (MD_EVENT.text MD_TEXT_CODEBLOCK ['\n'], 0),
                  (MD_EVENT.text MD_TEXT_CODEBLOCK ['\n'], 0),
                  (MD_EVENT.leave_block MD_BLOCK_CODE none, 0),
                  (MD_EVENT.leave_block MD_BLOCK_DOC none, 0)])
    ∧ outcome (md_parse [' ', ' ', ' ', ' ', 'a', '\n', '\n', 'b', '\n']
        (ok_renderer default_flags) ())
      = some (0, [(MD_EVENT.enter_block MD_BLOCK_DOC none, 0),
                  (MD_EVENT.enter_block MD_BLOCK_CODE none, 0),
                  (MD_EVENT.text MD_TEXT_CODEBLOCK ['a'], 0),
                  (MD_EVENT.text MD_TEXT_CODEBLOCK ['\n'], 0),
                  (MD_EVENT.text MD_TEXT_CODEBLOCK ['\n'], 0),
                  (MD_EVENT.leave_block MD_BLOCK_CODE none, 0),
                  (MD_EVENT.enter_block MD_BLOCK_P none, 0),
                  (MD_EVENT.text MD_TEXT_NORMAL ['b'], 0),
                  (MD_EVENT.text MD_TEXT_NORMAL ['\n'], 0),
                  (MD_EVENT.leave_block MD_BLOCK_P none, 0),
                  (MD_EVENT.leave_block MD_BLOCK_DOC none, 0)]) := by
  decide

/-- C17: `md_is_hr_line` accepts a line as soon as it has counted three marks, without
looking at what follows them.  The line `"---abc"` is classified as a thematic break, after
a blank pivot and after a text pivot alike, and `md_parse` renders `"---abc\n"` as a
horizontal rule alone: the characters `abc` are in no event. -/
theorem thematic_break_with_trailing_text :
    md_is_hr_line (ok_ctx ['-', '-', '-', 'a', 'b', 'c', '\n'] default_flags) 0 = some 3
    ∧ (md_analyze_line (ok_ctx ['-', '-', '-', 'a', 'b', 'c', '\n'] default_flags) 0
        dummy_line).2.2
      = { type := MD_LINE_HR, beg := 0, end_ := 6, indent := 0 }
    ∧ (md_analyze_line (ok_ctx ['-', '-', '-', 'a', 'b', 'c', '\n'] default_flags) 0
        (MD_LINE.mk MD_LINE_TEXT 0 1 0)).2.2.type = MD_LINE_HR
    ∧ outcome (md_parse ['-', '-', '-', 'a', 'b', 'c', '\n'] (ok_renderer default_flags) ())
      = some (0, [(MD_EVENT.enter_block MD_BLOCK_DOC none, 0),
                  (MD_EVENT.enter_block MD_BLOCK_HR none, 0),
                  (MD_EVENT.leave_block MD_BLOCK_HR none, 0),
                  (MD_EVENT.leave_block MD_BLOCK_DOC none, 0)]) := by
  decide


/-! ## The width of the indentation -/

theorem land_mask (x : Nat) (hx : x < 2 ^ 32) : x &&& (2 ^ 32 - 4) = 4 * (x / 4) := by
  have hm : (2 ^ 32 - 4 : Nat) = (2 ^ 30 - 1) <<< 2 := by decide
  have hr : 4 * (x / 4) = (x >>> 2) <<< 2 := by
    rw [Nat.shiftLeft_eq, Nat.shiftRight_eq_div_pow]; omega
  rw [hm, hr]
  apply Nat.eq_of_testBit_eq
  intro i
  rw [Nat.testBit_and, Nat.testBit_shiftLeft, Nat.testBit_shiftLeft, Nat.testBit_shiftRight,
    Nat.testBit_two_pow_sub_one]
  by_cases h2 : 2 ≤ i
  · have e : 2 + (i - 2) = i := by omega
    rw [e]
    by_cases h32 : i < 32
    · have : i - 2 < 30 := by omega
      simp [h2, this]
    · have hf : x.testBit i = false := by
        apply Nat.testBit_lt_two_pow
        calc x < 2 ^ 32 := hx
          _ ≤ 2 ^ i := Nat.pow_le_pow_right (by omega) (by omega)
      simp [hf]
  · simp [h2]

/-- The step of the loop on a width taken modulo `2 ^ 32` is the step of the spec, modulo
`2 ^ 32`. -/
theorem md_analyze_line_indent_step_mod (w : Nat) (ch : Char) :
    md_analyze_line_indent_step (w % 2 ^ 32) ch = indent_step w ch % 2 ^ 32 := by
  unfold md_analyze_line_indent_step indent_step
  by_cases ht : ch = '\t'
  · rw [if_pos ht, if_pos ht, land_mask _ (Nat.mod_lt _ (by decide))]
    omega
  · rw [if_neg ht, if_neg ht]
    omega

theorem foldl_indent_step_mod (run : List Char) :
    ∀ w, run.foldl md_analyze_line_indent_step (w % 2 ^ 32)
      = run.foldl indent_step w % 2 ^ 32 := by
  induction run with
  | nil => intro w; rfl
  | cons ch rest ih =>
    intro w
    rw [List.foldl_cons, List.foldl_cons, md_analyze_line_indent_step_mod, ih]

/-- The indentation loop folds its step over the maximal run of spaces and tabs. -/
theorem md_analyze_line_indent_snd (ctx : MD_CTX σ) (off indent : Nat) :
    (md_analyze_line_indent ctx off indent).2
      = (indent_run ctx off).foldl md_analyze_line_indent_step indent := by
  generalize hn : ctx.size - off = k
  induction k generalizing off indent with
  | zero =>
    rw [md_analyze_line_indent_unfold, if_neg (by omega)]
    unfold indent_run
    rw [drop_eq_nil_of_size_le ctx off (by omega)]
    rfl
  | succ k ih =>
    rw [md_analyze_line_indent_unfold]
    have hlt : off < ctx.size := by omega
    unfold indent_run
    rw [drop_eq_CH_cons ctx off hlt]
    by_cases hc : off < ctx.size ∧ ISBLANK ctx off = true
    · rw [if_pos hc, ih (off + 1) _ (by omega)]
      have hb : ISBLANK_ (CH ctx off) = true := hc.2
      rw [List.takeWhile_cons_of_pos hb, List.foldl_cons]
      rfl
    · rw [if_neg hc]
      have hb : ¬ ISBLANK_ (CH ctx off) = true := fun h => hc ⟨hlt, h⟩
      rw [List.takeWhile_cons_of_neg hb]
      rfl

theorem line_indent_eq (ctx : MD_CTX σ) (off : Nat) :
    line_indent ctx off = indent_width (indent_run ctx off) % 2 ^ 32 := by
  unfold line_indent indent_width
  rw [md_analyze_line_indent_snd, ← foldl_indent_step_mod, Nat.zero_mod]

theorem line_start_eq_run (ctx : MD_CTX σ) (off : Nat) :
    line_start ctx off = off + (indent_run ctx off).length := by
  rw [line_start_eq, scan_forward_eq]
  rfl

theorem indent_step_le (w : Nat) (ch : Char) : indent_step w ch ≤ w + 4 := by
  unfold indent_step
  split_ifs <;> omega

theorem foldl_indent_step_le (run : List Char) :
    ∀ w, run.foldl indent_step w ≤ w + 4 * run.length := by
  induction run with
  | nil => intro w; simp
  | cons ch rest ih =>
    intro w
    rw [List.foldl_cons, List.length_cons]
    have h1 := ih (indent_step w ch)
    have h2 := indent_step_le w ch
    omega

theorem indent_width_le (run : List Char) : indent_width run ≤ 4 * run.length := by
  have := foldl_indent_step_le run 0
  unfold indent_width
  omega

theorem indent_run_length_le (ctx : MD_CTX σ) (off : Nat) :
    (indent_run ctx off).length ≤ ctx.size - off := by
  unfold indent_run
  have h1 := List.Sublist.length_le (List.takeWhile_sublist (l := ctx.text.drop off) ISBLANK_)
  have h2 : (ctx.text.drop off).length = ctx.size - off := by simp [MD_CTX.size]
  omega

/-- The field `indent` of an analysed line: 0 for a blank line; for a line that is not
blank, the width computed by the indentation loop, less the code indentation when the line
is classified as indented code. -/
theorem md_analyze_line_indent_field (ctx : MD_CTX σ) (off : Nat) (pivot_line : MD_LINE) :
    ((line_start ctx off ≥ ctx.size ∨ ISNEWLINE ctx (line_start ctx off) = true) →
        (md_analyze_line ctx off pivot_line).2.2.indent = 0)
    ∧ (¬ (line_start ctx off ≥ ctx.size ∨ ISNEWLINE ctx (line_start ctx off) = true) →
        ((md_analyze_line ctx off pivot_line).2.2.type ≠ MD_LINE_INDENTEDCODE →
          (md_analyze_line ctx off pivot_line).2.2.indent = line_indent ctx off)
        ∧ ((md_analyze_line ctx off pivot_line).2.2.type = MD_LINE_INDENTEDCODE →
          (md_analyze_line ctx off pivot_line).2.2.indent
            = line_indent ctx off - ctx.code_indent_offset))
    ∧ ((md_analyze_line ctx off pivot_line).2.2.type ≠ MD_LINE_ATXHEADER →
        (md_analyze_line ctx off pivot_line).2.2.beg = line_start ctx off) := by
  rw [md_analyze_line_type_eq, md_analyze_line_indent_eq, md_analyze_line_beg_eq]
  rcases md_analyze_line_type_cases ctx off pivot_line with h | ⟨hnb, h | ⟨_, h | ⟨_, h | ⟨_, h | h⟩⟩⟩⟩
  · rw [h.2]
    refine ⟨fun _ => rfl, fun hn => absurd h.1 hn, fun _ => rfl⟩
  · rw [h.2.2]
    refine ⟨fun hb => ?_, fun _ => ⟨fun hn => absurd rfl hn, fun _ => rfl⟩, fun _ => rfl⟩
    rcases hb with hb | hb
    · omega
    · rw [hnb.2] at hb; exact absurd hb (by simp)
  · obtain ⟨b, _, h⟩ := h
    rw [h]
    refine ⟨fun hb => ?_, fun _ => ⟨fun _ => rfl, fun hc => ?_⟩, fun hn => absurd rfl hn⟩
    · rcases hb with hb | hb
      · omega
      · rw [hnb.2] at hb; exact absurd hb (by simp)
    · simp at hc
  · obtain ⟨c2, _, h⟩ := h
    rw [h]
    refine ⟨fun hb => ?_, fun _ => ⟨fun _ => rfl, fun hc => ?_⟩, fun _ => rfl⟩
    · rcases hb with hb | hb
      · omega
      · rw [hnb.2] at hb; exact absurd hb (by simp)
    · simp at hc
  · obtain ⟨e, _, h⟩ := h
    rw [h]
    refine ⟨fun hb => ?_, fun _ => ⟨fun _ => rfl, fun hc => ?_⟩, fun _ => rfl⟩
    · rcases hb with hb | hb
      · omega
      · rw [hnb.2] at hb; exact absurd hb (by simp)
    · simp at hc
  · rw [h.2]
    refine ⟨fun hb => ?_, fun _ => ⟨fun _ => rfl, fun hc => ?_⟩, fun _ => rfl⟩
    · rcases hb with hb | hb
      · omega
      · rw [hnb.2] at hb; exact absurd hb (by simp)
    · simp at hc

theorem foldl_indent_step_tabs (n : Nat) :
    ∀ k, (List.replicate n '\t').foldl indent_step (4 * k) = 4 * (k + n) := by
  induction n with
  | zero => intro k; rfl
  | succ n ih =>
    intro k
    rw [List.replicate_succ, List.foldl_cons]
    have e : indent_step (4 * k) '\t' = 4 * (k + 1) := by
      unfold indent_step
      rw [if_pos rfl]
      omega
    rw [e, ih]
    omega

/-- The width of a line that begins with `n` tabs before another character. -/
theorem line_indent_tabs (ctx : MD_CTX σ) (n : Nat) (y : Char) (rest : List Char)
    (hy : ISBLANK_ y = false) (htext : ctx.text = List.replicate n '\t' ++ y :: rest) :
    indent_run ctx 0 = List.replicate n '\t'
      ∧ indent_width (indent_run ctx 0) = 4 * n
      ∧ line_indent ctx 0 = 4 * n % 2 ^ 32 := by
  have hrun : indent_run ctx 0 = List.replicate n '\t' := by
    unfold indent_run
    rw [List.drop_zero, htext]
    apply takeWhile_of_prefix
    · intro x hx
      rw [List.eq_of_mem_replicate hx]
      rfl
    · intro z hz
      simp only [List.head?_cons, Option.mem_def, Option.some.injEq] at hz
      rw [← hz]; exact hy
  have hw : indent_width (indent_run ctx 0) = 4 * n := by
    rw [hrun]
    unfold indent_width
    have := foldl_indent_step_tabs n 0
    simpa using this
  refine ⟨hrun, hw, ?_⟩
  rw [line_indent_eq, hw]

/-- A line that begins with `n` tabs, where `4 * n` is a multiple of `2 ^ 32`: the loop of
`md_analyze_line` computes the width 0, and the field `indent` of the line is 0. -/
theorem line_indent_tabs_wrap (ctx : MD_CTX σ) (n : Nat) (pivot_line : MD_LINE)
    (hn : 4 * n % 2 ^ 32 = 0) (htext : ctx.text = List.replicate n '\t' ++ ['x', '\n']) :
    indent_width (indent_run ctx 0) = 4 * n
      ∧ line_indent ctx 0 = 0
      ∧ (md_analyze_line ctx 0 pivot_line).2.2.indent = 0 := by
  obtain ⟨_, hw, hl⟩ := line_indent_tabs ctx n 'x' ['\n'] (by decide) htext
  rw [hn] at hl
  refine ⟨hw, hl, ?_⟩
  obtain ⟨f1, f2, _⟩ := md_analyze_line_indent_field ctx 0 pivot_line
  by_cases hb : line_start ctx 0 ≥ ctx.size ∨ ISNEWLINE ctx (line_start ctx 0) = true
  · exact f1 hb
  · obtain ⟨g1, g2⟩ := f2 hb
    by_cases hc : (md_analyze_line ctx 0 pivot_line).2.2.type = MD_LINE_INDENTEDCODE
    · rw [g2 hc, hl]
      exact Nat.zero_sub _
    · rw [g1 hc, hl]

/-- A line that begins with `2 ^ 30` tabs: the fold of the spec gives the width `2 ^ 32`,
the loop of `md_analyze_line`, on an `unsigned` field, the width 0, and the field `indent`
of the line is 0. -/
theorem indentation_width_counterexample :
    indent_width (indent_run (ok_ctx (List.replicate (2 ^ 30) '\t' ++ ['x', '\n'])
        default_flags) 0) = 4 * 2 ^ 30
    ∧ line_indent (ok_ctx (List.replicate (2 ^ 30) '\t' ++ ['x', '\n']) default_flags) 0 = 0
    ∧ (md_analyze_line (ok_ctx (List.replicate (2 ^ 30) '\t' ++ ['x', '\n']) default_flags) 0
        dummy_line).2.2.indent = 0
    ∧ line_indent (ok_ctx (List.replicate (2 ^ 30) '\t' ++ ['x', '\n']) default_flags) 0
        ≠ indent_width (indent_run (ok_ctx (List.replicate (2 ^ 30) '\t' ++ ['x', '\n'])
            default_flags) 0) := by
  have h := line_indent_tabs_wrap
    (ok_ctx (List.replicate (2 ^ 30) '\t' ++ ['x', '\n']) default_flags)
    (2 ^ 30) dummy_line (by norm_num) rfl
  refine ⟨h.1, h.2.1, h.2.2, ?_⟩
  rw [h.2.1, h.1]
  norm_num

/-- C18 (amended): for every line, the width that the indentation loop of `md_analyze_line`
computes is, modulo `2 ^ 32`, the left fold of the spec over the maximal leading run of
spaces and tabs (a space maps `w` to `w + 1`, a tab to the least multiple of 4 strictly
greater than `w`), and it is that fold itself whenever the fold is below `2 ^ 32`, as it is
in every buffer of fewer than `2 ^ 30` characters.  The field `indent` of the line is this
width for a line that is not blank and not classified as indented code, this width less
the code indentation (4 by default) for a line that is not blank and classified as
indented code, and 0 for a blank line; the content of a line that is not an ATX header
begins at the first character after the run. -/
theorem indentation_width (ctx : MD_CTX σ) (off : Nat) (pivot_line : MD_LINE) :
    line_indent ctx off = indent_width (indent_run ctx off) % 2 ^ 32
    ∧ (indent_width (indent_run ctx off) < 2 ^ 32 →
        line_indent ctx off = indent_width (indent_run ctx off))
    ∧ (ctx.size < 2 ^ 30 → indent_width (indent_run ctx off) < 2 ^ 32)
    ∧ (∀ w, indent_step w ' ' = w + 1)
    ∧ (∀ w, 4 ∣ indent_step w '\t' ∧ w < indent_step w '\t'
        ∧ ∀ m, 4 ∣ m → w < m → indent_step w '\t' ≤ m)
    ∧ ((line_start ctx off ≥ ctx.size ∨ ISNEWLINE ctx (line_start ctx off) = true) →
        (md_analyze_line ctx off pivot_line).2.2.indent = 0)
    ∧ (¬ (line_start ctx off ≥ ctx.size ∨ ISNEWLINE ctx (line_start ctx off) = true) →
        ((md_analyze_line ctx off pivot_line).2.2.type ≠ MD_LINE_INDENTEDCODE →
          (md_analyze_line ctx off pivot_line).2.2.indent = line_indent ctx off)
        ∧ ((md_analyze_line ctx off pivot_line).2.2.type = MD_LINE_INDENTEDCODE →
          (md_analyze_line ctx off pivot_line).2.2.indent
            = line_indent ctx off - ctx.code_indent_offset))
    ∧ ((md_analyze_line ctx off pivot_line).2.2.type ≠ MD_LINE_ATXHEADER →
        (md_analyze_line ctx off pivot_line).2.2.beg = off + (indent_run ctx off).length)
    ∧ indent_width [' ', '\t', ' ', ' ', ' ', ' ', '\t'] = 12 := by
  obtain ⟨f1, f2, f3⟩ := md_analyze_line_indent_field ctx off pivot_line
  refine ⟨line_indent_eq ctx off, fun h => ?_, fun h => ?_, fun w => ?_, fun w => ?_, f1, f2,
    fun h => ?_, by decide⟩
  · rw [line_indent_eq, Nat.mod_eq_of_lt h]
  · have h1 := indent_width_le (indent_run ctx off)
    have h2 := indent_run_length_le ctx off
    omega
  · unfold indent_step
    rw [if_neg (by decide)]
  · unfold indent_step
    rw [if_pos rfl]
    refine ⟨Dvd.intro _ rfl, by omega, fun m hm hlt => ?_⟩
    obtain ⟨q, hq⟩ := hm
    omega
  · rw [f3 h, line_start_eq_run]


/-! ## Indented code after a paragraph -/

/-- In a block that a round of the main loop renders as code, every line is classified as
indented code. -/
theorem iter_blocks_code (s : MD_DOC_STATE σ) (hinv : doc_inv s) :
    ∀ b ∈ iter_blocks s, (∀ l0 ∈ b.2.head?, l0.type = MD_LINE_INDENTEDCODE) →
      ∀ l ∈ b.2, l.type = MD_LINE_INDENTEDCODE := by
  intro b hb hhead
  unfold iter_blocks at hb
  obtain ⟨ls, hls, rfl⟩ := List.mem_map.1 hb
  obtain ⟨hmem, _⟩ := List.mem_filter.1 hls
  simp only at hhead ⊢
  have hpending : ls = s.lines → ∀ l ∈ ls, l.type = MD_LINE_INDENTEDCODE := by
    intro e l hl
    subst e
    cases hs : s.lines with
    | nil => rw [hs] at hl; simp at hl
    | cons l0 rest =>
      have h0 := hhead l0 (by rw [hs]; simp)
      have h1 := (hinv.2.1 l0 (by rw [hs]; simp)).1
      rw [(hinv.2.1 l (by rw [hs]; rw [hs] at hl; exact hl)).1, ← h1, h0]
  unfold md_process_doc_iter_flushed at hmem
  split_ifs at hmem
  · simp only [List.mem_cons, List.mem_singleton, List.not_mem_nil, or_false] at hmem
    rcases hmem with h | h
    · exact hpending h
    · intro l hl
      rw [h] at hl hhead
      simp only [List.mem_singleton] at hl
      rw [hl]
      exact hhead s.line (by simp)
  · simp only [List.mem_singleton] at hmem
    intro l hl
    cases hs : s.lines with
    | nil => rw [hmem, hs] at hl; simp [set_setextheader] at hl
    | cons l0 rest =>
      rw [hmem, hs] at hhead
      have := hhead (MD_LINE.mk MD_LINE_SETEXTHEADER l0.beg l0.end_ l0.indent)
        (by simp [set_setextheader])
      simp at this
  · simp only [List.mem_singleton] at hmem
    exact hpending hmem
  · simp at hmem

theorem finish_blocks_code (s : MD_DOC_STATE σ) (hinv : doc_inv s) :
    ∀ b ∈ finish_blocks s, (∀ l0 ∈ b.2.head?, l0.type = MD_LINE_INDENTEDCODE) →
      ∀ l ∈ b.2, l.type = MD_LINE_INDENTEDCODE := by
  intro b hb hhead
  unfold finish_blocks at hb
  split_ifs at hb
  · obtain ⟨ls, hls, rfl⟩ := List.mem_map.1 hb
    obtain ⟨hmem, _⟩ := List.mem_filter.1 hls
    simp only [List.mem_singleton] at hmem
    subst hmem
    simp only at hhead ⊢
    intro l hl
    cases hs : s.lines with
    | nil => rw [hs] at hl; simp at hl
    | cons l0 rest =>
      have h0 := hhead l0 (by rw [hs]; simp)
      have h1 := (hinv.2.1 l0 (by rw [hs]; simp)).1
      rw [(hinv.2.1 l (by rw [hs]; rw [hs] at hl; exact hl)).1, ← h1, h0]
  · simp at hb

/-- C19: indented code cannot interrupt a paragraph.  For every buffer, offset, pivot and
flag set, a line that `md_analyze_line` classifies as indented code has a pivot that is
blank or code, so that after a text pivot no line is indented code, whatever its
indentation.  In a parse, the line that follows a line classified as text is analysed with
a text pivot and is not classified as indented code; every line of a block rendered as
code, by a round or by the final flush, is classified as indented code, so that this line
is in no code block.  The buffer `"a\n    b\n"` is one paragraph of two lines. -/
theorem indented_code_after_text (ctx0 : MD_CTX σ) :
    (∀ (ctx : MD_CTX σ) (off : Nat) (pivot_line : MD_LINE),
        (md_analyze_line ctx off pivot_line).2.2.type = MD_LINE_INDENTEDCODE →
          pivot_line.type = MD_LINE_BLANK ∨ pivot_line.type = MD_LINE_INDENTEDCODE)
    ∧ (∀ (ctx : MD_CTX σ) (off : Nat) (pivot_line : MD_LINE),
        pivot_line.type = MD_LINE_TEXT → line_indent ctx off ≥ 4 →
          (md_analyze_line ctx off pivot_line).2.2.type ≠ MD_LINE_INDENTEDCODE)
    ∧ (∀ s : MD_DOC_STATE σ, doc_reachable ctx0 s → s.off < s.ctx.size →
        s.line.type = MD_LINE_TEXT → (md_process_doc_iter s).1 = 0 →
          (md_process_doc_iter s).2.pivot_line.type = MD_LINE_TEXT
            ∧ (md_process_doc_iter s).2.line.type ≠ MD_LINE_INDENTEDCODE
            ∧ ∀ t : MD_DOC_STATE σ, doc_reachable ctx0 t →
                ∀ b ∈ iter_blocks t ++ finish_blocks t,
                  (∀ l0 ∈ b.2.head?, l0.type = MD_LINE_INDENTEDCODE) →
                    (md_process_doc_iter s).2.line ∉ b.2)
    ∧ (∀ t : MD_DOC_STATE σ, doc_reachable ctx0 t →
        ∀ b ∈ iter_blocks t ++ finish_blocks t,
          (∀ l0 ∈ b.2.head?, l0.type = MD_LINE_INDENTEDCODE) →
            (∀ l ∈ b.2, l.type = MD_LINE_INDENTEDCODE)
              ∧ ∀ hl, block_events t.ctx.text hl b.2
                  = MD_EVENT.enter_block MD_BLOCK_CODE none :: verbatim_events t.ctx.text b.2
                      ++ [MD_EVENT.leave_block MD_BLOCK_CODE none])
    ∧ outcome (md_parse ['a', '\n', ' ', ' ', ' ', ' ', 'b', '\n'] (ok_renderer default_flags) ())
        = some (0, [(MD_EVENT.enter_block MD_BLOCK_DOC none, 0),
                    (MD_EVENT.enter_block MD_BLOCK_P none, 0),
                    (MD_EVENT.text MD_TEXT_NORMAL ['a'], 0),
                    (MD_EVENT.text MD_TEXT_NORMAL ['\n'], 0),
                    (MD_EVENT.text MD_TEXT_NORMAL ['b'], 0),
                    (MD_EVENT.text MD_TEXT_NORMAL ['\n'], 0),
                    (MD_EVENT.leave_block MD_BLOCK_P none, 0),
                    (MD_EVENT.leave_block MD_BLOCK_DOC none, 0)]) := by
  have hcode : ∀ t : MD_DOC_STATE σ, doc_reachable ctx0 t →
      ∀ b ∈ iter_blocks t ++ finish_blocks t,
        (∀ l0 ∈ b.2.head?, l0.type = MD_LINE_INDENTEDCODE) →
          ∀ l ∈ b.2, l.type = MD_LINE_INDENTEDCODE := by
    intro t ht b hb hhead
    have hinv := doc_reachable_inv ctx0 t ht
    rcases List.mem_append.1 hb with h | h
    · exact iter_blocks_code t hinv b h hhead
    · exact finish_blocks_code t hinv b h hhead
  have hpiv : ∀ (ctx : MD_CTX σ) (off : Nat) (pivot_line : MD_LINE),
      pivot_line.type = MD_LINE_TEXT →
        (md_analyze_line ctx off pivot_line).2.2.type ≠ MD_LINE_INDENTEDCODE := by
    intro ctx off pivot_line hp ht
    rcases md_analyze_line_of_indentedcode ctx off pivot_line ht with h | h <;>
      rw [hp] at h <;> exact absurd h (by simp)
  refine ⟨md_analyze_line_of_indentedcode, fun ctx off pivot_line hp _ => hpiv ctx off pivot_line hp,
    ?_, ?_, by decide⟩
  · intro s hs hoff ht h0
    have hinv := doc_reachable_inv ctx0 s hs
    have hp : s.pivot_line.type = MD_LINE_BLANK ∨ s.pivot_line.type = MD_LINE_TEXT
        ∨ s.pivot_line.type = MD_LINE_INDENTEDCODE := hinv.2.2.1
    have hinv1 := md_process_doc_iter_inv s hinv h0
    have hpt : (md_process_doc_iter s).2.pivot_line.type = MD_LINE_TEXT := by
      obtain ⟨_, _, _, hst⟩ := md_process_doc_iter_spec s hinv
      have hst := hst h0
      have hline_def : (md_analyze_line s.ctx s.off s.pivot_line).2.2 = s.line := rfl
      rw [hline_def] at hst
      have hmem : s.line ∈ (md_process_doc_iter s).2.lines := by
        have hl := congrArg Prod.snd hst
        simp only at hl
        rw [hl, if_neg (by rw [ht]; simp), if_neg (by rw [ht]; simp)]
        split_ifs <;> simp
        rw [ht] at *
        contradiction
      rw [← (hinv1.2.1 _ hmem).1]
      exact ht
    have hnc : (md_process_doc_iter s).2.line.type ≠ MD_LINE_INDENTEDCODE :=
      hpiv _ _ _ hpt
    refine ⟨hpt, hnc, fun t htr b hb hhead hmem => ?_⟩
    exact hnc (hcode t htr b hb hhead _ hmem)
  · intro t htr b hb hhead
    have hall := hcode t htr b hb hhead
    refine ⟨hall, fun hl => ?_⟩
    apply block_events_of_code
    · intro hnil
      have hinv := doc_reachable_inv ctx0 t htr
      rcases List.mem_append.1 hb with h | h
      · obtain ⟨l0, rest, e, _⟩ := iter_blocks_head t hinv b h
        rw [e] at hnil; exact absurd hnil (by simp)
      · obtain ⟨l0, rest, e, _⟩ := finish_blocks_head t hinv b h
        rw [e] at hnil; exact absurd hnil (by simp)
    · exact hall


/-! ## The bounds of a line -/

theorem md_is_atxheader_line_scan_all (ctx : MD_CTX σ) (beg off : Nat) :
    ∀ i, off ≤ i → i < md_is_atxheader_line_scan ctx beg off → CH ctx i = '#' := by
  generalize hn : ctx.size - off = k
  induction k generalizing off with
  | zero =>
    intro i h1 h2
    rw [md_is_atxheader_line_scan_unfold, if_neg (by omega)] at h2
    omega
  | succ k ih =>
    intro i h1 h2
    rw [md_is_atxheader_line_scan_unfold] at h2
    by_cases hc : off < ctx.size ∧ CH ctx off = '#' ∧ off - beg < 7
    · rw [if_pos hc] at h2
      by_cases hi : i = off
      · rw [hi]; exact hc.2.1
      · exact ih (off + 1) (by omega) i (by omega) h2
    · rw [if_neg hc] at h2
      omega

/-- A forward scan goes over every stretch of characters that all pass its test. -/
theorem scan_forward_ge_of_all (ctx : MD_CTX σ) (p : Char → Bool) (off n : Nat)
    (hn : n ≤ ctx.size) (hall : ∀ i, off ≤ i → i < n → p (CH ctx i) = true) :
    n ≤ scan_forward ctx p off ∨ n < off := by
  by_cases hlt : n < off
  · exact Or.inr hlt
  · left
    have hge := scan_forward_ge ctx p off
    rcases scan_forward_stop ctx p off with h | h
    · omega
    · by_contra hcon
      have := hall (scan_forward ctx p off) hge (by omega)
      rw [this] at h
      exact absurd h (by simp)

/-- The content of an ATX header begins before the end of its line. -/
theorem md_analyze_line_atx_beg_le (ctx : MD_CTX σ) (ls b : Nat) (hls : ls < ctx.size)
    (h : (md_analyze_line_atx ctx ls).2 = some b) :
    ls ≤ b ∧ b ≤ scan_forward ctx (fun ch => !ISNEWLINE_ ch) ls := by
  unfold md_analyze_line_atx at h
  by_cases hc : CH ctx ls = '#'
  · rw [if_pos hc] at h
    obtain ⟨_, _, hb⟩ := md_is_atxheader_line_some ctx ls b h
    have h1 := md_is_atxheader_line_scan_ge ctx ls (ls + 1)
    have h2 := md_is_atxheader_line_scan_le ctx ls (ls + 1) (by omega)
    have h3 := scan_forward_ge ctx (fun ch => ch == ' ')
      (md_is_atxheader_line_scan ctx ls (ls + 1))
    have h4 := scan_forward_le ctx (fun ch => ch == ' ')
      (md_is_atxheader_line_scan ctx ls (ls + 1)) h2
    rw [← hb] at h3 h4
    refine ⟨by omega, ?_⟩
    have hall : ∀ i, ls ≤ i → i < b → (fun ch => !ISNEWLINE_ ch) (CH ctx i) = true := by
      intro i hi1 hi2
      by_cases e0 : i = ls
      · rw [e0, hc]; rfl
      · by_cases e1 : i < md_is_atxheader_line_scan ctx ls (ls + 1)
        · rw [md_is_atxheader_line_scan_all ctx ls (ls + 1) i (by omega) e1]; rfl
        · have := scan_forward_all ctx (fun ch => ch == ' ')
            (md_is_atxheader_line_scan ctx ls (ls + 1)) i (by omega) (by rw [← hb]; exact hi2)
          have hsp : CH ctx i = ' ' := by simpa using this
          rw [hsp]; rfl
    rcases scan_forward_ge_of_all ctx (fun ch => !ISNEWLINE_ ch) ls b h4 hall with h5 | h5
    · exact h5
    · omega
  · rw [if_neg hc] at h
    exact absurd h (by simp)

theorem md_analyze_line_atx_end_ge (ctx : MD_CTX σ) (line : MD_LINE)
    (h : line.beg ≤ line.end_) : line.beg ≤ (md_analyze_line_atx_end ctx line).end_ := by
  unfold md_analyze_line_atx_end
  have h1 := scan_backward_ge ctx ' ' line.beg line.end_ h
  have h2 := scan_backward_ge ctx '#' line.beg _ h1
  simp only
  split_ifs
  · exact h2
  · exact h
  · exact h

/-- The content of a line begins before the end of the line. -/
theorem md_analyze_line_type_beg_le (ctx : MD_CTX σ) (off : Nat) (pivot_line : MD_LINE) :
    (md_analyze_line_type ctx off pivot_line).2.2.beg
      ≤ scan_forward ctx (fun ch => !ISNEWLINE_ ch)
          (md_analyze_line_type ctx off pivot_line).2.1 := by
  have hoff := (md_analyze_line_type_off ctx off pivot_line).1
  have hsc := scan_forward_ge ctx (fun ch => !ISNEWLINE_ ch)
    (md_analyze_line_type ctx off pivot_line).2.1
  rcases md_analyze_line_type_cases ctx off pivot_line with h | ⟨hnb, h | ⟨_, h | ⟨_, h | ⟨_, h | h⟩⟩⟩⟩
  · rw [h.2] at hsc ⊢; exact hsc
  · rw [h.2.2] at hsc ⊢; exact hsc
  · obtain ⟨b, hb, h⟩ := h
    rw [h]
    exact (md_analyze_line_atx_beg_le ctx (line_start ctx off) b hnb.1 hb).2
  · obtain ⟨c2, _, h⟩ := h
    rw [h] at hsc ⊢; exact hsc
  · obtain ⟨e, _, h⟩ := h
    rw [h] at hsc hoff ⊢
    simp only at hsc hoff ⊢
    omega
  · rw [h.2] at hsc ⊢; exact hsc

/-- The offsets of an analysed line are in order and inside the buffer. -/
theorem md_analyze_line_bounds (ctx : MD_CTX σ) (off : Nat) (pivot_line : MD_LINE)
    (hoff : off ≤ ctx.size) :
    off ≤ (md_analyze_line ctx off pivot_line).2.2.beg
      ∧ (md_analyze_line ctx off pivot_line).2.2.beg ≤ (md_analyze_line ctx off pivot_line).2.2.end_
      ∧ (md_analyze_line ctx off pivot_line).2.2.end_ ≤ (md_analyze_line ctx off pivot_line).2.1
      ∧ (md_analyze_line ctx off pivot_line).2.1 ≤ ctx.size := by
  have h1 := line_start_ge ctx off
  have h2 := md_analyze_line_beg_ge ctx off pivot_line
  have h3 := md_analyze_line_end_le ctx off pivot_line
  have h4 := md_analyze_line_next_le ctx off pivot_line hoff
  have h5 := md_analyze_line_type_beg_le ctx off pivot_line
  have htx : (md_analyze_line_type ctx off pivot_line).1.text = ctx.text :=
    md_analyze_line_type_text ctx off pivot_line
  have hnext : scan_forward ctx (fun ch => !ISNEWLINE_ ch)
      (md_analyze_line_type ctx off pivot_line).2.1 ≤ (md_analyze_line ctx off pivot_line).2.1 := by
    rw [md_analyze_line_next_eq]
    split_ifs <;> omega
  refine ⟨by omega, ?_, by omega, h4⟩
  rw [md_analyze_line_beg_eq]
  unfold md_analyze_line
  simp only
  rw [scan_backward_congr htx, scan_forward_congr htx, md_analyze_line_atx_end_beg]
  apply scan_backward_ge
  have := md_analyze_line_atx_end_ge (md_analyze_line_type ctx off pivot_line).1
    { (md_analyze_line_type ctx off pivot_line).2.2 with
      end_ := scan_forward ctx (fun ch => !ISNEWLINE_ ch)
        (md_analyze_line_type ctx off pivot_line).2.1 } h5
  exact this

theorem content_events_in_buffer (type : MD_TEXTTYPE) (text : List Char) (line : MD_LINE)
    (h : line.end_ ≤ text.length) : ∀ e ∈ content_events type text line, e.in_buffer text := by
  intro e he
  unfold content_events at he
  split_ifs at he with hpos
  · simp only [List.mem_singleton] at he
    rw [he]
    exact Or.inr (Or.inr ⟨line.beg, line.end_, by omega, h, rfl⟩)
  · simp at he

theorem normal_events_in_buffer (text : List Char) (lines : List MD_LINE)
    (h : ∀ l ∈ lines, l.end_ ≤ text.length) :
    ∀ e ∈ normal_events text lines, e.in_buffer text := by
  induction lines with
  | nil => intro e he; simp [normal_events] at he
  | cons l rest ih =>
    intro e he
    simp only [normal_events, List.mem_append, List.mem_singleton] at he
    rcases he with (he | he) | he
    · exact content_events_in_buffer _ text l (h l (by simp)) e he
    · rw [he]; exact Or.inl rfl
    · exact ih (fun x hx => h x (List.mem_cons_of_mem _ hx)) e he

theorem indent_events_in_buffer (text : List Char) (indent : Nat) :
    ∀ e ∈ indent_events indent, e.in_buffer text := by
  intro e he
  unfold indent_events at he
  obtain ⟨k, hk, rfl⟩ := List.mem_map.1 he
  have := (indent_chunks_spec indent indent (le_refl _)).1 k hk
  exact Or.inr (Or.inl ⟨k, this.1, this.2, rfl⟩)

theorem verbatim_events_in_buffer (text : List Char) (lines : List MD_LINE)
    (h : ∀ l ∈ lines, l.end_ ≤ text.length) :
    ∀ e ∈ verbatim_events text lines, e.in_buffer text := by
  induction lines with
  | nil => intro e he; simp [verbatim_events] at he
  | cons l rest ih =>
    intro e he
    simp only [verbatim_events, verbatim_line_events, List.mem_append, List.mem_singleton] at he
    rcases he with ((he | he) | he) | he
    · exact indent_events_in_buffer text _ e he
    · exact content_events_in_buffer _ text l (h l (by simp)) e he
    · rw [he]; exact Or.inl rfl
    · exact ih (fun x hx => h x (List.mem_cons_of_mem _ hx)) e he

/-- The text events of a block whose lines end inside the buffer are newlines, runs of
spaces and slices of the buffer. -/
theorem block_events_in_buffer (text : List Char) (hl : Nat) (lines : List MD_LINE)
    (h : ∀ l ∈ lines, l.end_ ≤ text.length) :
    ∀ e ∈ block_events text hl lines, e.in_buffer text := by
  have hn := normal_events_in_buffer text lines h
  have hv := verbatim_events_in_buffer text lines h
  cases lines with
  | nil => intro e he; simp [block_events] at he
  | cons l0 rest =>
    intro e he
    unfold block_events at he
    cases ht : l0.type <;> simp only [ht] at he
    · simp at he
    · simp only [List.mem_cons, List.mem_singleton, List.not_mem_nil, or_false] at he
      rcases he with he | he <;> rw [he] <;> trivial
    · simp only [List.cons_append, List.mem_cons, List.mem_append, List.mem_singleton,
        List.not_mem_nil, or_false] at he
      rcases he with he | he | he
      · rw [he]; trivial
      · exact hn e he
      · rw [he]; trivial
    · simp only [List.cons_append, List.mem_cons, List.mem_append, List.mem_singleton,
        List.not_mem_nil, or_false] at he
      rcases he with he | he | he
      · rw [he]; trivial
      · exact hn e he
      · rw [he]; trivial
    · simp at he
    · simp only [List.cons_append, List.mem_cons, List.mem_append, List.mem_singleton,
        List.not_mem_nil, or_false] at he
      rcases he with he | he | he
      · rw [he]; trivial
      · exact hv e he
      · rw [he]; trivial
    · simp only [List.cons_append, List.mem_cons, List.mem_append, List.mem_singleton,
        List.not_mem_nil, or_false] at he
      rcases he with he | he | he
      · rw [he]; trivial
      · exact hn e he
      · rw [he]; trivial

theorem set_setextheader_bounds (lines : List MD_LINE) (n : Nat)
    (h : ∀ l ∈ lines, l.beg ≤ l.end_ ∧ l.end_ ≤ n) :
    ∀ l ∈ set_setextheader lines, l.beg ≤ l.end_ ∧ l.end_ ≤ n := by
  cases lines with
  | nil => intro l hl; simp [set_setextheader] at hl
  | cons l0 rest =>
    intro l hl
    simp only [set_setextheader, List.mem_cons] at hl
    rcases hl with hl | hl
    · rw [hl]; exact h l0 (by simp)
    · exact h l (List.mem_cons_of_mem _ hl)

/-- Every pending line of a reachable state has its offsets in order and inside the
buffer. -/
theorem doc_reachable_bounds (ctx0 : MD_CTX σ) (s : MD_DOC_STATE σ) (h : doc_reachable ctx0 s) :
    ∀ l ∈ s.lines, l.beg ≤ l.end_ ∧ l.end_ ≤ s.ctx.size := by
  induction h with
  | init => intro l hl; simp at hl
  | round s hs hoff h0 ih =>
    have hinv := doc_reachable_inv ctx0 s hs
    obtain ⟨isz, _, _, _⟩ := md_process_doc_iter_size s hinv
    obtain ⟨_, _, _, hst⟩ := md_process_doc_iter_spec s hinv
    have hst := hst h0
    have hline_def : (md_analyze_line s.ctx s.off s.pivot_line).2.2 = s.line := rfl
    rw [hline_def] at hst
    obtain ⟨_, b2, b3, b4⟩ := md_analyze_line_bounds s.ctx s.off s.pivot_line hinv.2.2.2
    rw [hline_def] at b2 b3
    have hl := congrArg Prod.snd hst
    simp only at hl
    rw [isz, hl]
    intro l hmem
    split_ifs at hmem
    · simp at hmem
    · simp only [List.mem_singleton] at hmem
      rw [hmem]
      exact ⟨b2, le_trans b3 b4⟩
    · simp only [List.mem_singleton] at hmem
      rw [hmem]
      exact ⟨b2, le_trans b3 b4⟩
    · exact ih l hmem
    · rcases List.mem_append.1 hmem with hm | hm
      · exact ih l hm
      · simp only [List.mem_singleton] at hm
        rw [hm]
        exact ⟨b2, le_trans b3 b4⟩

/-- The text events of a round entered in a reachable state are newlines, runs of spaces
and slices of the buffer. -/
theorem md_process_doc_iter_events_in_buffer (ctx0 : MD_CTX σ) (s : MD_DOC_STATE σ)
    (hs : doc_reachable ctx0 s) :
    ∀ e ∈ md_process_doc_iter_events s, e.in_buffer s.ctx.text := by
  have hinv := doc_reachable_inv ctx0 s hs
  have hb := doc_reachable_bounds ctx0 s hs
  obtain ⟨_, _, b3, b4⟩ := md_analyze_line_bounds s.ctx s.off s.pivot_line hinv.2.2.2
  have hpend : ∀ l ∈ s.lines, l.end_ ≤ s.ctx.text.length := fun l hl => (hb l hl).2
  have hset : ∀ l ∈ set_setextheader s.lines, l.end_ ≤ s.ctx.text.length :=
    fun l hl => (set_setextheader_bounds s.lines _ hb l hl).2
  have hone : ∀ l ∈ [(md_analyze_line s.ctx s.off s.pivot_line).2.2],
      l.end_ ≤ s.ctx.text.length := by
    intro l hl
    simp only [List.mem_singleton] at hl
    rw [hl]
    exact le_trans b3 b4
  intro e he
  unfold md_process_doc_iter_events at he
  simp only at he
  split_ifs at he
  · rcases List.mem_append.1 he with he | he
    · exact block_events_in_buffer _ _ _ hpend e he
    · exact block_events_in_buffer _ _ _ hone e he
  · exact block_events_in_buffer _ _ _ hset e he
  · exact block_events_in_buffer _ _ _ hpend e he
  · simp at he

/-- C20: for every buffer, flag set, pivot and offset `beg ≤ size`, the line that
`md_analyze_line` produces satisfies `beg ≤ line.beg ≤ line.end ≤ next ≤ size`, where `next`
is the offset of the next line; so the length `line.end - line.beg` of the content does not
wrap around and the content is a slice of that length inside the buffer.  And in every
parse, whatever the callbacks return, the string of every text event recorded is a newline,
a run of 1 to 16 spaces of the indentation of a code line, or a slice `[b, e)` of the
buffer with `b < e ≤ size`. -/
theorem line_bounds (text : List Char) (renderer : MD_RENDERER σ) (userdata : σ) :
    (∀ (ctx : MD_CTX σ) (beg : Nat) (pivot_line : MD_LINE), beg ≤ ctx.size →
        beg ≤ (md_analyze_line ctx beg pivot_line).2.2.beg
          ∧ (md_analyze_line ctx beg pivot_line).2.2.beg
              ≤ (md_analyze_line ctx beg pivot_line).2.2.end_
          ∧ (md_analyze_line ctx beg pivot_line).2.2.end_
              ≤ (md_analyze_line ctx beg pivot_line).2.1
          ∧ (md_analyze_line ctx beg pivot_line).2.1 ≤ ctx.size
          ∧ ((md_analyze_line ctx beg pivot_line).2.2.content ctx.text).length
              = (md_analyze_line ctx beg pivot_line).2.2.end_
                - (md_analyze_line ctx beg pivot_line).2.2.beg
          ∧ (md_analyze_line ctx beg pivot_line).2.2.beg
              + ((md_analyze_line ctx beg pivot_line).2.2.content ctx.text).length
              = (md_analyze_line ctx beg pivot_line).2.2.end_)
    ∧ ∃ res, md_parse text renderer userdata = some res
        ∧ ∀ e ∈ res.2.events, e.1.in_buffer text := by
  constructor
  · intro ctx beg pivot_line hbeg
    obtain ⟨b1, b2, b3, b4⟩ := md_analyze_line_bounds ctx beg pivot_line hbeg
    have hlen := content_length ctx.text (md_analyze_line ctx beg pivot_line).2.2
      (le_trans b3 b4)
    refine ⟨b1, b2, b3, b4, hlen, ?_⟩
    rw [hlen]
    omega
  · have htext : ∀ s,
        doc_reachable (md_process_doc_start (md_parse_ctx text renderer userdata)).ctx s →
        s.ctx.text = text := by
      intro s hs
      induction hs with
      | init => rw [md_process_doc_start, MD_ENTER_BLOCK_eq_emit]; simp [md_parse_ctx]
      | round s hs _ _ ih =>
        rw [(md_process_doc_iter_size s (doc_reachable_inv _ s hs)).2.1]
        exact ih
    apply md_parse_events text renderer userdata (fun e => e.in_buffer text)
    · exact ⟨trivial, trivial⟩
    · intro s hs _ e he
      have := md_process_doc_iter_events_in_buffer _ s hs e he
      rw [htext s hs] at this
      exact this
    · intro s hs e he
      have hb := doc_reachable_bounds _ s hs
      have := block_events_in_buffer s.ctx.text s.ctx.header_level s.lines
        (fun l hl => (hb l hl).2) e he
      rw [htext s hs] at this
      exact this


/-! ## Text events are never empty -/

/-- A string of the three shapes of `MD_EVENT.in_buffer` has at least one character. -/
theorem in_buffer_length (text : List Char) (type : MD_TEXTTYPE) (str : List Char)
    (h : (MD_EVENT.text type str).in_buffer text) : 1 ≤ str.length := by
  rcases h with h | ⟨k, hk, _, h⟩ | ⟨b, e, hbe, he, h⟩
  · rw [h]; simp
  · rw [h, List.length_replicate]; exact hk
  · rw [h, List.length_take, List.length_drop]
    omega

/-- In every parse the string of every text event recorded is a newline, a run of 1 to 16
spaces, or a non-empty slice of the buffer. -/
theorem md_parse_in_buffer (text : List Char) (renderer : MD_RENDERER σ) (userdata : σ) :
    ∃ res, md_parse text renderer userdata = some res
      ∧ ∀ e ∈ res.2.events, e.1.in_buffer text := by
  have htext : ∀ s,
      doc_reachable (md_process_doc_start (md_parse_ctx text renderer userdata)).ctx s →
      s.ctx.text = text := by
    intro s hs
    induction hs with
    | init => rw [md_process_doc_start, MD_ENTER_BLOCK_eq_emit]; simp [md_parse_ctx]
    | round s hs _ _ ih =>
      rw [(md_process_doc_iter_size s (doc_reachable_inv _ s hs)).2.1]
      exact ih
  apply md_parse_events text renderer userdata (fun e => e.in_buffer text)
  · exact ⟨trivial, trivial⟩
  · intro s hs _ e he
    have := md_process_doc_iter_events_in_buffer _ s hs e he
    rw [htext s hs] at this
    exact this
  · intro s hs e he
    have hb := doc_reachable_bounds _ s hs
    have := block_events_in_buffer s.ctx.text s.ctx.header_level s.lines
      (fun l hl => (hb l hl).2) e he
    rw [htext s hs] at this
    exact this

/-- The last character of a line that `md_analyze_line` classifies Text is not a space. -/
theorem md_analyze_line_text_last (ctx : MD_CTX σ) (beg : Nat) (pivot_line : MD_LINE)
    (hbeg : beg ≤ ctx.size)
    (ht : (md_analyze_line ctx beg pivot_line).2.2.type = MD_LINE_TEXT) :
    CH ctx ((md_analyze_line ctx beg pivot_line).2.2.end_ - 1) ≠ ' ' := by
  obtain ⟨_, hlt, _⟩ := md_analyze_line_of_text ctx beg pivot_line hbeg ht
  have htx := md_analyze_line_type_text ctx beg pivot_line
  have hstop := scan_backward_stop (md_analyze_line_type ctx beg pivot_line).1 ' '
    (md_analyze_line ctx beg pivot_line).2.2.beg
    (md_analyze_line_atx_end (md_analyze_line_type ctx beg pivot_line).1
      { (md_analyze_line_type ctx beg pivot_line).2.2 with
        end_ := scan_forward (md_analyze_line_type ctx beg pivot_line).1
          (fun ch => !ISNEWLINE_ ch) (md_analyze_line_type ctx beg pivot_line).2.1 }).end_
  have hend : (md_analyze_line ctx beg pivot_line).2.2.end_
      = scan_backward (md_analyze_line_type ctx beg pivot_line).1 ' '
          (md_analyze_line ctx beg pivot_line).2.2.beg
          (md_analyze_line_atx_end (md_analyze_line_type ctx beg pivot_line).1
            { (md_analyze_line_type ctx beg pivot_line).2.2 with
              end_ := scan_forward (md_analyze_line_type ctx beg pivot_line).1
                (fun ch => !ISNEWLINE_ ch) (md_analyze_line_type ctx beg pivot_line).2.1 }).end_ := by
    rfl
  rw [← hend] at hstop
  rcases hstop with h | h
  · omega
  · rw [CH_congr htx] at h
    exact h

/-- The first and the last character of a non-empty content slice. -/
theorem content_head_last (text : List Char) (line : MD_LINE) (hlt : line.beg < line.end_)
    (hle : line.end_ ≤ text.length) :
    (line.content text).head? = some (text.getD line.beg (Char.ofNat 0))
      ∧ (line.content text).getLast? = some (text.getD (line.end_ - 1) (Char.ofNat 0)) := by
  have hlen := content_length text line hle
  unfold MD_LINE.content at *
  constructor
  · rw [List.head?_eq_getElem?, List.getElem?_take_of_lt (by omega), List.getElem?_drop,
      Nat.add_zero, List.getD_eq_getElem?_getD, List.getElem?_eq_getElem (by omega)]
    rfl
  · rw [List.getLast?_eq_getElem?, hlen, List.getElem?_take_of_lt (by omega),
      List.getElem?_drop, List.getD_eq_getElem?_getD,
      show line.beg + (line.end_ - line.beg - 1) = line.end_ - 1 by omega,
      List.getElem?_eq_getElem (by omega)]
    rfl

/-- C21: the text callback is never invoked with an empty string: in every parse, whatever
the flags and whatever the callbacks return, every text event recorded has a string of
length at least 1 (`MD_TEXT` itself invokes nothing when the size is 0).  So a line whose
content slice is empty contributes only its newline event, a code line in addition the
spaces of its indentation, and the buffer `"#\n"` yields enter(Heading, 1), one text event
`"\n"` and leave(Heading, 1) inside the document.  And every line that `md_analyze_line`
classifies Text has a non-empty content slice inside the buffer whose first character is
neither a space nor a tab and whose last character is not a space. -/
theorem text_events_not_empty (text : List Char) (renderer : MD_RENDERER σ) (userdata : σ) :
    (∃ res, md_parse text renderer userdata = some res
        ∧ ∀ e ∈ res.2.events, ∀ type str, e.1 = MD_EVENT.text type str → 1 ≤ str.length)
    ∧ (∀ (ctx : MD_CTX σ) (type : MD_TEXTTYPE) (str : List Char),
        MD_TEXT ctx type str 0 = (0, ctx))
    ∧ (∀ (t : List Char) (line : MD_LINE), line.end_ - line.beg = 0 →
        normal_events t [line] = [MD_EVENT.text MD_TEXT_NORMAL ['\n']]
          ∧ verbatim_line_events t line
              = indent_events (line.indent % 2 ^ 32) ++ [MD_EVENT.text MD_TEXT_CODEBLOCK ['\n']])
    ∧ outcome (md_parse ['#', '\n'] (ok_renderer default_flags) ())
        = some (0, [(MD_EVENT.enter_block MD_BLOCK_DOC none, 0),
                    (MD_EVENT.enter_block MD_BLOCK_H (some 1), 0),
                    (MD_EVENT.text MD_TEXT_NORMAL ['\n'], 0),
                    (MD_EVENT.leave_block MD_BLOCK_H (some 1), 0),
                    (MD_EVENT.leave_block MD_BLOCK_DOC none, 0)])
    ∧ (∀ (ctx : MD_CTX σ) (beg : Nat) (pivot_line : MD_LINE), beg ≤ ctx.size →
        (md_analyze_line ctx beg pivot_line).2.2.type = MD_LINE_TEXT →
        (md_analyze_line ctx beg pivot_line).2.2.beg < (md_analyze_line ctx beg pivot_line).2.2.end_
          ∧ (md_analyze_line ctx beg pivot_line).2.2.end_ ≤ ctx.size
          ∧ 1 ≤ ((md_analyze_line ctx beg pivot_line).2.2.content ctx.text).length
          ∧ ((md_analyze_line ctx beg pivot_line).2.2.content ctx.text).head?
              = some (CH ctx (md_analyze_line ctx beg pivot_line).2.2.beg)
          ∧ CH ctx (md_analyze_line ctx beg pivot_line).2.2.beg ≠ ' '
          ∧ CH ctx (md_analyze_line ctx beg pivot_line).2.2.beg ≠ '\t'
          ∧ ((md_analyze_line ctx beg pivot_line).2.2.content ctx.text).getLast?
              = some (CH ctx ((md_analyze_line ctx beg pivot_line).2.2.end_ - 1))
          ∧ CH ctx ((md_analyze_line ctx beg pivot_line).2.2.end_ - 1) ≠ ' ') := by
  refine ⟨?_, ?_, ?_, by decide, ?_⟩
  · obtain ⟨res, hres, hev⟩ := md_parse_in_buffer text renderer userdata
    refine ⟨res, hres, ?_⟩
    intro e he type str heq
    have := hev e he
    rw [heq] at this
    exact in_buffer_length text type str this
  · intro ctx type str
    simp [MD_TEXT]
  · intro t line h
    simp [normal_events, verbatim_line_events, content_events, h]
  · intro ctx beg pivot_line hbeg ht
    obtain ⟨hb, hlt, hle⟩ := md_analyze_line_of_text ctx beg pivot_line hbeg ht
    have hsz : ctx.size = ctx.text.length := rfl
    have hlen := content_length ctx.text (md_analyze_line ctx beg pivot_line).2.2
      (by rw [← hsz]; exact hle)
    obtain ⟨hh, hl⟩ := content_head_last ctx.text (md_analyze_line ctx beg pivot_line).2.2 hlt
      (by rw [← hsz]; exact hle)
    have hnb : ISBLANK_ (CH ctx (md_analyze_line ctx beg pivot_line).2.2.beg) = false := by
      rw [hb]
      apply line_start_not_blank
      rw [← hb]
      omega
    refine ⟨hlt, hle, by omega, hh, ?_, ?_, hl,
      md_analyze_line_text_last ctx beg pivot_line hbeg ht⟩
    · intro h
      rw [h] at hnb
      exact absurd hnb (by decide)
    · intro h
      rw [h] at hnb
      exact absurd hnb (by decide)


/-! ## The pivot and the pending lines -/

theorem md_process_doc_grow_n_lines (realloc : Nat → Nat → Nat) (p : MD_DOC_PTRS) :
    (md_process_doc_grow realloc p).n_lines = p.n_lines := by
  unfold md_process_doc_grow
  split_ifs <;> rfl

theorem md_process_doc_grow_pivot_line (realloc : Nat → Nat → Nat) (p : MD_DOC_PTRS) :
    (md_process_doc_grow realloc p).pivot_line = p.pivot_line := by
  unfold md_process_doc_grow
  split_ifs <;> rfl

/-- The array is not reallocated while it has room for the next line. -/
theorem md_process_doc_grow_of_lt (realloc : Nat → Nat → Nat) (p : MD_DOC_PTRS)
    (h : p.n_lines < p.alloc_lines) : md_process_doc_grow realloc p = p := by
  unfold md_process_doc_grow
  rw [if_neg (by omega)]

/-- The rounds of the pointer variables are a fold over the ways the rounds take. -/
theorem md_process_doc_rounds_ptrs_eq (realloc : Nat → Nat → Nat) (k : Nat) :
    ∀ (s : MD_DOC_STATE σ) (p : MD_DOC_PTRS),
      md_process_doc_rounds_ptrs realloc k s p
        = (round_branches k s).foldl (md_process_doc_branch_ptrs realloc) p := by
  induction k with
  | zero => intro s p; rfl
  | succ k ih =>
    intro s p
    rw [md_process_doc_rounds_ptrs, round_branches, List.foldl_cons, ih]
    rfl

/-- Accumulating `j` lines into an array with room for them leaves the pointers alone. -/
theorem accumulate_ptrs (realloc : Nat → Nat → Nat) (a alloc : Nat) (j : Nat) :
    ∀ n, n + j ≤ alloc →
      (List.replicate j MD_DOC_BRANCH.accumulate).foldl (md_process_doc_branch_ptrs realloc)
          (MD_DOC_PTRS.mk a alloc n (some a))
        = MD_DOC_PTRS.mk a alloc (n + j) (some a) := by
  induction j with
  | zero => intro n _; rfl
  | succ j ih =>
    intro n hn
    rw [List.replicate_succ, List.foldl_cons]
    have hg := md_process_doc_grow_of_lt realloc (MD_DOC_PTRS.mk a alloc n (some a))
      (show n < alloc by omega)
    have hstep : md_process_doc_branch_ptrs realloc (MD_DOC_PTRS.mk a alloc n (some a))
        MD_DOC_BRANCH.accumulate = MD_DOC_PTRS.mk a alloc (n + 1) (some a) := by
      simp only [md_process_doc_branch_ptrs]
      rw [hg]
    rw [hstep, ih (n + 1) (by omega)]
    congr 1
    omega

set_option maxRecDepth 100000 in
/-- The ways of the first 33 rounds on 34 lines of text: the first line becomes the pivot
and the next 32 lines are accumulated. -/
theorem round_branches_text_lines :
    round_branches 33 (md_process_doc_start (ok_ctx (text_lines 34) default_flags))
      = MD_DOC_BRANCH.new_pivot :: List.replicate 32 MD_DOC_BRANCH.accumulate := by
  decide

/-- The pending lines all have the type of the first of them. -/
theorem doc_inv_same_type (s : MD_DOC_STATE σ) (hinv : doc_inv s) :
    ∀ l ∈ s.lines, ∀ l0 ∈ s.lines.head?, l.type = l0.type := by
  intro l hl l0 hl0
  obtain ⟨_, h2, _, _⟩ := hinv
  rw [(h2 l hl).1, (h2 l0 (List.mem_of_mem_head? hl0)).1]

/-- The lines of every list that a round hands to `md_process_block` have the type of the
first of them, except that after a setext underline the first line is a SetextHeader line
and the lines after it are Text lines. -/
theorem md_process_doc_iter_flushed_types (s : MD_DOC_STATE σ) (hinv : doc_inv s) :
    ∀ ls ∈ md_process_doc_iter_flushed s,
      (∀ l ∈ ls, ∀ l0 ∈ ls.head?, l.type = l0.type ∧ l0.type ≠ MD_LINE_SETEXTHEADER)
        ∨ (s.line.type = MD_LINE_SETEXTUNDERLINE ∧ ∃ l0 rest, ls = l0 :: rest
            ∧ l0.type = MD_LINE_SETEXTHEADER ∧ ∀ l ∈ rest, l.type = MD_LINE_TEXT) := by
  intro ls hls
  have hsame := doc_inv_same_type s hinv
  have hhead := doc_inv_head s hinv
  have hpending : ∀ l ∈ s.lines, ∀ l0 ∈ s.lines.head?,
      l.type = l0.type ∧ l0.type ≠ MD_LINE_SETEXTHEADER := by
    intro l hl l0 hl0
    refine ⟨hsame l hl l0 hl0, ?_⟩
    rcases hhead l0 hl0 with h | h | h <;> rw [h] <;> decide
  have hne := md_analyze_line_type_ne_setextheader s.ctx s.off s.pivot_line
  unfold md_process_doc_iter_flushed at hls
  by_cases h1 : s.line.type = MD_LINE_HR ∨ s.line.type = MD_LINE_ATXHEADER
  · rw [if_pos h1] at hls
    simp only [List.mem_cons, List.mem_singleton, List.not_mem_nil, or_false] at hls
    rcases hls with rfl | rfl
    · exact Or.inl hpending
    · left
      intro l hl l0 hl0
      simp only [List.mem_singleton] at hl
      simp only [List.head?_cons, Option.mem_def, Option.some.injEq] at hl0
      subst hl hl0
      refine ⟨rfl, ?_⟩
      rcases h1 with h | h <;> rw [h] <;> decide
  · rw [if_neg h1] at hls
    by_cases h2 : s.line.type = MD_LINE_SETEXTUNDERLINE
    · rw [if_pos h2] at hls
      simp only [List.mem_singleton] at hls
      subst hls
      have hp := (md_analyze_line_of_setextunderline s.ctx s.off s.pivot_line h2).1
      cases hl : s.lines with
      | nil =>
        left
        intro l hl'
        simp [set_setextheader] at hl'
      | cons l0 rest =>
        right
        refine ⟨h2, MD_LINE.mk MD_LINE_SETEXTHEADER l0.beg l0.end_ l0.indent, rest, rfl, rfl, ?_⟩
        intro l hl'
        obtain ⟨_, h2', _, _⟩ := hinv
        rw [(h2' l (by rw [hl]; exact List.mem_cons_of_mem _ hl')).1]
        exact hp
    · rw [if_neg h2] at hls
      split_ifs at hls
      · simp only [List.mem_singleton] at hls
        subst hls
        exact Or.inl hpending
      · simp at hls

/-- The pointer variables follow the pending lines: after a round that does not abort,
`n_lines` is the number of pending lines and `pivot_line` is `&dummy_line` exactly when the
pivot of the state is the dummy line. -/
theorem md_process_doc_iter_ptrs_sync (realloc : Nat → Nat → Nat) (s : MD_DOC_STATE σ)
    (p : MD_DOC_PTRS) (hinv : doc_inv s) (h0 : (md_process_doc_iter s).1 = 0)
    (hn : p.n_lines = s.lines.length) (hp : p.pivot_line = none ↔ s.pivot_is_dummy = true) :
    (md_process_doc_iter_ptrs realloc s p).n_lines = (md_process_doc_iter s).2.lines.length
      ∧ ((md_process_doc_iter_ptrs realloc s p).pivot_line = none
          ↔ (md_process_doc_iter s).2.pivot_is_dummy = true) := by
  have hgn := md_process_doc_grow_n_lines realloc p
  have hgp := md_process_doc_grow_pivot_line realloc p
  have hset : (md_analyze_line s.ctx s.off s.pivot_line).2.2.type = MD_LINE_SETEXTUNDERLINE →
      s.pivot_is_dummy = false
        ∧ ((set_setextheader s.lines).headD dummy_line).type = MD_LINE_SETEXTHEADER := by
    intro h
    have ht := (md_analyze_line_of_setextunderline s.ctx s.off s.pivot_line h).1
    have hne : s.lines ≠ [] := by
      intro hnil
      rw [doc_inv_pivot_nil s hinv hnil] at ht
      exact absurd ht (by decide)
    obtain ⟨l0, rest, hl, _, hd⟩ := doc_inv_pivot s hinv hne
    refine ⟨hd, ?_⟩
    rw [hl]
    rfl
  unfold md_process_doc_iter_ptrs md_process_doc_iter_branch MD_DOC_STATE.line
  unfold md_process_doc_iter at h0 ⊢
  simp only [] at h0 ⊢
  generalize md_analyze_line s.ctx s.off s.pivot_line = a at *
  unfold MD_DOC_STATE.pivot_line at *
  split_ifs at h0 ⊢ <;>
    simp_all [md_process_doc_branch_ptrs]

/-- While the array is not moved under a pivot that is one of its lines, `pivot_line` is
`&dummy_line` or `&lines[0]` after the round as before it. -/
theorem md_process_doc_iter_ptrs_pivot (realloc : Nat → Nat → Nat) (s : MD_DOC_STATE σ)
    (p : MD_DOC_PTRS) (hp : p.pivot_line = none ∨ p.pivot_line = some p.lines)
    (hroom : p.pivot_line = none ∨ (md_process_doc_grow realloc p).lines = p.lines) :
    (md_process_doc_iter_ptrs realloc s p).pivot_line = none
      ∨ (md_process_doc_iter_ptrs realloc s p).pivot_line
          = some (md_process_doc_iter_ptrs realloc s p).lines := by
  have hgp := md_process_doc_grow_pivot_line realloc p
  have hkeep : (md_process_doc_grow realloc p).pivot_line = none
      ∨ (md_process_doc_grow realloc p).pivot_line = some (md_process_doc_grow realloc p).lines := by
    rw [hgp]
    rcases hroom with h | h
    · exact Or.inl h
    · rw [h]; exact hp
  unfold md_process_doc_iter_ptrs
  cases md_process_doc_iter_branch s with
  | own_block => left; rfl
  | new_pivot => right; rfl
  | skip_blank => exact hkeep
  | accumulate => exact hkeep

set_option maxRecDepth 100000 in
/-- The ways of the first 32 rounds on 34 lines of text. -/
theorem round_branches_text_lines_room :
    round_branches 32 (md_process_doc_start (ok_ctx (text_lines 34) default_flags))
      = MD_DOC_BRANCH.new_pivot :: List.replicate 31 MD_DOC_BRANCH.accumulate := by
  decide

set_option maxRecDepth 100000 in
/-- After 32 rounds on 34 lines of text, 32 Text lines are pending, the first of them is
the pivot, and the buffer is not at its end. -/
theorem md_process_doc_rounds_text_lines :
    (md_process_doc_rounds 32
        (md_process_doc_start (ok_ctx (text_lines 34) default_flags))).lines.length = 32
      ∧ (md_process_doc_rounds 32
          (md_process_doc_start (ok_ctx (text_lines 34) default_flags))).pivot_line
          = MD_LINE.mk MD_LINE_TEXT 0 1 0
      ∧ (md_process_doc_rounds 32
          (md_process_doc_start (ok_ctx (text_lines 34) default_flags))).off = 64
      ∧ (md_process_doc_rounds 32
          (md_process_doc_start (ok_ctx (text_lines 34) default_flags))).ctx.size = 68
      ∧ (md_process_doc_rounds 32
          (md_process_doc_start (ok_ctx (text_lines 34) default_flags))).line
          = MD_LINE.mk MD_LINE_TEXT 64 65 0 := by
  decide

/-- The pointer variables after the first round that makes a line of the array the pivot. -/
theorem new_pivot_ptrs_start (realloc : Nat → Nat → Nat) :
    md_process_doc_branch_ptrs realloc md_process_doc_ptrs_start MD_DOC_BRANCH.new_pivot
      = MD_DOC_PTRS.mk (realloc 0 32) 32 1 (some (realloc 0 32)) := by
  simp [md_process_doc_branch_ptrs, md_process_doc_grow, md_process_doc_ptrs_start]

/-- The array is reallocated when 32 lines are pending and it has room for 32. -/
theorem md_process_doc_grow_full (realloc : Nat → Nat → Nat) (a : Nat) (q : Option Nat) :
    md_process_doc_grow realloc (MD_DOC_PTRS.mk a 32 32 q)
      = MD_DOC_PTRS.mk (realloc a 64) 64 32 q := by
  simp [md_process_doc_grow]

/-- The pointer variables on 34 lines of text: after 32 rounds, after the growth of the
array that opens the 33rd round, and after the 33rd round. -/
theorem md_process_doc_rounds_ptrs_text_lines (realloc : Nat → Nat → Nat) :
    md_process_doc_rounds_ptrs realloc 32
        (md_process_doc_start (ok_ctx (text_lines 34) default_flags)) md_process_doc_ptrs_start
      = MD_DOC_PTRS.mk (realloc 0 32) 32 32 (some (realloc 0 32))
    ∧ md_process_doc_grow realloc (md_process_doc_rounds_ptrs realloc 32
        (md_process_doc_start (ok_ctx (text_lines 34) default_flags)) md_process_doc_ptrs_start)
      = MD_DOC_PTRS.mk (realloc (realloc 0 32) 64) 64 32 (some (realloc 0 32))
    ∧ md_process_doc_rounds_ptrs realloc 33
        (md_process_doc_start (ok_ctx (text_lines 34) default_flags)) md_process_doc_ptrs_start
      = MD_DOC_PTRS.mk (realloc (realloc 0 32) 64) 64 33 (some (realloc 0 32)) := by
  have h32 : md_process_doc_rounds_ptrs realloc 32
        (md_process_doc_start (ok_ctx (text_lines 34) default_flags)) md_process_doc_ptrs_start
      = MD_DOC_PTRS.mk (realloc 0 32) 32 32 (some (realloc 0 32)) := by
    rw [md_process_doc_rounds_ptrs_eq, round_branches_text_lines_room, List.foldl_cons,
      new_pivot_ptrs_start, accumulate_ptrs realloc (realloc 0 32) 32 31 1 (by omega)]
  refine ⟨h32, ?_, ?_⟩
  · rw [h32, md_process_doc_grow_full]
  · rw [md_process_doc_rounds_ptrs_eq, round_branches_text_lines, List.foldl_cons,
      new_pivot_ptrs_start, List.replicate_succ', List.foldl_append,
      accumulate_ptrs realloc (realloc 0 32) 32 31 1 (by omega)]
    simp only [List.foldl_cons, List.foldl_nil, md_process_doc_branch_ptrs]
    rw [md_process_doc_grow_full]

/-- C22: at the head of every iteration of the main loop of `md_process_doc` the pivot type
is Blank, Text or IndentedCode, the pivot is the dummy line when no line is pending and the
first pending line otherwise, and every pending line has the type of the pivot; the lines
of every list handed to `md_process_block` have the type of its first line, and that line
is a SetextHeader line only in the flush of the round that analysed a setext underline.
This holds of the lines read by index, and the pointer `pivot_line` follows it (it is
`&dummy_line` or `&lines[0]`) through every round in which the array `lines` is not moved
under a pivot that is one of its lines.  But the growth of the array that opens a round
does not assign `pivot_line`: on 34 lines of text, 32 lines are pending after 32 rounds,
the 33rd round reallocates the array, and when `realloc` returns another address
`pivot_line` still holds the old one while `md_analyze_line` reads the pivot through it,
and it still does at the head of the 34th iteration when the 33rd line is accumulated. -/
theorem pivot_line_after_realloc (realloc : Nat → Nat → Nat)
    (hmove : realloc (realloc 0 32) 64 ≠ realloc 0 32) :
    (∀ (ctx0 : MD_CTX σ) (s : MD_DOC_STATE σ), doc_reachable ctx0 s →
        (s.pivot_line.type = MD_LINE_BLANK ∨ s.pivot_line.type = MD_LINE_TEXT
          ∨ s.pivot_line.type = MD_LINE_INDENTEDCODE)
        ∧ (s.lines = [] → s.pivot_line = dummy_line ∧ s.pivot_line.type = MD_LINE_BLANK)
        ∧ (∀ l0 ∈ s.lines.head?, s.pivot_line = l0)
        ∧ (∀ l ∈ s.lines, l.type = s.pivot_line.type)
        ∧ (∀ ls ∈ md_process_doc_iter_flushed s,
            (∀ l ∈ ls, ∀ l0 ∈ ls.head?, l.type = l0.type ∧ l0.type ≠ MD_LINE_SETEXTHEADER)
              ∨ (s.line.type = MD_LINE_SETEXTUNDERLINE ∧ ∃ l0 rest, ls = l0 :: rest
                  ∧ l0.type = MD_LINE_SETEXTHEADER ∧ ∀ l ∈ rest, l.type = MD_LINE_TEXT)))
    ∧ (∀ (s : MD_DOC_STATE σ) (p : MD_DOC_PTRS), doc_inv s → (md_process_doc_iter s).1 = 0 →
        p.n_lines = s.lines.length → (p.pivot_line = none ↔ s.pivot_is_dummy = true) →
        (p.pivot_line = none ∨ p.pivot_line = some p.lines) →
        (p.pivot_line = none ∨ (md_process_doc_grow realloc p).lines = p.lines) →
        (md_process_doc_iter_ptrs realloc s p).n_lines = (md_process_doc_iter s).2.lines.length
          ∧ ((md_process_doc_iter_ptrs realloc s p).pivot_line = none
              ↔ (md_process_doc_iter s).2.pivot_is_dummy = true)
          ∧ ((md_process_doc_iter_ptrs realloc s p).pivot_line = none
              ∨ (md_process_doc_iter_ptrs realloc s p).pivot_line
                  = some (md_process_doc_iter_ptrs realloc s p).lines))
    ∧ (md_process_doc_rounds 32
          (md_process_doc_start (ok_ctx (text_lines 34) default_flags))).lines.length = 32
    ∧ (md_process_doc_rounds 32
          (md_process_doc_start (ok_ctx (text_lines 34) default_flags))).off
        < (md_process_doc_rounds 32
            (md_process_doc_start (ok_ctx (text_lines 34) default_flags))).ctx.size
    ∧ (md_process_doc_rounds 32
          (md_process_doc_start (ok_ctx (text_lines 34) default_flags))).line.type = MD_LINE_TEXT
    ∧ md_process_doc_rounds_ptrs realloc 32
          (md_process_doc_start (ok_ctx (text_lines 34) default_flags)) md_process_doc_ptrs_start
        = MD_DOC_PTRS.mk (realloc 0 32) 32 32 (some (realloc 0 32))
    ∧ md_process_doc_grow realloc (md_process_doc_rounds_ptrs realloc 32
          (md_process_doc_start (ok_ctx (text_lines 34) default_flags)) md_process_doc_ptrs_start)
        = MD_DOC_PTRS.mk (realloc (realloc 0 32) 64) 64 32 (some (realloc 0 32))
    ∧ (md_process_doc_grow realloc (md_process_doc_rounds_ptrs realloc 32
          (md_process_doc_start (ok_ctx (text_lines 34) default_flags))
          md_process_doc_ptrs_start)).pivot_line
        ≠ some (md_process_doc_grow realloc (md_process_doc_rounds_ptrs realloc 32
            (md_process_doc_start (ok_ctx (text_lines 34) default_flags))
            md_process_doc_ptrs_start)).lines
    ∧ (md_process_doc_rounds_ptrs realloc 33
          (md_process_doc_start (ok_ctx (text_lines 34) default_flags))
          md_process_doc_ptrs_start).pivot_line
        ≠ some (md_process_doc_rounds_ptrs realloc 33
            (md_process_doc_start (ok_ctx (text_lines 34) default_flags))
            md_process_doc_ptrs_start).lines := by
  obtain ⟨h32, hgrow, h33⟩ := md_process_doc_rounds_ptrs_text_lines realloc
  obtain ⟨v1, _, v3, v4, v5⟩ := md_process_doc_rounds_text_lines
  refine ⟨?_, ?_, v1, ?_, ?_, h32, hgrow, ?_, ?_⟩
  · intro ctx0 s hs
    have hinv := doc_reachable_inv ctx0 s hs
    refine ⟨hinv.2.2.1, ?_, ?_, fun l hl => (hinv.2.1 l hl).1,
      md_process_doc_iter_flushed_types s hinv⟩
    · intro hnil
      have := doc_inv_pivot_nil s hinv hnil
      rw [this]
      exact ⟨rfl, rfl⟩
    · intro l0 hl0
      have hne : s.lines ≠ [] := by
        intro hnil
        rw [hnil] at hl0
        simp at hl0
      obtain ⟨l1, rest, hl, hp, _⟩ := doc_inv_pivot s hinv hne
      rw [hl] at hl0
      simp only [List.head?_cons, Option.mem_def, Option.some.injEq] at hl0
      rw [hp, hl0]
  · intro s p hinv h0 hn hd hp hroom
    obtain ⟨s1, s2⟩ := md_process_doc_iter_ptrs_sync realloc s p hinv h0 hn hd
    exact ⟨s1, s2, md_process_doc_iter_ptrs_pivot realloc s p hp hroom⟩
  · rw [v3, v4]
    decide
  · rw [v5]
  · rw [hgrow]
    intro h
    simp only [Option.some.injEq] at h
    exact hmove h.symm
  · rw [h33]
    intro h
    simp only [Option.some.injEq] at h
    exact hmove h.symm

theorem pivot_line_after_realloc_witness :
    moving_realloc (moving_realloc 0 32) 64 ≠ moving_realloc 0 32
      ∧ md_process_doc_grow moving_realloc (md_process_doc_rounds_ptrs moving_realloc 32
          (md_process_doc_start (ok_ctx (text_lines 34) default_flags)) md_process_doc_ptrs_start)
        = MD_DOC_PTRS.mk 1568 64 32 (some 528)
      ∧ (md_process_doc_grow moving_realloc (md_process_doc_rounds_ptrs moving_realloc 32
          (md_process_doc_start (ok_ctx (text_lines 34) default_flags))
          md_process_doc_ptrs_start)).pivot_line
        ≠ some (md_process_doc_grow moving_realloc (md_process_doc_rounds_ptrs moving_realloc 32
            (md_process_doc_start (ok_ctx (text_lines 34) default_flags))
            md_process_doc_ptrs_start)).lines :=
  match @pivot_line_after_realloc Unit moving_realloc (by decide) with
  | ⟨_, _, _, _, _, _, hg, hne, _⟩ => ⟨by decide, hg, hne⟩

end MD4C
